import Mathlib

/-!
# Red-black tree of `C_Ex3/RBTree.c`

The C code manipulates heap-allocated `Node` records through pointers (child links and a
parent back-link).  The embedding keeps that shape: the allocated nodes live in a store
(`RBTree.nodes`), a `Node *` is an index into the store (`none` is `NULL`), and every C
function becomes a function on the store.  A result of `none` stands for a run that does not
return normally: a `NULL` or dangling pointer is dereferenced, the comparator is handed a
`NULL` payload, or a recursion/loop goes beyond `depthBound`.

Modelling assumptions: `malloc` always succeeds and returns a fresh address; the `size`
counter and the comparator results are unbounded integers; payloads are values of a type `α`
(`Option α` where the C pointer may be `NULL`); a visitor is a function from the payload and
the current `args` to its `int` result and the new `args`.

The teardown (`freeRBTree`, `deallocate`) returns the list of what it hands to its
environment, in call order: the calls of the free function and the released records.  The
vector functions of `C_Ex3/Structs.c` work on sequences of elements of an ordered type with
exact arithmetic; `sqrt` is a parameter.

Other parts of the repository have namespaces of their own: `CEx1` (the student sorts of
`C_Ex1/manageStudents.c`), `CEx2` (the tree analyzer of `C_Ex2/TreeAnalyzer.c`) and `CppEx3`
(the hash map and the spam detector of `CPP_Ex3`).  There, arrays are lists indexed by `int`
values, and a read or write outside an array, like the use of an invalidated iterator, is a
run that does not return (`none`).

The properties of the insertion are proved through an abstraction: `Models tree T` says that
the store of `tree` holds exactly the tree shape `T` (every record, parent links included),
and `addToRBTree_spec` shows that a call of `addToRBTree` takes a store holding `T` to a
store holding `insertP compFunc T address payload`.
-/

namespace CEx3

/-! ## Data model -/

/-- Modelled from the spec: the header `RBTree.h` is absent; the colour enumeration
`{RED, BLACK}` of a node. -/
inductive Color where
  | RED
  | BLACK
  deriving DecidableEq, Repr

/-- A `Node *`: `none` is `NULL`, `some a` is the address of the `a`-th allocated node. -/
abbrev Ptr := Option Nat

/-- Modelled from the spec: the header `RBTree.h` is absent; a node has a colour, a payload
reference (`void *`, possibly `NULL`), two child links and a parent back-link. -/
structure Node (α : Type) where
  parent : Ptr
  left : Ptr
  right : Ptr
  color : Color
  data : Option α
  deriving DecidableEq, Repr

/-- Modelled from the spec: the header `RBTree.h` is absent; a tree has a root link, the
comparator, the free function and the element counter.  The field `nodes` is the store of
all `Node` records allocated for this tree; `malloc` appends to it. -/
structure RBTree (α φ : Type) where
  root : Ptr
  compFunc : α → α → Int
  freeFunc : φ
  size : Nat
  nodes : List (Node α)

variable {α φ σ : Type}

/-- Dereference of a node pointer: `none` when the pointer is `NULL` or dangling. -/
def readNode (nodes : List (Node α)) (p : Ptr) : Option (Node α) :=
  match p with
  | none => none
  | some a => nodes[a]?

/-- Field assignment `p->field = ...` through a node pointer, the new record given by `f`. -/
def writeNode (nodes : List (Node α)) (p : Ptr) (f : Node α → Node α) :
    Option (List (Node α)) :=
  match readNode nodes p with
  | none => none
  | some n =>
    match p with
    | none => none
    | some a => some (nodes.set a (f n))

/-! ## The functions of `RBTree.c` -/

/-- The function `newRBTree`: `NULL` when a function pointer is `NULL` (allocation of the
tree structure is taken to succeed). -/
def newRBTree (compFunc : Option (α → α → Int)) (freeFunc : Option φ) : Option (RBTree α φ) :=
  match compFunc, freeFunc with
  | some c, some f => some { root := none, compFunc := c, freeFunc := f, size := 0, nodes := [] }
  | _, _ => none

/-- The function `doesNodeExists`.  The first argument bounds the recursion depth. -/
def doesNodeExists (nodes : List (Node α)) (compFunc : α → α → Int) :
    Nat → Ptr → α → Option Int
  | 0, _, _ => none
  | fuel + 1, node, data =>
    match node with
    | none => some 0
    | some a =>
      match readNode nodes (some a) with
      | none => none
      | some n =>
        match n.data with
        | none => some 0
        | some nd =>
          if compFunc nd data = 0 then some 1
          else
            let viaLeft : Option Int :=
              if n.left = none then some 0
              else doesNodeExists nodes compFunc fuel n.left data
            match viaLeft with
            | none => none
            | some rl =>
              if rl ≠ 0 then some 1
              else
                let viaRight : Option Int :=
                  if n.right = none then some 0
                  else doesNodeExists nodes compFunc fuel n.right data
                match viaRight with
                | none => none
                | some rr => if rr ≠ 0 then some 1 else some 0

/-- Depth bound used for every recursion and loop over the node store.  A chain of nested
calls on more nodes than were ever allocated visits a node twice, so the C recursion it
stands for never returns; a run that exceeds the bound is reported as `none`.  On a store
that holds a tree shape the bound is never reached (`doesNodeExists_spec`,
`findPlace_spec`, `inOrderTraversal_spec`, `fixTreeLoop_spec`). -/
def depthBound (nodes : List (Node α)) : Nat := nodes.length + 1

/-- The function `containsRBTree`. -/
def containsRBTree (tree : Option (RBTree α φ)) (data : Option α) : Option Int :=
  match tree, data with
  | none, _ => some 0
  | some _, none => some 0
  | some t, some d =>
    match doesNodeExists t.nodes t.compFunc (depthBound t.nodes) t.root d with
    | none => none
    | some r => if r ≠ 0 then some 1 else some 0

/-- The comparator call `tree->compFunc(x->data, y->data)` on two node records. -/
def compareData (compFunc : α → α → Int) (x y : Node α) : Option Int :=
  match x.data, y.data with
  | some dx, some dy => some (compFunc dx dy)
  | _, _ => none

/-- The function `leftRotate`. -/
def leftRotate (tree : RBTree α φ) (pivot : Ptr) : Option (RBTree α φ) :=
  match pivot with
  | none => some tree
  | some a =>
    match readNode tree.nodes (some a) with
    | none => none
    | some p =>
      match p.right with
      | none => some tree
      | some b =>
        let pivotParent := p.parent
        let orient : Option Int :=
          match pivotParent with
          | none => some 0
          | some pp =>
            match readNode tree.nodes (some pp) with
            | none => none
            | some ppn => compareData tree.compFunc p ppn
        match orient with
        | none => none
        | some sonOrientation =>
          match readNode tree.nodes (some b) with
          | none => none
          | some rightSon =>
            let t2 := rightSon.left
            (writeNode tree.nodes (some b) (fun n => { n with left := some a })).bind fun m1 =>
            (writeNode m1 (some a) (fun n => { n with right := t2 })).bind fun m2 =>
            (match t2 with
              | none => some m2
              | some _ => writeNode m2 t2 (fun n => { n with parent := some a })).bind fun m3 =>
            (writeNode m3 (some b) (fun n => { n with parent := pivotParent })).bind fun m4 =>
            (writeNode m4 (some a) (fun n => { n with parent := some b })).bind fun m5 =>
            match pivotParent with
            | some _ =>
              if sonOrientation < 0 then
                (writeNode m5 pivotParent (fun n => { n with left := some b })).bind fun m6 =>
                some { tree with nodes := m6 }
              else
                (writeNode m5 pivotParent (fun n => { n with right := some b })).bind fun m6 =>
                some { tree with nodes := m6 }
            | none => some { tree with root := some b, nodes := m5 }

/-- The function `rightRotate`. -/
def rightRotate (tree : RBTree α φ) (pivot : Ptr) : Option (RBTree α φ) :=
  match pivot with
  | none => some tree
  | some a =>
    match readNode tree.nodes (some a) with
    | none => none
    | some p =>
      match p.left with
      | none => some tree
      | some b =>
        let pivotParent := p.parent
        let orient : Option Int :=
          match pivotParent with
          | none => some 0
          | some pp =>
            match readNode tree.nodes (some pp) with
            | none => none
            | some ppn => compareData tree.compFunc p ppn
        match orient with
        | none => none
        | some sonOrientation =>
          match readNode tree.nodes (some b) with
          | none => none
          | some leftSon =>
            let t3 := leftSon.right
            (writeNode tree.nodes (some b) (fun n => { n with right := some a })).bind fun m1 =>
            (writeNode m1 (some a) (fun n => { n with left := t3 })).bind fun m2 =>
            (match t3 with
              | none => some m2
              | some _ => writeNode m2 t3 (fun n => { n with parent := some a })).bind fun m3 =>
            (writeNode m3 (some b) (fun n => { n with parent := pivotParent })).bind fun m4 =>
            (writeNode m4 (some a) (fun n => { n with parent := some b })).bind fun m5 =>
            match pivotParent with
            | some _ =>
              if sonOrientation < 0 then
                (writeNode m5 pivotParent (fun n => { n with left := some b })).bind fun m6 =>
                some { tree with nodes := m6 }
              else
                (writeNode m5 pivotParent (fun n => { n with right := some b })).bind fun m6 =>
                some { tree with nodes := m6 }
            | none => some { tree with root := some b, nodes := m5 }

/-- The colour swap `tempColor = x->color; x->color = y->color; y->color = tempColor` that
follows the rotations in `fixTree`. -/
def swapColors (nodes : List (Node α)) (x y : Ptr) : Option (List (Node α)) :=
  (readNode nodes x).bind fun nx =>
  (readNode nodes y).bind fun ny =>
  (writeNode nodes x (fun n => { n with color := ny.color })).bind fun m1 =>
  writeNode m1 y (fun n => { n with color := nx.color })

/-- The test `p != NULL && p->color == RED` on a node pointer. -/
def isRedNode (nodes : List (Node α)) (p : Ptr) : Option Bool :=
  match p with
  | none => some false
  | some _ => (readNode nodes p).bind fun n => some (decide (n.color = Color.RED))

/-- Outcome of one evaluation of the `while` loop of `fixTree`: either the loop is left
(condition false, or `break`), or it goes round again with a new `newNode`. -/
inductive LoopStep (α φ : Type) where
  | done (tree : RBTree α φ)
  | next (tree : RBTree α φ) (newNode : Ptr)

/-- One evaluation of the loop condition of `fixTree` and, when it holds, of the loop body. -/
def fixTreeStep (tree : RBTree α φ) (newNode : Ptr) : Option (LoopStep α φ) :=
  if newNode = tree.root then some (.done tree)
  else
    (readNode tree.nodes newNode).bind fun nz =>
    (readNode tree.nodes nz.parent).bind fun np =>
    if np.color ≠ Color.RED then some (.done tree)
    else
      (readNode tree.nodes np.parent).bind fun ngp =>
      let uncle : Ptr := if nz.parent = ngp.left then ngp.right else ngp.left
      (isRedNode tree.nodes uncle).bind fun red =>
      if red then
        (writeNode tree.nodes uncle (fun n => { n with color := Color.BLACK })).bind fun m1 =>
        (writeNode m1 nz.parent (fun n => { n with color := Color.BLACK })).bind fun m2 =>
        (writeNode m2 np.parent (fun n => { n with color := Color.RED })).bind fun m3 =>
        some (.next { tree with nodes := m3 } np.parent)
      else
        let parent := nz.parent
        let gradParent := np.parent
        if parent = ngp.left ∧ newNode = np.left then
          (rightRotate tree gradParent).bind fun t1 =>
          (swapColors t1.nodes parent gradParent).bind fun m =>
          some (.done { t1 with nodes := m })
        else if parent = ngp.left ∧ newNode = np.right then
          (leftRotate tree parent).bind fun t1 =>
          (rightRotate t1 gradParent).bind fun t2 =>
          (swapColors t2.nodes newNode gradParent).bind fun m =>
          some (.done { t2 with nodes := m })
        else if parent = ngp.right ∧ newNode = np.right then
          (leftRotate tree gradParent).bind fun t1 =>
          (swapColors t1.nodes parent gradParent).bind fun m =>
          some (.done { t1 with nodes := m })
        else if parent = ngp.right ∧ newNode = np.left then
          (rightRotate tree parent).bind fun t1 =>
          (leftRotate t1 gradParent).bind fun t2 =>
          (swapColors t2.nodes newNode gradParent).bind fun m =>
          some (.done { t2 with nodes := m })
        else some (.done tree)

/-- The `while` loop of `fixTree`; the first argument bounds the number of iterations. -/
def fixTreeLoop : Nat → RBTree α φ → Ptr → Option (RBTree α φ)
  | 0, _, _ => none
  | fuel + 1, tree, newNode =>
    match fixTreeStep tree newNode with
    | none => none
    | some (.done t) => some t
    | some (.next t z) => fixTreeLoop fuel t z

/-- The function `fixTree`: the loop, then `tree->root->color = BLACK`. -/
def fixTree (tree : RBTree α φ) (newNode : Ptr) : Option (RBTree α φ) :=
  (fixTreeLoop (depthBound tree.nodes) tree newNode).bind fun t =>
  (writeNode t.nodes t.root (fun n => { n with color := Color.BLACK })).bind fun m =>
  some { t with nodes := m }

/-- The function `findPlace`.  The first argument bounds the recursion depth. -/
def findPlace (nodes : List (Node α)) (compareFunc : α → α → Int) :
    Nat → Ptr → Ptr → α → Option Ptr
  | 0, _, _, _ => none
  | fuel + 1, node, parent, data =>
    match node with
    | none => some parent
    | some a =>
      match readNode nodes (some a) with
      | none => none
      | some n =>
        match n.data with
        | none => none
        | some nd =>
          if compareFunc nd data < 0 then findPlace nodes compareFunc fuel n.right node data
          else findPlace nodes compareFunc fuel n.left node data

/-- The function `addToRBTree` (node allocation is taken to succeed).  The result is the
returned `int` and the tree after the call. -/
def addToRBTree (tree : Option (RBTree α φ)) (data : Option α) :
    Option (Int × Option (RBTree α φ)) :=
  match tree, data with
  | none, _ => some (0, none)
  | some t, none => some (0, some t)
  | some t, some d =>
    (containsRBTree (some t) (some d)).bind fun c =>
    if c ≠ 0 then some (0, some t)
    else
      let newNode : Ptr := some t.nodes.length
      let fresh : Node α :=
        { parent := none, left := none, right := none, color := Color.RED, data := some d }
      let m0 := t.nodes ++ [fresh]
      if t.root = none then
        (writeNode m0 newNode (fun n => { n with color := Color.BLACK })).bind fun m1 =>
        (writeNode m1 newNode (fun n => { n with parent := none })).bind fun m2 =>
        some (1, some { t with root := newNode, size := t.size + 1, nodes := m2 })
      else
        (findPlace m0 t.compFunc (depthBound m0) t.root none d).bind fun parent =>
        (writeNode m0 newNode (fun n => { n with parent := parent })).bind fun m1 =>
        (readNode m1 parent).bind fun np =>
        (compareData t.compFunc fresh np).bind fun ord =>
        (if ord > 0 then writeNode m1 parent (fun n => { n with right := newNode })
          else writeNode m1 parent (fun n => { n with left := newNode })).bind fun m2 =>
        (fixTree { t with nodes := m2 } newNode).bind fun t1 =>
        some (1, some { t1 with size := t1.size + 1 })

/-- The function `inOrderTraversal`; `func` is the visitor (payload, `args`) returning its
`int` result and the updated `args`.  The first argument bounds the recursion depth.  The
result is the returned `int` and the final `args`. -/
def inOrderTraversal (nodes : List (Node α)) (func : Option α → σ → Int × σ) :
    Nat → Ptr → σ → Option (Int × σ)
  | 0, _, _ => none
  | fuel + 1, node, args =>
    match node with
    | none => some (1, args)
    | some a =>
      match readNode nodes (some a) with
      | none => none
      | some n =>
        let afterLeft : Option σ :=
          if n.left = none then some args
          else (inOrderTraversal nodes func fuel n.left args).map Prod.snd
        afterLeft.bind fun s1 =>
        let visit := func n.data s1
        if visit.1 = 0 then some (0, visit.2)
        else
          let afterRight : Option σ :=
            if n.right = none then some visit.2
            else (inOrderTraversal nodes func fuel n.right visit.2).map Prod.snd
          afterRight.bind fun s2 => some (1, s2)

/-- The function `forEachRBTree`. -/
def forEachRBTree (tree : Option (RBTree α φ)) (func : Option α → σ → Int × σ) (args : σ) :
    Option (Int × σ) :=
  match tree with
  | none => some (0, args)
  | some t => inOrderTraversal t.nodes func (depthBound t.nodes) t.root args

/-! ## Abstraction: the tree shape held in the node store -/

/-- A binary tree shape whose nodes carry their store address, colour and payload. -/
inductive Tree (α : Type) where
  | nil
  | node (l : Tree α) (a : Nat) (c : Color) (d : α) (r : Tree α)

namespace Tree

/-- The pointer to the root node of a shape (`NULL` for the empty shape). -/
def ptr : Tree α → Ptr
  | nil => none
  | node _ a _ _ _ => some a

/-- The colour of the root node; an absent node counts as BLACK. -/
def color : Tree α → Color
  | nil => Color.BLACK
  | node _ _ c _ _ => c

/-- In-order list of (address, payload) of the nodes. -/
def toList : Tree α → List (Nat × α)
  | nil => []
  | node l a _ d r => l.toList ++ (a, d) :: r.toList

/-- In-order list of the node addresses. -/
def addrs (t : Tree α) : List Nat := t.toList.map Prod.fst

/-- In-order list of the payloads. -/
def datas (t : Tree α) : List α := t.toList.map Prod.snd

/-- Number of nodes on the longest path from the root down to a node without children. -/
def height : Tree α → Nat
  | nil => 0
  | node l _ _ _ r => max l.height r.height + 1

/-- Number of nodes. -/
def card : Tree α → Nat
  | nil => 0
  | node l _ _ _ r => l.card + r.card + 1

/-- The root recoloured BLACK. -/
def blacken : Tree α → Tree α
  | nil => nil
  | node l a _ d r => node l a Color.BLACK d r

end Tree

/-- The store `nodes` holds the shape `t` below a node whose parent link is `parent`: every
node of `t` has, at its address, exactly the record the shape prescribes (parent link, child
links, colour, non-`NULL` payload). -/
def Rep (nodes : List (Node α)) : Tree α → Ptr → Prop
  | .nil, _ => True
  | .node l a c d r, parent =>
    readNode nodes (some a) = some ⟨parent, l.ptr, r.ptr, c, some d⟩ ∧
      Rep nodes l (some a) ∧ Rep nodes r (some a)

/-- The tree structure `tree` holds the shape `T`: the root link points to the root of `T`,
the store holds `T` with an absent parent at the root, and no address occurs twice. -/
structure Models (tree : RBTree α φ) (T : Tree α) : Prop where
  root : tree.root = T.ptr
  rep : Rep tree.nodes T none
  nodup : T.addrs.Nodup

/-- One step of a path from a node up to the root: the node at address `a` together with
its other subtree.  `L`: the path comes up from the left child; `R`: from the right child. -/
inductive Frame (α : Type) where
  | L (a : Nat) (c : Color) (d : α) (r : Tree α)
  | R (l : Tree α) (a : Nat) (c : Color) (d : α)

namespace Frame

/-- Address of the node of a frame. -/
def addr : Frame α → Nat
  | L a _ _ _ => a
  | R _ a _ _ => a

/-- Colour of the node of a frame. -/
def color : Frame α → Color
  | L _ c _ _ => c
  | R _ _ c _ => c

/-- Payload of the node of a frame. -/
def data : Frame α → α
  | L _ _ d _ => d
  | R _ _ _ d => d

/-- The subtree hanging off the path. -/
def sib : Frame α → Tree α
  | L _ _ _ r => r
  | R l _ _ _ => l

/-- The node of the frame with `t` put in the child slot the path comes from. -/
def fill : Frame α → Tree α → Tree α
  | L a c d r, t => Tree.node t a c d r
  | R l a c d, t => Tree.node l a c d t

/-- The comparator places a payload `x` on the side of the frame's node that the path comes
from: `compFunc x d < 0` exactly for a left frame. -/
def Agrees (cmp : α → α → Int) (x : α) : Frame α → Prop
  | L _ _ d _ => cmp x d < 0
  | R _ _ _ d => ¬ cmp x d < 0

end Frame

/-- The whole shape: subtree `t` put back under the path `ctx` (innermost frame first). -/
def plug : Tree α → List (Frame α) → Tree α
  | t, [] => t
  | t, f :: ctx => plug (f.fill t) ctx

/-- Parent link of the subtree under a path. -/
def ctxPtr : List (Frame α) → Ptr
  | [] => none
  | f :: _ => some f.addr

/-- The store holds the path `ctx` whose innermost child slot contains the pointer `p`. -/
def RepCtx (nodes : List (Node α)) : List (Frame α) → Ptr → Prop
  | [], _ => True
  | .L a c d r :: ctx, p =>
    readNode nodes (some a) = some ⟨ctxPtr ctx, p, r.ptr, c, some d⟩ ∧
      Rep nodes r (some a) ∧ RepCtx nodes ctx (some a)
  | .R l a c d :: ctx, p =>
    readNode nodes (some a) = some ⟨ctxPtr ctx, l.ptr, p, c, some d⟩ ∧
      Rep nodes l (some a) ∧ RepCtx nodes ctx (some a)

/-- Addresses of the nodes of a path and of the subtrees hanging off it. -/
def ctxAddrs : List (Frame α) → List Nat
  | [] => []
  | f :: ctx => f.addr :: (f.sib.addrs ++ ctxAddrs ctx)

/-- In-order (address, payload) list of the nodes of a path that come before the hole. -/
def ctxBefore : List (Frame α) → List (Nat × α)
  | [] => []
  | .L _ _ _ _ :: ctx => ctxBefore ctx
  | .R l a _ d :: ctx => ctxBefore ctx ++ (l.toList ++ [(a, d)])

/-- In-order (address, payload) list of the nodes of a path that come after the hole. -/
def ctxAfter : List (Frame α) → List (Nat × α)
  | [] => []
  | .L a _ d r :: ctx => ((a, d) :: r.toList) ++ ctxAfter ctx
  | .R _ _ _ _ :: ctx => ctxAfter ctx

/-- Along the path, the comparator places each node on the side of its parent where the
path has it. -/
def Oriented (cmp : α → α → Int) : List (Frame α) → Prop
  | [] => True
  | [_] => True
  | f :: g :: ctx => g.Agrees cmp f.data ∧ Oriented cmp (g :: ctx)

/-- The outermost frame of a path (the root), when the path is not empty, is BLACK. -/
def RootBlack (ctx : List (Frame α)) : Prop :=
  ∀ f ∈ ctx.getLast?, f.color = Color.BLACK

/-! ## Pure counterparts of the insertion steps, on shapes -/

/-- Descent of `findPlace` on a shape: the path from the insertion slot up to the root. -/
def zoomP (cmp : α → α → Int) (d : α) : Tree α → List (Frame α) → List (Frame α)
  | .nil, ctx => ctx
  | .node l a c x r, ctx =>
    if cmp x d < 0 then zoomP cmp d r (.R l a c x :: ctx)
    else zoomP cmp d l (.L a c x r :: ctx)

/-- The frame with the colour of its node replaced. -/
def Frame.recolor (c : Color) : Frame α → Frame α
  | .L a _ d r => .L a c d r
  | .R l a _ d => .R l a c d

/-- The frame with the root of the subtree hanging off the path recoloured BLACK. -/
def Frame.blackenSib : Frame α → Frame α
  | .L a c d r => .L a c d r.blacken
  | .R l a c d => .R l.blacken a c d

/-- Red-uncle case of `fixTree` on a shape: parent `f1` and uncle become BLACK, grandparent
`f2` RED; the result is the subtree at the grandparent. -/
def recolorP (t : Tree α) (f1 f2 : Frame α) : Tree α :=
  ((f2.recolor Color.RED).blackenSib).fill ((f1.recolor Color.BLACK).fill t)

/-- Black-uncle case of `fixTree` on a shape: the four rotation cases with their colour
swaps; the result is the subtree that takes the place of the grandparent `f2`. -/
def rotateP : Tree α → Frame α → Frame α → Tree α
  | t, .L p pc pd s, .L g gc gd u => .node t p gc pd (.node s g pc gd u)
  | .node zl z zc zd zr, .R s p pc pd, .L g gc gd u =>
    .node (.node s p pc pd zl) z gc zd (.node zr g zc gd u)
  | t, .R s p pc pd, .R u g gc gd => .node (.node u g pc gd s) p gc pd t
  | .node zl z zc zd zr, .L p pc pd s, .R u g gc gd =>
    .node (.node u g zc gd zl) z gc zd (.node zr p pc pd s)
  | t, f1, f2 => f2.fill (f1.fill t)

/-- Effect of the `fixTree` loop on a shape: `t` is the subtree at `newNode`, `ctx` the path
above it; the result is the whole shape when the loop is left. -/
def fixP : Tree α → List (Frame α) → Tree α
  | t, [] => t
  | t, [f] => plug t [f]
  | t, f1 :: f2 :: rest =>
    if f1.color ≠ Color.RED then plug t (f1 :: f2 :: rest)
    else if f2.sib.color = Color.RED then fixP (recolorP t f1 f2) rest
    else plug (rotateP t f1 f2) rest

/-- Effect of a successful `addToRBTree` on a shape; `a` is the address of the new node. -/
def insertP (cmp : α → α → Int) (T : Tree α) (a : Nat) (d : α) : Tree α :=
  match T with
  | .nil => .node .nil a .BLACK d .nil
  | T => (fixP (.node .nil a .RED d .nil) (zoomP cmp d T [])).blacken

/-- The fields of the tree structure that the fix-up never touches, and the store size. -/
def Kept (t t' : RBTree α φ) : Prop :=
  t'.nodes.length = t.nodes.length ∧ t'.compFunc = t.compFunc ∧ t'.size = t.size ∧
    t'.freeFunc = t.freeFunc

/-- The comparator contract of the tree: a strict total order, with 0 only for equal keys. -/
structure StrictTotalOrder (cmp : α → α → Int) : Prop where
  eq_zero : ∀ a b, cmp a b = 0 ↔ a = b
  antisymm : ∀ a b, cmp a b < 0 ↔ 0 < cmp b a
  trans : ∀ a b c, cmp a b < 0 → cmp b c < 0 → cmp a c < 0

/-- The decision `findPlace` takes for the payload `d` at the node of a frame: it went right
(frame `R`) exactly when `compareFunc(node->data, d) < 0`. -/
def Frame.Routes (cmp : α → α → Int) (d : α) : Frame α → Prop
  | .L _ _ x _ => ¬ cmp x d < 0
  | .R _ _ _ x => cmp x d < 0

/-- BST order of a shape: for every node, every payload in its left subtree compares
strictly less than the node's payload, every payload in its right subtree strictly greater. -/
def BST (cmp : α → α → Int) : Tree α → Prop
  | .nil => True
  | .node l _ _ d r =>
    (∀ x ∈ l.datas, cmp x d < 0) ∧ (∀ y ∈ r.datas, 0 < cmp y d) ∧ BST cmp l ∧ BST cmp r

/-- Effect of `inOrderTraversal` on a shape, for a visitor `func` threading `args`. -/
def travP (func : Option α → σ → Int × σ) : Tree α → σ → Int × σ
  | .nil, s => (1, s)
  | .node l _ _ d r, s =>
    let s1 := (travP func l s).2
    let visit := func (some d) s1
    if visit.1 = 0 then (0, visit.2) else (1, (travP func r visit.2).2)

/-- No RED node of the shape has a RED child. -/
def NoRedRed : Tree α → Prop
  | .nil => True
  | .node l _ c _ r =>
    (c = Color.RED → l.color = Color.BLACK ∧ r.color = Color.BLACK) ∧ NoRedRed l ∧ NoRedRed r

/-- Number of BLACK nodes on the leftmost path from the root to an absent child. -/
def bh : Tree α → Nat
  | .nil => 0
  | .node l _ c _ _ => bh l + (if c = Color.BLACK then 1 else 0)

/-- At every node the two subtrees have the same black height. -/
def BlackBalanced : Tree α → Prop
  | .nil => True
  | .node l _ _ _ r => bh l = bh r ∧ BlackBalanced l ∧ BlackBalanced r

/-- For every path from the root to an absent-child position, the number of BLACK nodes on
it. -/
def blackCounts : Tree α → List Nat
  | .nil => [0]
  | .node l _ c _ r =>
    (blackCounts l ++ blackCounts r).map (· + (if c = Color.BLACK then 1 else 0))

/-- All paths from the root to an absent-child position have the same number of BLACK
nodes. -/
def PathsEqual (t : Tree α) : Prop :=
  ∀ n ∈ blackCounts t, ∀ k ∈ blackCounts t, n = k

/-- The property `P` holds of the shape and of the subtree below every node of it. -/
def EverySubtree (P : Tree α → Prop) : Tree α → Prop
  | .nil => P .nil
  | .node l a c d r => P (.node l a c d r) ∧ EverySubtree P l ∧ EverySubtree P r

/-- Red-black conditions on a path with a hole of black height `n`: every subtree hanging
off the path is well coloured and balanced with the hole, and a RED node of the path has a
BLACK other child and a BLACK parent. -/
def CtxRB : List (Frame α) → Nat → Prop
  | [], _ => True
  | f :: rest, n =>
    NoRedRed f.sib ∧ BlackBalanced f.sib ∧ bh f.sib = n ∧
      (f.color = Color.RED → f.sib.color = Color.BLACK ∧ ∀ g ∈ rest.head?, g.color = Color.BLACK) ∧
      CtxRB rest (n + (if f.color = Color.BLACK then 1 else 0))

/-- The tree structure holds a red-black tree: it holds the shape `T`, which is BST-ordered
under the tree's comparator, has no RED node with a RED child, is black-balanced and has a
BLACK root, and the `size` field counts the nodes of `T`. -/
structure Valid (tree : RBTree α φ) (T : Tree α) : Prop where
  models : Models tree T
  bst : BST tree.compFunc T
  noRedRed : NoRedRed T
  balanced : BlackBalanced T
  rootBlack : T.color = Color.BLACK
  size : tree.size = T.card

/-- A client run: the payloads are passed one by one to `addToRBTree` on the same tree.  The
result is the list of the returned values, in call order, and the tree after the last call. -/
def runAdds (tree : RBTree α φ) : List (Option α) → Option (List Int × RBTree α φ)
  | [] => some ([], tree)
  | p :: ps =>
    match addToRBTree (some tree) p with
    | some (r, some t) =>
      match runAdds t ps with
      | some (rs, t') => some (r :: rs, t')
      | none => none
    | _ => none

/-- The trees reached by calls of `addToRBTree` from a tree created by `newRBTree`. -/
inductive Reached : RBTree α φ → Prop where
  | new (c : α → α → Int) (f : φ) (t : RBTree α φ) :
      newRBTree (some c) (some f) = some t → Reached t
  | add (t t' : RBTree α φ) (p : Option α) (r : Int) :
      Reached t → addToRBTree (some t) p = some (r, some t') → Reached t'

/-- A numeric comparator on integers (negative, zero, positive), for the scenarios. -/
def numCompare (a b : Int) : Int := if a < b then -1 else if b < a then 1 else 0

/-- A visitor that appends the visited payload to `args` and always returns 1. -/
def collect (p : Option α) (args : List α) : Int × List α := (1, args ++ p.toList)

/-! ## Teardown -/

/-- What the teardown hands over to its environment, in call order: a call of the free
function on a payload pointer (`freeFunc(node->data)`), the release of the node record at an
address (`free(node)`), and the release of the tree structure (`free(tree)`). -/
inductive FreeEvent (α φ : Type) where
  | item (freeFunc : φ) (data : Option α)
  | node (a : Nat)
  | tree
  deriving DecidableEq, Repr

/-- The call of the free function recorded by an event, if it is one. -/
def FreeEvent.call : FreeEvent α φ → Option (φ × Option α)
  | .item f d => some (f, d)
  | _ => none

/-- `deallocate(node, freeFunc)`: the events of the post-order release of a subtree. -/
def deallocate (nodes : List (Node α)) (freeFunc : φ) :
    Nat → Ptr → Option (List (FreeEvent α φ))
  | 0, _ => none
  | fuel + 1, node =>
    match node with
    | none => some []
    | some a =>
      match readNode nodes (some a) with
      | none => none
      | some n =>
        (deallocate nodes freeFunc fuel n.left).bind fun evLeft =>
        (deallocate nodes freeFunc fuel n.right).bind fun evRight =>
        some (evLeft ++ evRight ++ [FreeEvent.item freeFunc n.data, FreeEvent.node a])

/-- `freeRBTree(tree)`: nothing for `NULL`, else the events of `deallocate` on the root
followed by the release of the tree structure. -/
def freeRBTree (tree : Option (RBTree α φ)) : Option (List (FreeEvent α φ)) :=
  match tree with
  | none => some []
  | some t =>
    (deallocate t.nodes t.freeFunc (depthBound t.nodes) t.root).bind fun ev =>
    some (ev ++ [FreeEvent.tree])

/-- The tree with another value in the `freeFunc` field, all other fields as they are. -/
def RBTree.setFree {ψ : Type} (g : ψ) (t : RBTree α φ) : RBTree α ψ :=
  { root := t.root, compFunc := t.compFunc, freeFunc := g, size := t.size, nodes := t.nodes }

/-- The outcome of a loop round with another value in the `freeFunc` field of its tree. -/
def LoopStep.setFree {ψ : Type} (g : ψ) : LoopStep α φ → LoopStep α ψ
  | .done t => .done (t.setFree g)
  | .next t z => .next (t.setFree g) z

/-- Post-order list of the nodes of a shape (left subtree, right subtree, node). -/
def Tree.postOrder : Tree α → List (Nat × α)
  | .nil => []
  | .node l a _ d r => l.postOrder ++ r.postOrder ++ [(a, d)]

/-- Effect of `deallocate` on a shape: the events of its post-order release. -/
def releaseP (freeFunc : φ) : Tree α → List (FreeEvent α φ)
  | .nil => []
  | .node l a _ d r =>
    releaseP freeFunc l ++ releaseP freeFunc r ++
      [FreeEvent.item freeFunc (some d), FreeEvent.node a]

/-- The payloads of a client run whose call of `addToRBTree` returned non-zero. -/
def accepted : List (Option α) → List Int → List α
  | some d :: ps, r :: rs => if r ≠ 0 then d :: accepted ps rs else accepted ps rs
  | none :: ps, _ :: rs => accepted ps rs
  | _, _ => []

/-- A visitor that returns 0 on the payload 10 and 1 on every other one, and appends the
payload it is called on to `args`. -/
def failOn10 (p : Option Int) (args : List Int) : Int × List Int :=
  (if p = some 10 then 0 else 1, args ++ p.toList)

/-- A visitor that returns 0 on its 3rd call and 1 on every other one, and appends the
payload it is called on to `args`: the length of `args` counts the calls made so far. -/
def stopAtThird (p : Option Int) (args : List Int) : Int × List Int :=
  (if args.length + 1 = 3 then 0 else 1, args ++ p.toList)

/-! ## The vectors of `Structs.c` -/

/-- Modelled from the spec: `Structs.h`, which declares the type, is not among the sources;
`Structs.c` uses a `Vector` only through its fields `len` and `vector`.  A vector is the
array `vector` of its `len` elements, the elements being values of an ordered type `β` with
exact arithmetic in place of `double`. -/
structure Vector (β : Type) where
  vector : List β
  deriving DecidableEq, Repr

variable {β : Type}

/-- The field `len`: the number of elements of the array. -/
def Vector.len (v : Vector β) : Int := v.vector.length

/-- The `while` loop of `vectorCompare1By1` together with the statements after it, from the
counters `firstCount` and `secondCount` on. -/
def vectorCompareLoop [LinearOrder β] (firstVec secondVec : Vector β)
    (firstCount secondCount : Nat) : Int :=
  if h : (firstCount : Int) ≤ firstVec.len - 1 ∧ (secondCount : Int) ≤ secondVec.len - 1 then
    have h1 : firstCount < firstVec.vector.length := by
      have := h.1; simp only [Vector.len] at this; omega
    have h2 : secondCount < secondVec.vector.length := by
      have := h.2; simp only [Vector.len] at this; omega
    if firstVec.vector[firstCount] > secondVec.vector[secondCount] then 1
    else if firstVec.vector[firstCount] < secondVec.vector[secondCount] then -1
    else vectorCompareLoop firstVec secondVec (firstCount + 1) (secondCount + 1)
  else if (firstCount : Int) < firstVec.len then 1
  else if (secondCount : Int) < secondVec.len then -1
  else 0
termination_by firstVec.vector.length - firstCount
decreasing_by
  have := h.1; simp only [Vector.len] at this; omega

/-- `vectorCompare1By1(a, b)` -/
def vectorCompare1By1 [LinearOrder β] (a b : Vector β) : Int :=
  vectorCompareLoop a b 0 0

/-- Lexicographic comparison of two sequences: decided by the first position where the
elements differ; when one sequence is a prefix of the other, the shorter one is smaller. -/
def lexCompare [LinearOrder β] : List β → List β → Int
  | [], [] => 0
  | [], _ :: _ => -1
  | _ :: _, [] => 1
  | x :: xs, y :: ys => if y < x then 1 else if x < y then -1 else lexCompare xs ys

/-! ## The strings of `Structs.c` -/

/-- The C library `strcmp` on NUL-terminated strings, given as the sequences of their
characters (`unsigned char` values, terminator left out): negative, zero or positive as the
first string is lexicographically smaller than, equal to or larger than the second. -/
def strcmp (s1 s2 : List Nat) : Int := lexCompare s1 s2

/-- The C library `strcat(dest, src)`: `src` is appended to the string in `dest` and `dest`
is returned (never `NULL`); the destination is taken to be large enough. -/
def strcat (dest src : List Nat) : Option (List Nat) := some (dest ++ src)

/-- `stringCompare(a, b)` -/
def stringCompare (a b : List Nat) : Int :=
  let firstStr := a
  let secondStr := b
  strcmp firstStr secondStr

/-- `concatenate(word, pConcatenated)` as a visitor: `args` is the string held in the buffer
`pConcatenated` (`none` for `NULL`); 10 is the newline character. -/
def concatenate (word : Option (List Nat)) (pConcatenated : Option (List Nat)) :
    Int × Option (List Nat) :=
  match word, pConcatenated with
  | some pWord, some pConcat =>
    match strcat pConcat pWord with
    | none => (0, some pConcat)
    | some pSemiUnited =>
      match strcat pSemiUnited [10] with
      | none => (0, some pSemiUnited)
      | some pFullUnited => (1, some pFullUnited)
  | _, _ => (0, pConcatenated)

/-! ## The rotations with the slot chosen by pointer identity -/

/-- The textbook left rotation: the statements of `leftRotate`, except that the slot of the
pivot's parent that receives the pivot's right child is the one that held the pivot
(`parent->left == pivot`), not the one named by the sign of the comparator. -/
def leftRotateTextbook (tree : RBTree α φ) (pivot : Ptr) : Option (RBTree α φ) :=
  match pivot with
  | none => some tree
  | some a =>
    match readNode tree.nodes (some a) with
    | none => none
    | some p =>
      match p.right with
      | none => some tree
      | some b =>
        let pivotParent := p.parent
        let slot : Option Bool :=
          match pivotParent with
          | none => some false
          | some pp =>
            match readNode tree.nodes (some pp) with
            | none => none
            | some ppn => some (decide (ppn.left = some a))
        match slot with
        | none => none
        | some isLeftSon =>
          match readNode tree.nodes (some b) with
          | none => none
          | some rightSon =>
            let t2 := rightSon.left
            (writeNode tree.nodes (some b) (fun n => { n with left := some a })).bind fun m1 =>
            (writeNode m1 (some a) (fun n => { n with right := t2 })).bind fun m2 =>
            (match t2 with
              | none => some m2
              | some _ => writeNode m2 t2 (fun n => { n with parent := some a })).bind fun m3 =>
            (writeNode m3 (some b) (fun n => { n with parent := pivotParent })).bind fun m4 =>
            (writeNode m4 (some a) (fun n => { n with parent := some b })).bind fun m5 =>
            match pivotParent with
            | some _ =>
              if isLeftSon then
                (writeNode m5 pivotParent (fun n => { n with left := some b })).bind fun m6 =>
                some { tree with nodes := m6 }
              else
                (writeNode m5 pivotParent (fun n => { n with right := some b })).bind fun m6 =>
                some { tree with nodes := m6 }
            | none => some { tree with root := some b, nodes := m5 }

/-- The textbook right rotation, mirror image of `leftRotateTextbook`. -/
def rightRotateTextbook (tree : RBTree α φ) (pivot : Ptr) : Option (RBTree α φ) :=
  match pivot with
  | none => some tree
  | some a =>
    match readNode tree.nodes (some a) with
    | none => none
    | some p =>
      match p.left with
      | none => some tree
      | some b =>
        let pivotParent := p.parent
        let slot : Option Bool :=
          match pivotParent with
          | none => some false
          | some pp =>
            match readNode tree.nodes (some pp) with
            | none => none
            | some ppn => some (decide (ppn.left = some a))
        match slot with
        | none => none
        | some isLeftSon =>
          match readNode tree.nodes (some b) with
          | none => none
          | some leftSon =>
            let t3 := leftSon.right
            (writeNode tree.nodes (some b) (fun n => { n with right := some a })).bind fun m1 =>
            (writeNode m1 (some a) (fun n => { n with left := t3 })).bind fun m2 =>
            (match t3 with
              | none => some m2
              | some _ => writeNode m2 t3 (fun n => { n with parent := some a })).bind fun m3 =>
            (writeNode m3 (some b) (fun n => { n with parent := pivotParent })).bind fun m4 =>
            (writeNode m4 (some a) (fun n => { n with parent := some b })).bind fun m5 =>
            match pivotParent with
            | some _ =>
              if isLeftSon then
                (writeNode m5 pivotParent (fun n => { n with left := some b })).bind fun m6 =>
                some { tree with nodes := m6 }
              else
                (writeNode m5 pivotParent (fun n => { n with right := some b })).bind fun m6 =>
                some { tree with nodes := m6 }
            | none => some { tree with root := some b, nodes := m5 }

/-- In-order list of the nodes of a shape with all they carry: address, colour, payload. -/
def Tree.records : Tree α → List (Nat × Color × α)
  | .nil => []
  | .node l a c d r => l.records ++ (a, c, d) :: r.records

/-! ## A BST-guided search, for comparison with the scan of `containsRBTree` -/

/-- A descent from `node` guided by the comparator: found (1) when
`compFunc(node->data, data)` is 0, on to the right child when it is negative and to the left
child when it is positive; 0 below a node without that child.  This is not a function of
`RBTree.c`; it is the search that `containsRBTree` is compared with.  The first argument
bounds the recursion depth. -/
def guidedDescent (nodes : List (Node α)) (compFunc : α → α → Int) :
    Nat → Ptr → α → Option Int
  | 0, _, _ => none
  | fuel + 1, node, data =>
    match node with
    | none => some 0
    | some a =>
      match readNode nodes (some a) with
      | none => none
      | some n =>
        match n.data with
        | none => none
        | some nd =>
          if compFunc nd data = 0 then some 1
          else if compFunc nd data < 0 then guidedDescent nodes compFunc fuel n.right data
          else guidedDescent nodes compFunc fuel n.left data

/-- The guided search from the root of a tree. -/
def containsByDescent (tree : RBTree α φ) (data : α) : Option Int :=
  guidedDescent tree.nodes tree.compFunc (depthBound tree.nodes) tree.root data

/-! ## Depth of a node and consistency of the links in the store -/

/-- The number of parent links from a node up to the node without parent (the root): the
depth of the node, 0 for the root.  The first argument bounds the number of steps. -/
def nodeDepth (nodes : List (Node α)) : Nat → Ptr → Option Nat
  | 0, _ => none
  | fuel + 1, p =>
    (readNode nodes p).bind fun n =>
    match n.parent with
    | none => some 0
    | some q => (nodeDepth nodes fuel (some q)).map (· + 1)

/-- The links and the payload of a node record: all of it but the colour. -/
def Node.links (n : Node α) : Ptr × Ptr × Ptr × Option α := (n.parent, n.left, n.right, n.data)

/-- The parent back-links of the store agree with the child links: the root has no parent,
the parent link of every child of a node points back to that node, and every node with a
parent is the left or the right child of it. -/
def LinksConsistent (tree : RBTree α φ) : Prop :=
  (∀ n, readNode tree.nodes tree.root = some n → n.parent = none) ∧
  (∀ a n c, readNode tree.nodes (some a) = some n → n.left = some c ∨ n.right = some c →
    ∃ nc, readNode tree.nodes (some c) = some nc ∧ nc.parent = some a) ∧
  (∀ a n p, readNode tree.nodes (some a) = some n → n.parent = some p →
    ∃ np, readNode tree.nodes (some p) = some np ∧ (np.left = some a ∨ np.right = some a))

/-! ## The insertion with a record of what it did

`fixTreeStepLog`, `fixTreeLoopLog`, `fixTreeLog` and `addToRBTreeLog` are `fixTreeStep`,
`fixTreeLoop`, `fixTree` and `addToRBTree` statement by statement; in addition they return a
record of the rounds of the loop whose body ran and of the calls of the rotations. -/

/-- A call of `leftRotate` (`isLeft`) or `rightRotate` made by `fixTree`: the tree at the
call and the pivot passed. -/
structure RotateCall (α φ : Type) where
  isLeft : Bool
  tree : RBTree α φ
  pivot : Ptr

/-- The pivot of the call is a node that has the child the rotation needs (the right child
for `leftRotate`, the left child for `rightRotate`): the call does not return at its first
test. -/
def RotateCall.hasChild (c : RotateCall α φ) : Bool :=
  match readNode c.tree.nodes c.pivot with
  | none => false
  | some p => if c.isLeft then decide (p.right ≠ none) else decide (p.left ≠ none)

/-- A round of the loop of `fixTree` whose body ran: the tree and `newNode` when the round
starts, the pointers `newNode->parent` and `newNode->parent->parent`, whether the uncle was
RED, the calls of the rotations in call order, and how the round ended. -/
structure Iteration (α φ : Type) where
  tree : RBTree α φ
  newNode : Ptr
  parent : Ptr
  gradParent : Ptr
  uncleRed : Bool
  calls : List (RotateCall α φ)
  result : LoopStep α φ

/-- `fixTreeStep` with the record of the round (`none` when the loop condition is false). -/
def fixTreeStepLog (tree : RBTree α φ) (newNode : Ptr) :
    Option (LoopStep α φ × Option (Iteration α φ)) :=
  if newNode = tree.root then some (.done tree, none)
  else
    (readNode tree.nodes newNode).bind fun nz =>
    (readNode tree.nodes nz.parent).bind fun np =>
    if np.color ≠ Color.RED then some (.done tree, none)
    else
      (readNode tree.nodes np.parent).bind fun ngp =>
      let uncle : Ptr := if nz.parent = ngp.left then ngp.right else ngp.left
      (isRedNode tree.nodes uncle).bind fun red =>
      if red then
        (writeNode tree.nodes uncle (fun n => { n with color := Color.BLACK })).bind fun m1 =>
        (writeNode m1 nz.parent (fun n => { n with color := Color.BLACK })).bind fun m2 =>
        (writeNode m2 np.parent (fun n => { n with color := Color.RED })).bind fun m3 =>
        some (.next { tree with nodes := m3 } np.parent,
          some ⟨tree, newNode, nz.parent, np.parent, true, [],
            .next { tree with nodes := m3 } np.parent⟩)
      else
        let parent := nz.parent
        let gradParent := np.parent
        if parent = ngp.left ∧ newNode = np.left then
          (rightRotate tree gradParent).bind fun t1 =>
          (swapColors t1.nodes parent gradParent).bind fun m =>
          some (.done { t1 with nodes := m },
            some ⟨tree, newNode, parent, gradParent, false, [⟨false, tree, gradParent⟩],
              .done { t1 with nodes := m }⟩)
        else if parent = ngp.left ∧ newNode = np.right then
          (leftRotate tree parent).bind fun t1 =>
          (rightRotate t1 gradParent).bind fun t2 =>
          (swapColors t2.nodes newNode gradParent).bind fun m =>
          some (.done { t2 with nodes := m },
            some ⟨tree, newNode, parent, gradParent, false,
              [⟨true, tree, parent⟩, ⟨false, t1, gradParent⟩], .done { t2 with nodes := m }⟩)
        else if parent = ngp.right ∧ newNode = np.right then
          (leftRotate tree gradParent).bind fun t1 =>
          (swapColors t1.nodes parent gradParent).bind fun m =>
          some (.done { t1 with nodes := m },
            some ⟨tree, newNode, parent, gradParent, false, [⟨true, tree, gradParent⟩],
              .done { t1 with nodes := m }⟩)
        else if parent = ngp.right ∧ newNode = np.left then
          (rightRotate tree parent).bind fun t1 =>
          (leftRotate t1 gradParent).bind fun t2 =>
          (swapColors t2.nodes newNode gradParent).bind fun m =>
          some (.done { t2 with nodes := m },
            some ⟨tree, newNode, parent, gradParent, false,
              [⟨false, tree, parent⟩, ⟨true, t1, gradParent⟩], .done { t2 with nodes := m }⟩)
        else some (.done tree, some ⟨tree, newNode, parent, gradParent, false, [], .done tree⟩)

/-- `fixTreeLoop` with the records of the rounds whose body ran, in order. -/
def fixTreeLoopLog : Nat → RBTree α φ → Ptr → Option (RBTree α φ × List (Iteration α φ))
  | 0, _, _ => none
  | fuel + 1, tree, newNode =>
    match fixTreeStepLog tree newNode with
    | none => none
    | some (.done t, it) => some (t, it.toList)
    | some (.next t z, it) =>
      (fixTreeLoopLog fuel t z).bind fun r => some (r.1, it.toList ++ r.2)

/-- `fixTree` with the records of the rounds of its loop. -/
def fixTreeLog (tree : RBTree α φ) (newNode : Ptr) :
    Option (RBTree α φ × List (Iteration α φ)) :=
  (fixTreeLoopLog (depthBound tree.nodes) tree newNode).bind fun r =>
  (writeNode r.1.nodes r.1.root (fun n => { n with color := Color.BLACK })).bind fun m =>
  some ({ r.1 with nodes := m }, r.2)

/-- What `addToRBTree` did on a tree that was not empty: the parent returned by `findPlace`,
the record of that parent when the new node is put below it, the slot chosen (`toRight` for
`parent->right`), the tree handed to `fixTree`, and the rounds of the loop of `fixTree`. -/
structure AddLog (α φ : Type) where
  parent : Ptr
  parentNode : Node α
  toRight : Bool
  linked : RBTree α φ
  rounds : List (Iteration α φ)

/-- `addToRBTree` with the record of the call (`none` when `findPlace` and `fixTree` are not
called: failure, or insertion into the empty tree). -/
def addToRBTreeLog (tree : Option (RBTree α φ)) (data : Option α) :
    Option ((Int × Option (RBTree α φ)) × Option (AddLog α φ)) :=
  match tree, data with
  | none, _ => some ((0, none), none)
  | some t, none => some ((0, some t), none)
  | some t, some d =>
    (containsRBTree (some t) (some d)).bind fun c =>
    if c ≠ 0 then some ((0, some t), none)
    else
      let newNode : Ptr := some t.nodes.length
      let fresh : Node α :=
        { parent := none, left := none, right := none, color := Color.RED, data := some d }
      let m0 := t.nodes ++ [fresh]
      if t.root = none then
        (writeNode m0 newNode (fun n => { n with color := Color.BLACK })).bind fun m1 =>
        (writeNode m1 newNode (fun n => { n with parent := none })).bind fun m2 =>
        some ((1, some { t with root := newNode, size := t.size + 1, nodes := m2 }), none)
      else
        (findPlace m0 t.compFunc (depthBound m0) t.root none d).bind fun parent =>
        (writeNode m0 newNode (fun n => { n with parent := parent })).bind fun m1 =>
        (readNode m1 parent).bind fun np =>
        (compareData t.compFunc fresh np).bind fun ord =>
        (if ord > 0 then writeNode m1 parent (fun n => { n with right := newNode })
          else writeNode m1 parent (fun n => { n with left := newNode })).bind fun m2 =>
        (fixTreeLog { t with nodes := m2 } newNode).bind fun r =>
        some ((1, some { r.1 with size := r.1.size + 1 }),
          some ⟨parent, np, decide (ord > 0), { t with nodes := m2 }, r.2⟩)

/-- The facts on a round of the loop that hold on a store holding a tree shape: the
rotations it calls have the child they need, a round with a BLACK uncle calls a rotation, and
the node the round leaves to the next one is two levels nearer to the root. -/
def RoundOn (bound : Nat) (it : Iteration α φ) : Prop :=
  (∀ c ∈ it.calls, c.hasChild = true) ∧ (it.uncleRed = false → it.calls ≠ []) ∧
  ∃ k, nodeDepth it.tree.nodes (depthBound it.tree.nodes) it.newNode = some (k + 2) ∧
    k + 2 ≤ bound ∧
    ∀ t1 z1, it.result = .next t1 z1 →
      nodeDepth t1.nodes (depthBound t1.nodes) z1 = some k

/-- The calls of the rotations made in the rounds of a record, in call order. -/
def rotateCalls (rounds : List (Iteration α φ)) : List (RotateCall α φ) :=
  rounds.flatMap fun it => it.calls

end CEx3

namespace CModel

/-! # Arrays and counting loops of the C and C++ sources

An array is the list of its elements; an index is an `int`. -/

/-- The read `arr[i]`: `none` when `i` is outside the array. -/
def readAt {τ : Type} (arr : List τ) (i : Int) : Option τ :=
  if 0 ≤ i then arr[i.toNat]? else none

/-- The write `arr[i] = x`: `none` when `i` is outside the array. -/
def writeAt {τ : Type} (arr : List τ) (i : Int) (x : τ) : Option (List τ) :=
  if 0 ≤ i ∧ i.toNat < arr.length then some (arr.set i.toNat x) else none

/-- The loop `for (i = lo; i < hi; i++) body`, where `body` does not assign to `i` or to the
bounds: `body` is run for `i = lo, lo + 1, ..., hi - 1` on the state `s`. -/
def forLoop {σ : Type} (lo hi : Int) (body : Int → σ → Option σ) (s : σ) : Option σ :=
  (List.range (hi - lo).toNat).foldlM (fun s (k : Nat) => body (lo + (k : Int)) s) s

end CModel

namespace CEx1

/-! # The student sorts of `C_Ex1/manageStudents.c`

The array `studentArr` is the list of the students read so far; the local array `temp` of
`mergeSort` has `MAX_ARR_LEN` elements, none of them initialised at first (`none`). -/

open CModel

/-- The macro `MAX_ARR_LEN`. -/
def MAX_ARR_LEN : Int := 5001

/-- The struct `Student`; strings are sequences of character codes, `score` is exact. -/
structure Student where
  id : List Nat
  name : List Nat
  country : List Nat
  city : List Nat
  grade : Int
  age : Int
  score : ℚ
  deriving DecidableEq, Repr

/-- The `while` loop of `mergeSort`, on the state `(l, m, i, temp)`; the first argument bounds
the number of rounds. -/
def mergeWhile (studentArr : List Student) (mid high : Int) :
    Nat → Int → Int → Int → List (Option Student) →
      Option (Int × Int × Int × List (Option Student))
  | 0, _, _, _, _ => none
  | fuel + 1, l, m, i, temp =>
    if l ≤ mid ∧ m ≤ high then
      (readAt studentArr l).bind fun sl =>
      (readAt studentArr m).bind fun sm =>
      if sl.grade ≥ sm.grade then
        (writeAt temp i (some sl)).bind fun temp =>
        mergeWhile studentArr mid high fuel (l + 1) m (i + 1) temp
      else
        (writeAt temp i (some sm)).bind fun temp =>
        mergeWhile studentArr mid high fuel l (m + 1) (i + 1) temp
    else some (l, m, i, temp)

/-- The loops `for (k = first; k <= last; k++) { temp[i] = studentArr[k]; i++; }` of
`mergeSort`, on the state `(i, temp)`. -/
def copyRest (studentArr : List Student) (first last : Int)
    (st : Int × List (Option Student)) : Option (Int × List (Option Student)) :=
  forLoop first (last + 1) (fun k st =>
    (readAt studentArr k).bind fun s =>
    (writeAt st.2 st.1 (some s)).bind fun temp => some (st.1 + 1, temp)) st

/-- The loop `for (k = low; k <= high; k++) studentArr[k] = temp[k]` of `mergeSort`; reading
an element of `temp` that was never written does not return. -/
def copyBack (temp : List (Option Student)) (low high : Int) (studentArr : List Student) :
    Option (List Student) :=
  forLoop low (high + 1) (fun k arr =>
    (readAt temp k).bind fun t =>
    match t with
    | none => none
    | some s => writeAt arr k s) studentArr

/-- `mergeSort(studentArr, low, mid, high)`: the array after the call. -/
def mergeSort (studentArr : List Student) (low mid high : Int) : Option (List Student) :=
  let temp : List (Option Student) := List.replicate MAX_ARR_LEN.toNat none
  let l := low
  let i := low
  let m := mid + 1
  (mergeWhile studentArr mid high (high - low + 2).toNat l m i temp).bind fun st =>
  (if st.1 > mid then copyRest studentArr st.2.1 high (st.2.2.1, st.2.2.2)
    else copyRest studentArr st.1 mid (st.2.2.1, st.2.2.2)).bind fun st2 =>
  copyBack st2.2 low high studentArr

/-- `mergePartition(studentArr, low, high)`: the array after the call; the first argument
bounds the recursion depth. -/
def mergePartition : Nat → List Student → Int → Int → Option (List Student)
  | 0, _, _, _ => none
  | fuel + 1, studentArr, low, high =>
    if low < high then
      let mid := Int.tdiv (low + high) 2
      (mergePartition fuel studentArr low mid).bind fun arr1 =>
      (mergePartition fuel arr1 (mid + 1) high).bind fun arr2 =>
      mergeSort arr2 low mid high
    else some studentArr

/-- `swap(&studentArr[a], &studentArr[b])`: the array after the call. -/
def swap (studentArr : List Student) (a b : Int) : Option (List Student) :=
  (readAt studentArr a).bind fun t =>
  (readAt studentArr b).bind fun sb =>
  (writeAt studentArr a sb).bind fun arr =>
  writeAt arr b t

/-- `quickPartition(studentArr, low, high)`: the array after the call and the returned
index; the loop `for (j = low; j <= high - 1; j++)` runs on the state `(studentArr, i)`. -/
def quickPartition (studentArr : List Student) (low high : Int) :
    Option (List Student × Int) :=
  (readAt studentArr high).bind fun pivot =>
  let i := low - 1
  (forLoop low (high - 1 + 1) (fun j st =>
    (readAt st.1 j).bind fun sj =>
    if CEx3.strcmp sj.name pivot.name ≤ 0 then
      let i := st.2 + 1
      (swap st.1 i j).bind fun arr => some (arr, i)
    else some st) (studentArr, i)).bind fun st =>
  (swap st.1 (st.2 + 1) high).bind fun arr => some (arr, st.2 + 1)

/-- `quickSort(studentArr, low, high)`: the array after the call; the first argument bounds
the recursion depth. -/
def quickSort : Nat → List Student → Int → Int → Option (List Student)
  | 0, _, _, _ => none
  | fuel + 1, studentArr, low, high =>
    if low < high then
      (quickPartition studentArr low high).bind fun r =>
      let pi := r.2
      (quickSort fuel r.1 low (pi - 1)).bind fun arr1 =>
      quickSort fuel arr1 (pi + 1) high
    else some studentArr

/-- A student with the given name and grade, for the examples. -/
def student (name : List Nat) (grade : Int) : Student :=
  { id := [], name := name, country := [], city := [], grade := grade, age := 18, score := 0 }

end CEx1

namespace CEx2

/-! # The tree analyzer of `C_Ex2/TreeAnalyzer.c` -/

open CModel

/-- The struct `Node`: `children` is the allocated array of child indices. -/
structure Node where
  key : Int
  parent : Int
  children : List Int
  numOfChildren : Int
  height : Int
  prev : Int
  depth : Int
  deriving DecidableEq, Repr

/-- The body of the inner loop of `findDiameter`, for the child index `j` of the node `ni`;
the state is `(max1, max2)`. -/
def diameterStep (tree : List Node) (ni : Node) (j : Int) (st : Int × Int) :
    Option (Int × Int) :=
  (readAt ni.children j).bind fun currChildIndex =>
  (readAt tree currChildIndex).bind fun child =>
  if child.depth > st.1 then
    if child.depth > st.2 then some (child.depth, st.1)
    else some (st.1, child.depth)
  else some st

/-- `findDiameter(tree, numOfNodes)` -/
def findDiameter (tree : List Node) (numOfNodes : Int) : Option Int :=
  (forLoop 0 numOfNodes (fun i maxDiameter =>
    (readAt tree i).bind fun ni =>
    (forLoop 0 ni.numOfChildren (diameterStep tree ni) (0, 0)).bind fun st =>
    let tempDiameter := st.1 + st.2 + 1
    if tempDiameter > maxDiameter then some tempDiameter else some maxDiameter) 0).bind
  fun maxDiameter => some (maxDiameter + 1)

/-- The vertices `u` and `v` are joined by an edge: one is listed as a child of the other. -/
def adjacent (tree : List Node) (u v : Nat) : Bool :=
  (match tree[u]? with
    | some n => (n.children.take n.numOfChildren.toNat).contains (v : Int)
    | none => false) ||
  (match tree[v]? with
    | some n => (n.children.take n.numOfChildren.toNat).contains (u : Int)
    | none => false)

/-- The vertices (below `n`) that a path of at most `k` edges from `u` reaches. -/
def ball (tree : List Node) (n : Nat) : Nat → Nat → List Nat
  | 0, u => [u]
  | k + 1, u =>
    (List.range n).filter fun v =>
      (ball tree n k u).contains v || (ball tree n k u).any fun w => adjacent tree w v

/-- The number of edges of the path between `u` and `v` (0 when there is none). -/
def distance (tree : List Node) (n u v : Nat) : Nat :=
  ((List.range n).find? fun k => (ball tree n k u).contains v).getD 0

/-- The diameter of the tree on the vertices `0, ..., n - 1`: the number of edges on a longest
path between two vertices. -/
def treeDiameter (tree : List Node) (n : Nat) : Nat :=
  ((List.range n).map fun u =>
    ((List.range n).map fun v => distance tree n u v).foldl max 0).foldl max 0

/-- The number of edges on the longest downward path from the vertex `v` to a leaf; the first
argument bounds the length of the path. -/
def downHeight (tree : List Node) : Nat → Nat → Nat
  | 0, _ => 0
  | fuel + 1, v =>
    match tree[v]? with
    | none => 0
    | some n =>
      ((n.children.take n.numOfChildren.toNat).map fun c =>
        downHeight tree fuel c.toNat + 1).foldl max 0

/-- The tree with the single vertex 0. -/
def singleVertex : List Node :=
  [{ key := 0, parent := -1, children := [], numOfChildren := 0, height := 0, prev := -1,
     depth := 0 }]

/-- The path 0 - 1 - 2 rooted at 0. -/
def pathOfThree : List Node :=
  [{ key := 0, parent := -1, children := [1], numOfChildren := 1, height := 0, prev := -1,
     depth := 2 },
   { key := 1, parent := 0, children := [2], numOfChildren := 1, height := 1, prev := 0,
     depth := 1 },
   { key := 2, parent := 1, children := [], numOfChildren := 0, height := 2, prev := 1,
     depth := 0 }]

/-- The root 0 with the children 1 and 2, below 1 the path 1 - 3 - 4, below 2 the leaf 5. -/
def twoBranches : List Node :=
  [{ key := 0, parent := -1, children := [1, 2], numOfChildren := 2, height := 0, prev := -1,
     depth := 3 },
   { key := 1, parent := 0, children := [3], numOfChildren := 1, height := 1, prev := 0,
     depth := 2 },
   { key := 2, parent := 0, children := [5], numOfChildren := 1, height := 1, prev := 0,
     depth := 1 },
   { key := 3, parent := 1, children := [4], numOfChildren := 1, height := 2, prev := 1,
     depth := 1 },
   { key := 4, parent := 3, children := [], numOfChildren := 0, height := 3, prev := 3,
     depth := 0 },
   { key := 5, parent := 2, children := [], numOfChildren := 0, height := 2, prev := 2,
     depth := 0 }]

end CEx2

namespace CppEx3

/-! # The spam detector and the hash map of `CPP_Ex3`

`SpamDetector.cpp`: what a function writes to `std::cout` is returned as the list of the
lines written. -/

/-- The macro `SPAM`. -/
def SPAM : String := "SPAM"

/-- The macro `NOT_SPAM`. -/
def NOT_SPAM : String := "NOT_SPAM"

/-- `printResult(finalScore, threshold)`: the line written to `std::cout`. -/
def printResult (finalScore threshold : Int) : List String :=
  if finalScore ≥ threshold then [SPAM] else [NOT_SPAM]

/-! ## The hash map of `HashMap.hpp`

The bucket array `_mapPointer` is the list of its buckets, a bucket the list of its pairs.
`arrayId` tells the allocations of the bucket array apart: every `new bucket[...]` gives a
new one, and an iterator into a bucket is only valid for the array it was taken from.
Allocation is taken to succeed (no `std::bad_alloc`), the `int` fields are unbounded, and the
load factor is the exact quotient. -/

open CModel

variable {K V : Type}

/-- The macro `INIT_CAPACITY`. -/
def INIT_CAPACITY : Int := 16

/-- The macro `MIN_VALID_CAPACITY`. -/
def MIN_VALID_CAPACITY : Int := 1

/-- The macro `INIT_SIZE`. -/
def INIT_SIZE : Int := 0

/-- The macro `MIN_LOAD_FACTOR`. -/
def MIN_LOAD_FACTOR : ℚ := 1 / 4

/-- The macro `MAX_LOAD_FACTOR`. -/
def MAX_LOAD_FACTOR : ℚ := 3 / 4

/-- The macro `TABLE_SIZE_FACTOR`. -/
def TABLE_SIZE_FACTOR : Int := 2

/-- The private members of the class `HashMap`; `_hashFunction` is `std::hash<KeyT>`, with
values in `size_t`. -/
structure HashMap (K V : Type) where
  _size : Int
  _capacity : Int
  _minLoadFactor : ℚ
  _maxLoadFactor : ℚ
  _mapPointer : List (List (K × V))
  arrayId : Nat
  _hashFunction : K → Nat

/-- `_hashingFunc(key, capacity)`: the `int` operand `capacity - 1` is converted to the
64-bit `size_t` before the bitwise and. -/
def HashMap._hashingFunc (m : HashMap K V) (key : K) (capacity : Int) : Int :=
  ((m._hashFunction key &&& ((capacity - 1) % 2 ^ 64).toNat : Nat) : Int)

/-- The call `table[i].push_back(p)` on a bucket array. -/
def pushBack (table : List (List (K × V))) (i : Int) (p : K × V) :
    Option (List (List (K × V))) :=
  (readAt table i).bind fun bucket => writeAt table i (bucket ++ [p])

/-- `_rehashMap(newCapacity)` -/
def HashMap._rehashMap (m : HashMap K V) (newCapacity : Int) : Option (HashMap K V) :=
  let tempHashMap : List (List (K × V)) := List.replicate newCapacity.toNat []
  (forLoop 0 m._capacity (fun i temp =>
    (readAt m._mapPointer i).bind fun bucket =>
    bucket.foldlM (fun temp currentPair =>
      let newHashValue := m._hashingFunc currentPair.1 newCapacity
      pushBack temp newHashValue currentPair) temp) tempHashMap).bind fun temp =>
  some { m with _capacity := newCapacity, _mapPointer := temp, arrayId := m.arrayId + 1 }

/-- The default constructor, for a given `std::hash<KeyT>`. -/
def HashMap.new (hash : K → Nat) : HashMap K V :=
  { _size := INIT_SIZE, _capacity := INIT_CAPACITY, _minLoadFactor := MIN_LOAD_FACTOR,
    _maxLoadFactor := MAX_LOAD_FACTOR, _mapPointer := List.replicate INIT_CAPACITY.toNat [],
    arrayId := 0, _hashFunction := hash }

/-- `size()` -/
def HashMap.size (m : HashMap K V) : Int := m._size

/-- `capacity()` -/
def HashMap.capacity (m : HashMap K V) : Int := m._capacity

/-- `empty()` -/
def HashMap.empty (m : HashMap K V) : Bool := if m._size = 0 then true else false

/-- `getLoadFactor()` -/
def HashMap.getLoadFactor (m : HashMap K V) : ℚ := (m._size : ℚ) / (m._capacity : ℚ)

/-- `containsKey(key)` -/
def HashMap.containsKey [DecidableEq K] (m : HashMap K V) (key : K) : Option Bool :=
  let hashValue := m._hashingFunc key m._capacity
  (readAt m._mapPointer hashValue).bind fun bucket =>
  some (bucket.any fun currentPair => decide (currentPair.1 = key))

/-- `at(key)`: `none` also when the function throws `std::invalid_argument`. -/
def HashMap.at [DecidableEq K] (m : HashMap K V) (key : K) : Option V :=
  let hashValue := m._hashingFunc key m._capacity
  (readAt m._mapPointer hashValue).bind fun bucket =>
  (bucket.find? fun p => decide (p.1 = key)).map Prod.snd

/-- `insert(key, value)`: the returned `bool` and the map after the call. -/
def HashMap.insert [DecidableEq K] (m : HashMap K V) (key : K) (value : V) :
    Option (Bool × HashMap K V) :=
  (m.containsKey key).bind fun found =>
  if found then some (false, m)
  else
    let m1 := { m with _size := m._size + 1 }
    (if m1.getLoadFactor > m1._maxLoadFactor then
        m1._rehashMap (m1._capacity * TABLE_SIZE_FACTOR)
      else some m1).bind fun m2 =>
    let hashValue := m2._hashingFunc key m2._capacity
    (pushBack m2._mapPointer hashValue (key, value)).bind fun table =>
    some (true, { m2 with _mapPointer := table })

/-- An iterator into a bucket (`std::vector<...>::iterator`): the bucket array and the bucket
it was taken from, and the position in the bucket. -/
structure BucketIter where
  array : Nat
  bucket : Int
  pos : Nat
  deriving DecidableEq, Repr

/-- The call `_mapPointer[i].erase(it)`: defined only for an iterator taken from this very
bucket that points to one of its elements. -/
def HashMap.vectorErase (m : HashMap K V) (i : Int) (it : BucketIter) :
    Option (HashMap K V) :=
  (readAt m._mapPointer i).bind fun bucket =>
  if it.array = m.arrayId ∧ it.bucket = i ∧ it.pos < bucket.length then
    (writeAt m._mapPointer i (bucket.eraseIdx it.pos)).bind fun table =>
    some { m with _mapPointer := table }
  else none

/-- `erase(key)`: the returned `bool` and the map after the call. -/
def HashMap.erase [DecidableEq K] (m : HashMap K V) (key : K) : Option (Bool × HashMap K V) :=
  (m.containsKey key).bind fun found =>
  if !found then some (false, m)
  else
    let hashValue := m._hashingFunc key m._capacity
    (readAt m._mapPointer hashValue).bind fun bucket =>
    let pos := bucket.findIdx fun p => decide (p.1 = key)
    if pos < bucket.length then
      let it : BucketIter := { array := m.arrayId, bucket := hashValue, pos := pos }
      let m1 := { m with _size := m._size - 1 }
      (if m1.getLoadFactor < m1._minLoadFactor ∧ m1._capacity > MIN_VALID_CAPACITY then
          m1._rehashMap (Int.tdiv m1._capacity TABLE_SIZE_FACTOR)
        else some m1).bind fun m2 =>
      let newHashValue := m2._hashingFunc key m2._capacity
      (m2.vectorErase newHashValue it).bind fun m3 => some (true, m3)
    else none

/-- `clear()` -/
def HashMap.clear (m : HashMap K V) : HashMap K V :=
  { m with _size := 0, _mapPointer := List.replicate m._capacity.toNat [],
           arrayId := m.arrayId + 1 }

/-- The members `_currentBucket` and `_currentObject` of a `const_iterator`; the iterators
considered together belong to one map, so their `_hashMap` members are equal. -/
structure const_iterator where
  _currentBucket : Int
  _currentObject : Int
  deriving DecidableEq, Repr

/-- The loop `while (_mapPointer[b].empty() && b < capacity()) b++` of the constructor of
`const_iterator`: the bucket is read before the bound is tested.  The first argument bounds
the number of rounds. -/
def skipEmptyBelow (m : HashMap K V) : Nat → Int → Option Int
  | 0, _ => none
  | fuel + 1, b =>
    (readAt m._mapPointer b).bind fun bucket =>
    if bucket.isEmpty ∧ b < m.capacity then skipEmptyBelow m fuel (b + 1) else some b

/-- The loop `while (_mapPointer[b].empty() && b != _capacity) b++` of `operator++`. -/
def skipEmptyUntil (m : HashMap K V) : Nat → Int → Option Int
  | 0, _ => none
  | fuel + 1, b =>
    (readAt m._mapPointer b).bind fun bucket =>
    if bucket.isEmpty ∧ b ≠ m._capacity then skipEmptyUntil m fuel (b + 1) else some b

/-- The constructor `const_iterator(hashMap, bucket, object)`. -/
def const_iterator.new (m : HashMap K V) (bucket object : Int) : Option const_iterator :=
  if !m.empty then
    (skipEmptyBelow m (m._capacity.toNat + 2) bucket).bind fun b =>
    some { _currentBucket := b, _currentObject := object }
  else some { _currentBucket := bucket, _currentObject := object }

/-- The `operator*` of `const_iterator`. -/
def const_iterator.deref (m : HashMap K V) (it : const_iterator) : Option (K × V) :=
  (readAt m._mapPointer it._currentBucket).bind fun bucket => readAt bucket it._currentObject

/-- The prefix `operator++` of `const_iterator`. -/
def const_iterator.next (m : HashMap K V) (it : const_iterator) : Option const_iterator :=
  (readAt m._mapPointer it._currentBucket).bind fun bucket =>
  if it._currentObject = (bucket.length : Int) - 1 then
    (skipEmptyUntil m (m._capacity.toNat + 2) (it._currentBucket + 1)).bind fun b =>
    some { _currentBucket := b, _currentObject := 0 }
  else some { it with _currentObject := it._currentObject + 1 }

/-- `begin()` -/
def HashMap.begin (m : HashMap K V) : Option const_iterator := const_iterator.new m 0 0

/-- `end()` -/
def HashMap.end (m : HashMap K V) : Option const_iterator :=
  const_iterator.new m m._capacity 0

/-- The maps reached from the default constructor by calls of `insert`, `erase` and `clear`
that return. -/
inductive Reached [DecidableEq K] : HashMap K V → Prop where
  | new (hash : K → Nat) : Reached (HashMap.new hash)
  | insert (m m' : HashMap K V) (key : K) (value : V) (b : Bool) :
      Reached m → m.insert key value = some (b, m') → Reached m'
  | erase (m m' : HashMap K V) (key : K) (b : Bool) :
      Reached m → m.erase key = some (b, m') → Reached m'
  | clear (m : HashMap K V) : Reached m → Reached m.clear

/-- All stored pairs, bucket after bucket. -/
def HashMap.pairs (m : HashMap K V) : List (K × V) := m._mapPointer.flatten

/-- The representation invariant of the map: the bucket array has `_capacity >= 1` buckets,
every stored pair lies in the bucket its key hashes to, no key is stored twice, and `_size`
counts the stored pairs. -/
structure Inv (m : HashMap K V) : Prop where
  cap : 1 ≤ m._capacity
  len : m._mapPointer.length = m._capacity.toNat
  place : ∀ (i : Nat) (bucket : List (K × V)), m._mapPointer[i]? = some bucket →
    ∀ p ∈ bucket, m._hashingFunc p.1 m._capacity = (i : Int)
  nodup : (m.pairs.map Prod.fst).Nodup
  size : m._size = (m.pairs.length : Int)

/-- The part of the invariant of the map that concerns the capacity and the load: the two
bounds of the load factor are the ones the constructor sets, the capacity is a power of two,
and the `_size` is at most three quarters of the capacity. -/
structure LoadInv (m : HashMap K V) : Prop where
  minLoad : m._minLoadFactor = MIN_LOAD_FACTOR
  maxLoad : m._maxLoadFactor = MAX_LOAD_FACTOR
  pow : ∃ k : Nat, m._capacity = 2 ^ k
  load : 4 * m._size ≤ 3 * m._capacity

end CppEx3

namespace CEx3

variable {α φ σ β : Type}

/-! ## Store lemmas -/

theorem readNode_set (m : List (Node α)) (a b : Nat) (n : Node α) :
    readNode (m.set a n) (some b) =
      if b = a ∧ a < m.length then some n else readNode m (some b) := by
  unfold readNode
  by_cases hab : b = a
  · subst hab
    by_cases h : b < m.length
    · simp [h]
    · have h1 : m.length ≤ b := by omega
      simp [h, List.getElem?_eq_none h1, h1]
  · simp [hab, List.getElem?_set_ne (Ne.symm hab)]

theorem lt_of_read {m : List (Node α)} {a : Nat} {n : Node α}
    (h : readNode m (some a) = some n) : a < m.length := by
  by_contra hc
  have h1 : m.length ≤ a := by omega
  simp [readNode, List.getElem?_eq_none h1] at h

theorem readNode_none (m : List (Node α)) : readNode m none = none := rfl

theorem writeNode_some (m : List (Node α)) (a : Nat) (f : Node α → Node α) :
    writeNode m (some a) f = (readNode m (some a)).map fun n => m.set a (f n) := by
  unfold writeNode
  cases readNode m (some a) <;> rfl

theorem readNode_append_lt (m : List (Node α)) (n : Node α) {a : Nat} (h : a < m.length) :
    readNode (m ++ [n]) (some a) = readNode m (some a) := by
  unfold readNode
  exact List.getElem?_append_left h

theorem readNode_append_length (m : List (Node α)) (n : Node α) :
    readNode (m ++ [n]) (some m.length) = some n := by
  unfold readNode
  simp

/-! ## Shapes, paths and the store -/

@[simp] theorem addrs_nil : (Tree.nil : Tree α).addrs = [] := rfl

@[simp] theorem addrs_node (l : Tree α) (a : Nat) (c : Color) (d : α) (r : Tree α) :
    (Tree.node l a c d r).addrs = l.addrs ++ a :: r.addrs := by
  simp [Tree.addrs, Tree.toList]

@[simp] theorem datas_nil : (Tree.nil : Tree α).datas = [] := rfl

@[simp] theorem datas_node (l : Tree α) (a : Nat) (c : Color) (d : α) (r : Tree α) :
    (Tree.node l a c d r).datas = l.datas ++ d :: r.datas := by
  simp [Tree.datas, Tree.toList]

@[simp] theorem ptr_nil : (Tree.nil : Tree α).ptr = none := rfl

@[simp] theorem ptr_node (l : Tree α) (a : Nat) (c : Color) (d : α) (r : Tree α) :
    (Tree.node l a c d r).ptr = some a := rfl

@[simp] theorem ctxPtr_nil : ctxPtr ([] : List (Frame α)) = none := rfl

@[simp] theorem ctxPtr_cons (f : Frame α) (ctx : List (Frame α)) :
    ctxPtr (f :: ctx) = some f.addr := rfl

@[simp] theorem addr_L (a : Nat) (c : Color) (d : α) (r : Tree α) :
    (Frame.L a c d r).addr = a := rfl

@[simp] theorem addr_R (l : Tree α) (a : Nat) (c : Color) (d : α) :
    (Frame.R l a c d).addr = a := rfl

@[simp] theorem sib_L (a : Nat) (c : Color) (d : α) (r : Tree α) :
    (Frame.L a c d r).sib = r := rfl

@[simp] theorem sib_R (l : Tree α) (a : Nat) (c : Color) (d : α) :
    (Frame.R l a c d).sib = l := rfl

@[simp] theorem ctxAddrs_nil : ctxAddrs ([] : List (Frame α)) = [] := rfl

@[simp] theorem ctxAddrs_cons (f : Frame α) (ctx : List (Frame α)) :
    ctxAddrs (f :: ctx) = f.addr :: (f.sib.addrs ++ ctxAddrs ctx) := rfl

theorem ptr_eq_some_mem {t : Tree α} {x : Nat} (h : t.ptr = some x) : x ∈ t.addrs := by
  cases t with
  | nil => cases h
  | node l a c d r => simp at h; simp [h]

@[simp] theorem toList_plug (t : Tree α) (ctx : List (Frame α)) :
    (plug t ctx).toList = ctxBefore ctx ++ t.toList ++ ctxAfter ctx := by
  induction ctx generalizing t with
  | nil => simp [plug, ctxBefore, ctxAfter]
  | cons f ctx ih =>
    cases f <;> simp [plug, Frame.fill, ih, ctxBefore, ctxAfter, Tree.toList]

theorem perm_ctxAddrs (ctx : List (Frame α)) :
    ((ctxBefore ctx ++ ctxAfter ctx).map Prod.fst).Perm (ctxAddrs ctx) := by
  induction ctx with
  | nil => simp [ctxBefore, ctxAfter, ctxAddrs]
  | cons f ctx ih =>
    rw [← Multiset.coe_eq_coe] at ih ⊢
    cases f with
    | L a c d r =>
      simp only [ctxBefore, ctxAfter, ctxAddrs, Frame.addr, Frame.sib, List.map_append,
        List.map_cons, Tree.addrs, ← Multiset.coe_add, ← Multiset.cons_coe,
        ← Multiset.singleton_add, ← ih, List.cons_append]
      abel
    | R l a c d =>
      simp only [ctxBefore, ctxAfter, ctxAddrs, Frame.addr, Frame.sib, List.map_append,
        List.map_cons, Tree.addrs, ← Multiset.coe_add, ← Multiset.cons_coe,
        ← Multiset.singleton_add, ← ih, List.map_nil, Multiset.coe_nil, List.cons_append]
      abel

theorem perm_addrs_plug (t : Tree α) (ctx : List (Frame α)) :
    (plug t ctx).addrs.Perm (t.addrs ++ ctxAddrs ctx) := by
  have h := perm_ctxAddrs ctx
  rw [← Multiset.coe_eq_coe] at h ⊢
  simp only [Tree.addrs, toList_plug, List.map_append, ← Multiset.coe_add, ← h]
  abel

theorem rep_plug (nodes : List (Node α)) (t : Tree α) (ctx : List (Frame α)) :
    Rep nodes (plug t ctx) none ↔ Rep nodes t (ctxPtr ctx) ∧ RepCtx nodes ctx t.ptr := by
  induction ctx generalizing t with
  | nil => simp [plug, ctxPtr, RepCtx]
  | cons f ctx ih =>
    cases f with
    | L a c d r =>
      simp only [plug, Frame.fill, ih, Rep, RepCtx, ctxPtr_cons, addr_L, addr_R, ptr_node]
      tauto
    | R l a c d =>
      simp only [plug, Frame.fill, ih, Rep, RepCtx, ctxPtr_cons, addr_L, addr_R, ptr_node]
      tauto

theorem rep_congr {m m' : List (Node α)} {t : Tree α} {par : Ptr}
    (h : ∀ x ∈ t.addrs, readNode m' (some x) = readNode m (some x)) (hr : Rep m t par) : Rep m' t par := by
  induction t generalizing par with
  | nil => trivial
  | node l a c d r ihl ihr =>
    obtain ⟨h1, h2, h3⟩ := hr
    refine ⟨?_, ihl ?_ h2, ihr ?_ h3⟩
    · rw [h a (by simp)]; exact h1
    · intro x hx; exact h x (by simp; tauto)
    · intro x hx; exact h x (by simp; tauto)

theorem repCtx_congr {m m' : List (Node α)} {ctx : List (Frame α)} {p : Ptr}
    (h : ∀ x ∈ ctxAddrs ctx, readNode m' (some x) = readNode m (some x))
    (hr : RepCtx m ctx p) : RepCtx m' ctx p := by
  induction ctx generalizing p with
  | nil => trivial
  | cons f ctx ih =>
    cases f with
    | L a c d r =>
      obtain ⟨h1, h2, h3⟩ := hr
      refine ⟨?_, rep_congr ?_ h2, ih ?_ h3⟩
      · rw [h a (by simp)]; exact h1
      · intro x hx; exact h x (by simp; tauto)
      · intro x hx; exact h x (by simp; tauto)
    | R l a c d =>
      obtain ⟨h1, h2, h3⟩ := hr
      refine ⟨?_, rep_congr ?_ h2, ih ?_ h3⟩
      · rw [h a (by simp)]; exact h1
      · intro x hx; exact h x (by simp; tauto)
      · intro x hx; exact h x (by simp; tauto)

theorem rep_set {m : List (Node α)} {t : Tree α} {par : Ptr} {a : Nat} {n : Node α}
    (h : a ∉ t.addrs) : Rep (m.set a n) t par ↔ Rep m t par := by
  constructor
  · refine rep_congr fun x hx => ?_
    have : ¬ x = a := fun e => h (e ▸ hx)
    simp [readNode_set, this]
  · refine rep_congr fun x hx => ?_
    have : ¬ x = a := fun e => h (e ▸ hx)
    simp [readNode_set, this]

theorem repCtx_set {m : List (Node α)} {ctx : List (Frame α)} {p : Ptr} {a : Nat}
    {n : Node α} (h : a ∉ ctxAddrs ctx) : RepCtx (m.set a n) ctx p ↔ RepCtx m ctx p := by
  constructor
  · refine repCtx_congr fun x hx => ?_
    have : ¬ x = a := fun e => h (e ▸ hx)
    simp [readNode_set, this]
  · refine repCtx_congr fun x hx => ?_
    have : ¬ x = a := fun e => h (e ▸ hx)
    simp [readNode_set, this]

theorem models_plug_iff (tree : RBTree α φ) (t : Tree α) (ctx : List (Frame α)) :
    Models tree (plug t ctx) ↔
      tree.root = (plug t ctx).ptr ∧
        (Rep tree.nodes t (ctxPtr ctx) ∧ RepCtx tree.nodes ctx t.ptr) ∧
        (t.addrs ++ ctxAddrs ctx).Nodup := by
  constructor
  · rintro ⟨h1, h2, h3⟩
    exact ⟨h1, (rep_plug _ _ _).1 h2, (perm_addrs_plug t ctx).nodup_iff.1 h3⟩
  · rintro ⟨h1, h2, h3⟩
    exact ⟨h1, (rep_plug _ _ _).2 h2, (perm_addrs_plug t ctx).nodup_iff.2 h3⟩

theorem ptr_plug_cons (t t' : Tree α) (f : Frame α) (ctx : List (Frame α)) :
    (plug t (f :: ctx)).ptr = (plug t' (f :: ctx)).ptr := by
  induction ctx generalizing t t' f with
  | nil => cases f <;> rfl
  | cons g ctx ih => exact ih _ _ g

/-! ## The rotations on a shape -/

theorem leftRotate_spec (tree : RBTree α φ) (l : Tree α) (a : Nat) (c : Color) (d : α)
    (rl : Tree α) (b : Nat) (c' : Color) (d' : α) (rr : Tree α) (ctx : List (Frame α))
    (hM : Models tree (plug (.node l a c d (.node rl b c' d' rr)) ctx))
    (hag : ∀ f ∈ ctx.head?, f.Agrees tree.compFunc d) :
    ∃ t1, leftRotate tree (some a) = some t1 ∧
      Models t1 (plug (.node (.node l a c d rl) b c' d' rr) ctx) ∧
      t1.nodes.length = tree.nodes.length ∧ t1.compFunc = tree.compFunc ∧
      t1.size = tree.size ∧ t1.freeFunc = tree.freeFunc := by
  obtain ⟨root, cmp, fr, sz, m⟩ := tree
  simp only [models_plug_iff] at hM ⊢
  obtain ⟨hroot, ⟨hrep, hctx⟩, hnd⟩ := hM
  have hnd' : ((Tree.node (.node l a c d rl) b c' d' rr).addrs ++ ctxAddrs ctx).Nodup := by
    simpa using hnd
  rcases ctx with _ | ⟨f | f, rest⟩ <;> rcases rl with _ | ⟨rll, x, xc, xd, rlr⟩ <;>
  ( simp only [Rep, RepCtx, ptr_node, ptr_nil, ctxPtr_nil, ctxPtr_cons, addr_L, addr_R]
      at hrep hctx
    simp only [addrs_node, addrs_nil, ctxAddrs_nil, ctxAddrs_cons, addr_L, addr_R, sib_L, sib_R,
      List.nodup_append, List.nodup_cons, List.mem_append, List.mem_cons,
      List.disjoint_cons_left, List.disjoint_cons_right, List.disjoint_append_left,
      List.disjoint_append_right, not_or, List.append_assoc, List.cons_append,
      List.nil_append, List.append_nil, List.not_mem_nil, not_false_eq_true, true_and,
      and_true, List.nodup_nil, List.disjoint_nil_left, List.disjoint_nil_right] at hnd
    simp only [List.head?_cons, List.head?_nil, Option.mem_def, Option.some.injEq, forall_eq',
      Frame.Agrees] at hag )
  all_goals
    have hla := lt_of_read hrep.1
    have hlb := lt_of_read hrep.2.2.1
    try have hlx := lt_of_read hrep.2.2.2.1.1
    try have hlf := lt_of_read hctx.1
    simp (disch := omega) only [leftRotate, hrep, hctx, writeNode_some, readNode_set,
      List.length_set, hla, hlb, compareData, hag,
      Option.map_some', Option.bind_some, Option.some_bind, and_true, true_and, if_true,
      if_neg, if_pos, if_false, Option.some.injEq, exists_eq_left']
    refine ⟨?_, ?_, hnd'⟩
    · first | rfl | (rw [hroot]; exact ptr_plug_cons _ _ _ _)
    · simp (disch := first | omega | simp only [hnd, not_false_eq_true]) only [Rep, RepCtx,
        ctxPtr_nil, ctxPtr_cons, addr_L, addr_R, ptr_nil,
        ptr_node, readNode_set, rep_set, repCtx_set, List.length_set, hla, hlb, and_true,
        true_and, if_true, if_false, if_neg, if_pos, not_false_eq_true, and_self, hrep, hctx]

theorem rightRotate_spec (tree : RBTree α φ) (ll : Tree α) (b : Nat) (c' : Color) (d' : α)
    (lr : Tree α) (a : Nat) (c : Color) (d : α) (r : Tree α) (ctx : List (Frame α))
    (hM : Models tree (plug (.node (.node ll b c' d' lr) a c d r) ctx))
    (hag : ∀ f ∈ ctx.head?, f.Agrees tree.compFunc d) :
    ∃ t1, rightRotate tree (some a) = some t1 ∧
      Models t1 (plug (.node ll b c' d' (.node lr a c d r)) ctx) ∧
      t1.nodes.length = tree.nodes.length ∧ t1.compFunc = tree.compFunc ∧
      t1.size = tree.size ∧ t1.freeFunc = tree.freeFunc := by
  obtain ⟨root, cmp, fr, sz, m⟩ := tree
  simp only [models_plug_iff] at hM ⊢
  obtain ⟨hroot, ⟨hrep, hctx⟩, hnd⟩ := hM
  have hnd' : ((Tree.node ll b c' d' (.node lr a c d r)).addrs ++ ctxAddrs ctx).Nodup := by
    simpa using hnd
  rcases ctx with _ | ⟨f | f, rest⟩ <;> rcases lr with _ | ⟨rll, x, xc, xd, rlr⟩ <;>
  ( simp only [Rep, RepCtx, ptr_node, ptr_nil, ctxPtr_nil, ctxPtr_cons, addr_L, addr_R]
      at hrep hctx
    simp only [addrs_node, addrs_nil, ctxAddrs_nil, ctxAddrs_cons, addr_L, addr_R, sib_L, sib_R,
      List.nodup_append, List.nodup_cons, List.mem_append, List.mem_cons,
      List.disjoint_cons_left, List.disjoint_cons_right, List.disjoint_append_left,
      List.disjoint_append_right, not_or, List.append_assoc, List.cons_append,
      List.nil_append, List.append_nil, List.not_mem_nil, not_false_eq_true, true_and,
      and_true, List.nodup_nil, List.disjoint_nil_left, List.disjoint_nil_right] at hnd
    simp only [List.head?_cons, List.head?_nil, Option.mem_def, Option.some.injEq, forall_eq',
      Frame.Agrees] at hag )
  all_goals
    have hla := lt_of_read hrep.1
    have hlb := lt_of_read hrep.2.1.1
    try have hlx := lt_of_read hrep.2.1.2.2.1
    try have hlf := lt_of_read hctx.1
    simp (disch := omega) only [rightRotate, hrep, hctx, writeNode_some, readNode_set,
      List.length_set, hla, hlb, compareData, hag,
      Option.map_some', Option.bind_some, Option.some_bind, and_true, true_and, if_true,
      if_neg, if_pos, if_false, Option.some.injEq, exists_eq_left']
    refine ⟨?_, ?_, hnd'⟩
    · first | rfl | (rw [hroot]; exact ptr_plug_cons _ _ _ _)
    · simp (disch := first | omega | simp only [hnd, not_false_eq_true]) only [Rep, RepCtx,
        ctxPtr_nil, ctxPtr_cons, addr_L, addr_R, ptr_nil,
        ptr_node, readNode_set, rep_set, repCtx_set, List.length_set, hla, hlb, and_true,
        true_and, if_true, if_false, if_neg, if_pos, not_false_eq_true, and_self, hrep, hctx]

/-! ## Steps of `fixTree` on a shape -/

theorem Kept.refl (t : RBTree α φ) : Kept t t := ⟨rfl, rfl, rfl, rfl⟩

theorem Kept.trans {t t' t'' : RBTree α φ} (h : Kept t t') (h' : Kept t' t'') : Kept t t'' :=
  ⟨h'.1.trans h.1, h'.2.1.trans h.2.1, h'.2.2.1.trans h.2.2.1, h'.2.2.2.trans h.2.2.2⟩

theorem ptr_plug_ne {t : Tree α} {f : Frame α} {ctx : List (Frame α)} {z : Nat}
    (h : z ∉ ctxAddrs (f :: ctx)) : ¬ some z = (plug t (f :: ctx)).ptr := by
  induction ctx generalizing t f with
  | nil =>
    cases f <;> simp at h <;> simp [plug, Frame.fill] <;> omega
  | cons g ctx ih =>
    have : z ∉ ctxAddrs (g :: ctx) := by
      simp only [ctxAddrs_cons, List.mem_cons, List.mem_append, not_or] at h ⊢
      tauto
    exact ih this

theorem ptr_plug_same {t t' : Tree α} (h : t.ptr = t'.ptr) (ctx : List (Frame α)) :
    (plug t ctx).ptr = (plug t' ctx).ptr := by
  cases ctx with
  | nil => exact h
  | cons f ctx => exact ptr_plug_cons _ _ _ _

theorem some_ne_ptr {s : Tree α} {z : Nat} (h : z ∉ s.addrs) : (some z = s.ptr) ↔ False := by
  cases s with
  | nil => simp
  | node l a c d r =>
    simp only [addrs_node, List.mem_append, List.mem_cons, not_or] at h
    simp only [ptr_node, Option.some.injEq, iff_false]
    exact h.2.1

theorem swapColors_right (tree : RBTree α φ) (A : Tree α) (x : Nat) (cx : Color) (dx : α)
    (B : Tree α) (y : Nat) (cy : Color) (dy : α) (C : Tree α) (ctx : List (Frame α))
    (hM : Models tree (plug (.node A x cx dx (.node B y cy dy C)) ctx)) :
    ∃ m, swapColors tree.nodes (some x) (some y) = some m ∧
      Models { tree with nodes := m } (plug (.node A x cy dx (.node B y cx dy C)) ctx) ∧
      m.length = tree.nodes.length := by
  obtain ⟨root, cmp, fr, sz, m⟩ := tree
  simp only [models_plug_iff] at hM ⊢
  obtain ⟨hroot, ⟨hrep, hctx⟩, hnd⟩ := hM
  have hnd' : ((Tree.node A x cy dx (.node B y cx dy C)).addrs ++ ctxAddrs ctx).Nodup := by
    simpa using hnd
  simp only [Rep, ptr_node] at hrep hctx
  simp only [addrs_node, List.nodup_append, List.nodup_cons, List.mem_append, List.mem_cons,
      List.disjoint_cons_left, List.disjoint_cons_right, List.disjoint_append_left,
      List.disjoint_append_right, not_or, List.append_assoc, List.cons_append] at hnd
  have hlx := lt_of_read hrep.1
  have hly := lt_of_read hrep.2.2.1
  simp (disch := omega) only [swapColors, hrep, writeNode_some, readNode_set,
      List.length_set, Option.map_some', Option.bind_some, Option.some_bind, and_true,
      true_and, if_true, if_neg, if_pos, if_false, Option.some.injEq, exists_eq_left']
  refine ⟨?_, ?_, hnd'⟩
  · rw [hroot]; exact ptr_plug_same (by rfl) _
  · simp (disch := first | omega | simp only [hnd, not_false_eq_true]) only [Rep, ptr_nil,
        ptr_node, readNode_set, rep_set, repCtx_set, List.length_set, and_true,
        true_and, if_true, if_false, if_neg, if_pos, not_false_eq_true, and_self, hrep, hctx]


theorem swapColors_left (tree : RBTree α φ) (A : Tree α) (x : Nat) (cx : Color) (dx : α)
    (B : Tree α) (y : Nat) (cy : Color) (dy : α) (C : Tree α) (ctx : List (Frame α))
    (hM : Models tree (plug (.node (.node B y cy dy C) x cx dx A) ctx)) :
    ∃ m, swapColors tree.nodes (some x) (some y) = some m ∧
      Models { tree with nodes := m } (plug (.node (.node B y cx dy C) x cy dx A) ctx) ∧
      m.length = tree.nodes.length := by
  obtain ⟨root, cmp, fr, sz, m⟩ := tree
  simp only [models_plug_iff] at hM ⊢
  obtain ⟨hroot, ⟨hrep, hctx⟩, hnd⟩ := hM
  have hnd' : ((Tree.node (.node B y cx dy C) x cy dx A).addrs ++ ctxAddrs ctx).Nodup := by
    simpa using hnd
  simp only [Rep, ptr_node] at hrep hctx
  simp only [addrs_node, List.nodup_append, List.nodup_cons, List.mem_append, List.mem_cons,
      List.disjoint_cons_left, List.disjoint_cons_right, List.disjoint_append_left,
      List.disjoint_append_right, not_or, List.append_assoc, List.cons_append] at hnd
  have hlx := lt_of_read hrep.1
  have hly := lt_of_read hrep.2.1.1
  simp (disch := omega) only [swapColors, hrep, writeNode_some, readNode_set,
      List.length_set, Option.map_some', Option.bind_some, Option.some_bind, and_true,
      true_and, if_true, if_neg, if_pos, if_false, Option.some.injEq, exists_eq_left']
  refine ⟨?_, ?_, hnd'⟩
  · rw [hroot]; exact ptr_plug_same (by rfl) _
  · simp (disch := first | omega | simp only [hnd, not_false_eq_true]) only [Rep, ptr_nil,
        ptr_node, readNode_set, rep_set, repCtx_set, List.length_set, and_true,
        true_and, if_true, if_false, if_neg, if_pos, not_false_eq_true, and_self, hrep, hctx]

theorem isRedNode_ptr {m : List (Node α)} {u : Tree α} {par : Ptr} (h : Rep m u par) :
    isRedNode m u.ptr = some (decide (u.color = Color.RED)) := by
  cases u with
  | nil => simp [isRedNode, Tree.color]
  | node l a c d r =>
    simp only [Rep] at h
    simp [isRedNode, h.1, Tree.color]

theorem fixTreeStep_root (tree : RBTree α φ) (Z : Tree α) (z : Nat) (hz : Z.ptr = some z)
    (hM : Models tree (plug Z [])) :
    fixTreeStep tree (some z) = some (.done tree) := by
  have h := hM.root
  simp only [plug, hz] at h
  simp [fixTreeStep, h]

theorem fixTreeStep_black (tree : RBTree α φ) (Z : Tree α) (z : Nat) (hz : Z.ptr = some z)
    (f : Frame α) (ctx : List (Frame α)) (hM : Models tree (plug Z (f :: ctx)))
    (hc : f.color = Color.BLACK) :
    fixTreeStep tree (some z) = some (.done tree) := by
  obtain ⟨root, cmp, fr, sz, m⟩ := tree
  rw [models_plug_iff] at hM
  obtain ⟨hroot, ⟨hrep, hctx⟩, hnd⟩ := hM
  dsimp only at hroot hrep hctx
  rcases Z with _ | ⟨zl, z', zc, zd, zr⟩
  · cases hz
  simp only [ptr_node, Option.some.injEq] at hz
  subst hz
  have hne : ¬ some z' = root := by
    rw [hroot]
    refine ptr_plug_ne ?_
    simp only [addrs_node, List.nodup_append, List.nodup_cons, List.mem_append, List.mem_cons,
      List.disjoint_cons_left, List.disjoint_cons_right, List.disjoint_append_left,
      List.disjoint_append_right, not_or, List.append_assoc, List.cons_append] at hnd
    tauto
  rcases f with ⟨p, pc, pd, s⟩ | ⟨s, p, pc, pd⟩ <;>
  ( simp only [Rep, RepCtx, ptr_node, ctxPtr_cons, addr_L, addr_R] at hrep hctx
    simp only [Frame.color] at hc
    subst hc
    simp [fixTreeStep, hne, hrep.1, hctx.1] )

theorem fixTreeStep_recolor (tree : RBTree α φ) (Z : Tree α) (z : Nat) (hz : Z.ptr = some z)
    (f1 f2 : Frame α) (rest : List (Frame α))
    (hM : Models tree (plug Z (f1 :: f2 :: rest)))
    (h1 : f1.color = Color.RED) (hu : f2.sib.color = Color.RED) :
    ∃ t', fixTreeStep tree (some z) = some (.next t' (some f2.addr)) ∧
      Models t' (plug (recolorP Z f1 f2) rest) ∧ Kept tree t' := by
  obtain ⟨root, cmp, fr, sz, m⟩ := tree
  have hM' := hM
  rw [models_plug_iff] at hM
  obtain ⟨hroot, ⟨hrep, hctx⟩, hnd⟩ := hM
  dsimp only at hroot hrep hctx
  rcases Z with _ | ⟨zl, z', zc, zd, zr⟩
  · cases hz
  simp only [ptr_node, Option.some.injEq] at hz
  subst hz
  have hne : ¬ some z' = root := by
    rw [hroot]
    refine ptr_plug_ne ?_
    simp only [addrs_node, List.nodup_append, List.nodup_cons, List.mem_append, List.mem_cons,
      List.disjoint_cons_left, List.disjoint_cons_right, List.disjoint_append_left,
      List.disjoint_append_right, not_or, List.append_assoc, List.cons_append] at hnd
    tauto
  have hnd' : ((recolorP (.node zl z' zc zd zr) f1 f2).addrs ++ ctxAddrs rest).Nodup := by
    have := (models_plug_iff _ _ rest).1 (by simpa [plug] using hM')
    rcases f1 with ⟨p, pc, pd, s⟩ | ⟨s, p, pc, pd⟩ <;>
    rcases f2 with ⟨g, gc, gd, u⟩ | ⟨u, g, gc, gd⟩ <;>
    rcases u with _ | ⟨ul, ua, uc, ud, ur⟩ <;>
    simpa [recolorP, Frame.recolor, Frame.blackenSib, Frame.fill, Tree.blacken] using this.2.2
  rcases f1 with ⟨p, pc, pd, s⟩ | ⟨s, p, pc, pd⟩ <;>
  rcases f2 with ⟨g, gc, gd, u⟩ | ⟨u, g, gc, gd⟩ <;>
  rcases u with _ | ⟨ul, ua, uc, ud, ur⟩ <;>
  simp only [Frame.color, sib_L, sib_R, Tree.color, reduceCtorEq] at h1 hu <;>
  ( subst h1; subst hu
    simp only [Rep, RepCtx, ptr_node, ptr_nil, ctxPtr_nil, ctxPtr_cons, addr_L, addr_R]
      at hrep hctx
    simp only [addrs_node, addrs_nil, ctxAddrs_nil, ctxAddrs_cons, addr_L, addr_R, sib_L, sib_R,
      List.nodup_append, List.nodup_cons, List.mem_append, List.mem_cons,
      List.disjoint_cons_left, List.disjoint_cons_right, List.disjoint_append_left,
      List.disjoint_append_right, not_or, List.append_assoc, List.cons_append,
      List.nil_append, List.append_nil, List.not_mem_nil, not_false_eq_true, true_and,
      and_true, List.nodup_nil, List.disjoint_nil_left, List.disjoint_nil_right] at hnd
    have hlp := lt_of_read hctx.1
    have hlg := lt_of_read hctx.2.2.1
    have hlu := lt_of_read hctx.2.2.2.1.1
    have e1 := hrep.1
    have e2 := hctx.1
    have e3 := hctx.2.2.1
    have e4 := hctx.2.2.2.1.1
    simp only [fixTreeStep, hne, if_false]
    simp only [e1, e2, Option.bind_some, Option.some_bind, ne_eq, not_true_eq_false, if_false]
    simp only [e3, Option.bind_some, Option.some_bind, if_true, if_false]
    simp (disch := omega) only [Option.some.injEq, if_neg, if_true]
    simp only [isRedNode, e4, Option.bind_some, Option.some_bind, decide_True, if_true]
    simp (disch := omega) only [writeNode_some, e4, e2, e3, readNode_set, List.length_set,
      Option.map_some', Option.bind_some, Option.some_bind, if_neg, if_pos, if_true, if_false,
      Option.some.injEq, LoopStep.next.injEq, addr_L, addr_R, and_true, exists_eq_left']
    rw [models_plug_iff]
    refine ⟨⟨?_, ?_, hnd'⟩, ?_⟩
    · rw [hroot]
      simp only [plug]
      exact ptr_plug_same (by rfl) rest
    · simp (disch := first | omega | simp only [hnd, not_false_eq_true]) only [Rep, RepCtx,
        recolorP, Frame.recolor, Frame.blackenSib, Frame.fill, Tree.blacken,
        ctxPtr_nil, ctxPtr_cons, addr_L, addr_R, ptr_nil,
        ptr_node, readNode_set, rep_set, repCtx_set, List.length_set, and_true,
        true_and, if_true, if_false, if_neg, if_pos, not_false_eq_true, and_self, hrep, hctx]
    · simp only [Kept, List.length_set, and_self] )

theorem oriented_head {cmp : α → α → Int} {f : Frame α} {rest : List (Frame α)}
    (h : Oriented cmp (f :: rest)) : ∀ g ∈ rest.head?, g.Agrees cmp f.data := by
  cases rest with
  | nil => simp
  | cons g rest => simpa using h.1

theorem oriented_tail {cmp : α → α → Int} {f : Frame α} {rest : List (Frame α)}
    (h : Oriented cmp (f :: rest)) : Oriented cmp rest := by
  cases rest with
  | nil => trivial
  | cons g rest => exact h.2

theorem fixTreeStep_rotate (tree : RBTree α φ) (Z : Tree α) (z : Nat) (hz : Z.ptr = some z)
    (f1 f2 : Frame α) (rest : List (Frame α))
    (hM : Models tree (plug Z (f1 :: f2 :: rest)))
    (h1 : f1.color = Color.RED) (hu : ¬ f2.sib.color = Color.RED)
    (hor : Oriented tree.compFunc (f1 :: f2 :: rest)) :
    ∃ t', fixTreeStep tree (some z) = some (.done t') ∧
      Models t' (plug (rotateP Z f1 f2) rest) ∧ Kept tree t' := by
  have hag1 := oriented_head hor
  have hag2 := oriented_head (oriented_tail hor)
  have hM' := hM
  rw [models_plug_iff] at hM
  obtain ⟨hroot, ⟨hrep, hctx⟩, hnd⟩ := hM
  rcases Z with _ | ⟨zl, z', zc, zd, zr⟩
  · cases hz
  simp only [ptr_node, Option.some.injEq] at hz
  subst hz
  have hne : ¬ some z' = tree.root := by
    rw [hroot]
    refine ptr_plug_ne ?_
    simp only [addrs_node, List.nodup_append, List.nodup_cons, List.mem_append, List.mem_cons,
      List.disjoint_cons_left, List.disjoint_cons_right, List.disjoint_append_left,
      List.disjoint_append_right, not_or, List.append_assoc, List.cons_append] at hnd
    tauto
  rcases f1 with ⟨p, pc, pd, s⟩ | ⟨s, p, pc, pd⟩ <;>
  rcases f2 with ⟨g, gc, gd, u⟩ | ⟨u, g, gc, gd⟩ <;>
  ( simp only [Frame.color, sib_L, sib_R] at h1 hu
    subst h1
    simp only [Rep, RepCtx, ptr_node, ptr_nil, ctxPtr_nil, ctxPtr_cons, addr_L, addr_R]
      at hrep hctx
    simp only [addrs_node, addrs_nil, ctxAddrs_nil, ctxAddrs_cons, addr_L, addr_R, sib_L, sib_R,
      List.nodup_append, List.nodup_cons, List.mem_append, List.mem_cons,
      List.disjoint_cons_left, List.disjoint_cons_right, List.disjoint_append_left,
      List.disjoint_append_right, not_or, List.append_assoc, List.cons_append,
      List.nil_append, List.append_nil, List.not_mem_nil, not_false_eq_true, true_and,
      and_true, List.nodup_nil, List.disjoint_nil_left, List.disjoint_nil_right] at hnd
    have e1 := hrep.1
    have e2 := hctx.1
    have e3 := hctx.2.2.1
    have e4 := isRedNode_ptr hctx.2.2.2.1
    have hzs : ¬ some z' = s.ptr := fun h => (some_ne_ptr (by tauto)).1 h
    have hps : ¬ some p = u.ptr := fun h => (some_ne_ptr (by tauto)).1 h
    simp only [fixTreeStep, hne, if_false]
    simp only [e1, e2, Option.bind_some, Option.some_bind, ne_eq, not_true_eq_false, if_false]
    simp only [e3, Option.bind_some, Option.some_bind, if_true, if_false, hps, hzs]
    simp only [e4, hu, decide_False, Option.bind_some, Option.some_bind, Bool.false_eq_true,
      if_false, and_self, and_true, true_and, and_false, false_and, if_true] )
  · -- left-left
    obtain ⟨t1, h1, hM1, hK1⟩ := rightRotate_spec tree _ p .RED pd s g gc gd u rest
      (by simpa only [plug, Frame.fill] using hM') hag2
    obtain ⟨m2, h2, hM2, hK2⟩ := swapColors_right t1 _ p .RED pd s g gc gd u rest hM1
    simp only [h1, h2, Option.bind_some, Option.some_bind, Option.some.injEq,
      LoopStep.done.injEq, exists_eq_left']
    exact ⟨hM2, hK2.trans hK1.1, hK1.2⟩
  · -- right-left: the parent is the right child, the new node its left child
    obtain ⟨t1, h1, hM1, hK1⟩ := rightRotate_spec tree zl z' zc zd zr p .RED pd s
      (.R u g gc gd :: rest) hM' hag1
    obtain ⟨t2, h2, hM2, hK2⟩ := leftRotate_spec t1 u g gc gd zl z' zc zd
      (.node zr p .RED pd s) rest (by simpa only [plug, Frame.fill] using hM1)
      (by rw [hK1.2.1]; exact hag2)
    obtain ⟨m3, h3, hM3, hK3⟩ := swapColors_left t2 _ z' zc zd u g gc gd zl rest hM2
    simp only [h1, h2, h3, Option.bind_some, Option.some_bind, Option.some.injEq,
      LoopStep.done.injEq, exists_eq_left']
    exact ⟨hM3, hK3.trans (hK2.1.trans hK1.1), hK2.2.1.trans hK1.2.1,
      hK2.2.2.1.trans hK1.2.2.1, hK2.2.2.2.trans hK1.2.2.2⟩
  · -- left-right
    obtain ⟨t1, h1, hM1, hK1⟩ := leftRotate_spec tree s p .RED pd zl z' zc zd zr
      (.L g gc gd u :: rest) hM' hag1
    obtain ⟨t2, h2, hM2, hK2⟩ := rightRotate_spec t1 (.node s p .RED pd zl) z' zc zd zr
      g gc gd u rest (by simpa only [plug, Frame.fill] using hM1)
      (by rw [hK1.2.1]; exact hag2)
    obtain ⟨m3, h3, hM3, hK3⟩ := swapColors_right t2 _ z' zc zd zr g gc gd u rest hM2
    simp only [h1, h2, h3, Option.bind_some, Option.some_bind, Option.some.injEq,
      LoopStep.done.injEq, exists_eq_left']
    exact ⟨hM3, hK3.trans (hK2.1.trans hK1.1), hK2.2.1.trans hK1.2.1,
      hK2.2.2.1.trans hK1.2.2.1, hK2.2.2.2.trans hK1.2.2.2⟩
  · -- right-right
    obtain ⟨t1, h1, hM1, hK1⟩ := leftRotate_spec tree u g gc gd s p .RED pd _ rest
      (by simpa only [plug, Frame.fill] using hM') hag2
    obtain ⟨m2, h2, hM2, hK2⟩ := swapColors_left t1 _ p .RED pd u g gc gd s rest hM1
    simp only [h1, h2, Option.bind_some, Option.some_bind, Option.some.injEq,
      LoopStep.done.injEq, exists_eq_left']
    exact ⟨hM2, hK2.trans hK1.1, hK1.2⟩

theorem ptr_recolorP (Z : Tree α) (f1 f2 : Frame α) :
    (recolorP Z f1 f2).ptr = some f2.addr := by
  cases f2 <;> rfl

theorem rootBlack_tail2 {f1 f2 : Frame α} {rest : List (Frame α)}
    (h : RootBlack (f1 :: f2 :: rest)) : RootBlack rest := by
  intro f hf
  apply h
  cases rest with
  | nil => simp at hf
  | cons g rest => simpa [List.getLast?_cons_cons] using hf

theorem color_cases (c : Color) : c = Color.RED ∨ c = Color.BLACK := by
  cases c <;> simp

theorem fixTreeLoop_spec (n : Nat) : ∀ (ctx : List (Frame α)), ctx.length ≤ n →
    ∀ (tree : RBTree α φ) (Z : Tree α) (z : Nat), Z.ptr = some z →
      Models tree (plug Z ctx) → Oriented tree.compFunc ctx → RootBlack ctx →
      ∀ fuel, ctx.length < fuel →
      ∃ t', fixTreeLoop fuel tree (some z) = some t' ∧ Models t' (fixP Z ctx) ∧
        Kept tree t' := by
  induction n using Nat.strong_induction_on with
  | _ n ih =>
    intro ctx hn tree Z z hz hM hor hrb fuel hfuel
    obtain ⟨fuel, rfl⟩ : ∃ k, fuel = k + 1 := ⟨fuel - 1, by omega⟩
    match ctx, hn, hM, hor, hrb, hfuel with
    | [], _, hM, _, _, _ =>
      refine ⟨tree, ?_, by simpa [fixP, plug] using hM, Kept.refl _⟩
      simp [fixTreeLoop, fixTreeStep_root tree Z z hz hM]
    | [f], _, hM, _, hrb, _ =>
      have hc : f.color = Color.BLACK := hrb f (by simp)
      refine ⟨tree, ?_, by simpa [fixP] using hM, Kept.refl _⟩
      simp [fixTreeLoop, fixTreeStep_black tree Z z hz f [] hM hc]
    | f1 :: f2 :: rest, hn, hM, hor, hrb, hfuel =>
      rcases color_cases f1.color with h1 | h1
      · by_cases hu : f2.sib.color = Color.RED
        · obtain ⟨t', hs, hM', hK⟩ := fixTreeStep_recolor tree Z z hz f1 f2 rest hM h1 hu
          have hlen : rest.length < n := by simp at hn; omega
          obtain ⟨t'', hl, hM'', hK'⟩ := ih rest.length hlen rest le_rfl t' _ f2.addr
            (ptr_recolorP Z f1 f2) hM'
            (by rw [hK.2.1]; exact oriented_tail (oriented_tail hor))
            (rootBlack_tail2 hrb) fuel (by simp at hfuel; omega)
          refine ⟨t'', ?_, ?_, ?_⟩
          · simp [fixTreeLoop, hs, hl]
          · simpa [fixP, h1, hu] using hM''
          · exact ⟨hK'.1.trans hK.1, hK'.2.1.trans hK.2.1, hK'.2.2.1.trans hK.2.2.1,
              hK'.2.2.2.trans hK.2.2.2⟩
        · obtain ⟨t', hs, hM', hK⟩ := fixTreeStep_rotate tree Z z hz f1 f2 rest hM h1 hu hor
          refine ⟨t', ?_, ?_, hK⟩
          · simp [fixTreeLoop, hs]
          · simpa [fixP, h1, hu] using hM'
      · refine ⟨tree, ?_, ?_, Kept.refl _⟩
        · simp [fixTreeLoop, fixTreeStep_black tree Z z hz f1 (f2 :: rest) hM h1]
        · simpa [fixP, h1] using hM

/-! ## The whole of `fixTree` on a shape -/

@[simp] theorem toList_nil : (Tree.nil : Tree α).toList = [] := rfl

@[simp] theorem toList_node (l : Tree α) (a : Nat) (c : Color) (d : α) (r : Tree α) :
    (Tree.node l a c d r).toList = l.toList ++ (a, d) :: r.toList := rfl

@[simp] theorem toList_blacken (t : Tree α) : t.blacken.toList = t.toList := by
  cases t <;> rfl

theorem toList_recolorP (Z : Tree α) (f1 f2 : Frame α) :
    (recolorP Z f1 f2).toList = (f2.fill (f1.fill Z)).toList := by
  cases f1 <;> cases f2 <;>
    simp [recolorP, Frame.recolor, Frame.blackenSib, Frame.fill]

theorem toList_rotateP (Z : Tree α) (f1 f2 : Frame α) :
    (rotateP Z f1 f2).toList = (f2.fill (f1.fill Z)).toList := by
  cases f1 <;> cases f2 <;> cases Z <;> simp [rotateP, Frame.fill]

theorem toList_plug_congr {t t' : Tree α} (h : t.toList = t'.toList) (ctx : List (Frame α)) :
    (plug t ctx).toList = (plug t' ctx).toList := by
  simp [h]

theorem toList_fixP (n : Nat) : ∀ (ctx : List (Frame α)), ctx.length ≤ n → ∀ Z : Tree α,
    (fixP Z ctx).toList = (plug Z ctx).toList := by
  induction n using Nat.strong_induction_on with
  | _ n ih =>
    intro ctx hn Z
    match ctx, hn with
    | [], _ => rfl
    | [f], _ => rfl
    | f1 :: f2 :: rest, hn =>
      unfold fixP
      split
      · rfl
      · split
        · have hlen : rest.length < n := by simp at hn; omega
          rw [ih rest.length hlen rest le_rfl]
          exact toList_plug_congr (toList_recolorP Z f1 f2) rest
        · exact toList_plug_congr (toList_rotateP Z f1 f2) rest

theorem toList_fixP' (Z : Tree α) (ctx : List (Frame α)) :
    (fixP Z ctx).toList = (plug Z ctx).toList :=
  toList_fixP ctx.length ctx le_rfl Z

theorem rep_addr_lt {m : List (Node α)} {t : Tree α} {par : Ptr} (h : Rep m t par) :
    ∀ x ∈ t.addrs, x < m.length := by
  induction t generalizing par with
  | nil => simp
  | node l a c d r ihl ihr =>
    obtain ⟨h1, h2, h3⟩ := h
    intro x hx
    simp only [addrs_node, List.mem_append, List.mem_cons] at hx
    rcases hx with hx | rfl | hx
    · exact ihl h2 x hx
    · exact lt_of_read h1
    · exact ihr h3 x hx

theorem models_length_le {tree : RBTree α φ} {T : Tree α} (hM : Models tree T) :
    T.addrs.length ≤ tree.nodes.length := by
  have hsub : T.addrs ⊆ List.range tree.nodes.length := fun x hx =>
    List.mem_range.2 (rep_addr_lt hM.rep x hx)
  simpa using (hM.nodup.subperm hsub).length_le

theorem length_ctxAddrs (ctx : List (Frame α)) : ctx.length ≤ (ctxAddrs ctx).length := by
  induction ctx with
  | nil => simp
  | cons f ctx ih => simp; omega

theorem ctx_length_lt {tree : RBTree α φ} {Z : Tree α} {ctx : List (Frame α)}
    (hM : Models tree (plug Z ctx)) :
    ctx.length < depthBound tree.nodes := by
  have h1 := models_length_le hM
  have h2 := (perm_addrs_plug Z ctx).length_eq
  have h3 := length_ctxAddrs ctx
  rw [h2, List.length_append] at h1
  unfold depthBound
  omega

theorem blacken_spec (tree : RBTree α φ) (T : Tree α) (hne : T.ptr ≠ none)
    (hM : Models tree T) :
    ∃ m, writeNode tree.nodes tree.root (fun n => { n with color := Color.BLACK }) = some m ∧
      Models { tree with nodes := m } T.blacken ∧ m.length = tree.nodes.length := by
  obtain ⟨hroot, hrep, hnd⟩ := hM
  rcases T with _ | ⟨l, a, c, d, r⟩
  · exact absurd rfl hne
  have hnd' : (Tree.node l a c d r).blacken.addrs.Nodup := by
    simpa [Tree.blacken] using hnd
  simp only [Rep, ptr_node] at hrep hroot
  simp only [addrs_node, List.nodup_append, List.nodup_cons, List.mem_append, List.mem_cons,
      List.disjoint_cons_left, List.disjoint_cons_right, List.disjoint_append_left,
      List.disjoint_append_right, not_or, List.append_assoc, List.cons_append] at hnd
  have hla := lt_of_read hrep.1
  rw [hroot]
  simp only [writeNode_some, hrep.1, Option.map_some', Option.some.injEq, exists_eq_left',
    List.length_set, and_true]
  refine ⟨rfl, ?_, hnd'⟩
  simp (disch := first | omega | simp only [hnd, not_false_eq_true]) only [Rep, Tree.blacken,
        ptr_node, readNode_set, rep_set, List.length_set, and_true,
        true_and, if_true, if_false, if_neg, if_pos, not_false_eq_true, and_self, hrep, hla]

theorem fixTree_spec (tree : RBTree α φ) (Z : Tree α) (z : Nat) (hz : Z.ptr = some z)
    (ctx : List (Frame α)) (hM : Models tree (plug Z ctx))
    (hor : Oriented tree.compFunc ctx) (hrb : RootBlack ctx) :
    ∃ t', fixTree tree (some z) = some t' ∧ Models t' (fixP Z ctx).blacken ∧ Kept tree t' := by
  obtain ⟨t1, h1, hM1, hK1⟩ := fixTreeLoop_spec ctx.length ctx le_rfl tree Z z hz hM hor hrb
    (depthBound tree.nodes) (ctx_length_lt hM)
  have hne : (fixP Z ctx).ptr ≠ none := by
    have h := toList_fixP' Z ctx
    intro hp
    cases hfx : fixP Z ctx with
    | nil =>
      rw [hfx] at h
      cases Z with
      | nil => cases hz
      | node l a c d r => simp at h
    | node l a c d r => rw [hfx] at hp; cases hp
  obtain ⟨m, h2, hM2, hl2⟩ := blacken_spec t1 _ hne hM1
  refine ⟨_, ?_, hM2, ?_⟩
  · simp only [fixTree, h1, h2, Option.bind_some, Option.some_bind]
  · exact ⟨hl2.trans hK1.1, hK1.2.1, hK1.2.2.1, hK1.2.2.2⟩

/-! ## Membership scan, descent and traversal on a shape -/

theorem height_le_length (t : Tree α) : t.height ≤ t.addrs.length := by
  induction t with
  | nil => simp [Tree.height]
  | node l a c d r ihl ihr => simp [Tree.height]; omega

theorem height_lt_depthBound {tree : RBTree α φ} {T : Tree α} (hM : Models tree T) :
    T.height < depthBound tree.nodes := by
  have h1 := models_length_le hM
  have h2 := height_le_length T
  unfold depthBound
  omega

theorem doesNodeExists_spec (m : List (Node α)) (cmp : α → α → Int) (d : α) (t : Tree α) :
    ∀ (par : Ptr), Rep m t par → ∀ fuel, t.height < fuel →
      ∃ r, doesNodeExists m cmp fuel t.ptr d = some r ∧ (r = 0 ∨ r = 1) ∧
        (r ≠ 0 ↔ ∃ x ∈ t.datas, cmp x d = 0) := by
  induction t with
  | nil =>
    intro par _ fuel hf
    obtain ⟨k, rfl⟩ : ∃ k, fuel = k + 1 := ⟨fuel - 1, by omega⟩
    exact ⟨0, by simp [doesNodeExists], by simp, by simp⟩
  | node l a c x r ihl ihr =>
    intro par h fuel hf
    obtain ⟨k, rfl⟩ : ∃ k, fuel = k + 1 := ⟨fuel - 1, by omega⟩
    obtain ⟨h1, h2, h3⟩ := h
    simp only [Tree.height] at hf
    have hl : ∃ rl, (if l.ptr = none then some (0 : Int)
        else doesNodeExists m cmp k l.ptr d) = some rl ∧ (rl = 0 ∨ rl = 1) ∧
        (rl ≠ 0 ↔ ∃ y ∈ l.datas, cmp y d = 0) := by
      cases l with
      | nil => exact ⟨0, rfl, by simp, by simp⟩
      | node ll la lc lx lr => simpa using ihl _ h2 k (by omega)
    have hr : ∃ rr, (if r.ptr = none then some (0 : Int)
        else doesNodeExists m cmp k r.ptr d) = some rr ∧ (rr = 0 ∨ rr = 1) ∧
        (rr ≠ 0 ↔ ∃ y ∈ r.datas, cmp y d = 0) := by
      cases r with
      | nil => exact ⟨0, rfl, by simp, by simp⟩
      | node rl ra rc rx rr => simpa using ihr _ h3 k (by omega)
    obtain ⟨rl, hl1, hl2, hl3⟩ := hl
    obtain ⟨rr, hr1, hr2, hr3⟩ := hr
    simp only [doesNodeExists, ptr_node, h1, hl1, hr1]
    by_cases hx : cmp x d = 0
    · exact ⟨1, by simp [hx], by simp, by simpa using ⟨x, by simp, hx⟩⟩
    · by_cases hrl : rl = 0
      · by_cases hrr : rr = 0
        · refine ⟨0, by simp [hx, hrl, hrr], by simp, ?_⟩
          have e1 := hl3.not.1 (by simpa using hrl)
          have e2 := hr3.not.1 (by simpa using hrr)
          simp only [ne_eq, not_true_eq_false, datas_node, List.mem_append, List.mem_cons,
            false_iff, not_exists, not_and]
          rintro y (hy | rfl | hy)
          · exact fun h => e1 ⟨y, hy, h⟩
          · exact hx
          · exact fun h => e2 ⟨y, hy, h⟩
        · refine ⟨1, by simp [hx, hrl, hrr], by simp, ?_⟩
          obtain ⟨y, hy, hy'⟩ := hr3.1 hrr
          simp only [ne_eq, one_ne_zero, not_false_eq_true, true_iff]
          exact ⟨y, by simp [hy], hy'⟩
      · refine ⟨1, by simp [hx, hrl], by simp, ?_⟩
        obtain ⟨y, hy, hy'⟩ := hl3.1 hrl
        simp only [ne_eq, one_ne_zero, not_false_eq_true, true_iff]
        exact ⟨y, by simp [hy], hy'⟩

theorem containsRBTree_spec (tree : RBTree α φ) (T : Tree α) (hM : Models tree T) (d : α) :
    ∃ r, containsRBTree (some tree) (some d) = some r ∧ (r = 0 ∨ r = 1) ∧
      (r ≠ 0 ↔ ∃ x ∈ T.datas, tree.compFunc x d = 0) := by
  obtain ⟨r, h1, h2, h3⟩ := doesNodeExists_spec tree.nodes tree.compFunc d T none hM.rep
    (depthBound tree.nodes) (height_lt_depthBound hM)
  rw [← hM.root] at h1
  rcases h2 with rfl | rfl
  · exact ⟨0, by simp [containsRBTree, h1], by simp, by simpa using h3⟩
  · exact ⟨1, by simp [containsRBTree, h1], by simp, by simpa using h3⟩

theorem inOrderTraversal_spec (m : List (Node α)) (func : Option α → σ → Int × σ)
    (t : Tree α) : ∀ (par : Ptr), Rep m t par → ∀ fuel, t.height < fuel → ∀ args,
      inOrderTraversal m func fuel t.ptr args = some (travP func t args) := by
  induction t with
  | nil =>
    intro par _ fuel hf args
    obtain ⟨k, rfl⟩ : ∃ k, fuel = k + 1 := ⟨fuel - 1, by omega⟩
    simp [inOrderTraversal, travP]
  | node l a c x r ihl ihr =>
    intro par h fuel hf args
    obtain ⟨k, rfl⟩ : ∃ k, fuel = k + 1 := ⟨fuel - 1, by omega⟩
    obtain ⟨h1, h2, h3⟩ := h
    simp only [Tree.height] at hf
    have hl : ∀ s, (if l.ptr = none then some s
        else (inOrderTraversal m func k l.ptr s).map Prod.snd) =
          some (travP func l s).2 := by
      intro s
      cases l with
      | nil => rfl
      | node ll la lc lx lr =>
        have := ihl _ h2 k (by omega) s
        simp only [ptr_node] at this
        simp [this]
    have hr : ∀ s, (if r.ptr = none then some s
        else (inOrderTraversal m func k r.ptr s).map Prod.snd) =
          some (travP func r s).2 := by
      intro s
      cases r with
      | nil => rfl
      | node rl ra rc rx rr =>
        have := ihr _ h3 k (by omega) s
        simp only [ptr_node] at this
        simp [this]
    simp only [inOrderTraversal, ptr_node, h1, hl, hr, travP, Option.some_bind,
      Option.bind_some]
    split <;> rfl

theorem findPlace_spec (m : List (Node α)) (cmp : α → α → Int) (d : α) (t : Tree α) :
    ∀ (ctx : List (Frame α)), Rep m t (ctxPtr ctx) → ∀ fuel, t.height < fuel →
      findPlace m cmp fuel t.ptr (ctxPtr ctx) d = some (ctxPtr (zoomP cmp d t ctx)) := by
  induction t with
  | nil =>
    intro ctx _ fuel hf
    obtain ⟨k, rfl⟩ : ∃ k, fuel = k + 1 := ⟨fuel - 1, by omega⟩
    simp [findPlace, zoomP]
  | node l a c x r ihl ihr =>
    intro ctx h fuel hf
    obtain ⟨k, rfl⟩ : ∃ k, fuel = k + 1 := ⟨fuel - 1, by omega⟩
    obtain ⟨h1, h2, h3⟩ := h
    simp only [Tree.height] at hf
    simp only [findPlace, ptr_node, h1, zoomP]
    split
    · exact ihr (.R l a c x :: ctx) h3 k (by omega)
    · exact ihl (.L a c x r :: ctx) h2 k (by omega)

theorem plug_zoomP (cmp : α → α → Int) (d : α) (t : Tree α) :
    ∀ ctx : List (Frame α), plug .nil (zoomP cmp d t ctx) = plug t ctx := by
  induction t with
  | nil => intro ctx; rfl
  | node l a c x r ihl ihr =>
    intro ctx
    simp only [zoomP]
    split
    · rw [ihr]; rfl
    · rw [ihl]; rfl

theorem zoomP_routes (cmp : α → α → Int) (d : α) (t : Tree α) :
    ∀ ctx : List (Frame α), ∀ f ∈ zoomP cmp d t ctx, f ∈ ctx ∨ f.Routes cmp d := by
  induction t with
  | nil => intro ctx f hf; exact Or.inl hf
  | node l a c x r ihl ihr =>
    intro ctx f hf
    simp only [zoomP] at hf
    split at hf
    · rcases ihr _ f hf with h | h
      · rcases List.mem_cons.1 h with rfl | h
        · right; assumption
        · exact Or.inl h
      · exact Or.inr h
    · rcases ihl _ f hf with h | h
      · rcases List.mem_cons.1 h with rfl | h
        · right; assumption
        · exact Or.inl h
      · exact Or.inr h

theorem zoomP_ne_nil (cmp : α → α → Int) (d : α) (l : Tree α) (a : Nat) (c : Color) (x : α)
    (r : Tree α) : zoomP cmp d (.node l a c x r) [] ≠ [] := by
  intro h
  have := congrArg Tree.toList (plug_zoomP cmp d (.node l a c x r) [])
  rw [h] at this
  simp [plug] at this

/-! ## `addToRBTree` on a shape -/

theorem bst_of_plug (cmp : α → α → Int) (ctx : List (Frame α)) :
    ∀ t : Tree α, BST cmp (plug t ctx) → BST cmp t := by
  induction ctx with
  | nil => intro t h; exact h
  | cons f ctx ih =>
    intro t h
    have := ih _ h
    cases f with
    | L a c x r => exact this.2.2.1
    | R l a c x => exact this.2.2.2

theorem oriented_of_bst (cmp : α → α → Int) (ctx : List (Frame α)) :
    ∀ (t : Tree α), BST cmp (plug t ctx) →
      (∀ d ∈ t.datas, ∀ f ∈ ctx.head?, f.Agrees cmp d) ∧ Oriented cmp ctx := by
  induction ctx with
  | nil => intro t _; exact ⟨by simp, trivial⟩
  | cons f ctx ih =>
    intro t h
    have hb := bst_of_plug cmp ctx _ h
    have hfd : f.data ∈ (f.fill t).datas := by cases f <;> simp [Frame.fill, Frame.data]
    obtain ⟨h1, h2⟩ := ih (f.fill t) h
    constructor
    · intro d hd g hg
      simp only [List.head?_cons, Option.mem_def, Option.some.injEq] at hg
      subst hg
      cases f with
      | L a c x r => exact hb.1 d hd
      | R l a c x =>
        have := hb.2.1 d hd
        simp only [Frame.Agrees]
        omega
    · cases ctx with
      | nil => trivial
      | cons g ctx => exact ⟨h1 _ hfd g (by simp), h2⟩

theorem color_plug_last (ctx : List (Frame α)) : ∀ (f : Frame α) (t : Tree α),
    ∀ g ∈ (f :: ctx).getLast?, g.color = (plug t (f :: ctx)).color := by
  induction ctx with
  | nil =>
    intro f t g hg
    simp only [List.getLast?_singleton, Option.mem_def, Option.some.injEq] at hg
    subst hg
    cases f <;> rfl
  | cons f' ctx ih =>
    intro f t g hg
    rw [List.getLast?_cons_cons] at hg
    exact ih f' _ g hg

theorem rootBlack_of_color {t : Tree α} {ctx : List (Frame α)}
    (h : ctx ≠ [] → (plug t ctx).color = Color.BLACK) : RootBlack ctx := by
  cases ctx with
  | nil => intro f hf; simp at hf
  | cons f ctx =>
    intro g hg
    rw [color_plug_last ctx f t g hg]
    exact h (by simp)

theorem rep_append {m : List (Node α)} {t : Tree α} {par : Ptr} (n : Node α)
    (h : Rep m t par) : Rep (m ++ [n]) t par :=
  rep_congr (fun x hx => readNode_append_lt m n (rep_addr_lt h x hx)) h

theorem attach_L (tree : RBTree α φ) (a : Nat) (c : Color) (x : α) (r : Tree α)
    (rest : List (Frame α)) (d : α)
    (hM : Models tree (plug .nil (.L a c x r :: rest))) (m0 : List (Node α))
    (hlen : m0.length = tree.nodes.length + 1)
    (hsame : ∀ x, x < tree.nodes.length → readNode m0 (some x) = readNode tree.nodes (some x)) :
    Models { tree with nodes := (m0.set tree.nodes.length
          ⟨some a, none, none, .RED, some d⟩).set a ⟨ctxPtr rest, some tree.nodes.length, r.ptr, c, some x⟩ }
      (plug (.node .nil tree.nodes.length .RED d .nil) (.L a c x r :: rest)) := by
  have hlt := rep_addr_lt hM.rep
  have hM0 : Rep m0 (plug .nil (.L a c x r :: rest)) none :=
    rep_congr (fun x hx => hsame x (hlt x hx)) hM.rep
  have hnodup := (perm_addrs_plug .nil (.L a c x r :: rest)).nodup_iff.1 hM.nodup
  have hlt' : ∀ y ∈ ctxAddrs (.L a c x r :: rest), y < tree.nodes.length := fun y hy =>
    hlt y ((perm_addrs_plug .nil _).mem_iff.2 (by simpa using hy))
  rw [rep_plug] at hM0
  obtain ⟨-, hctx⟩ := hM0
  rw [models_plug_iff]
  have hroot := hM.root
  obtain ⟨root, cmp, fr, sz, m⟩ := tree
  dsimp only at *
  simp only [RepCtx, ptr_nil, ctxPtr_cons, addr_L, addr_R] at hctx
  simp only [addrs_nil, ctxAddrs_cons, addr_L, addr_R, sib_L, sib_R,
    List.nodup_append, List.nodup_cons, List.mem_append, List.mem_cons,
    List.disjoint_cons_left, List.disjoint_cons_right, List.disjoint_append_left,
    List.disjoint_append_right, not_or, List.append_assoc, List.cons_append,
    List.nil_append] at hnodup
  have hla : a < m.length := hlt' a (by simp)
  have hns : m.length ∉ ctxAddrs rest := fun hx => by
    have := hlt' m.length (by simp [hx]); omega
  have hs : m.length ∉ r.addrs := fun hx => by
    have := hlt' m.length (by simp [hx]); omega
  refine ⟨?_, ⟨?_, ?_⟩, ?_⟩
  · rw [hroot]; exact ptr_plug_cons _ _ _ _
  · simp (disch := omega) only [Rep, readNode_set, List.length_set, hlen, ptr_nil, ctxPtr_cons,
      addr_L, addr_R, if_neg, if_pos, and_true, true_and, and_self]
  · simp (disch := first | omega | simp only [hnodup, hns, hs, not_false_eq_true]) only [RepCtx,
      readNode_set, List.length_set, hlen, ptr_nil, ptr_node, ctxPtr_cons,
      addr_L, addr_R, if_neg, if_pos, and_true, true_and, and_self, rep_set, repCtx_set, hctx]
  · simp only [addrs_node, addrs_nil, ctxAddrs_cons, addr_L, addr_R, sib_L, sib_R,
      List.nodup_append, List.nodup_cons, List.mem_append, List.mem_cons,
      List.disjoint_cons_left, List.disjoint_cons_right, List.disjoint_append_left,
      List.disjoint_append_right, not_or, List.append_assoc, List.cons_append,
      List.nil_append, List.not_mem_nil, not_false_eq_true, List.nodup_nil, true_and]
    exact ⟨⟨by omega, hs, hns⟩, hnodup⟩

theorem attach_R (tree : RBTree α φ) (l : Tree α) (a : Nat) (c : Color) (x : α)
    (rest : List (Frame α)) (d : α)
    (hM : Models tree (plug .nil (.R l a c x :: rest))) (m0 : List (Node α))
    (hlen : m0.length = tree.nodes.length + 1)
    (hsame : ∀ x, x < tree.nodes.length → readNode m0 (some x) = readNode tree.nodes (some x)) :
    Models { tree with nodes := (m0.set tree.nodes.length
          ⟨some a, none, none, .RED, some d⟩).set a ⟨ctxPtr rest, l.ptr, some tree.nodes.length, c, some x⟩ }
      (plug (.node .nil tree.nodes.length .RED d .nil) (.R l a c x :: rest)) := by
  have hlt := rep_addr_lt hM.rep
  have hM0 : Rep m0 (plug .nil (.R l a c x :: rest)) none :=
    rep_congr (fun x hx => hsame x (hlt x hx)) hM.rep
  have hnodup := (perm_addrs_plug .nil (.R l a c x :: rest)).nodup_iff.1 hM.nodup
  have hlt' : ∀ y ∈ ctxAddrs (.R l a c x :: rest), y < tree.nodes.length := fun y hy =>
    hlt y ((perm_addrs_plug .nil _).mem_iff.2 (by simpa using hy))
  rw [rep_plug] at hM0
  obtain ⟨-, hctx⟩ := hM0
  rw [models_plug_iff]
  have hroot := hM.root
  obtain ⟨root, cmp, fr, sz, m⟩ := tree
  dsimp only at *
  simp only [RepCtx, ptr_nil, ctxPtr_cons, addr_L, addr_R] at hctx
  simp only [addrs_nil, ctxAddrs_cons, addr_L, addr_R, sib_L, sib_R,
    List.nodup_append, List.nodup_cons, List.mem_append, List.mem_cons,
    List.disjoint_cons_left, List.disjoint_cons_right, List.disjoint_append_left,
    List.disjoint_append_right, not_or, List.append_assoc, List.cons_append,
    List.nil_append] at hnodup
  have hla : a < m.length := hlt' a (by simp)
  have hns : m.length ∉ ctxAddrs rest := fun hx => by
    have := hlt' m.length (by simp [hx]); omega
  have hs : m.length ∉ l.addrs := fun hx => by
    have := hlt' m.length (by simp [hx]); omega
  refine ⟨?_, ⟨?_, ?_⟩, ?_⟩
  · rw [hroot]; exact ptr_plug_cons _ _ _ _
  · simp (disch := omega) only [Rep, readNode_set, List.length_set, hlen, ptr_nil, ctxPtr_cons,
      addr_L, addr_R, if_neg, if_pos, and_true, true_and, and_self]
  · simp (disch := first | omega | simp only [hnodup, hns, hs, not_false_eq_true]) only [RepCtx,
      readNode_set, List.length_set, hlen, ptr_nil, ptr_node, ctxPtr_cons,
      addr_L, addr_R, if_neg, if_pos, and_true, true_and, and_self, rep_set, repCtx_set, hctx]
  · simp only [addrs_node, addrs_nil, ctxAddrs_cons, addr_L, addr_R, sib_L, sib_R,
      List.nodup_append, List.nodup_cons, List.mem_append, List.mem_cons,
      List.disjoint_cons_left, List.disjoint_cons_right, List.disjoint_append_left,
      List.disjoint_append_right, not_or, List.append_assoc, List.cons_append,
      List.nil_append, List.not_mem_nil, not_false_eq_true, List.nodup_nil, true_and]
    exact ⟨⟨by omega, hs, hns⟩, hnodup⟩

theorem addToRBTree_spec (tree : RBTree α φ) (T : Tree α) (hM : Models tree T)
    (hlaw : StrictTotalOrder tree.compFunc) (hbst : BST tree.compFunc T)
    (hblk : T.color = Color.BLACK) (d : α)
    (hnew : ¬ ∃ x ∈ T.datas, tree.compFunc x d = 0) :
    ∃ t', addToRBTree (some tree) (some d) = some (1, some t') ∧
      Models t' (insertP tree.compFunc T tree.nodes.length d) ∧
      t'.size = tree.size + 1 ∧ t'.compFunc = tree.compFunc ∧ t'.freeFunc = tree.freeFunc ∧
      t'.nodes.length = tree.nodes.length + 1 := by
  obtain ⟨r, hc, hr01, hr⟩ := containsRBTree_spec tree T hM d
  have hr0 : r = 0 := by
    by_contra h
    exact hnew (hr.1 h)
  subst hr0
  have hlen : (tree.nodes ++ [(⟨none, none, none, .RED, some d⟩ : Node α)]).length =
      tree.nodes.length + 1 := by simp
  have hfresh := readNode_append_length tree.nodes (⟨none, none, none, .RED, some d⟩ : Node α)
  rcases T with _ | ⟨l, a, c, x, r⟩
  · -- empty tree: the new node becomes the BLACK root
    have hroot : tree.root = none := hM.root
    simp (disch := omega) only [addToRBTree, hc, Option.some_bind, ne_eq, not_true_eq_false,
        if_false, hroot, if_true, writeNode_some, hfresh, Option.map_some', readNode_set,
        hlen, if_pos, and_self, eq_self_iff_true, Option.some.injEq, Prod.mk.injEq, true_and,
        exists_eq_left', List.length_set, and_true]
    refine ⟨rfl, ?_, by simp [insertP]⟩
    simp (disch := omega) only [insertP, Rep, readNode_set, List.length_set, hlen, ptr_nil,
        if_pos, and_self, eq_self_iff_true, and_true, true_and, Nat.lt_add_one, if_true]
  · -- non-empty tree
    have hroot : tree.root = some a := hM.root
    obtain ⟨f, rest, hctx⟩ : ∃ f rest, zoomP tree.compFunc d (.node l a c x r) [] = f :: rest := by
      cases h : zoomP tree.compFunc d (.node l a c x r) [] with
      | nil => exact absurd h (zoomP_ne_nil _ _ _ _ _ _ _)
      | cons f rest => exact ⟨f, rest, rfl⟩
    have hplug : plug .nil (f :: rest) = .node l a c x r := by
      rw [← hctx]; exact plug_zoomP _ _ _ []
    have hroute : f.Routes tree.compFunc d := by
      rcases zoomP_routes tree.compFunc d (.node l a c x r) [] f (by rw [hctx]; simp) with h | h
      · simp at h
      · exact h
    have hM0 : Rep (tree.nodes ++ [(⟨none, none, none, .RED, some d⟩ : Node α)])
        (.node l a c x r) none := rep_append _ hM.rep
    have hfp := findPlace_spec (tree.nodes ++ [(⟨none, none, none, .RED, some d⟩ : Node α)])
      tree.compFunc d (.node l a c x r) [] hM0
      (depthBound (tree.nodes ++ [(⟨none, none, none, .RED, some d⟩ : Node α)]))
      (by have := height_lt_depthBound hM; simp only [depthBound, hlen] at this ⊢; omega)
    rw [hctx] at hfp
    simp only [ptr_node, ctxPtr_nil, ctxPtr_cons] at hfp
    have hor : Oriented tree.compFunc (f :: rest) :=
      (oriented_of_bst tree.compFunc (f :: rest) .nil (by rw [hplug]; exact hbst)).2
    have hrb : RootBlack (f :: rest) :=
      rootBlack_of_color (t := .nil) (fun _ => by rw [hplug]; exact hblk)
    have hMz : Models tree (plug .nil (f :: rest)) := by rw [hplug]; exact hM
    have hctx0 : RepCtx (tree.nodes ++ [(⟨none, none, none, .RED, some d⟩ : Node α)])
        (f :: rest) none := by
      have := hM0
      rw [← hplug, rep_plug] at this
      exact this.2
    have hsame : ∀ y, y < tree.nodes.length →
        readNode (tree.nodes ++ [(⟨none, none, none, .RED, some d⟩ : Node α)]) (some y) =
          readNode tree.nodes (some y) := fun y hy => readNode_append_lt _ _ hy
    have hfl : f.addr < tree.nodes.length :=
      rep_addr_lt hMz.rep _ ((perm_addrs_plug .nil (f :: rest)).mem_iff.2 (by simp))
    have hfne : ¬ f.addr = tree.nodes.length := by omega
    rcases f with ⟨fa, fc, fx, fr⟩ | ⟨fl, fa, fc, fx⟩
    · have hM2 := attach_L tree fa fc fx fr rest d hMz _ hlen hsame
      simp only [Frame.Routes] at hroute
      have hcmp : ¬ tree.compFunc d fx > 0 := fun h => hroute ((hlaw.antisymm fx d).2 h)
      obtain ⟨t1, h1, hM1, hK⟩ := fixTree_spec _ (.node .nil tree.nodes.length .RED d .nil)
        tree.nodes.length rfl (.L fa fc fx fr :: rest) hM2 hor hrb
      simp only [RepCtx, ctxPtr_cons, addr_L] at hctx0 hfl hfne
      simp only [hroot] at h1
      refine ⟨{ t1 with size := t1.size + 1 }, ?_, ?_, ?_, hK.2.1, hK.2.2.2, ?_⟩
      · simp (disch := omega) only [addToRBTree, hc, Option.some_bind, ne_eq,
          not_true_eq_false, if_false, hroot, reduceCtorEq, hfp, writeNode_some, hfresh,
          Option.map_some', readNode_set, hlen, if_pos, if_neg, and_self, eq_self_iff_true,
          hctx0.1, compareData, hcmp, addr_L, h1, List.length_set]
      · simp only [insertP, hctx]
        exact ⟨hM1.root, hM1.rep, hM1.nodup⟩
      · simp [hK.2.2.1]
      · simp [hK.1]
    · have hM2 := attach_R tree fl fa fc fx rest d hMz _ hlen hsame
      simp only [Frame.Routes] at hroute
      have hcmp : tree.compFunc d fx > 0 := (hlaw.antisymm fx d).1 hroute
      obtain ⟨t1, h1, hM1, hK⟩ := fixTree_spec _ (.node .nil tree.nodes.length .RED d .nil)
        tree.nodes.length rfl (.R fl fa fc fx :: rest) hM2 hor hrb
      simp only [RepCtx, ctxPtr_cons, addr_R] at hctx0 hfl hfne
      simp only [hroot] at h1
      refine ⟨{ t1 with size := t1.size + 1 }, ?_, ?_, ?_, hK.2.1, hK.2.2.2, ?_⟩
      · simp (disch := omega) only [addToRBTree, hc, Option.some_bind, ne_eq,
          not_true_eq_false, if_false, hroot, reduceCtorEq, hfp, writeNode_some, hfresh,
          Option.map_some', readNode_set, hlen, if_pos, if_neg, and_self, eq_self_iff_true,
          hctx0.1, compareData, hcmp, addr_R, h1, List.length_set, if_true]
      · simp only [insertP, hctx]
        exact ⟨hM1.root, hM1.rep, hM1.nodup⟩
      · simp [hK.2.2.1]
      · simp [hK.1]

/-! ## Red-black colouring is restored by the fix-up -/

theorem color_ne_red {c : Color} : ¬ c = Color.RED ↔ c = Color.BLACK := by
  cases c <;> simp

theorem noRedRed_blacken {t : Tree α} (h : NoRedRed t) : NoRedRed t.blacken := by
  cases t with
  | nil => trivial
  | node l a c d r => exact ⟨by simp, h.2.1, h.2.2⟩

theorem blackBalanced_blacken {t : Tree α} (h : BlackBalanced t) : BlackBalanced t.blacken := by
  cases t with
  | nil => trivial
  | node l a c d r => exact h

theorem color_fill (f : Frame α) (t : Tree α) : (f.fill t).color = f.color := by
  cases f <;> rfl

theorem plug_rb (ctx : List (Frame α)) : ∀ (t : Tree α) (n : Nat),
    NoRedRed t → BlackBalanced t → bh t = n → CtxRB ctx n →
    (t.color = Color.RED → ∀ f ∈ ctx.head?, f.color = Color.BLACK) →
    NoRedRed (plug t ctx) ∧ BlackBalanced (plug t ctx) := by
  induction ctx with
  | nil => intro t n h1 h2 _ _ _; exact ⟨h1, h2⟩
  | cons f rest ih =>
    intro t n h1 h2 h3 h4 h5
    obtain ⟨s1, s2, s3, s4, s5⟩ := h4
    have htc : f.color = Color.RED → t.color = Color.BLACK := by
      intro hf
      rcases color_cases t.color with ht | ht
      · have := h5 ht f (by simp)
        rw [hf] at this; cases this
      · exact ht
    refine ih (f.fill t) _ ?_ ?_ ?_ s5 ?_
    · cases f with
      | L a c d r => exact ⟨fun hc => ⟨htc hc, (s4 hc).1⟩, h1, s1⟩
      | R l a c d => exact ⟨fun hc => ⟨(s4 hc).1, htc hc⟩, s1, h1⟩
    · cases f with
      | L a c d r => exact ⟨by simpa using h3.trans s3.symm, h2, s2⟩
      | R l a c d => exact ⟨by simpa using s3.trans h3.symm, s2, h2⟩
    · cases f with
      | L a c d r => simp [Frame.fill, bh, Frame.color, h3]
      | R l a c d =>
        simp only [sib_R] at s3
        simp [Frame.fill, bh, Frame.color, s3]
    · intro hc g hg
      rw [color_fill] at hc
      exact (s4 hc).2 g hg

theorem rb_of_plug (ctx : List (Frame α)) : ∀ (t : Tree α),
    NoRedRed (plug t ctx) → BlackBalanced (plug t ctx) →
    NoRedRed t ∧ BlackBalanced t ∧ CtxRB ctx (bh t) ∧
      (t.color = Color.RED → ∀ f ∈ ctx.head?, f.color = Color.BLACK) := by
  induction ctx with
  | nil => intro t h1 h2; exact ⟨h1, h2, trivial, by simp⟩
  | cons f rest ih =>
    intro t h1 h2
    obtain ⟨i1, i2, i3, i4⟩ := ih (f.fill t) h1 h2
    rw [color_fill] at i4
    cases f with
    | L a c d r =>
      obtain ⟨j1, j2, j3⟩ := i1
      obtain ⟨k1, k2, k3⟩ := i2
      refine ⟨j2, k2, ⟨j3, k3, k1.symm, fun hc => ⟨(j1 hc).2, i4 hc⟩, ?_⟩, ?_⟩
      · simpa [Frame.fill, bh, Frame.color] using i3
      · intro ht g hg
        simp only [List.head?_cons, Option.mem_def, Option.some.injEq] at hg
        subst hg
        by_contra hc
        have := (j1 (by simpa [Frame.color, ← color_ne_red] using hc)).1
        rw [ht] at this; cases this
    | R l a c d =>
      obtain ⟨j1, j2, j3⟩ := i1
      obtain ⟨k1, k2, k3⟩ := i2
      refine ⟨j3, k3, ⟨j2, k2, k1, fun hc => ⟨(j1 hc).1, i4 hc⟩, ?_⟩, ?_⟩
      · simpa [Frame.fill, bh, Frame.color, k1] using i3
      · intro ht g hg
        simp only [List.head?_cons, Option.mem_def, Option.some.injEq] at hg
        subst hg
        by_contra hc
        have := (j1 (by simpa [Frame.color, ← color_ne_red] using hc)).2
        rw [ht] at this; cases this

theorem bh_blacken_red {u : Tree α} (h : u.color = Color.RED) : bh u.blacken = bh u + 1 := by
  cases u with
  | nil => cases h
  | node l a c d r =>
    simp only [Tree.color] at h
    subst h
    simp [Tree.blacken, bh]

theorem color_blacken_red {u : Tree α} (h : u.color = Color.RED) :
    u.blacken.color = Color.BLACK := by
  cases u with
  | nil => cases h
  | node l a c d r => rfl

theorem recolorP_rb (Z : Tree α) (f1 f2 : Frame α) (n : Nat)
    (h1 : NoRedRed Z) (h2 : BlackBalanced Z) (h3 : bh Z = n)
    (s1 : NoRedRed f1.sib) (s2 : BlackBalanced f1.sib) (s3 : bh f1.sib = n)
    (u1 : NoRedRed f2.sib) (u2 : BlackBalanced f2.sib) (u3 : bh f2.sib = n)
    (hu : f2.sib.color = Color.RED) :
    (recolorP Z f1 f2).color = Color.RED ∧ NoRedRed (recolorP Z f1 f2) ∧
      BlackBalanced (recolorP Z f1 f2) ∧ bh (recolorP Z f1 f2) = n + 1 := by
  have b1 := bh_blacken_red hu
  have b2 := color_blacken_red hu
  have b3 := noRedRed_blacken u1
  have b4 := blackBalanced_blacken u2
  cases f1 <;> cases f2 <;>
    simp only [recolorP, Frame.recolor, Frame.blackenSib, Frame.fill, NoRedRed, BlackBalanced,
      bh, Tree.color, sib_L, sib_R, reduceCtorEq, false_implies, true_and, if_true, if_false,
      implies_true, add_zero] at * <;>
    simp_all

theorem rotateP_rb (Z : Tree α) (f1 f2 : Frame α) (n : Nat) (hc : Z.color = Color.RED)
    (h1 : NoRedRed Z) (h2 : BlackBalanced Z) (h3 : bh Z = n)
    (hf1 : f1.color = Color.RED) (hf2 : f2.color = Color.BLACK)
    (s1 : NoRedRed f1.sib) (s2 : BlackBalanced f1.sib) (s3 : bh f1.sib = n)
    (s4 : f1.sib.color = Color.BLACK)
    (u1 : NoRedRed f2.sib) (u2 : BlackBalanced f2.sib) (u3 : bh f2.sib = n)
    (hu : f2.sib.color = Color.BLACK) :
    (rotateP Z f1 f2).color = Color.BLACK ∧ NoRedRed (rotateP Z f1 f2) ∧
      BlackBalanced (rotateP Z f1 f2) ∧ bh (rotateP Z f1 f2) = n + 1 := by
  rcases Z with _ | ⟨zl, z, zc, zd, zr⟩
  · cases hc
  simp only [Tree.color] at hc
  subst hc
  cases f1 <;> cases f2 <;>
    simp only [rotateP, Frame.fill, NoRedRed, BlackBalanced, Frame.color,
      bh, Tree.color, sib_L, sib_R, reduceCtorEq, false_implies, true_and, if_true, if_false,
      implies_true, add_zero] at * <;>
    simp_all

theorem fixP_rb (k : Nat) : ∀ (ctx : List (Frame α)), ctx.length ≤ k →
    ∀ (Z : Tree α) (n : Nat), Z.color = Color.RED → NoRedRed Z → BlackBalanced Z → bh Z = n →
      CtxRB ctx n → RootBlack ctx →
      NoRedRed (fixP Z ctx) ∧ BlackBalanced (fixP Z ctx) := by
  induction k using Nat.strong_induction_on with
  | _ k ih =>
    intro ctx hk Z n hc h1 h2 h3 h4 hrb
    match ctx, hk, h4, hrb with
    | [], _, _, _ => exact ⟨h1, h2⟩
    | [f], _, h4, hrb =>
      have hf : f.color = Color.BLACK := hrb f (by simp)
      exact plug_rb [f] Z n h1 h2 h3 h4 (fun _ g hg => by
        simp only [List.head?_cons, Option.mem_def, Option.some.injEq] at hg
        subst hg; exact hf)
    | f1 :: f2 :: rest, hk, h4, hrb =>
      unfold fixP
      split
      · rename_i hf1
        exact plug_rb _ Z n h1 h2 h3 h4 (fun _ g hg => by
          simp only [List.head?_cons, Option.mem_def, Option.some.injEq] at hg
          subst hg; simpa [← color_ne_red] using hf1)
      · rename_i hf1
        have hf1 : f1.color = Color.RED := by simpa using hf1
        obtain ⟨s1, s2, s3, s4, s5⟩ := h4
        obtain ⟨u1, u2, u3, u4, u5⟩ := s5
        obtain ⟨hs, hf2⟩ := s4 hf1
        have hf2 : f2.color = Color.BLACK := hf2 f2 (by simp)
        simp only [hf1, hf2, reduceCtorEq, if_false, if_true, add_zero] at u3 u5
        split
        · rename_i hu
          have hlen : rest.length < k := by simp at hk; omega
          obtain ⟨r1, r2, r3, r4⟩ := recolorP_rb Z f1 f2 n h1 h2 h3 s1 s2 s3 u1 u2 u3 hu
          exact ih rest.length hlen rest le_rfl (recolorP Z f1 f2) (n + 1) r1 r2 r3 r4 u5
            (rootBlack_tail2 hrb)
        · rename_i hu
          obtain ⟨r1, r2, r3, r4⟩ := rotateP_rb Z f1 f2 n hc h1 h2 h3 hf1 hf2 s1 s2 s3 hs
            u1 u2 u3 (color_ne_red.1 hu)
          exact plug_rb rest _ (n + 1) r2 r3 r4 u5 (fun h => by rw [r1] at h; cases h)

theorem insertP_rb (cmp : α → α → Int) (T : Tree α) (a : Nat) (d : α)
    (h1 : NoRedRed T) (h2 : BlackBalanced T) (h3 : T.color = Color.BLACK) :
    NoRedRed (insertP cmp T a d) ∧ BlackBalanced (insertP cmp T a d) ∧
      (insertP cmp T a d).color = Color.BLACK := by
  cases T with
  | nil => simp [insertP, NoRedRed, BlackBalanced, bh, Tree.color]
  | node l b c x r =>
    simp only [insertP]
    have hp := plug_zoomP cmp d (.node l b c x r) []
    have hrb : RootBlack (zoomP cmp d (.node l b c x r) []) :=
      rootBlack_of_color (t := .nil) (fun _ => by rw [hp]; exact h3)
    obtain ⟨-, -, i3, -⟩ := rb_of_plug (zoomP cmp d (.node l b c x r) []) .nil
      (by rw [hp]; exact h1) (by rw [hp]; exact h2)
    obtain ⟨j1, j2⟩ := fixP_rb _ _ le_rfl (.node .nil a .RED d .nil) 0 rfl
      (by simp [NoRedRed, Tree.color]) (by simp [BlackBalanced, bh]) (by simp [bh]) i3 hrb
    refine ⟨noRedRed_blacken j1, blackBalanced_blacken j2, ?_⟩
    have hne := toList_fixP' (.node .nil a .RED d .nil) (zoomP cmp d (.node l b c x r) [])
    cases hfx : fixP (.node .nil a .RED d .nil) (zoomP cmp d (.node l b c x r) []) with
    | nil => rw [hfx] at hne; simp at hne
    | node _ _ _ _ _ => rfl

/-! ## BST order is kept by the insertion -/

theorem bst_iff_pairwise {cmp : α → α → Int} (hlaw : StrictTotalOrder cmp) (t : Tree α) :
    BST cmp t ↔ t.datas.Pairwise (fun x y => cmp x y < 0) := by
  induction t with
  | nil => simp [BST]
  | node l a c d r ihl ihr =>
    simp only [BST, ihl, ihr, datas_node, List.pairwise_append, List.pairwise_cons,
      List.mem_cons]
    constructor
    · rintro ⟨h1, h2, h3, h4⟩
      refine ⟨h3, ⟨fun y hy => (hlaw.antisymm d y).2 (h2 y hy), h4⟩, ?_⟩
      rintro x hx y (rfl | hy)
      · exact h1 x hx
      · exact hlaw.trans x d y (h1 x hx) ((hlaw.antisymm d y).2 (h2 y hy))
    · rintro ⟨h1, ⟨h2, h3⟩, h4⟩
      exact ⟨fun x hx => h4 x hx d (Or.inl rfl), fun y hy => (hlaw.antisymm d y).1 (h2 y hy),
        h1, h3⟩

theorem datas_plug (t : Tree α) (ctx : List (Frame α)) :
    (plug t ctx).datas =
      (ctxBefore ctx).map Prod.snd ++ t.datas ++ (ctxAfter ctx).map Prod.snd := by
  simp [Tree.datas]

theorem zoom_bounds {cmp : α → α → Int} (hlaw : StrictTotalOrder cmp) (d : α)
    (ctx : List (Frame α)) : ∀ (t : Tree α), (∀ f ∈ ctx, f.Routes cmp d) →
    (plug t ctx).datas.Pairwise (fun x y => cmp x y < 0) →
    (∀ x ∈ (plug t ctx).datas, cmp x d ≠ 0) →
    (∀ b ∈ (ctxBefore ctx).map Prod.snd, cmp b d < 0) ∧
      (∀ y ∈ (ctxAfter ctx).map Prod.snd, cmp d y < 0) := by
  induction ctx with
  | nil => intro t _ _ _; simp [ctxBefore, ctxAfter]
  | cons f rest ih =>
    intro t hr hp hn
    obtain ⟨i1, i2⟩ := ih (f.fill t) (fun g hg => hr g (List.mem_cons_of_mem _ hg)) hp hn
    have hf := hr f (List.mem_cons_self _ _)
    have hp' : (f.fill t).datas.Pairwise (fun x y => cmp x y < 0) := by
      have : plug t (f :: rest) = plug (f.fill t) rest := rfl
      rw [this, datas_plug] at hp
      exact (List.pairwise_append.1 (List.pairwise_append.1 hp).1).2.1
    have hn' : ∀ x ∈ (f.fill t).datas, cmp x d ≠ 0 := by
      intro x hx
      apply hn
      have : plug t (f :: rest) = plug (f.fill t) rest := rfl
      rw [this, datas_plug]
      simp [hx]
    cases f with
    | L a c x r =>
      simp only [Frame.Routes] at hf
      simp only [Frame.fill, datas_node, List.pairwise_append, List.pairwise_cons,
        List.mem_cons] at hp' hn'
      have hx0 : cmp x d ≠ 0 := hn' x (by simp)
      have hdx : cmp d x < 0 := (hlaw.antisymm d x).2 (by omega)
      refine ⟨by simpa [ctxBefore] using i1, ?_⟩
      intro y hy
      simp only [ctxAfter, List.map_append, List.map_cons, List.mem_append, List.mem_cons,
        List.cons_append] at hy
      rcases hy with rfl | hy | hy
      · exact hdx
      · exact hlaw.trans d x y hdx (hp'.2.1.1 y (by simpa [Tree.datas] using hy))
      · exact i2 y hy
    | R l a c x =>
      simp only [Frame.Routes] at hf
      simp only [Frame.fill, datas_node, List.pairwise_append, List.pairwise_cons,
        List.mem_cons] at hp' hn'
      refine ⟨?_, by simpa [ctxAfter] using i2⟩
      intro y hy
      simp only [ctxBefore, List.map_append, List.map_cons, List.mem_append, List.mem_cons,
        List.map_nil, List.not_mem_nil, or_false] at hy
      rcases hy with hy | hy | rfl
      · exact i1 y hy
      · exact hlaw.trans y x d (hp'.2.2 y (by simpa [Tree.datas] using hy) x (Or.inl rfl)) hf
      · exact hf

theorem toList_insertP (cmp : α → α → Int) (T : Tree α) (a : Nat) (d : α) :
    ∃ B A, T.toList = B ++ A ∧ (insertP cmp T a d).toList = B ++ (a, d) :: A ∧
      B = ctxBefore (zoomP cmp d T []) ∧ A = ctxAfter (zoomP cmp d T []) := by
  refine ⟨_, _, ?_, ?_, rfl, rfl⟩
  · have := congrArg Tree.toList (plug_zoomP cmp d T [])
    simpa [plug] using this.symm
  · cases T with
    | nil => simp [insertP, zoomP, ctxBefore, ctxAfter]
    | node l b c x r =>
      simp only [insertP, toList_blacken, toList_fixP']
      simp

theorem insertP_bst {cmp : α → α → Int} (hlaw : StrictTotalOrder cmp) (T : Tree α) (a : Nat)
    (d : α) (hb : BST cmp T) (hnew : ∀ x ∈ T.datas, cmp x d ≠ 0) :
    BST cmp (insertP cmp T a d) := by
  obtain ⟨B, A, h1, h2, hB, hA⟩ := toList_insertP cmp T a d
  rw [bst_iff_pairwise hlaw] at hb ⊢
  have hr : ∀ f ∈ zoomP cmp d T [], f.Routes cmp d := fun f hf => by
    rcases zoomP_routes cmp d T [] f hf with h | h
    · simp at h
    · exact h
  have hpz := plug_zoomP cmp d T []
  obtain ⟨b1, b2⟩ := zoom_bounds hlaw d (zoomP cmp d T []) .nil hr
    (by rw [hpz]; exact hb) (by rw [hpz]; exact hnew)
  rw [← hB] at b1
  rw [← hA] at b2
  simp only [Tree.datas, h1, h2, List.map_append, List.map_cons, List.pairwise_append,
    List.pairwise_cons, List.mem_cons] at hb ⊢
  refine ⟨hb.1, ⟨b2, hb.2.1⟩, ?_⟩
  rintro x hx y (rfl | hy)
  · exact b1 x hx
  · exact hb.2.2 x hx y hy

/-! ## Sequences of insertions -/

theorem card_eq_length (t : Tree α) : t.card = t.toList.length := by
  induction t with
  | nil => rfl
  | node l a c d r ihl ihr => simp [Tree.card, ihl, ihr]; omega

theorem valid_new (c : α → α → Int) (f : φ) (t : RBTree α φ)
    (h : newRBTree (some c) (some f) = some t) : Valid t .nil ∧ t.compFunc = c := by
  simp only [newRBTree, Option.some.injEq] at h
  subst h
  exact ⟨⟨⟨rfl, trivial, by simp⟩, trivial, trivial, trivial, rfl, rfl⟩, rfl⟩

theorem addToRBTree_null (t : RBTree α φ) :
    addToRBTree (some t) (none : Option α) = some (0, some t) := rfl

theorem addToRBTree_dup (tree : RBTree α φ) (T : Tree α) (hM : Models tree T) (d : α)
    (hd : ∃ x ∈ T.datas, tree.compFunc x d = 0) :
    addToRBTree (some tree) (some d) = some (0, some tree) := by
  obtain ⟨r, hc, hr01, hr⟩ := containsRBTree_spec tree T hM d
  have h1 : r ≠ 0 := hr.2 hd
  simp [addToRBTree, hc, h1]

theorem valid_add (tree : RBTree α φ) (T : Tree α) (hV : Valid tree T)
    (hlaw : StrictTotalOrder tree.compFunc) (d : α) (hd : d ∉ T.datas) :
    ∃ t', addToRBTree (some tree) (some d) = some (1, some t') ∧
      Valid t' (insertP tree.compFunc T tree.nodes.length d) ∧
      t'.compFunc = tree.compFunc ∧ t'.freeFunc = tree.freeFunc := by
  have hnew : ¬ ∃ x ∈ T.datas, tree.compFunc x d = 0 := by
    rintro ⟨x, hx, h0⟩
    rw [(hlaw.eq_zero x d).1 h0] at hx
    exact hd hx
  obtain ⟨t', h1, hM', hs, hc, hf, hl⟩ :=
    addToRBTree_spec tree T hV.models hlaw hV.bst hV.rootBlack d hnew
  obtain ⟨r1, r2, r3⟩ := insertP_rb tree.compFunc T tree.nodes.length d hV.noRedRed
    hV.balanced hV.rootBlack
  refine ⟨t', h1, ⟨hM', ?_, r1, r2, r3, ?_⟩, hc, hf⟩
  · rw [hc]
    exact insertP_bst hlaw T _ d hV.bst (fun x hx h0 => hnew ⟨x, hx, h0⟩)
  · obtain ⟨B, A, e1, e2, -, -⟩ := toList_insertP tree.compFunc T tree.nodes.length d
    rw [hs, hV.size, card_eq_length, card_eq_length, e1, e2]
    simp
    omega

theorem datas_insertP (cmp : α → α → Int) (T : Tree α) (a : Nat) (d : α) :
    ∀ x, x ∈ (insertP cmp T a d).datas ↔ x = d ∨ x ∈ T.datas := by
  obtain ⟨B, A, e1, e2, -, -⟩ := toList_insertP cmp T a d
  intro x
  simp only [Tree.datas, e1, e2, List.map_append, List.map_cons, List.mem_append,
    List.mem_cons]
  tauto

theorem card_insertP (cmp : α → α → Int) (T : Tree α) (a : Nat) (d : α) :
    (insertP cmp T a d).card = T.card + 1 := by
  obtain ⟨B, A, e1, e2, -, -⟩ := toList_insertP cmp T a d
  rw [card_eq_length, card_eq_length, e1, e2]
  simp
  omega

theorem runAdds_spec (ps : List (Option α)) : ∀ (tree : RBTree α φ) (T : Tree α),
    Valid tree T → StrictTotalOrder tree.compFunc →
    ∃ rs t' T', runAdds tree ps = some (rs, t') ∧ Valid t' T' ∧
      t'.compFunc = tree.compFunc ∧ t'.freeFunc = tree.freeFunc ∧
      (∀ x, x ∈ T'.datas ↔ x ∈ T.datas ∨ some x ∈ ps) ∧
      T'.card = T.card + (rs.filter (· ≠ 0)).length ∧ rs.length = ps.length ∧
      (∀ r ∈ rs, r = 0 ∨ r = 1) := by
  induction ps with
  | nil =>
    intro tree T hV _
    exact ⟨[], tree, T, rfl, hV, rfl, rfl, by simp, by simp, rfl, by simp⟩
  | cons p ps ih =>
    intro tree T hV hlaw
    rcases p with _ | d
    · obtain ⟨rs, t', T', h1, h2, h3, h4, h5, h6, h7, h8⟩ := ih tree T hV hlaw
      refine ⟨0 :: rs, t', T', ?_, h2, h3, h4, ?_, ?_, ?_, ?_⟩
      · simp [runAdds, addToRBTree_null, h1]
      · intro x; rw [h5]; simp
      · simpa using h6
      · simp [h7]
      · simpa using h8
    · by_cases hd : d ∈ T.datas
      · have hdup := addToRBTree_dup tree T hV.models d
          ⟨d, hd, (hlaw.eq_zero d d).2 rfl⟩
        obtain ⟨rs, t', T', h1, h2, h3, h4, h5, h6, h7, h8⟩ := ih tree T hV hlaw
        refine ⟨0 :: rs, t', T', ?_, h2, h3, h4, ?_, ?_, ?_, by simpa using h8⟩
        · simp [runAdds, hdup, h1]
        · intro x; rw [h5]
          simp only [List.mem_cons, Option.some.injEq]
          constructor
          · rintro (h | h)
            · exact Or.inl h
            · exact Or.inr (Or.inr h)
          · rintro (h | rfl | h)
            · exact Or.inl h
            · exact Or.inl hd
            · exact Or.inr h
        · simpa using h6
        · simp [h7]
      · obtain ⟨t1, g1, g2, g3, g4⟩ := valid_add tree T hV hlaw d hd
        obtain ⟨rs, t', T', h1, h2, h3, h4, h5, h6, h7, h8⟩ :=
          ih t1 _ g2 (by rw [g3]; exact hlaw)
        refine ⟨1 :: rs, t', T', ?_, h2, h3.trans g3, h4.trans g4, ?_, ?_, ?_,
          by simpa using h8⟩
        · simp [runAdds, g1, h1]
        · intro x; rw [h5, datas_insertP]
          simp only [List.mem_cons, Option.some.injEq]
          constructor
          · rintro ((rfl | h) | h)
            · exact Or.inr (Or.inl rfl)
            · exact Or.inl h
            · exact Or.inr (Or.inr h)
          · rintro (h | rfl | h)
            · exact Or.inl (Or.inr h)
            · exact Or.inl (Or.inl rfl)
            · exact Or.inr h
        · rw [h6, card_insertP]; simp; omega
        · simp [h7]

theorem datas_nodup {cmp : α → α → Int} (hlaw : StrictTotalOrder cmp) {T : Tree α}
    (h : BST cmp T) : T.datas.Nodup := by
  rw [bst_iff_pairwise hlaw] at h
  refine h.imp ?_
  intro x y hxy e
  subst e
  have := (hlaw.eq_zero x x).2 rfl
  omega

theorem length_datas (T : Tree α) : T.datas.length = T.card := by
  rw [card_eq_length]; simp [Tree.datas]

theorem run_distinct (cmp : α → α → Int) (free : φ) (xs : List α)
    (hlaw : StrictTotalOrder cmp) (hxs : xs.Nodup) :
    ∃ t0 rs tree T, newRBTree (some cmp) (some free) = some t0 ∧
      runAdds t0 (xs.map some) = some (rs, tree) ∧ Valid tree T ∧ tree.compFunc = cmp ∧
      tree.freeFunc = free ∧ T.datas.Perm xs ∧ rs = List.replicate xs.length 1 := by
  obtain ⟨hV0, hc0⟩ := valid_new cmp free _ rfl
  obtain ⟨rs, tree, T, h1, h2, h3, h4, h5, h6, h7, h8⟩ :=
    runAdds_spec (xs.map some) _ .nil hV0 (by rw [hc0]; exact hlaw)
  have hperm : T.datas.Perm xs := by
    rw [List.perm_ext_iff_of_nodup (datas_nodup (by rw [h3, hc0]; exact hlaw) h2.bst) hxs]
    intro x
    rw [h5]
    simp
  refine ⟨_, rs, tree, T, rfl, h1, h2, h3.trans hc0, h4, hperm, ?_⟩
  have hlen : (rs.filter (· ≠ 0)).length = rs.length := by
    have := hperm.length_eq
    rw [length_datas, h6] at this
    simp only [Tree.card, zero_add] at this
    rw [this, h7]; simp
  rw [List.filter_length_eq_length] at hlen
  rw [List.eq_replicate_iff]
  refine ⟨by simpa using h7, fun r hr => ?_⟩
  have := hlen r hr
  rcases h8 r hr with h | h
  · simp [h] at this
  · exact h

theorem blackCounts_of_balanced (t : Tree α) (h : BlackBalanced t) :
    ∀ n ∈ blackCounts t, n = bh t := by
  induction t with
  | nil => simp [blackCounts, bh]
  | node l a c d r ihl ihr =>
    obtain ⟨h1, h2, h3⟩ := h
    intro n hn
    simp only [blackCounts, List.map_append, List.mem_append, List.mem_map] at hn
    rcases hn with ⟨k, hk, rfl⟩ | ⟨k, hk, rfl⟩
    · rw [ihl h2 k hk]; rfl
    · rw [ihr h3 k hk, ← h1]; rfl

theorem everySubtree_pathsEqual (t : Tree α) (h : BlackBalanced t) :
    EverySubtree PathsEqual t := by
  induction t with
  | nil => intro n hn k hk; simp [blackCounts] at hn hk; omega
  | node l a c d r ihl ihr =>
    refine ⟨?_, ihl h.2.1, ihr h.2.2⟩
    intro n hn k hk
    rw [blackCounts_of_balanced _ h n hn, blackCounts_of_balanced _ h k hk]

theorem strictTotalOrder_numCompare : StrictTotalOrder numCompare := by
  constructor
  · intro a b; unfold numCompare
    split_ifs <;> constructor <;> intro h <;> first | omega | simp at h
  · intro a b; unfold numCompare
    split_ifs <;> constructor <;> intro h <;> omega
  · intro a b c; unfold numCompare
    split_ifs <;> intro h1 h2 <;> omega

/-- C1: for a strict-total-order comparator and pairwise-distinct payloads `xs` inserted one
by one with `addToRBTree` into a tree created by `newRBTree`, after each insertion (after the
first `k` of them, for every `k`) every call made so far has returned 1, the store holds a
tree shape `T` with exactly the payloads inserted so far, and `T` is BST-ordered: at every
node the payloads of the left subtree compare strictly less and those of the right subtree
strictly greater than the node's payload. -/
theorem C1_bst_after_each_insertion (cmp : α → α → Int) (free : φ) (xs : List α)
    (hlaw : StrictTotalOrder cmp) (hxs : xs.Nodup) (k : Nat) :
    ∃ t0 rs tree T, newRBTree (some cmp) (some free) = some t0 ∧
      runAdds t0 ((xs.take k).map some) = some (rs, tree) ∧
      rs = List.replicate (xs.take k).length 1 ∧
      Models tree T ∧ T.datas.Perm (xs.take k) ∧ BST cmp T := by
  obtain ⟨t0, rs, tree, T, h1, h2, h3, h4, -, h6, h7⟩ :=
    run_distinct cmp free (xs.take k) hlaw (hxs.sublist (List.take_sublist k xs))
  exact ⟨t0, rs, tree, T, h1, h2, h7, h3.models, h6, h4 ▸ h3.bst⟩

/-- Witness of C1: the integers 10, 20, 30 with the numeric comparator, after all three
insertions. -/
theorem C1_bst_after_each_insertion_witness :
    StrictTotalOrder numCompare ∧
    ([10, 20, 30] : List Int).Nodup ∧
    ∃ t0 rs tree T, newRBTree (some numCompare) (some ()) = some t0 ∧
      runAdds t0 ((([10, 20, 30] : List Int).take 3).map some) = some (rs, tree) ∧
      rs = List.replicate (([10, 20, 30] : List Int).take 3).length 1 ∧
      Models tree T ∧ T.datas.Perm (([10, 20, 30] : List Int).take 3) ∧ BST numCompare T :=
  ⟨strictTotalOrder_numCompare, by decide,
  C1_bst_after_each_insertion numCompare () [10, 20, 30] strictTotalOrder_numCompare
      (by decide) 3⟩

/-- C2: for a strict-total-order comparator and pairwise-distinct payloads inserted with
`addToRBTree` into an initially empty tree, after each insertion the tree shape held in the
store has no RED node with a RED child. -/
theorem C2_no_red_red_after_each_insertion (cmp : α → α → Int) (free : φ) (xs : List α)
    (hlaw : StrictTotalOrder cmp) (hxs : xs.Nodup) (k : Nat) :
    ∃ t0 rs tree T, newRBTree (some cmp) (some free) = some t0 ∧
      runAdds t0 ((xs.take k).map some) = some (rs, tree) ∧
      rs = List.replicate (xs.take k).length 1 ∧
      Models tree T ∧ T.datas.Perm (xs.take k) ∧ NoRedRed T := by
  obtain ⟨t0, rs, tree, T, h1, h2, h3, -, -, h6, h7⟩ :=
    run_distinct cmp free (xs.take k) hlaw (hxs.sublist (List.take_sublist k xs))
  exact ⟨t0, rs, tree, T, h1, h2, h7, h3.models, h6, h3.noRedRed⟩

/-- Witness of C2: the integers 1 to 7 inserted in ascending order. -/
theorem C2_no_red_red_after_each_insertion_witness :
    StrictTotalOrder numCompare ∧
    ([1, 2, 3, 4, 5, 6, 7] : List Int).Nodup ∧
    ∃ t0 rs tree T, newRBTree (some numCompare) (some ()) = some t0 ∧
      runAdds t0 ((([1, 2, 3, 4, 5, 6, 7] : List Int).take 7).map some) = some (rs, tree) ∧
      rs = List.replicate (([1, 2, 3, 4, 5, 6, 7] : List Int).take 7).length 1 ∧
      Models tree T ∧ T.datas.Perm (([1, 2, 3, 4, 5, 6, 7] : List Int).take 7) ∧
      NoRedRed T :=
  ⟨strictTotalOrder_numCompare, by decide,
  C2_no_red_red_after_each_insertion numCompare () [1, 2, 3, 4, 5, 6, 7]
      strictTotalOrder_numCompare (by decide) 7⟩

/-- C3: for a strict-total-order comparator and pairwise-distinct payloads inserted with
`addToRBTree` into an initially empty tree, after each insertion all paths from the root to
an absent-child position pass through the same number of BLACK nodes, and the same holds
below every node of the tree. -/
theorem C3_black_height_after_each_insertion (cmp : α → α → Int) (free : φ) (xs : List α)
    (hlaw : StrictTotalOrder cmp) (hxs : xs.Nodup) (k : Nat) :
    ∃ t0 rs tree T, newRBTree (some cmp) (some free) = some t0 ∧
      runAdds t0 ((xs.take k).map some) = some (rs, tree) ∧
      rs = List.replicate (xs.take k).length 1 ∧
      Models tree T ∧ T.datas.Perm (xs.take k) ∧ EverySubtree PathsEqual T := by
  obtain ⟨t0, rs, tree, T, h1, h2, h3, -, -, h6, h7⟩ :=
    run_distinct cmp free (xs.take k) hlaw (hxs.sublist (List.take_sublist k xs))
  exact ⟨t0, rs, tree, T, h1, h2, h7, h3.models, h6, everySubtree_pathsEqual T h3.balanced⟩

/-- Witness of C3: the integers 50, 10, 40, 20, 30 after the first four insertions. -/
theorem C3_black_height_after_each_insertion_witness :
    StrictTotalOrder numCompare ∧
    ([50, 10, 40, 20, 30] : List Int).Nodup ∧
    ∃ t0 rs tree T, newRBTree (some numCompare) (some ()) = some t0 ∧
      runAdds t0 ((([50, 10, 40, 20, 30] : List Int).take 4).map some) = some (rs, tree) ∧
      rs = List.replicate (([50, 10, 40, 20, 30] : List Int).take 4).length 1 ∧
      Models tree T ∧ T.datas.Perm (([50, 10, 40, 20, 30] : List Int).take 4) ∧
      EverySubtree PathsEqual T :=
  ⟨strictTotalOrder_numCompare, by decide,
  C3_black_height_after_each_insertion numCompare () [50, 10, 40, 20, 30]
      strictTotalOrder_numCompare (by decide) 4⟩

/-! ## Results of single calls -/

theorem writeNode_eq_some {m m' : List (Node α)} {p : Ptr} {f : Node α → Node α}
    (h : writeNode m p f = some m') :
    ∃ a n, p = some a ∧ readNode m (some a) = some n ∧ m' = m.set a (f n) := by
  cases p with
  | none => simp [writeNode, readNode] at h
  | some a =>
    rw [writeNode_some] at h
    cases hr : readNode m (some a) with
    | none => rw [hr] at h; simp at h
    | some n =>
      rw [hr] at h
      simp only [Option.map_some', Option.some.injEq] at h
      exact ⟨a, n, rfl, hr, h.symm⟩

theorem fixTree_root_black {tree t1 : RBTree α φ} {z : Ptr} (h : fixTree tree z = some t1) :
    ∃ a n, t1.root = some a ∧ readNode t1.nodes (some a) = some n ∧ n.color = Color.BLACK := by
  simp only [fixTree, Option.bind_eq_some] at h
  obtain ⟨t, -, m, hm, ht⟩ := h
  obtain ⟨a, n, ha, hn, rfl⟩ := writeNode_eq_some hm
  simp only [Option.some.injEq] at ht
  subst ht
  refine ⟨a, { n with color := Color.BLACK }, ha, ?_, rfl⟩
  simp [readNode_set, lt_of_read hn]

theorem addToRBTree_success {tree : Option (RBTree α φ)} {p : Option α} {r : Int}
    {t' : Option (RBTree α φ)} (h : addToRBTree tree p = some (r, t')) :
    (r = 0 ∧ t' = tree ∧ (tree = none ∨ p = none ∨ ∃ c, containsRBTree tree p = some c ∧ c ≠ 0)) ∨
    (r = 1 ∧ tree ≠ none ∧ p ≠ none ∧ containsRBTree tree p = some 0 ∧
      ∃ t1 a n, t' = some t1 ∧ t1.root = some a ∧ readNode t1.nodes (some a) = some n ∧
        n.color = Color.BLACK) := by
  rcases tree with _ | t
  · simp only [addToRBTree, Option.some.injEq, Prod.mk.injEq] at h
    exact Or.inl ⟨h.1.symm, h.2.symm, Or.inl rfl⟩
  rcases p with _ | d
  · simp only [addToRBTree, Option.some.injEq, Prod.mk.injEq] at h
    exact Or.inl ⟨h.1.symm, h.2.symm, Or.inr (Or.inl rfl)⟩
  simp only [addToRBTree, Option.bind_eq_some] at h
  obtain ⟨c, hc, h⟩ := h
  by_cases hc0 : c = 0
  · subst hc0
    right
    simp only [ne_eq, not_true_eq_false, if_false] at h
    by_cases hroot : t.root = none
    · simp only [hroot, if_true, Option.bind_eq_some] at h
      obtain ⟨m1, hm1, m2, hm2, h⟩ := h
      obtain ⟨a1, n1, ha1, hn1, rfl⟩ := writeNode_eq_some hm1
      obtain ⟨a2, n2, ha2, hn2, rfl⟩ := writeNode_eq_some hm2
      simp only [Option.some.injEq, Prod.mk.injEq] at h ha1 ha2
      obtain ⟨rfl, rfl⟩ := h
      subst ha1
      subst ha2
      have hl := lt_of_read hn1
      simp only [readNode_set, hl, and_self, if_true, Option.some.injEq] at hn2
      subst hn2
      rw [readNode_append_length, Option.some.injEq] at hn1
      subst hn1
      refine ⟨rfl, by simp, by simp, hc, _, _,
        ⟨none, none, none, Color.BLACK, some d⟩, rfl, rfl, ?_, rfl⟩
      simp [readNode_append_length]
    · simp only [hroot, if_false, Option.bind_eq_some] at h
      obtain ⟨par, -, m1, -, np, -, ord, -, m2, -, t1, ht1, h⟩ := h
      simp only [Option.some.injEq, Prod.mk.injEq] at h
      obtain ⟨rfl, rfl⟩ := h
      obtain ⟨a, n, e1, e2, e3⟩ := fixTree_root_black ht1
      exact ⟨rfl, by simp, by simp, hc, _, a, n, rfl, e1, e2, e3⟩
  · left
    simp only [ne_eq, hc0, not_false_eq_true, if_true, Option.some.injEq, Prod.mk.injEq] at h
    exact ⟨h.1.symm, h.2.symm, Or.inr (Or.inr ⟨c, hc, hc0⟩)⟩

theorem travP_nonzero (func : Option α → σ → Int × σ) (hfunc : ∀ p s, (func p s).1 ≠ 0)
    (t : Tree α) : ∀ s, travP func t s =
      (1, t.datas.foldl (fun s x => (func (some x) s).2) s) := by
  induction t with
  | nil => intro s; rfl
  | node l a c d r ihl ihr =>
    intro s
    simp only [travP, ihl, ihr, hfunc, if_false, datas_node, List.foldl_append,
      List.foldl_cons]

/-- C4: for every tree reached by insertions from an empty tree, after a call of
`addToRBTree` that returns success (non-zero) the root node exists and is BLACK.  (The proof
does not use how the tree was reached: every successful call ends by storing BLACK in the
node the root link points to.) -/
theorem C4_root_black_after_success (tree : RBTree α φ) (hreach : Reached tree)
    (p : Option α) (r : Int) (t' : RBTree α φ)
    (hcall : addToRBTree (some tree) p = some (r, some t')) (hr : r ≠ 0) :
    Reached t' ∧
      ∃ a n, t'.root = some a ∧ readNode t'.nodes (some a) = some n ∧
        n.color = Color.BLACK := by
  refine ⟨Reached.add tree t' p r hreach hcall, ?_⟩
  rcases addToRBTree_success hcall with ⟨h0, -⟩ | ⟨-, -, -, -, t1, a, n, e0, e1, e2, e3⟩
  · exact absurd h0 hr
  · simp only [Option.some.injEq] at e0
    subst e0
    exact ⟨a, n, e1, e2, e3⟩

/-- Witness of C4: inserting 5 into the empty tree of integers. -/
theorem C4_root_black_after_success_witness :
    Reached (⟨none, numCompare, (), 0, []⟩ : RBTree Int Unit) ∧
    addToRBTree (some (⟨none, numCompare, (), 0, []⟩ : RBTree Int Unit)) (some 5) =
      some (1, some ⟨some 0, numCompare, (), 1, [⟨none, none, none, .BLACK, some 5⟩]⟩) ∧
    (1 : Int) ≠ 0 ∧
    (Reached (⟨some 0, numCompare, (), 1, [⟨none, none, none, .BLACK, some 5⟩]⟩ :
        RBTree Int Unit) ∧
      ∃ a n, (⟨some 0, numCompare, (), 1, [⟨none, none, none, .BLACK, some 5⟩]⟩ :
          RBTree Int Unit).root = some a ∧
        readNode [(⟨none, none, none, .BLACK, some 5⟩ : Node Int)] (some a) = some n ∧
        n.color = Color.BLACK) :=
  ⟨Reached.new numCompare () _ rfl, rfl, by decide,
    C4_root_black_after_success _ (Reached.new numCompare () _ rfl) (some 5) 1 _ rfl
      (by decide)⟩

/-- C5: for a strict-total-order comparator and `N` pairwise-distinct payloads `xs` inserted
with `addToRBTree` in any order, `forEachRBTree` with a visitor that always returns non-zero
returns 1 after invoking the visitor on the payloads of a list `vs`, one after the other
(the final `args` is the visitor folded over `vs`), where `vs` is a rearrangement of `xs`
(so it has length `N`) in strictly increasing comparator order.  Inserting 10, 20, 30, 40, 50
and collecting the visited payloads yields `[10, 20, 30, 40, 50]`. -/
theorem C5_forEach_visits_in_increasing_order (cmp : α → α → Int) (free : φ) (xs : List α)
    (hlaw : StrictTotalOrder cmp) (hxs : xs.Nodup) (func : Option α → σ → Int × σ)
    (hfunc : ∀ p s, (func p s).1 ≠ 0) (args : σ) :
    (∃ t0 rs tree, ∃ vs : List α, newRBTree (some cmp) (some free) = some t0 ∧
      runAdds t0 (xs.map some) = some (rs, tree) ∧ rs = List.replicate xs.length 1 ∧
      vs.Perm xs ∧ vs.length = xs.length ∧ vs.Pairwise (fun x y => cmp x y < 0) ∧
      forEachRBTree (some tree) func args =
        some (1, vs.foldl (fun s x => (func (some x) s).2) args)) ∧
    ((newRBTree (some numCompare) (some ())).bind fun t0 =>
      (runAdds t0 [some 10, some 20, some 30, some 40, some 50]).bind fun run =>
        forEachRBTree (some run.2) collect []) = some (1, [10, 20, 30, 40, 50]) := by
  refine ⟨?_, by decide⟩
  obtain ⟨t0, rs, tree, T, h1, h2, h3, h4, -, h6, h7⟩ := run_distinct cmp free xs hlaw hxs
  refine ⟨t0, rs, tree, T.datas, h1, h2, h7, h6, h6.length_eq, ?_, ?_⟩
  · exact (bst_iff_pairwise hlaw T).1 (h4 ▸ h3.bst)
  · simp only [forEachRBTree]
    rw [h3.models.root, inOrderTraversal_spec tree.nodes func T none h3.models.rep
      (depthBound tree.nodes) (height_lt_depthBound h3.models) args, travP_nonzero func hfunc]

/-- Witness of C5: the integers 30, 10, 20 with the collecting visitor. -/
theorem C5_forEach_visits_in_increasing_order_witness :
    StrictTotalOrder numCompare ∧ ([30, 10, 20] : List Int).Nodup ∧
    (∀ (p : Option Int) (s : List Int), (collect p s).1 ≠ 0) ∧
    ((∃ t0 rs tree, ∃ vs : List Int, newRBTree (some numCompare) (some ()) = some t0 ∧
      runAdds t0 (([30, 10, 20] : List Int).map some) = some (rs, tree) ∧
      rs = List.replicate ([30, 10, 20] : List Int).length 1 ∧
      vs.Perm [30, 10, 20] ∧ vs.length = ([30, 10, 20] : List Int).length ∧
      vs.Pairwise (fun x y => numCompare x y < 0) ∧
      forEachRBTree (some tree) collect ([] : List Int) =
        some (1, vs.foldl (fun s x => (collect (some x) s).2) [])) ∧
    ((newRBTree (some numCompare) (some ())).bind fun t0 =>
      (runAdds t0 [some 10, some 20, some 30, some 40, some 50]).bind fun run =>
        forEachRBTree (some run.2) collect []) = some (1, [10, 20, 30, 40, 50])) :=
  ⟨strictTotalOrder_numCompare, by decide, fun _ _ => by simp [collect],
    C5_forEach_visits_in_increasing_order numCompare () [30, 10, 20]
      strictTotalOrder_numCompare (by decide) collect (fun _ _ => by simp [collect]) []⟩

/-- C6: for a strict-total-order comparator and every sequence `xs` of payloads passed to
`addToRBTree` on an initially empty tree (in particular every sequence of successful calls),
afterwards `containsRBTree(tree, q)` returns non-zero if and only if `q` compares equal to
one of the payloads of `xs`.  As `xs` is arbitrary this covers the point right after the
insertion of `p` and every later point, and gives 0 for every payload never inserted. -/
theorem C6_contains_iff_inserted (cmp : α → α → Int) (free : φ) (xs : List α)
    (hlaw : StrictTotalOrder cmp) (q : α) :
    ∃ t0 rs tree r, newRBTree (some cmp) (some free) = some t0 ∧
      runAdds t0 (xs.map some) = some (rs, tree) ∧
      containsRBTree (some tree) (some q) = some r ∧ (r ≠ 0 ↔ ∃ x ∈ xs, cmp x q = 0) := by
  obtain ⟨hV0, hc0⟩ := valid_new cmp free _ rfl
  obtain ⟨rs, tree, T, h1, h2, h3, -, h5, -, -, -⟩ :=
    runAdds_spec (xs.map some) _ .nil hV0 (by rw [hc0]; exact hlaw)
  obtain ⟨r, g1, -, g3⟩ := containsRBTree_spec tree T h2.models q
  refine ⟨_, rs, tree, r, rfl, h1, g1, ?_⟩
  rw [g3, h3, hc0]
  constructor
  · rintro ⟨x, hx, h0⟩
    exact ⟨x, by simpa using (h5 x).1 hx, h0⟩
  · rintro ⟨x, hx, h0⟩
    exact ⟨x, (h5 x).2 (by simpa using hx), h0⟩

/-- Witness of C6: the integers 10, 20, 30 and the query 20. -/
theorem C6_contains_iff_inserted_witness :
    StrictTotalOrder numCompare ∧
    ∃ t0 rs tree r, newRBTree (some numCompare) (some ()) = some t0 ∧
      runAdds t0 (([10, 20, 30] : List Int).map some) = some (rs, tree) ∧
      containsRBTree (some tree) (some 20) = some r ∧
      (r ≠ 0 ↔ ∃ x ∈ ([10, 20, 30] : List Int), numCompare x 20 = 0) :=
  ⟨strictTotalOrder_numCompare,
    C6_contains_iff_inserted numCompare () [10, 20, 30] strictTotalOrder_numCompare 20⟩

/-- C7: for every tree structure holding a tree shape `T` (all payloads non-`NULL`), every
comparator and every payload `p`, `containsRBTree(tree, p)` returns, and returns non-zero if
and only if `p` is non-`NULL` and some node `x` of `T` has `comparator(x.payload, p) == 0`;
it returns 0 for a `NULL` tree and for a `NULL` payload. -/
theorem C7_contains_iff_some_node_equal (tree : RBTree α φ) (T : Tree α)
    (hM : Models tree T) (p : Option α) :
    (∃ r, containsRBTree (some tree) p = some r ∧
      (r ≠ 0 ↔ ∃ d, p = some d ∧ ∃ x ∈ T.datas, tree.compFunc x d = 0)) ∧
    containsRBTree (none : Option (RBTree α φ)) p = some 0 ∧
    containsRBTree (some tree) (none : Option α) = some 0 := by
  refine ⟨?_, by cases p <;> rfl, rfl⟩
  rcases p with _ | d
  · exact ⟨0, rfl, by simp⟩
  · obtain ⟨r, g1, -, g3⟩ := containsRBTree_spec tree T hM d
    exact ⟨r, g1, by simpa using g3⟩

/-- Witness of C7: the one-node tree holding 5, queried for 5. -/
theorem C7_contains_iff_some_node_equal_witness :
    Models (⟨some 0, numCompare, (), 1, [⟨none, none, none, .BLACK, some 5⟩]⟩ :
      RBTree Int Unit) (.node .nil 0 .BLACK 5 .nil) ∧
    ((∃ r, containsRBTree (some (⟨some 0, numCompare, (), 1,
        [⟨none, none, none, .BLACK, some 5⟩]⟩ : RBTree Int Unit)) (some 5) = some r ∧
      (r ≠ 0 ↔ ∃ d, some (5 : Int) = some d ∧
        ∃ x ∈ (Tree.node .nil 0 .BLACK (5 : Int) .nil).datas, numCompare x d = 0)) ∧
    containsRBTree (none : Option (RBTree Int Unit)) (some 5) = some 0 ∧
    containsRBTree (some (⟨some 0, numCompare, (), 1,
        [⟨none, none, none, .BLACK, some 5⟩]⟩ : RBTree Int Unit)) (none : Option Int) =
      some 0) :=
  ⟨⟨rfl, by simp [Rep, readNode], by decide⟩,
    C7_contains_iff_some_node_equal _ _ ⟨rfl, by simp [Rep, readNode], by decide⟩ (some 5)⟩

theorem addToRBTree_returns (tree : RBTree α φ) (T : Tree α) (hV : Valid tree T)
    (hlaw : StrictTotalOrder tree.compFunc) (p : Option α) :
    ∃ r t', addToRBTree (some tree) p = some (r, t') ∧
      (r ≠ 0 ↔ ∃ d, p = some d ∧ ∀ x ∈ T.datas, tree.compFunc x d ≠ 0) := by
  rcases p with _ | d
  · exact ⟨0, some tree, rfl, by simp⟩
  · by_cases hd : d ∈ T.datas
    · have hex : ∃ x ∈ T.datas, tree.compFunc x d = 0 := ⟨d, hd, (hlaw.eq_zero d d).2 rfl⟩
      refine ⟨0, some tree, addToRBTree_dup tree T hV.models d hex, ?_⟩
      simp only [ne_eq, not_true_eq_false, Option.some.injEq, exists_eq_left', false_iff,
        not_forall, not_not]
      obtain ⟨x, hx, h0⟩ := hex
      exact ⟨x, hx, h0⟩
    · obtain ⟨t', h1, -⟩ := valid_add tree T hV hlaw d hd
      have hno : ∀ x ∈ T.datas, tree.compFunc x d ≠ 0 := by
        intro x hx h0
        rw [(hlaw.eq_zero x d).1 h0] at hx
        exact hd hx
      exact ⟨1, some t', h1, by simpa using hno⟩

/-- C8: for every tree and payload (node allocation taken to succeed), whenever the call
`addToRBTree(tree, p)` returns, its result is 0 or 1 and it is success (non-zero) if and
only if `tree` is non-`NULL`, `p` is non-`NULL` and `containsRBTree(tree, p)` is 0 before the
call.  Moreover the call does return on every tree structure holding a red-black tree `T`
under a strict-total-order comparator, with success exactly when no payload of `T` compares
equal to `p` (a payload already in the tree is a failure), and on a `NULL` tree it returns
failure. -/
theorem C8_add_succeeds_iff_absent (tree : Option (RBTree α φ)) (p : Option α) (r : Int)
    (t' : Option (RBTree α φ)) (hcall : addToRBTree tree p = some (r, t')) :
    ((r ≠ 0 ↔ tree ≠ none ∧ p ≠ none ∧ containsRBTree tree p = some 0) ∧ (r = 0 ∨ r = 1)) ∧
    (∀ (t : RBTree α φ) (T : Tree α), Valid t T → StrictTotalOrder t.compFunc →
      ∀ q : Option α, ∃ r1 t1, addToRBTree (some t) q = some (r1, t1) ∧
        (r1 ≠ 0 ↔ ∃ d, q = some d ∧ ∀ x ∈ T.datas, t.compFunc x d ≠ 0)) ∧
    (∀ q : Option α, addToRBTree (none : Option (RBTree α φ)) q = some (0, none)) := by
  refine ⟨?_, fun t T hV hlaw q => addToRBTree_returns t T hV hlaw q,
    fun q => by cases q <;> rfl⟩
  rcases addToRBTree_success hcall with ⟨h0, -, h⟩ | ⟨h1, h2, h3, h4, -⟩
  · refine ⟨?_, Or.inl h0⟩
    subst h0
    simp only [ne_eq, not_true_eq_false, false_iff, not_and]
    intro ht hp hc
    rcases h with h | h | ⟨c, hc', hc0⟩
    · exact ht h
    · exact hp h
    · rw [hc] at hc'
      simp only [Option.some.injEq] at hc'
      exact hc0 hc'.symm
  · refine ⟨?_, Or.inr h1⟩
    subst h1
    simp [h2, h3, h4]

/-- Witness of C8: the empty tree of integers and the payload 5. -/
theorem C8_add_succeeds_iff_absent_witness :
    addToRBTree (some (⟨none, numCompare, (), 0, []⟩ : RBTree Int Unit)) (some 5) =
      some (1, some ⟨some 0, numCompare, (), 1, [⟨none, none, none, .BLACK, some 5⟩]⟩) ∧
    ((((1 : Int) ≠ 0 ↔ some (⟨none, numCompare, (), 0, []⟩ : RBTree Int Unit) ≠ none ∧
        some (5 : Int) ≠ none ∧
        containsRBTree (some (⟨none, numCompare, (), 0, []⟩ : RBTree Int Unit)) (some 5) =
          some 0) ∧ ((1 : Int) = 0 ∨ (1 : Int) = 1)) ∧
    (∀ (t : RBTree Int Unit) (T : Tree Int), Valid t T → StrictTotalOrder t.compFunc →
      ∀ q : Option Int, ∃ r1 t1, addToRBTree (some t) q = some (r1, t1) ∧
        (r1 ≠ 0 ↔ ∃ d, q = some d ∧ ∀ x ∈ T.datas, t.compFunc x d ≠ 0)) ∧
    (∀ q : Option Int, addToRBTree (none : Option (RBTree Int Unit)) q = some (0, none))) :=
  ⟨rfl, C8_add_succeeds_iff_absent _ (some 5) 1 _ rfl⟩

/-- C9: whenever `addToRBTree` returns failure (0) the tree is exactly as it was before the
call: same store of nodes (links, colours, payloads), same root and same size.  Inserting 5
twice: the first call returns 1 and the size is 1, the second call returns 0 and leaves the
tree, with its size 1, as it was. -/
theorem C9_failure_leaves_tree_unchanged (tree : Option (RBTree α φ)) (p : Option α)
    (t' : Option (RBTree α φ)) (hcall : addToRBTree tree p = some (0, t')) :
    t' = tree ∧
    (∃ t0 t1 : RBTree Int Unit, newRBTree (some numCompare) (some ()) = some t0 ∧
      addToRBTree (some t0) (some 5) = some (1, some t1) ∧ t1.size = 1 ∧
      addToRBTree (some t1) (some 5) = some (0, some t1)) := by
  constructor
  · rcases addToRBTree_success hcall with ⟨-, h, -⟩ | ⟨h, -⟩
    · exact h
    · cases h
  · exact ⟨_, _, rfl, rfl, rfl, rfl⟩

/-- Witness of C9: the `NULL` payload on the empty tree of integers. -/
theorem C9_failure_leaves_tree_unchanged_witness :
    addToRBTree (some (⟨none, numCompare, (), 0, []⟩ : RBTree Int Unit)) (none : Option Int) =
      some (0, some ⟨none, numCompare, (), 0, []⟩) ∧
    (some (⟨none, numCompare, (), 0, []⟩ : RBTree Int Unit) = some ⟨none, numCompare, (), 0, []⟩ ∧
    (∃ t0 t1 : RBTree Int Unit, newRBTree (some numCompare) (some ()) = some t0 ∧
      addToRBTree (some t0) (some 5) = some (1, some t1) ∧ t1.size = 1 ∧
      addToRBTree (some t1) (some 5) = some (0, some t1))) :=
  ⟨rfl, C9_failure_leaves_tree_unchanged _ none _ rfl⟩

/-- C10: for a strict-total-order comparator and every sequence `ps` of `addToRBTree` calls
(successful or not, `NULL` payloads included) on a tree created by `newRBTree`, after each
call the `size` field equals the number of nodes of the tree shape held in the store
(the nodes reachable from the root), which equals the number of calls that returned
success, which equals the number of distinct non-`NULL` payloads passed so far (the length
of the duplicate-free list of the stored payloads, whose members are exactly those
payloads). -/
theorem C10_size_counts_nodes (cmp : α → α → Int) (free : φ) (ps : List (Option α))
    (hlaw : StrictTotalOrder cmp) (k : Nat) :
    ∃ t0 rs tree T, newRBTree (some cmp) (some free) = some t0 ∧
      runAdds t0 (ps.take k) = some (rs, tree) ∧ Models tree T ∧
      tree.size = T.card ∧ tree.size = (rs.filter (· ≠ 0)).length ∧
      T.datas.Nodup ∧ (∀ x, x ∈ T.datas ↔ some x ∈ ps.take k) ∧
      tree.size = T.datas.length := by
  obtain ⟨hV0, hc0⟩ := valid_new cmp free _ rfl
  obtain ⟨rs, tree, T, h1, h2, h3, -, h5, h6, -, -⟩ :=
    runAdds_spec (ps.take k) _ .nil hV0 (by rw [hc0]; exact hlaw)
  refine ⟨_, rs, tree, T, rfl, h1, h2.models, h2.size, ?_,
    datas_nodup (by rw [h3, hc0]; exact hlaw) h2.bst, ?_, ?_⟩
  · rw [h2.size, h6]; simp [Tree.card]
  · intro x; rw [h5]; simp
  · rw [h2.size, length_datas]

/-- Witness of C10: the calls 5, 5, `NULL`, 7 on the empty tree of integers. -/
theorem C10_size_counts_nodes_witness :
    StrictTotalOrder numCompare ∧
    ∃ t0 rs tree T, newRBTree (some numCompare) (some ()) = some t0 ∧
      runAdds t0 (([some 5, some 5, none, some 7] : List (Option Int)).take 4) =
        some (rs, tree) ∧ Models tree T ∧
      tree.size = T.card ∧ tree.size = (rs.filter (· ≠ 0)).length ∧
      T.datas.Nodup ∧
      (∀ x, x ∈ T.datas ↔ some x ∈ ([some 5, some 5, none, some 7] : List (Option Int)).take 4) ∧
      tree.size = T.datas.length :=
  ⟨strictTotalOrder_numCompare,
    C10_size_counts_nodes numCompare () [some 5, some 5, none, some 7]
      strictTotalOrder_numCompare 4⟩

/-! ## Teardown on a shape -/

theorem deallocate_spec (m : List (Node α)) (f : φ) (t : Tree α) :
    ∀ (par : Ptr), Rep m t par → ∀ fuel, t.height < fuel →
      deallocate m f fuel t.ptr = some (releaseP f t) := by
  induction t with
  | nil =>
    intro par _ fuel hf
    obtain ⟨k, rfl⟩ : ∃ k, fuel = k + 1 := ⟨fuel - 1, by omega⟩
    rfl
  | node l a c x r ihl ihr =>
    intro par h fuel hf
    obtain ⟨k, rfl⟩ : ∃ k, fuel = k + 1 := ⟨fuel - 1, by omega⟩
    obtain ⟨h1, h2, h3⟩ := h
    simp only [Tree.height] at hf
    simp only [deallocate, ptr_node, h1, ihl _ h2 k (by omega), ihr _ h3 k (by omega),
      Option.some_bind, releaseP]

theorem freeRBTree_spec (tree : RBTree α φ) (T : Tree α) (hM : Models tree T) :
    freeRBTree (some tree) = some (releaseP tree.freeFunc T ++ [FreeEvent.tree]) := by
  simp only [freeRBTree]
  rw [hM.root, deallocate_spec tree.nodes tree.freeFunc T none hM.rep _
    (height_lt_depthBound hM)]
  rfl

theorem call_releaseP (f : φ) (t : Tree α) :
    (releaseP f t).filterMap FreeEvent.call = t.postOrder.map fun x => (f, some x.2) := by
  induction t with
  | nil => rfl
  | node l a c d r ihl ihr =>
    simp [releaseP, Tree.postOrder, List.filterMap_append, ihl, ihr, FreeEvent.call]

theorem perm_postOrder (t : Tree α) : t.postOrder.Perm t.toList := by
  induction t with
  | nil => exact List.Perm.refl _
  | node l a c d r ihl ihr =>
    simp only [Tree.postOrder, Tree.toList]
    rw [List.append_assoc]
    refine List.Perm.append ihl ?_
    rw [← List.singleton_append (l := r.toList)]
    exact (List.perm_append_comm).trans (List.Perm.append_left _ ihr)

theorem accepted_zero_cons (p : Option α) (ps : List (Option α)) (rs : List Int) :
    accepted (p :: ps) (0 :: rs) = accepted ps rs := by
  cases p <;> simp [accepted]

theorem runAdds_accepted (ps : List (Option α)) : ∀ (tree : RBTree α φ) (T : Tree α),
    Valid tree T → StrictTotalOrder tree.compFunc →
    ∃ rs t' T', runAdds tree ps = some (rs, t') ∧ Valid t' T' ∧
      t'.compFunc = tree.compFunc ∧ t'.freeFunc = tree.freeFunc ∧
      T'.datas.Perm (T.datas ++ accepted ps rs) ∧
      (accepted ps rs).length = (rs.filter (· ≠ 0)).length := by
  induction ps with
  | nil =>
    intro tree T hV _
    exact ⟨[], tree, T, rfl, hV, rfl, rfl, by simp [accepted], by simp [accepted]⟩
  | cons p ps ih =>
    intro tree T hV hlaw
    rcases p with _ | d
    · obtain ⟨rs, t', T', h1, h2, h3, h4, h5, h6⟩ := ih tree T hV hlaw
      refine ⟨0 :: rs, t', T', ?_, h2, h3, h4, ?_, ?_⟩
      · simp [runAdds, addToRBTree_null, h1]
      · rw [accepted_zero_cons]; exact h5
      · rw [accepted_zero_cons]; simpa using h6
    · by_cases hd : d ∈ T.datas
      · have hdup := addToRBTree_dup tree T hV.models d
          ⟨d, hd, (hlaw.eq_zero d d).2 rfl⟩
        obtain ⟨rs, t', T', h1, h2, h3, h4, h5, h6⟩ := ih tree T hV hlaw
        refine ⟨0 :: rs, t', T', ?_, h2, h3, h4, ?_, ?_⟩
        · simp [runAdds, hdup, h1]
        · rw [accepted_zero_cons]; exact h5
        · rw [accepted_zero_cons]; simpa using h6
      · obtain ⟨t1, g1, g2, g3, g4⟩ := valid_add tree T hV hlaw d hd
        obtain ⟨rs, t', T', h1, h2, h3, h4, h5, h6⟩ :=
          ih t1 _ g2 (by rw [g3]; exact hlaw)
        refine ⟨1 :: rs, t', T', ?_, h2, h3.trans g3, h4.trans g4, ?_, ?_⟩
        · simp [runAdds, g1, h1]
        · obtain ⟨B, A, e1, e2, -, -⟩ := toList_insertP tree.compFunc T tree.nodes.length d
          refine h5.trans ?_
          have : (insertP tree.compFunc T tree.nodes.length d).datas.Perm (d :: T.datas) := by
            simp only [Tree.datas, e1, e2, List.map_append, List.map_cons]
            exact List.perm_middle
          simp only [accepted, ne_eq, one_ne_zero, not_false_eq_true, if_true]
          exact (List.Perm.append_right _ this).trans (by simpa using List.perm_middle.symm)
        · simp [accepted, h6]

/-! ## The free function is only stored -/

variable {ψ : Type}

theorem map_bind_setFree {γ : Type} (g : ψ) (x : Option γ) (k : γ → Option (RBTree α φ)) :
    (x.bind k).map (RBTree.setFree g) = x.bind fun a => (k a).map (RBTree.setFree g) := by
  cases x <;> rfl

theorem leftRotate_setFree (g : ψ) (t : RBTree α φ) (p : Ptr) :
    leftRotate (t.setFree g) p = (leftRotate t p).map (RBTree.setFree g) := by
  unfold leftRotate
  simp only [RBTree.setFree]
  repeat' split
  all_goals first
    | rfl
    | simp only [Option.map_some', Option.map_none', map_bind_setFree,
        apply_ite (Option.map (RBTree.setFree g)), RBTree.setFree]

theorem rightRotate_setFree (g : ψ) (t : RBTree α φ) (p : Ptr) :
    rightRotate (t.setFree g) p = (rightRotate t p).map (RBTree.setFree g) := by
  unfold rightRotate
  simp only [RBTree.setFree]
  repeat' split
  all_goals first
    | rfl
    | simp only [Option.map_some', Option.map_none', map_bind_setFree,
        apply_ite (Option.map (RBTree.setFree g)), RBTree.setFree]


theorem map_bind_opt {γ δ ε : Type} (f : δ → ε) (x : Option γ) (k : γ → Option δ) :
    (x.bind k).map f = x.bind fun a => (k a).map f := by
  cases x <;> rfl

theorem bind_map_opt {γ δ ε : Type} (f : γ → δ) (x : Option γ) (k : δ → Option ε) :
    (x.map f).bind k = x.bind fun a => k (f a) := by
  cases x <;> rfl

theorem fixTreeStep_setFree (g : ψ) (t : RBTree α φ) (z : Ptr) :
    fixTreeStep (t.setFree g) z = (fixTreeStep t z).map (LoopStep.setFree g) := by
  unfold fixTreeStep
  simp only [leftRotate_setFree, rightRotate_setFree, bind_map_opt]
  simp only [RBTree.setFree, map_bind_opt, apply_ite (Option.map (LoopStep.setFree g)),
    Option.map_some', LoopStep.setFree]

theorem fixTreeLoop_setFree (g : ψ) (fuel : Nat) : ∀ (t : RBTree α φ) (z : Ptr),
    fixTreeLoop fuel (t.setFree g) z = (fixTreeLoop fuel t z).map (RBTree.setFree g) := by
  induction fuel with
  | zero => intro t z; rfl
  | succ k ih =>
    intro t z
    simp only [fixTreeLoop, fixTreeStep_setFree]
    cases fixTreeStep t z with
    | none => rfl
    | some s =>
      cases s with
      | done t1 => rfl
      | next t1 z1 => exact ih t1 z1

theorem fixTree_setFree (g : ψ) (t : RBTree α φ) (z : Ptr) :
    fixTree (t.setFree g) z = (fixTree t z).map (RBTree.setFree g) := by
  unfold fixTree
  have : depthBound (t.setFree g).nodes = depthBound t.nodes := rfl
  simp only [this, fixTreeLoop_setFree, bind_map_opt]
  simp only [RBTree.setFree, map_bind_opt, Option.map_some']

theorem addToRBTree_setFree (g : ψ) (t : RBTree α φ) (p : Option α) :
    addToRBTree (some (t.setFree g)) p =
      (addToRBTree (some t) p).map fun r => (r.1, r.2.map (RBTree.setFree g)) := by
  cases p with
  | none => rfl
  | some d =>
    have hc : containsRBTree (some (t.setFree g)) (some d) = containsRBTree (some t) (some d) :=
      rfl
    have hf : ∀ m z, fixTree ({ t.setFree g with nodes := m }) z =
        (fixTree { t with nodes := m } z).map (RBTree.setFree g) :=
      fun m z => fixTree_setFree g { t with nodes := m } z
    simp only [addToRBTree, hc]
    simp only [hf, bind_map_opt]
    simp only [RBTree.setFree, map_bind_opt, Option.map_some', Option.map_none',
      apply_ite (Option.map fun r : Int × Option (RBTree α φ) =>
        (r.1, r.2.map (RBTree.setFree g)))]

/-! ## Construction, the two three-node scenarios, and a visitor returning 0 -/

/-- C14: `newRBTree(compFunc, freeFunc)` returns `NULL` if and only if `compFunc` or
`freeFunc` is `NULL` (allocation succeeds in the model); for non-`NULL` arguments it returns
the empty tree: root absent, size 0, no node allocated, holding exactly the given comparator
and free function. -/
theorem C14_newRBTree_null_iff_missing_function (compFunc : Option (α → α → Int))
    (freeFunc : Option φ) (c : α → α → Int) (f : φ) :
    (newRBTree compFunc freeFunc = none ↔ compFunc = none ∨ freeFunc = none) ∧
    newRBTree (some c) (some f) =
      some { root := none, compFunc := c, freeFunc := f, size := 0, nodes := [] } := by
  refine ⟨?_, rfl⟩
  cases compFunc <;> cases freeFunc <;> simp [newRBTree]

/-- C15: with the numeric comparator, `addToRBTree` of 10, 20, 30 on the empty tree returns 1
three times and leaves exactly three nodes: the root holds 20 and is BLACK, its left child
holds 10 and is RED, its right child holds 30 and is RED, and both children are leaves whose
parent link is the root.  The third call attaches 30 below 20 and runs `fixTree` on it, whose
single loop round is the right-right case: `leftRotate` about the node of 10 (the
grandparent), then the colour swap of parent and grandparent. -/
theorem C15_insert_10_20_30_right_right_case :
    newRBTree (some numCompare) (some ()) = some (⟨none, numCompare, (), 0, []⟩ : RBTree Int Unit) ∧
    runAdds (⟨none, numCompare, (), 0, []⟩ : RBTree Int Unit) [some 10, some 20, some 30] =
      some ([1, 1, 1], ⟨some 1, numCompare, (), 3,
        [⟨some 1, none, none, .RED, some 10⟩, ⟨none, some 0, some 2, .BLACK, some 20⟩,
          ⟨some 1, none, none, .RED, some 30⟩]⟩) ∧
    Models (⟨some 1, numCompare, (), 3,
        [⟨some 1, none, none, .RED, some 10⟩, ⟨none, some 0, some 2, .BLACK, some 20⟩,
          ⟨some 1, none, none, .RED, some 30⟩]⟩ : RBTree Int Unit)
      (.node (.node .nil 0 .RED 10 .nil) 1 .BLACK 20 (.node .nil 2 .RED 30 .nil)) ∧
    runAdds (⟨none, numCompare, (), 0, []⟩ : RBTree Int Unit) [some 10, some 20] =
      some ([1, 1], ⟨some 0, numCompare, (), 2,
        [⟨none, none, some 1, .BLACK, some 10⟩, ⟨some 0, none, none, .RED, some 20⟩]⟩) ∧
    addToRBTree (some (⟨some 0, numCompare, (), 2,
        [⟨none, none, some 1, .BLACK, some 10⟩, ⟨some 0, none, none, .RED, some 20⟩]⟩ :
          RBTree Int Unit)) (some 30) =
      (fixTree (⟨some 0, numCompare, (), 2,
        [⟨none, none, some 1, .BLACK, some 10⟩, ⟨some 0, none, some 2, .RED, some 20⟩,
          ⟨some 1, none, none, .RED, some 30⟩]⟩ : RBTree Int Unit) (some 2)).bind
        (fun t1 => some (1, some { t1 with size := t1.size + 1 })) ∧
    fixTreeStep (⟨some 0, numCompare, (), 2,
        [⟨none, none, some 1, .BLACK, some 10⟩, ⟨some 0, none, some 2, .RED, some 20⟩,
          ⟨some 1, none, none, .RED, some 30⟩]⟩ : RBTree Int Unit) (some 2) =
      ((leftRotate (⟨some 0, numCompare, (), 2,
        [⟨none, none, some 1, .BLACK, some 10⟩, ⟨some 0, none, some 2, .RED, some 20⟩,
          ⟨some 1, none, none, .RED, some 30⟩]⟩ : RBTree Int Unit) (some 0)).bind fun t1 =>
        (swapColors t1.nodes (some 1) (some 0)).bind fun m =>
          some (.done { t1 with nodes := m })) ∧
    leftRotate (⟨some 0, numCompare, (), 2,
        [⟨none, none, some 1, .BLACK, some 10⟩, ⟨some 0, none, some 2, .RED, some 20⟩,
          ⟨some 1, none, none, .RED, some 30⟩]⟩ : RBTree Int Unit) (some 0) =
      some ⟨some 1, numCompare, (), 2,
        [⟨some 1, none, none, .BLACK, some 10⟩, ⟨none, some 0, some 2, .RED, some 20⟩,
          ⟨some 1, none, none, .RED, some 30⟩]⟩ :=
  ⟨rfl, rfl, ⟨rfl, ⟨rfl, ⟨rfl, trivial, trivial⟩, ⟨rfl, trivial, trivial⟩⟩, by decide⟩,
    rfl, rfl, rfl, rfl⟩

/-- C16: with the numeric comparator, `addToRBTree` of 30, 20, 10 on the empty tree returns 1
three times and leaves exactly three nodes: the root holds 20 and is BLACK, its left child
holds 10 and is RED, its right child holds 30 and is RED, and both children are leaves whose
parent link is the root.  The third call attaches 10 below 20 and runs `fixTree` on it, whose
single loop round is the left-left case: `rightRotate` about the node of 30 (the
grandparent), then the colour swap of parent and grandparent. -/
theorem C16_insert_30_20_10_left_left_case :
    newRBTree (some numCompare) (some ()) = some (⟨none, numCompare, (), 0, []⟩ : RBTree Int Unit) ∧
    runAdds (⟨none, numCompare, (), 0, []⟩ : RBTree Int Unit) [some 30, some 20, some 10] =
      some ([1, 1, 1], ⟨some 1, numCompare, (), 3,
        [⟨some 1, none, none, .RED, some 30⟩, ⟨none, some 2, some 0, .BLACK, some 20⟩,
          ⟨some 1, none, none, .RED, some 10⟩]⟩) ∧
    Models (⟨some 1, numCompare, (), 3,
        [⟨some 1, none, none, .RED, some 30⟩, ⟨none, some 2, some 0, .BLACK, some 20⟩,
          ⟨some 1, none, none, .RED, some 10⟩]⟩ : RBTree Int Unit)
      (.node (.node .nil 2 .RED 10 .nil) 1 .BLACK 20 (.node .nil 0 .RED 30 .nil)) ∧
    runAdds (⟨none, numCompare, (), 0, []⟩ : RBTree Int Unit) [some 30, some 20] =
      some ([1, 1], ⟨some 0, numCompare, (), 2,
        [⟨none, some 1, none, .BLACK, some 30⟩, ⟨some 0, none, none, .RED, some 20⟩]⟩) ∧
    addToRBTree (some (⟨some 0, numCompare, (), 2,
        [⟨none, some 1, none, .BLACK, some 30⟩, ⟨some 0, none, none, .RED, some 20⟩]⟩ :
          RBTree Int Unit)) (some 10) =
      (fixTree (⟨some 0, numCompare, (), 2,
        [⟨none, some 1, none, .BLACK, some 30⟩, ⟨some 0, some 2, none, .RED, some 20⟩,
          ⟨some 1, none, none, .RED, some 10⟩]⟩ : RBTree Int Unit) (some 2)).bind
        (fun t1 => some (1, some { t1 with size := t1.size + 1 })) ∧
    fixTreeStep (⟨some 0, numCompare, (), 2,
        [⟨none, some 1, none, .BLACK, some 30⟩, ⟨some 0, some 2, none, .RED, some 20⟩,
          ⟨some 1, none, none, .RED, some 10⟩]⟩ : RBTree Int Unit) (some 2) =
      ((rightRotate (⟨some 0, numCompare, (), 2,
        [⟨none, some 1, none, .BLACK, some 30⟩, ⟨some 0, some 2, none, .RED, some 20⟩,
          ⟨some 1, none, none, .RED, some 10⟩]⟩ : RBTree Int Unit) (some 0)).bind fun t1 =>
        (swapColors t1.nodes (some 1) (some 0)).bind fun m =>
          some (.done { t1 with nodes := m })) ∧
    rightRotate (⟨some 0, numCompare, (), 2,
        [⟨none, some 1, none, .BLACK, some 30⟩, ⟨some 0, some 2, none, .RED, some 20⟩,
          ⟨some 1, none, none, .RED, some 10⟩]⟩ : RBTree Int Unit) (some 0) =
      some ⟨some 1, numCompare, (), 2,
        [⟨some 1, none, none, .BLACK, some 30⟩, ⟨none, some 2, some 0, .RED, some 20⟩,
          ⟨some 1, none, none, .RED, some 10⟩]⟩ :=
  ⟨rfl, rfl, ⟨rfl, ⟨rfl, ⟨rfl, trivial, trivial⟩, ⟨rfl, trivial, trivial⟩⟩, by decide⟩,
    rfl, rfl, rfl, rfl⟩

/-- C11, failing input: the tree of 20 and 10 (root 20, left child 10) and the visitor
`failOn10`.  The visitor is invoked on 10 first and returns 0 there, yet the traversal goes
on to 20 and `forEachRBTree` returns 1: `inOrderTraversal` drops the result of its recursive
call on the left subtree, so a 0 from any node but the root never reaches the caller. -/
theorem C11_forEach_returns_1_after_a_visitor_returned_0 :
    runAdds (⟨none, numCompare, (), 0, []⟩ : RBTree Int Unit) [some 20, some 10] =
      some ([1, 1], ⟨some 0, numCompare, (), 2,
        [⟨none, some 1, none, .BLACK, some 20⟩, ⟨some 0, none, none, .RED, some 10⟩]⟩) ∧
    (failOn10 (some 10) []).1 = 0 ∧
    forEachRBTree (some (⟨some 0, numCompare, (), 2,
        [⟨none, some 1, none, .BLACK, some 20⟩, ⟨some 0, none, none, .RED, some 10⟩]⟩ :
          RBTree Int Unit)) failOn10 [] = some (1, [10, 20]) :=
  ⟨rfl, rfl, rfl⟩

/-- C12, failing input: the tree of 1, 2, ..., 10 inserted in this order and the visitor
`stopAtThird`, which returns 0 on its 3rd call.  The 3rd call is on the payload 3 and
returns 0, yet `forEachRBTree` goes on to invoke the visitor on 4, 5, ..., 10 as well (ten
invocations in all) and returns 1: the 0 ends only the recursive call on the node of 3. -/
theorem C12_forEach_goes_on_after_a_visitor_returned_0 :
    (∃ tree : RBTree Int Unit,
      runAdds (⟨none, numCompare, (), 0, []⟩ : RBTree Int Unit)
        [some 1, some 2, some 3, some 4, some 5, some 6, some 7, some 8, some 9, some 10] =
          some ([1, 1, 1, 1, 1, 1, 1, 1, 1, 1], tree) ∧ tree.size = 10 ∧
      forEachRBTree (some tree) stopAtThird [] = some (1, [1, 2, 3, 4, 5, 6, 7, 8, 9, 10])) ∧
    (stopAtThird (some 3) [1, 2]).1 = 0 ∧
    ([1, 2, 3, 4, 5, 6, 7, 8, 9, 10] : List Int).length = 10 :=
  ⟨⟨_, rfl, rfl, rfl⟩, rfl, rfl⟩

/-! ## Teardown: the calls of the free function -/

/-- C13: for a strict-total-order comparator and every sequence `ps` of calls of
`addToRBTree` on a new tree, `freeRBTree` calls the tree's free function on the payloads of
a list `vs`, one call each and no other call, where `vs` has no repetition and is a
rearrangement of the payloads whose insertion returned non-zero; so the number of calls is
the number of successful insertions.  After inserting 1, ..., 7 (in this or in another
order) there are exactly 7 calls.  `newRBTree`, `addToRBTree`, `containsRBTree` and
`forEachRBTree` do not call the free function: they produce no event, and their results are
the same, up to the stored field itself, when any value `g` of any type is put in the place
of the free function. -/
theorem C13_free_function_called_once_per_inserted_payload {ψ : Type} (cmp : α → α → Int)
    (free : φ) (ps : List (Option α)) (hlaw : StrictTotalOrder cmp) (g : ψ)
    (t : RBTree α φ) (p : Option α) (func : Option α → σ → Int × σ) (args : σ) :
    (∃ t0 rs tree ev, ∃ vs : List α, newRBTree (some cmp) (some free) = some t0 ∧
      runAdds t0 ps = some (rs, tree) ∧ freeRBTree (some tree) = some ev ∧
      ev.filterMap FreeEvent.call = vs.map (fun x => (free, some x)) ∧
      vs.Perm (accepted ps rs) ∧ vs.Nodup ∧ vs.length = (rs.filter (· ≠ 0)).length) ∧
    ((runAdds (⟨none, numCompare, (), 0, []⟩ : RBTree Int Unit)
        [some 1, some 2, some 3, some 4, some 5, some 6, some 7]).bind fun run =>
      (freeRBTree (some run.2)).map fun ev => ev.filterMap FreeEvent.call) =
        some [((), some 1), ((), some 3), ((), some 5), ((), some 7), ((), some 6),
          ((), some 4), ((), some 2)] ∧
    ((runAdds (⟨none, numCompare, (), 0, []⟩ : RBTree Int Unit)
        [some 4, some 2, some 6, some 1, some 3, some 5, some 7]).bind fun run =>
      (freeRBTree (some run.2)).map fun ev => (ev.filterMap FreeEvent.call).length) =
        some 7 ∧
    newRBTree (some cmp) (some g) = (newRBTree (some cmp) (some free)).map (RBTree.setFree g) ∧
    addToRBTree (some (t.setFree g)) p =
      ((addToRBTree (some t) p).map fun r => (r.1, r.2.map (RBTree.setFree g))) ∧
    containsRBTree (some (t.setFree g)) p = containsRBTree (some t) p ∧
    forEachRBTree (some (t.setFree g)) func args = forEachRBTree (some t) func args := by
  refine ⟨?_, by decide, by decide, rfl, addToRBTree_setFree g t p, ?_, rfl⟩
  · obtain ⟨hV0, hc0⟩ := valid_new cmp free _ rfl
    obtain ⟨rs, tree, T, h1, h2, h3, h4, h5, h6⟩ :=
      runAdds_accepted ps _ .nil hV0 (by rw [hc0]; exact hlaw)
    have hperm : (T.postOrder.map Prod.snd).Perm T.datas := (perm_postOrder T).map _
    refine ⟨_, rs, tree, _, T.postOrder.map Prod.snd, rfl, h1,
      freeRBTree_spec tree T h2.models, ?_, ?_, ?_, ?_⟩
    · rw [List.filterMap_append, call_releaseP, h4]
      simp [FreeEvent.call, newRBTree]
    · simpa [Tree.datas, Tree.toList] using hperm.trans h5
    · exact hperm.nodup_iff.2 (datas_nodup (by rw [h3, hc0]; exact hlaw) h2.bst)
    · rw [← h6]
      exact hperm.length_eq.trans (by simpa [Tree.datas, Tree.toList] using h5.length_eq)
  · cases p <;> rfl

/-- Witness of C13: the calls 5, 5, `NULL`, 7 with the numeric comparator. -/
theorem C13_free_function_called_once_per_inserted_payload_witness :
    StrictTotalOrder numCompare ∧
    ∃ t0 rs tree ev, ∃ vs : List Int, newRBTree (some numCompare) (some ()) = some t0 ∧
      runAdds t0 [some 5, some 5, none, some 7] = some (rs, tree) ∧
      freeRBTree (some tree) = some ev ∧
      ev.filterMap FreeEvent.call = vs.map (fun x => ((), some x)) ∧
      vs.Perm (accepted [some 5, some 5, none, some 7] rs) ∧ vs.Nodup ∧
      vs.length = (rs.filter (· ≠ 0)).length :=
  ⟨strictTotalOrder_numCompare,
    (C13_free_function_called_once_per_inserted_payload numCompare ()
      [some 5, some 5, none, some 7] strictTotalOrder_numCompare ()
      (⟨none, numCompare, (), 0, []⟩ : RBTree Int Unit) none
      (collect : Option Int → List Int → Int × List Int) []).1⟩

theorem lexCompare_cons_lt [LinearOrder β] {x y : β} (h : x < y) (xs ys : List β) :
    lexCompare (x :: xs) (y :: ys) = -1 := by
  simp [lexCompare, h, not_lt_of_gt h]

theorem lexCompare_cons_gt [LinearOrder β] {x y : β} (h : y < x) (xs ys : List β) :
    lexCompare (x :: xs) (y :: ys) = 1 := by
  simp [lexCompare, h]

theorem lexCompare_cons_self [LinearOrder β] (x : β) (xs ys : List β) :
    lexCompare (x :: xs) (x :: ys) = lexCompare xs ys := by
  simp [lexCompare]

theorem lexCompare_eq_zero [LinearOrder β] (xs : List β) :
    ∀ ys, lexCompare xs ys = 0 ↔ xs = ys := by
  induction xs with
  | nil => intro ys; cases ys <;> simp [lexCompare]
  | cons x xs ih =>
    intro ys
    cases ys with
    | nil => simp [lexCompare]
    | cons y ys =>
      rcases lt_trichotomy x y with h | rfl | h
      · rw [lexCompare_cons_lt h]; simp [ne_of_lt h]
      · rw [lexCompare_cons_self, ih]; simp
      · rw [lexCompare_cons_gt h]; simp [ne_of_gt h]

theorem lexCompare_antisymm [LinearOrder β] (xs : List β) :
    ∀ ys, lexCompare xs ys < 0 ↔ 0 < lexCompare ys xs := by
  induction xs with
  | nil => intro ys; cases ys <;> simp [lexCompare]
  | cons x xs ih =>
    intro ys
    cases ys with
    | nil => simp [lexCompare]
    | cons y ys =>
      rcases lt_trichotomy x y with h | rfl | h
      · rw [lexCompare_cons_lt h, lexCompare_cons_gt h]; simp
      · rw [lexCompare_cons_self, lexCompare_cons_self, ih]
      · rw [lexCompare_cons_gt h, lexCompare_cons_lt h]; simp

theorem lexCompare_trans [LinearOrder β] (xs : List β) :
    ∀ ys zs, lexCompare xs ys < 0 → lexCompare ys zs < 0 → lexCompare xs zs < 0 := by
  induction xs with
  | nil =>
    intro ys zs h1 h2
    cases ys with
    | nil => exact h2
    | cons y ys =>
      cases zs with
      | nil => simp [lexCompare] at h2
      | cons z zs => simp [lexCompare]
  | cons x xs ih =>
    intro ys zs h1 h2
    cases ys with
    | nil => simp [lexCompare] at h1
    | cons y ys =>
      cases zs with
      | nil => simp [lexCompare] at h2
      | cons z zs =>
        rcases lt_trichotomy x y with h | rfl | h
        · rcases lt_trichotomy y z with g | rfl | g
          · rw [lexCompare_cons_lt (h.trans g)]; decide
          · rw [lexCompare_cons_lt h]; decide
          · rw [lexCompare_cons_gt g] at h2; simp at h2
        · rcases lt_trichotomy x z with g | rfl | g
          · rw [lexCompare_cons_lt g]; decide
          · rw [lexCompare_cons_self] at h1 h2 ⊢
            exact ih ys zs h1 h2
          · rw [lexCompare_cons_gt g] at h2; simp at h2
        · rw [lexCompare_cons_gt h] at h1; simp at h1

theorem lexCompare_first_diff [LinearOrder β] (i : Nat) : ∀ (xs ys : List β) (x y : β),
    xs[i]? = some x → ys[i]? = some y → (∀ j, j < i → xs[j]? = ys[j]?) → x ≠ y →
    lexCompare xs ys = if y < x then 1 else -1 := by
  induction i with
  | zero =>
    intro xs ys x y hx hy _ hne
    cases xs with
    | nil => simp at hx
    | cons x0 xs =>
      cases ys with
      | nil => simp at hy
      | cons y0 ys =>
        simp only [List.getElem?_cons_zero, Option.some.injEq] at hx hy
        subst hx hy
        rcases lt_trichotomy x0 y0 with h | h | h
        · rw [lexCompare_cons_lt h, if_neg (not_lt_of_gt h)]
        · exact absurd h hne
        · rw [lexCompare_cons_gt h, if_pos h]
  | succ i ih =>
    intro xs ys x y hx hy hj hne
    cases xs with
    | nil => simp at hx
    | cons x0 xs =>
      cases ys with
      | nil => simp at hy
      | cons y0 ys =>
        have h0 := hj 0 (Nat.succ_pos i)
        simp only [List.getElem?_cons_zero, Option.some.injEq] at h0
        subst h0
        rw [lexCompare_cons_self]
        simp only [List.getElem?_cons_succ] at hx hy
        refine ih xs ys x y hx hy (fun j hji => ?_) hne
        have := hj (j + 1) (Nat.succ_lt_succ hji)
        simpa only [List.getElem?_cons_succ] using this

theorem lexCompare_proper_start [LinearOrder β] (xs : List β) (z : β) (zs : List β) :
    lexCompare xs (xs ++ z :: zs) = -1 ∧ lexCompare (xs ++ z :: zs) xs = 1 := by
  induction xs with
  | nil => simp [lexCompare]
  | cons x xs ih => simpa [lexCompare_cons_self] using ih

theorem vectorCompareLoop_eq [LinearOrder β] (a b : Vector β) : ∀ (k i : Nat),
    a.vector.length - i = k →
    vectorCompareLoop a b i i = lexCompare (a.vector.drop i) (b.vector.drop i) := by
  intro k
  induction k with
  | zero =>
    intro i hk
    rw [vectorCompareLoop, dif_neg (by simp only [Vector.len]; omega),
      if_neg (by simp only [Vector.len]; omega), List.drop_eq_nil_of_le (by omega)]
    by_cases hb : i < b.vector.length
    · rw [if_pos (by simp only [Vector.len]; omega), List.drop_eq_getElem_cons hb]
      rfl
    · rw [if_neg (by simp only [Vector.len]; omega), List.drop_eq_nil_of_le (by omega)]
      rfl
  | succ k ih =>
    intro i hk
    have ha : i < a.vector.length := by omega
    by_cases hb : i < b.vector.length
    · rw [vectorCompareLoop, dif_pos (by simp only [Vector.len]; omega),
        List.drop_eq_getElem_cons ha, List.drop_eq_getElem_cons hb, ih (i + 1) (by omega)]
      simp only [gt_iff_lt, lexCompare]
    · have hbn : b.vector.drop i = [] := List.drop_eq_nil_of_le (by omega)
      rw [vectorCompareLoop, dif_neg (by simp only [Vector.len]; omega),
        if_pos (by simp only [Vector.len]; omega), List.drop_eq_getElem_cons ha, hbn]
      rfl

theorem vectorCompare1By1_eq [LinearOrder β] (a b : Vector β) :
    vectorCompare1By1 a b = lexCompare a.vector b.vector := by
  simpa [vectorCompare1By1] using vectorCompareLoop_eq a b _ 0 rfl

theorem strictTotalOrder_vectorCompare1By1 [LinearOrder β] :
    StrictTotalOrder (vectorCompare1By1 : Vector β → Vector β → Int) := by
  constructor
  · intro a b
    rw [vectorCompare1By1_eq, lexCompare_eq_zero]
    cases a; cases b; simp
  · intro a b
    rw [vectorCompare1By1_eq, vectorCompare1By1_eq]
    exact lexCompare_antisymm _ _
  · intro a b c
    rw [vectorCompare1By1_eq, vectorCompare1By1_eq, vectorCompare1By1_eq]
    exact lexCompare_trans _ _ _

/-! ## The vector of largest norm -/

/-- C18: `vectorCompare1By1(a, b)` is the lexicographic comparison of the element sequences
(elements of a totally ordered type).  If `i` is the first index at which the elements
differ, the result is 1 when the element of `a` is the larger one and -1 otherwise; if `a` is
a proper initial segment of `b` the result is -1, and 1 the other way round; and the result
is 0 if and only if `a` and `b` have the same length and the same elements.  Altogether the
result is `lexCompare` of the two sequences. -/
theorem C18_vectorCompare1By1_is_lexicographic [LinearOrder β] (a b : Vector β) :
    (∀ (i : Nat) (x y : β), a.vector[i]? = some x → b.vector[i]? = some y →
      (∀ j, j < i → a.vector[j]? = b.vector[j]?) → x ≠ y →
      vectorCompare1By1 a b = if y < x then 1 else -1) ∧
    (∀ (z : β) (zs : List β), b.vector = a.vector ++ z :: zs → vectorCompare1By1 a b = -1) ∧
    (∀ (z : β) (zs : List β), a.vector = b.vector ++ z :: zs → vectorCompare1By1 a b = 1) ∧
    (vectorCompare1By1 a b = 0 ↔ a.len = b.len ∧ a.vector = b.vector) ∧
    vectorCompare1By1 a b = lexCompare a.vector b.vector := by
  refine ⟨?_, ?_, ?_, ?_, vectorCompare1By1_eq a b⟩
  · intro i x y hx hy hj hne
    rw [vectorCompare1By1_eq]
    exact lexCompare_first_diff i _ _ x y hx hy hj hne
  · intro z zs h
    rw [vectorCompare1By1_eq, h]
    exact (lexCompare_proper_start _ z zs).1
  · intro z zs h
    rw [vectorCompare1By1_eq, h]
    exact (lexCompare_proper_start _ z zs).2
  · rw [vectorCompare1By1_eq, lexCompare_eq_zero]
    constructor
    · intro h; simp [Vector.len, h]
    · exact fun h => h.2

/-- C19: `vectorCompare1By1` is a lawful comparator for the tree, over every totally ordered
element type: `vectorCompare1By1(a, b) < 0` if and only if `vectorCompare1By1(b, a) > 0`;
`vectorCompare1By1(a, b) < 0` and `vectorCompare1By1(b, c) < 0` imply
`vectorCompare1By1(a, c) < 0`; and with "0 only for equal vectors" it meets the comparator
contract `StrictTotalOrder` under which the tree properties are proved. -/
theorem C19_vectorCompare1By1_is_lawful [LinearOrder β] (a b c : Vector β) :
    (vectorCompare1By1 a b < 0 ↔ vectorCompare1By1 b a > 0) ∧
    (vectorCompare1By1 a b < 0 → vectorCompare1By1 b c < 0 → vectorCompare1By1 a c < 0) ∧
    StrictTotalOrder (vectorCompare1By1 : Vector β → Vector β → Int) :=
  ⟨strictTotalOrder_vectorCompare1By1.antisymm a b,
    strictTotalOrder_vectorCompare1By1.trans a b c, strictTotalOrder_vectorCompare1By1⟩

/-- Witness of C19: the vectors (1), (2) and (2, 0) of integers. -/
theorem C19_vectorCompare1By1_is_lawful_witness :
    vectorCompare1By1 (⟨[1]⟩ : Vector Int) ⟨[2]⟩ < 0 ∧
    vectorCompare1By1 (⟨[2]⟩ : Vector Int) ⟨[2, 0]⟩ < 0 ∧
    vectorCompare1By1 (⟨[1]⟩ : Vector Int) ⟨[2, 0]⟩ < 0 :=
  have h1 : vectorCompare1By1 (⟨[1]⟩ : Vector Int) ⟨[2]⟩ < 0 := by
    simp [vectorCompare1By1, vectorCompareLoop, Vector.len]
  have h2 : vectorCompare1By1 (⟨[2]⟩ : Vector Int) ⟨[2, 0]⟩ < 0 := by
    simp [vectorCompare1By1, vectorCompareLoop, Vector.len]
  ⟨h1, h2, (C19_vectorCompare1By1_is_lawful ⟨[1]⟩ ⟨[2]⟩ ⟨[2, 0]⟩).2.1 h1 h2⟩

theorem strictTotalOrder_stringCompare : StrictTotalOrder stringCompare := by
  constructor
  · intro a b; exact lexCompare_eq_zero a b
  · intro a b; exact lexCompare_antisymm a b
  · intro a b c; exact lexCompare_trans a b c

theorem travP_concatenate (t : Tree (List Nat)) : ∀ buf : List Nat,
    travP concatenate t (some buf) =
      (1, some (buf ++ t.datas.flatMap fun w => w ++ [10])) := by
  induction t with
  | nil => intro buf; simp [travP]
  | node l a c d r ihl ihr =>
    intro buf
    simp [travP, ihl, ihr, concatenate, strcat, List.flatMap_append]

/-- C21: for distinct strings `xs` inserted with `addToRBTree` into a new tree with the
comparator `stringCompare`, `forEachRBTree(tree, concatenate, buffer)` on an empty buffer
(taken to be large enough) returns 1 and leaves in the buffer the strings of `sorted`, each
followed by one newline character (10), where `sorted` is a rearrangement of `xs` in strictly
ascending `strcmp` order. -/
theorem C21_forEach_concatenate_yields_sorted_lines (free : φ) (xs : List (List Nat))
    (hxs : xs.Nodup) :
    ∃ t0 rs tree, ∃ sorted : List (List Nat),
      newRBTree (some stringCompare) (some free) = some t0 ∧
      runAdds t0 (xs.map some) = some (rs, tree) ∧ rs = List.replicate xs.length 1 ∧
      sorted.Perm xs ∧ sorted.Pairwise (fun a b => strcmp a b < 0) ∧
      forEachRBTree (some tree) concatenate (some []) =
        some (1, some (sorted.flatMap fun w => w ++ [10])) := by
  obtain ⟨t0, rs, tree, T, h1, h2, h3, h4, -, h6, h7⟩ :=
    run_distinct stringCompare free xs strictTotalOrder_stringCompare hxs
  refine ⟨t0, rs, tree, T.datas, h1, h2, h7, h6, ?_, ?_⟩
  · exact (bst_iff_pairwise strictTotalOrder_stringCompare T).1 (h4 ▸ h3.bst)
  · simp only [forEachRBTree]
    rw [h3.models.root, inOrderTraversal_spec tree.nodes concatenate T none h3.models.rep
      (depthBound tree.nodes) (height_lt_depthBound h3.models), travP_concatenate]
    simp

/-- Witness of C21: the strings "b", "a", "ab" (as character codes). -/
theorem C21_forEach_concatenate_yields_sorted_lines_witness :
    ([[98], [97], [97, 98]] : List (List Nat)).Nodup ∧
    ∃ t0 rs tree, ∃ sorted : List (List Nat),
      newRBTree (some stringCompare) (some ()) = some t0 ∧
      runAdds t0 (([[98], [97], [97, 98]] : List (List Nat)).map some) = some (rs, tree) ∧
      rs = List.replicate ([[98], [97], [97, 98]] : List (List Nat)).length 1 ∧
      sorted.Perm [[98], [97], [97, 98]] ∧ sorted.Pairwise (fun a b => strcmp a b < 0) ∧
      forEachRBTree (some tree) concatenate (some []) =
        some (1, some (sorted.flatMap fun w => w ++ [10])) :=
  ⟨by decide, C21_forEach_concatenate_yields_sorted_lines () [[98], [97], [97, 98]]
    (by decide)⟩

/-! ## The rotations: order, colours, and the choice of the parent's slot -/

theorem records_plug_congr {t t' : Tree α} (h : t.records = t'.records)
    (ctx : List (Frame α)) : (plug t ctx).records = (plug t' ctx).records := by
  induction ctx generalizing t t' with
  | nil => exact h
  | cons f ctx ih =>
    cases f <;> exact ih (by simp [Frame.fill, Tree.records, h])

theorem leftRotateTextbook_eq (tree : RBTree α φ) (l : Tree α) (a : Nat) (c : Color) (d : α)
    (rl : Tree α) (b : Nat) (c' : Color) (d' : α) (rr : Tree α) (ctx : List (Frame α))
    (hM : Models tree (plug (.node l a c d (.node rl b c' d' rr)) ctx))
    (hag : ∀ f ∈ ctx.head?, f.Agrees tree.compFunc d) :
    leftRotateTextbook tree (some a) = leftRotate tree (some a) := by
  obtain ⟨root, cmp, fr, sz, m⟩ := tree
  simp only [models_plug_iff] at hM
  obtain ⟨hroot, ⟨hrep, hctx⟩, hnd⟩ := hM
  rcases ctx with _ | ⟨f | f, rest⟩ <;> rcases rl with _ | ⟨rll, x, xc, xd, rlr⟩ <;>
  ( simp only [Rep, RepCtx, ptr_node, ptr_nil, ctxPtr_nil, ctxPtr_cons, addr_L, addr_R]
      at hrep hctx
    simp only [addrs_node, addrs_nil, ctxAddrs_nil, ctxAddrs_cons, addr_L, addr_R, sib_L, sib_R,
      List.nodup_append, List.nodup_cons, List.mem_append, List.mem_cons,
      List.disjoint_cons_left, List.disjoint_cons_right, List.disjoint_append_left,
      List.disjoint_append_right, not_or, List.append_assoc, List.cons_append,
      List.nil_append, List.append_nil, List.not_mem_nil, not_false_eq_true, true_and,
      and_true, List.nodup_nil, List.disjoint_nil_left, List.disjoint_nil_right] at hnd
    simp only [List.head?_cons, List.head?_nil, Option.mem_def, Option.some.injEq, forall_eq',
      Frame.Agrees] at hag )
  all_goals
    have hla := lt_of_read hrep.1
    have hlb := lt_of_read hrep.2.2.1
    try have hlx := lt_of_read hrep.2.2.2.1.1
    try have hlf := lt_of_read hctx.1
    try (have hsib : ¬ f.ptr = some a := by
          intro h
          have := ptr_eq_some_mem h
          simp only [hnd, not_true_eq_false] at this)
    simp (disch := omega) only [leftRotate, leftRotateTextbook, hrep, hctx, writeNode_some,
      readNode_set, List.length_set, hla, hlb, compareData, hag, decide_True, decide_False,
      Option.map_some', Option.bind_some, Option.some_bind, and_true, true_and, if_true,
      if_neg, if_pos, if_false, Option.some.injEq, exists_eq_left']
    try simp only [hsib, decide_False, Bool.false_eq_true, if_false]
theorem rightRotateTextbook_eq (tree : RBTree α φ) (ll : Tree α) (b : Nat) (c' : Color)
    (d' : α) (lr : Tree α) (a : Nat) (c : Color) (d : α) (r : Tree α) (ctx : List (Frame α))
    (hM : Models tree (plug (.node (.node ll b c' d' lr) a c d r) ctx))
    (hag : ∀ f ∈ ctx.head?, f.Agrees tree.compFunc d) :
    rightRotateTextbook tree (some a) = rightRotate tree (some a) := by
  obtain ⟨root, cmp, fr, sz, m⟩ := tree
  simp only [models_plug_iff] at hM
  obtain ⟨hroot, ⟨hrep, hctx⟩, hnd⟩ := hM
  rcases ctx with _ | ⟨f | f, rest⟩ <;> rcases lr with _ | ⟨rll, x, xc, xd, rlr⟩ <;>
  ( simp only [Rep, RepCtx, ptr_node, ptr_nil, ctxPtr_nil, ctxPtr_cons, addr_L, addr_R]
      at hrep hctx
    simp only [addrs_node, addrs_nil, ctxAddrs_nil, ctxAddrs_cons, addr_L, addr_R, sib_L, sib_R,
      List.nodup_append, List.nodup_cons, List.mem_append, List.mem_cons,
      List.disjoint_cons_left, List.disjoint_cons_right, List.disjoint_append_left,
      List.disjoint_append_right, not_or, List.append_assoc, List.cons_append,
      List.nil_append, List.append_nil, List.not_mem_nil, not_false_eq_true, true_and,
      and_true, List.nodup_nil, List.disjoint_nil_left, List.disjoint_nil_right] at hnd
    simp only [List.head?_cons, List.head?_nil, Option.mem_def, Option.some.injEq, forall_eq',
      Frame.Agrees] at hag )
  all_goals
    have hla := lt_of_read hrep.1
    have hlb := lt_of_read hrep.2.1.1
    try have hlx := lt_of_read hrep.2.1.2.2.1
    try have hlf := lt_of_read hctx.1
    try (have hsib : ¬ f.ptr = some a := by
          intro h
          have := ptr_eq_some_mem h
          simp only [hnd, not_true_eq_false] at this)
    simp (disch := omega) only [rightRotate, rightRotateTextbook, hrep, hctx, writeNode_some,
      readNode_set, List.length_set, hla, hlb, compareData, hag, decide_True, decide_False,
      Option.map_some', Option.bind_some, Option.some_bind, and_true, true_and, if_true,
      if_neg, if_pos, if_false, Option.some.injEq, exists_eq_left']
    try simp only [hsib, decide_False, Bool.false_eq_true, if_false]

theorem agrees_of_bst {cmp : α → α → Int} {t : Tree α} {ctx : List (Frame α)}
    (h : BST cmp (plug t ctx)) {d : α} (hd : d ∈ t.datas) :
    ∀ f ∈ ctx.head?, f.Agrees cmp d :=
  (oriented_of_bst cmp ctx t h).1 d hd

theorem records_toList (t : Tree α) :
    t.records.map (fun x => (x.1, x.2.2)) = t.toList := by
  induction t with
  | nil => rfl
  | node l a c d r ihl ihr => simp [Tree.records, Tree.toList, ihl, ihr]

theorem bst_of_records_eq {cmp : α → α → Int} (hlaw : StrictTotalOrder cmp) {t t' : Tree α}
    (h : t'.records = t.records) (hb : BST cmp t) : BST cmp t' := by
  have hl : t'.toList = t.toList := by rw [← records_toList, ← records_toList, h]
  rw [bst_iff_pairwise hlaw] at hb ⊢
  simpa only [Tree.datas, hl] using hb

/-- C29: for a strict-total-order comparator, a tree structure holding a BST-ordered shape
`T` and a pivot node that has a right child, `leftRotate` returns a tree structure holding a
shape `T1` with the same in-order sequence of nodes: the same addresses (the reachable
nodes), each with the colour and the payload it had, in the same order; so `T1` is again
BST-ordered.  The same holds for `rightRotate` and a pivot that has a left child. -/
theorem C29_rotations_keep_order_and_colours (cmp : α → α → Int)
    (hlaw : StrictTotalOrder cmp) :
    (∀ (tree : RBTree α φ) (l : Tree α) (a : Nat) (c : Color) (d : α) (rl : Tree α) (b : Nat)
        (c' : Color) (d' : α) (rr : Tree α) (ctx : List (Frame α)),
      tree.compFunc = cmp →
      Models tree (plug (.node l a c d (.node rl b c' d' rr)) ctx) →
      BST cmp (plug (.node l a c d (.node rl b c' d' rr)) ctx) →
      ∃ t1 T1, leftRotate tree (some a) = some t1 ∧ Models t1 T1 ∧ t1.compFunc = cmp ∧
        T1.records = (plug (.node l a c d (.node rl b c' d' rr)) ctx).records ∧
        T1.datas = (plug (.node l a c d (.node rl b c' d' rr)) ctx).datas ∧
        T1.addrs = (plug (.node l a c d (.node rl b c' d' rr)) ctx).addrs ∧
        BST cmp T1) ∧
    (∀ (tree : RBTree α φ) (ll : Tree α) (b : Nat) (c' : Color) (d' : α) (lr : Tree α)
        (a : Nat) (c : Color) (d : α) (r : Tree α) (ctx : List (Frame α)),
      tree.compFunc = cmp →
      Models tree (plug (.node (.node ll b c' d' lr) a c d r) ctx) →
      BST cmp (plug (.node (.node ll b c' d' lr) a c d r) ctx) →
      ∃ t1 T1, rightRotate tree (some a) = some t1 ∧ Models t1 T1 ∧ t1.compFunc = cmp ∧
        T1.records = (plug (.node (.node ll b c' d' lr) a c d r) ctx).records ∧
        T1.datas = (plug (.node (.node ll b c' d' lr) a c d r) ctx).datas ∧
        T1.addrs = (plug (.node (.node ll b c' d' lr) a c d r) ctx).addrs ∧
        BST cmp T1) := by
  constructor
  · intro tree l a c d rl b c' d' rr ctx hc hM hb
    obtain ⟨t1, h1, h2, -, h4, -, -⟩ := leftRotate_spec tree l a c d rl b c' d' rr ctx hM
      (hc ▸ agrees_of_bst hb (by simp [Tree.datas, Tree.toList]))
    have hr : (plug (.node (.node l a c d rl) b c' d' rr) ctx).records =
        (plug (.node l a c d (.node rl b c' d' rr)) ctx).records :=
      records_plug_congr (by simp [Tree.records]) ctx
    have hl : (plug (.node (.node l a c d rl) b c' d' rr) ctx).toList =
        (plug (.node l a c d (.node rl b c' d' rr)) ctx).toList := by
      rw [← records_toList, ← records_toList, hr]
    exact ⟨t1, _, h1, h2, h4.trans hc, hr, by simp only [Tree.datas, hl],
      by simp only [Tree.addrs, hl], bst_of_records_eq hlaw hr hb⟩
  · intro tree ll b c' d' lr a c d r ctx hc hM hb
    obtain ⟨t1, h1, h2, -, h4, -, -⟩ := rightRotate_spec tree ll b c' d' lr a c d r ctx hM
      (hc ▸ agrees_of_bst hb (by simp [Tree.datas, Tree.toList]))
    have hr : (plug (.node ll b c' d' (.node lr a c d r)) ctx).records =
        (plug (.node (.node ll b c' d' lr) a c d r) ctx).records :=
      records_plug_congr (by simp [Tree.records]) ctx
    have hl : (plug (.node ll b c' d' (.node lr a c d r)) ctx).toList =
        (plug (.node (.node ll b c' d' lr) a c d r) ctx).toList := by
      rw [← records_toList, ← records_toList, hr]
    exact ⟨t1, _, h1, h2, h4.trans hc, hr, by simp only [Tree.datas, hl],
      by simp only [Tree.addrs, hl], bst_of_records_eq hlaw hr hb⟩

/-- C30: for a tree structure holding a BST-ordered shape (parent links included; the
comparator law is used only through this order) and a pivot that has a right child,
`leftRotate`, which chooses the slot of the pivot's parent by the sign of
`compFunc(pivot, parent)`, returns exactly the tree structure that `leftRotateTextbook`
returns, which chooses the slot that held the pivot.  The result holds the rotated shape: the
pivot's right child in the pivot's former slot (`tree->root` when the pivot had no parent),
the pivot as its left child, the child's former left subtree as the pivot's right subtree,
parent links updated.  The same for `rightRotate` and a pivot that has a left child. -/
theorem C30_rotation_slot_by_comparator_is_textbook :
    (∀ (tree : RBTree α φ) (l : Tree α) (a : Nat) (c : Color) (d : α) (rl : Tree α) (b : Nat)
        (c' : Color) (d' : α) (rr : Tree α) (ctx : List (Frame α)),
      Models tree (plug (.node l a c d (.node rl b c' d' rr)) ctx) →
      BST tree.compFunc (plug (.node l a c d (.node rl b c' d' rr)) ctx) →
      ∃ t1, leftRotate tree (some a) = some t1 ∧ leftRotateTextbook tree (some a) = some t1 ∧
        Models t1 (plug (.node (.node l a c d rl) b c' d' rr) ctx) ∧
        (ctx = [] → t1.root = some b)) ∧
    (∀ (tree : RBTree α φ) (ll : Tree α) (b : Nat) (c' : Color) (d' : α) (lr : Tree α)
        (a : Nat) (c : Color) (d : α) (r : Tree α) (ctx : List (Frame α)),
      Models tree (plug (.node (.node ll b c' d' lr) a c d r) ctx) →
      BST tree.compFunc (plug (.node (.node ll b c' d' lr) a c d r) ctx) →
      ∃ t1, rightRotate tree (some a) = some t1 ∧
        rightRotateTextbook tree (some a) = some t1 ∧
        Models t1 (plug (.node ll b c' d' (.node lr a c d r)) ctx) ∧
        (ctx = [] → t1.root = some b)) := by
  constructor
  · intro tree l a c d rl b c' d' rr ctx hM hb
    have hag := agrees_of_bst hb (show d ∈ _ by simp [Tree.datas, Tree.toList])
    obtain ⟨t1, h1, h2, -⟩ := leftRotate_spec tree l a c d rl b c' d' rr ctx hM hag
    refine ⟨t1, h1, (leftRotateTextbook_eq tree l a c d rl b c' d' rr ctx hM hag).trans h1,
      h2, ?_⟩
    rintro rfl
    exact h2.root
  · intro tree ll b c' d' lr a c d r ctx hM hb
    have hag := agrees_of_bst hb (show d ∈ _ by simp [Tree.datas, Tree.toList])
    obtain ⟨t1, h1, h2, -⟩ := rightRotate_spec tree ll b c' d' lr a c d r ctx hM hag
    refine ⟨t1, h1, (rightRotateTextbook_eq tree ll b c' d' lr a c d r ctx hM hag).trans h1,
      h2, ?_⟩
    rintro rfl
    exact h2.root

/-- Witness of C29: the tree of 10, 20, 30, 40 (root 20), pivot the node of 30, which is the
right child of the root and has the right child 40. -/
theorem C29_rotations_keep_order_and_colours_witness :
    StrictTotalOrder numCompare ∧
    Models (⟨some 1, numCompare, (), 4,
        [⟨some 1, none, none, .BLACK, some 10⟩, ⟨none, some 0, some 2, .BLACK, some 20⟩,
          ⟨some 1, none, some 3, .BLACK, some 30⟩, ⟨some 2, none, none, .RED, some 40⟩]⟩ :
        RBTree Int Unit)
      (plug (.node .nil 2 .BLACK 30 (.node .nil 3 .RED 40 .nil))
        [Frame.R (.node .nil 0 .BLACK 10 .nil) 1 .BLACK 20]) ∧
    BST numCompare (plug (.node .nil 2 .BLACK 30 (.node .nil 3 .RED 40 .nil))
        [Frame.R (.node .nil 0 .BLACK 10 .nil) 1 .BLACK 20]) ∧
    ∃ t1 T1, leftRotate (⟨some 1, numCompare, (), 4,
        [⟨some 1, none, none, .BLACK, some 10⟩, ⟨none, some 0, some 2, .BLACK, some 20⟩,
          ⟨some 1, none, some 3, .BLACK, some 30⟩, ⟨some 2, none, none, .RED, some 40⟩]⟩ :
        RBTree Int Unit) (some 2) = some t1 ∧ Models t1 T1 ∧
      T1.datas = [10, 20, 30, 40] ∧ BST numCompare T1 :=
  have hM : Models (⟨some 1, numCompare, (), 4,
        [⟨some 1, none, none, .BLACK, some 10⟩, ⟨none, some 0, some 2, .BLACK, some 20⟩,
          ⟨some 1, none, some 3, .BLACK, some 30⟩, ⟨some 2, none, none, .RED, some 40⟩]⟩ :
        RBTree Int Unit)
      (plug (.node .nil 2 .BLACK 30 (.node .nil 3 .RED 40 .nil))
        [Frame.R (.node .nil 0 .BLACK 10 .nil) 1 .BLACK 20]) :=
    ⟨rfl, ⟨rfl, ⟨rfl, trivial, trivial⟩, ⟨rfl, trivial, ⟨rfl, trivial, trivial⟩⟩⟩, by decide⟩
  have hB : BST numCompare (plug (.node .nil 2 .BLACK 30 (.node .nil 3 .RED 40 .nil))
        [Frame.R (.node .nil 0 .BLACK 10 .nil) 1 .BLACK 20]) := by
    simp [plug, Frame.fill, BST, Tree.datas, Tree.toList, numCompare]
  ⟨strictTotalOrder_numCompare, hM, hB, by
    obtain ⟨t1, T1, h1, h2, -, -, h5, -, h7⟩ :=
      (C29_rotations_keep_order_and_colours numCompare strictTotalOrder_numCompare).1
        _ _ _ _ _ _ _ _ _ _ _ rfl hM hB
    exact ⟨t1, T1, h1, h2, h5, h7⟩⟩

/-- Witness of C30: the tree of 10, 20, 30, 40 (root 20), pivot the node of 30, which is the
right child of the root and has the right child 40. -/
theorem C30_rotation_slot_by_comparator_is_textbook_witness :
    Models (⟨some 1, numCompare, (), 4,
        [⟨some 1, none, none, .BLACK, some 10⟩, ⟨none, some 0, some 2, .BLACK, some 20⟩,
          ⟨some 1, none, some 3, .BLACK, some 30⟩, ⟨some 2, none, none, .RED, some 40⟩]⟩ :
        RBTree Int Unit)
      (plug (.node .nil 2 .BLACK 30 (.node .nil 3 .RED 40 .nil))
        [Frame.R (.node .nil 0 .BLACK 10 .nil) 1 .BLACK 20]) ∧
    BST numCompare (plug (.node .nil 2 .BLACK 30 (.node .nil 3 .RED 40 .nil))
        [Frame.R (.node .nil 0 .BLACK 10 .nil) 1 .BLACK 20]) ∧
    ∃ t1, leftRotate (⟨some 1, numCompare, (), 4,
        [⟨some 1, none, none, .BLACK, some 10⟩, ⟨none, some 0, some 2, .BLACK, some 20⟩,
          ⟨some 1, none, some 3, .BLACK, some 30⟩, ⟨some 2, none, none, .RED, some 40⟩]⟩ :
        RBTree Int Unit) (some 2) = some t1 ∧
      leftRotateTextbook (⟨some 1, numCompare, (), 4,
        [⟨some 1, none, none, .BLACK, some 10⟩, ⟨none, some 0, some 2, .BLACK, some 20⟩,
          ⟨some 1, none, some 3, .BLACK, some 30⟩, ⟨some 2, none, none, .RED, some 40⟩]⟩ :
        RBTree Int Unit) (some 2) = some t1 ∧
      Models t1 (plug (.node (.node .nil 2 .BLACK 30 .nil) 3 .RED 40 .nil)
        [Frame.R (.node .nil 0 .BLACK 10 .nil) 1 .BLACK 20]) :=
  have hM : Models (⟨some 1, numCompare, (), 4,
        [⟨some 1, none, none, .BLACK, some 10⟩, ⟨none, some 0, some 2, .BLACK, some 20⟩,
          ⟨some 1, none, some 3, .BLACK, some 30⟩, ⟨some 2, none, none, .RED, some 40⟩]⟩ :
        RBTree Int Unit)
      (plug (.node .nil 2 .BLACK 30 (.node .nil 3 .RED 40 .nil))
        [Frame.R (.node .nil 0 .BLACK 10 .nil) 1 .BLACK 20]) :=
    ⟨rfl, ⟨rfl, ⟨rfl, trivial, trivial⟩, ⟨rfl, trivial, ⟨rfl, trivial, trivial⟩⟩⟩, by decide⟩
  have hB : BST numCompare (plug (.node .nil 2 .BLACK 30 (.node .nil 3 .RED 40 .nil))
        [Frame.R (.node .nil 0 .BLACK 10 .nil) 1 .BLACK 20]) := by
    simp [plug, Frame.fill, BST, Tree.datas, Tree.toList, numCompare]
  ⟨hM, hB, by
    obtain ⟨t1, h1, h2, h3, -⟩ :=
      C30_rotation_slot_by_comparator_is_textbook.1 _ _ _ _ _ _ _ _ _ _ _ hM hB
    exact ⟨t1, h1, h2, h3⟩⟩

/-! ## Rotations without the child they need -/

/-- C31: for every tree, `leftRotate` returns the tree as it is (same root, same store, same
fields) when the pivot is `NULL` or a node without right child, and `rightRotate` returns
it as it is when the pivot is `NULL` or a node without left child. -/
theorem C31_rotation_without_child_changes_nothing (tree : RBTree α φ) (pivot : Ptr)
    (p : Node α) :
    leftRotate tree none = some tree ∧ rightRotate tree none = some tree ∧
    (readNode tree.nodes pivot = some p → p.right = none →
      leftRotate tree pivot = some tree) ∧
    (readNode tree.nodes pivot = some p → p.left = none →
      rightRotate tree pivot = some tree) := by
  refine ⟨rfl, rfl, ?_, ?_⟩
  · intro h1 h2
    cases pivot with
    | none => rfl
    | some a => simp only [leftRotate, h1, h2]
  · intro h1 h2
    cases pivot with
    | none => rfl
    | some a => simp only [rightRotate, h1, h2]

/-- Witness of C31: the tree of 20 and 10 (root 20, left child 10); the node of 10, at
address 1, has no child, so both rotations at it return the tree as it is. -/
theorem C31_rotation_without_child_changes_nothing_witness :
    leftRotate (⟨some 0, numCompare, (), 2,
        [⟨none, some 1, none, .BLACK, some 20⟩, ⟨some 0, none, none, .RED, some 10⟩]⟩ :
          RBTree Int Unit) (some 1) = some ⟨some 0, numCompare, (), 2,
        [⟨none, some 1, none, .BLACK, some 20⟩, ⟨some 0, none, none, .RED, some 10⟩]⟩ ∧
    rightRotate (⟨some 0, numCompare, (), 2,
        [⟨none, some 1, none, .BLACK, some 20⟩, ⟨some 0, none, none, .RED, some 10⟩]⟩ :
          RBTree Int Unit) (some 1) = some ⟨some 0, numCompare, (), 2,
        [⟨none, some 1, none, .BLACK, some 20⟩, ⟨some 0, none, none, .RED, some 10⟩]⟩ :=
  ⟨(C31_rotation_without_child_changes_nothing _ (some 1)
      ⟨some 0, none, none, .RED, some 10⟩).2.2.1 rfl rfl,
    (C31_rotation_without_child_changes_nothing _ (some 1)
      ⟨some 0, none, none, .RED, some 10⟩).2.2.2 rfl rfl⟩

/-! ## The return value of the traversal -/

theorem travP_fst (func : Option α → σ → Int × σ) (T : Tree α) (args : σ) :
    ((travP func T args).1 = 0 ∨ (travP func T args).1 = 1) ∧
    ((travP func T args).1 = 0 ↔ ∃ l a c d r, T = .node l a c d r ∧
      (func (some d) (travP func l args).2).1 = 0) := by
  cases T with
  | nil => simp [travP]
  | node l a c d r =>
    simp only [travP]
    split_ifs with h
    · refine ⟨Or.inl rfl, fun _ => ⟨l, a, c, d, r, rfl, h⟩, fun _ => rfl⟩
    · simp only [one_ne_zero, or_true, false_iff, true_and, Tree.node.injEq, not_exists,
        not_and]
      rintro l' a' c' d' r' ⟨rfl, rfl, rfl, rfl, rfl⟩
      exact h

/-- C36: for every tree structure holding a tree shape `T`, every visitor `func` and every
`args`, `forEachRBTree` returns 0 or 1, and it returns 0 exactly when `T` is not empty and
the call of the visitor on the payload of the root (with the `args` left by the traversal of
the left subtree) returns 0; on the empty tree it returns 1.  What the traversals of the two
subtrees return is dropped: at every node, the left subtree is traversed, then the visitor
is called on the node whatever that traversal returned, and then either 0 is returned (the
visitor returned 0: the right subtree of this node is skipped) or the right subtree is
traversed and 1 returned whatever that traversal returned. -/
theorem C36_forEach_returns_the_verdict_on_the_root (tree : RBTree α φ) (T : Tree α)
    (hM : Models tree T) (func : Option α → σ → Int × σ) (args : σ) :
    forEachRBTree (some tree) func args = some (travP func T args) ∧
    ((travP func T args).1 = 0 ∨ (travP func T args).1 = 1) ∧
    ((travP func T args).1 = 0 ↔ ∃ l a c d r, T = .node l a c d r ∧
      (func (some d) (travP func l args).2).1 = 0) ∧
    (T = .nil → forEachRBTree (some tree) func args = some (1, args)) ∧
    (∀ (l : Tree α) (a : Nat) (c : Color) (d : α) (r : Tree α) (s : σ),
      travP func (.node l a c d r) s =
        if (func (some d) (travP func l s).2).1 = 0 then
          (0, (func (some d) (travP func l s).2).2)
        else (1, (travP func r (func (some d) (travP func l s).2).2).2)) := by
  have h : forEachRBTree (some tree) func args = some (travP func T args) := by
    simp only [forEachRBTree]
    rw [hM.root, inOrderTraversal_spec tree.nodes func T none hM.rep
      (depthBound tree.nodes) (height_lt_depthBound hM) args]
  refine ⟨h, (travP_fst func T args).1, (travP_fst func T args).2, ?_, fun l a c d r s => rfl⟩
  intro hT
  rw [h, hT]
  rfl

/-- Witness of C36: the tree of 20 and 10 (root 20, left child 10) with the visitor
`failOn10`, which returns 0 on the left child only. -/
theorem C36_forEach_returns_the_verdict_on_the_root_witness :
    Models (⟨some 0, numCompare, (), 2,
        [⟨none, some 1, none, .BLACK, some 20⟩, ⟨some 0, none, none, .RED, some 10⟩]⟩ :
          RBTree Int Unit)
      (.node (.node .nil 1 .RED 10 .nil) 0 .BLACK 20 .nil) ∧
    forEachRBTree (some (⟨some 0, numCompare, (), 2,
        [⟨none, some 1, none, .BLACK, some 20⟩, ⟨some 0, none, none, .RED, some 10⟩]⟩ :
          RBTree Int Unit)) failOn10 [] = some (1, [10, 20]) :=
  ⟨⟨rfl, ⟨rfl, ⟨rfl, trivial, trivial⟩, trivial⟩, by decide⟩,
    (C36_forEach_returns_the_verdict_on_the_root
      (⟨some 0, numCompare, (), 2,
        [⟨none, some 1, none, .BLACK, some 20⟩, ⟨some 0, none, none, .RED, some 10⟩]⟩ :
          RBTree Int Unit)
      (.node (.node .nil 1 .RED 10 .nil) 0 .BLACK 20 .nil)
      ⟨rfl, ⟨rfl, ⟨rfl, trivial, trivial⟩, trivial⟩, by decide⟩ failOn10 []).1.trans rfl⟩

/-! ## The height of a red-black tree -/

theorem pow_bh_le_card (t : Tree α) (h : BlackBalanced t) : 2 ^ bh t ≤ t.card + 1 := by
  induction t with
  | nil => simp [bh, Tree.card]
  | node l a c d r ihl ihr =>
    obtain ⟨e, hl, hr⟩ := h
    have h1 := ihl hl
    have h2 := ihr hr
    rw [← e] at h2
    simp only [bh, Tree.card]
    split_ifs
    · rw [pow_succ]; omega
    · simp only [Nat.add_zero]; omega

theorem height_le_bh (t : Tree α) (h1 : NoRedRed t) (h2 : BlackBalanced t) :
    t.height ≤ 2 * bh t + (if t.color = Color.RED then 1 else 0) := by
  induction t with
  | nil => simp [bh, Tree.height]
  | node l a c d r ihl ihr =>
    obtain ⟨hc, hl, hr⟩ := h1
    obtain ⟨e, bl, br⟩ := h2
    have g1 := ihl hl bl
    have g2 := ihr hr br
    rw [← e] at g2
    simp only [bh, Tree.height, Tree.color]
    rcases color_cases c with rfl | rfl
    · obtain ⟨cl, cr⟩ := hc rfl
      rw [cl] at g1
      rw [cr] at g2
      simp only [reduceCtorEq, if_false, if_true, Nat.add_zero] at g1 g2 ⊢
      omega
    · simp only [reduceCtorEq, if_false, if_true, Nat.add_zero] at g1 g2 ⊢
      split_ifs at g1 g2 <;> omega

theorem pow_height_le (t : Tree α) (h1 : NoRedRed t) (h2 : BlackBalanced t)
    (h3 : t.color = Color.BLACK) : 2 ^ t.height ≤ (t.card + 1) ^ 2 := by
  have g1 := height_le_bh t h1 h2
  rw [h3] at g1
  simp only [reduceCtorEq, if_false, Nat.add_zero] at g1
  calc 2 ^ t.height ≤ 2 ^ (2 * bh t) := Nat.pow_le_pow_right (by decide) g1
    _ = (2 ^ bh t) ^ 2 := by rw [Nat.mul_comm, pow_mul]
    _ ≤ (t.card + 1) ^ 2 := Nat.pow_le_pow_left (pow_bh_le_card t h2) 2

/-- C34: for a strict-total-order comparator and `n` pairwise-distinct payloads `xs` inserted
with `addToRBTree` into a tree created by `newRBTree`, the store holds a tree shape `T` with
`n` nodes whose height `h` (the number of nodes on the longest path from the root down to a
node without children) satisfies `2 ^ h <= (n + 1) ^ 2`, that is `h <= 2 * log2 (n + 1)`. -/
theorem C34_height_is_logarithmic (cmp : α → α → Int) (free : φ) (xs : List α)
    (hlaw : StrictTotalOrder cmp) (hxs : xs.Nodup) :
    ∃ t0 rs tree T, newRBTree (some cmp) (some free) = some t0 ∧
      runAdds t0 (xs.map some) = some (rs, tree) ∧ Models tree T ∧ T.datas.Perm xs ∧
      T.card = xs.length ∧ 2 ^ T.height ≤ (xs.length + 1) ^ 2 ∧
      T.height ≤ 2 * Nat.log 2 (xs.length + 1) := by
  obtain ⟨t0, rs, tree, T, h1, h2, h3, -, -, h6, -⟩ := run_distinct cmp free xs hlaw hxs
  have hc : T.card = xs.length := by rw [← length_datas, h6.length_eq]
  have hp := pow_height_le T h3.noRedRed h3.balanced h3.rootBlack
  rw [hc] at hp
  refine ⟨t0, rs, tree, T, h1, h2, h3.models, h6, hc, hp, ?_⟩
  have g1 := height_le_bh T h3.noRedRed h3.balanced
  rw [h3.rootBlack] at g1
  simp only [reduceCtorEq, if_false, Nat.add_zero] at g1
  have g2 := pow_bh_le_card T h3.balanced
  rw [hc] at g2
  have g3 : bh T ≤ Nat.log 2 (xs.length + 1) := Nat.le_log_of_pow_le (by decide) g2
  omega

/-- Witness of C34: the integers 1, 2, ..., 7 inserted in this order. -/
theorem C34_height_is_logarithmic_witness :
    StrictTotalOrder numCompare ∧ ([1, 2, 3, 4, 5, 6, 7] : List Int).Nodup ∧
    ∃ t0 rs tree T, newRBTree (some numCompare) (some ()) = some t0 ∧
      runAdds t0 (([1, 2, 3, 4, 5, 6, 7] : List Int).map some) = some (rs, tree) ∧
      Models tree T ∧ T.datas.Perm [1, 2, 3, 4, 5, 6, 7] ∧
      T.card = ([1, 2, 3, 4, 5, 6, 7] : List Int).length ∧
      2 ^ T.height ≤ (([1, 2, 3, 4, 5, 6, 7] : List Int).length + 1) ^ 2 ∧
      T.height ≤ 2 * Nat.log 2 (([1, 2, 3, 4, 5, 6, 7] : List Int).length + 1) :=
  ⟨strictTotalOrder_numCompare, by decide,
    C34_height_is_logarithmic numCompare () [1, 2, 3, 4, 5, 6, 7]
      strictTotalOrder_numCompare (by decide)⟩

/-! ## The scan of `containsRBTree` and the guided search -/

theorem guidedDescent_spec (m : List (Node α)) (cmp : α → α → Int)
    (hlaw : StrictTotalOrder cmp) (d : α) (t : Tree α) :
    ∀ (par : Ptr), Rep m t par → BST cmp t → ∀ fuel, t.height < fuel →
      ∃ r, guidedDescent m cmp fuel t.ptr d = some r ∧ (r = 0 ∨ r = 1) ∧
        (r ≠ 0 ↔ ∃ x ∈ t.datas, cmp x d = 0) := by
  induction t with
  | nil =>
    intro par _ _ fuel hf
    obtain ⟨fuel, rfl⟩ : ∃ k, fuel = k + 1 := ⟨fuel - 1, by simp [Tree.height] at hf; omega⟩
    exact ⟨0, by simp [guidedDescent], Or.inl rfl, by simp⟩
  | node l a c x r ihl ihr =>
    intro par hrep hbst fuel hf
    obtain ⟨fuel, rfl⟩ : ∃ k, fuel = k + 1 := ⟨fuel - 1, by omega⟩
    obtain ⟨h1, h2, h3⟩ := hrep
    obtain ⟨bl, br, b1, b2⟩ := hbst
    simp only [Tree.height] at hf
    simp only [guidedDescent, ptr_node, h1]
    by_cases h0 : cmp x d = 0
    · refine ⟨1, by simp [h0], Or.inr rfl, ?_⟩
      simp only [ne_eq, one_ne_zero, not_false_eq_true, true_iff]
      exact ⟨x, by simp, h0⟩
    · rw [if_neg h0]
      by_cases hlt : cmp x d < 0
      · rw [if_pos hlt]
        obtain ⟨r', e1, e2, e3⟩ := ihr (some a) h3 b2 fuel (by omega)
        refine ⟨r', e1, e2, ?_⟩
        rw [e3]
        constructor
        · rintro ⟨y, hy, hy0⟩
          exact ⟨y, by simp [hy], hy0⟩
        · rintro ⟨y, hy, hy0⟩
          simp only [datas_node, List.mem_append, List.mem_cons] at hy
          rcases hy with hy | rfl | hy
          · have := bl y hy
            rw [(hlaw.eq_zero y d).1 hy0] at this
            have := (hlaw.antisymm d x).1 this
            omega
          · exact absurd hy0 h0
          · exact ⟨y, hy, hy0⟩
      · rw [if_neg hlt]
        obtain ⟨r', e1, e2, e3⟩ := ihl (some a) h2 b1 fuel (by omega)
        refine ⟨r', e1, e2, ?_⟩
        rw [e3]
        constructor
        · rintro ⟨y, hy, hy0⟩
          exact ⟨y, by simp [hy], hy0⟩
        · rintro ⟨y, hy, hy0⟩
          simp only [datas_node, List.mem_append, List.mem_cons] at hy
          rcases hy with hy | rfl | hy
          · exact ⟨y, hy, hy0⟩
          · exact absurd hy0 h0
          · have := br y hy
            rw [(hlaw.eq_zero y d).1 hy0] at this
            exact absurd ((hlaw.antisymm x d).2 this) hlt

theorem containsByDescent_eq (tree : RBTree α φ) (T : Tree α) (hV : Valid tree T)
    (hlaw : StrictTotalOrder tree.compFunc) (p : α) :
    ∃ r, containsRBTree (some tree) (some p) = some r ∧ containsByDescent tree p = some r ∧
      (r ≠ 0 ↔ ∃ x ∈ T.datas, tree.compFunc x p = 0) := by
  obtain ⟨r, g1, g2, g3⟩ := containsRBTree_spec tree T hV.models p
  obtain ⟨r', e1, e2, e3⟩ := guidedDescent_spec tree.nodes tree.compFunc hlaw p T none
    hV.models.rep hV.bst (depthBound tree.nodes) (height_lt_depthBound hV.models)
  refine ⟨r, g1, ?_, g3⟩
  have : r' = r := by
    by_cases h : ∃ x ∈ T.datas, tree.compFunc x p = 0
    · have a1 := g3.2 h
      have a2 := e3.2 h
      omega
    · have a1 : r = 0 := by by_contra hc; exact h (g3.1 hc)
      have a2 : r' = 0 := by by_contra hc; exact h (e3.1 hc)
      omega
  rw [containsByDescent, hV.models.root, e1, this]

/-- C35: for a strict-total-order comparator, every sequence `xs` of payloads passed to
`addToRBTree` on a tree created by `newRBTree`, and every payload `p`, the scan of
`containsRBTree(tree, p)` and the BST-guided descent from the root (found when the
comparator gives 0, to the right when `comparator(node, p) < 0`, to the left when it is
positive) both return, with the same answer. -/
theorem C35_full_scan_agrees_with_guided_descent (cmp : α → α → Int) (free : φ)
    (xs : List α) (hlaw : StrictTotalOrder cmp) (p : α) :
    ∃ t0 rs tree r, newRBTree (some cmp) (some free) = some t0 ∧
      runAdds t0 (xs.map some) = some (rs, tree) ∧
      containsRBTree (some tree) (some p) = some r ∧ containsByDescent tree p = some r ∧
      (r ≠ 0 ↔ ∃ x ∈ xs, cmp x p = 0) := by
  obtain ⟨hV0, hc0⟩ := valid_new cmp free _ rfl
  obtain ⟨rs, tree, T, h1, h2, h3, -, h5, -, -, -⟩ :=
    runAdds_spec (xs.map some) _ .nil hV0 (by rw [hc0]; exact hlaw)
  obtain ⟨r, g1, g2, g3⟩ := containsByDescent_eq tree T h2 (by rw [h3, hc0]; exact hlaw) p
  refine ⟨_, rs, tree, r, rfl, h1, g1, g2, ?_⟩
  rw [g3, h3, hc0]
  constructor
  · rintro ⟨x, hx, h0⟩
    exact ⟨x, by simpa using (h5 x).1 hx, h0⟩
  · rintro ⟨x, hx, h0⟩
    exact ⟨x, (h5 x).2 (by simpa using hx), h0⟩

/-- Witness of C35: the integers 50, 10, 40, 20, 30 and the query 20. -/
theorem C35_full_scan_agrees_with_guided_descent_witness :
    StrictTotalOrder numCompare ∧
    ∃ t0 rs tree r, newRBTree (some numCompare) (some ()) = some t0 ∧
      runAdds t0 (([50, 10, 40, 20, 30] : List Int).map some) = some (rs, tree) ∧
      containsRBTree (some tree) (some 20) = some r ∧ containsByDescent tree 20 = some r ∧
      (r ≠ 0 ↔ ∃ x ∈ ([50, 10, 40, 20, 30] : List Int), numCompare x 20 = 0) :=
  ⟨strictTotalOrder_numCompare,
    C35_full_scan_agrees_with_guided_descent numCompare () [50, 10, 40, 20, 30]
      strictTotalOrder_numCompare 20⟩

/-! ## Parent links -/

theorem rep_child {m : List (Node α)} {t : Tree α} {par : Ptr} {c : Nat}
    (h : Rep m t par) (hc : t.ptr = some c) :
    ∃ nc, readNode m (some c) = some nc ∧ nc.parent = par := by
  cases t with
  | nil => cases hc
  | node l a col d r =>
    simp only [ptr_node, Option.some.injEq] at hc
    subst hc
    exact ⟨_, h.1, rfl⟩

theorem rep_links {m : List (Node α)} (t : Tree α) : ∀ (par : Ptr), Rep m t par →
    ∀ a ∈ t.addrs, ∃ n, readNode m (some a) = some n ∧
      (∀ c, n.left = some c ∨ n.right = some c →
        ∃ nc, readNode m (some c) = some nc ∧ nc.parent = some a) ∧
      ((n.parent = par ∧ t.ptr = some a) ∨
        ∃ p np, n.parent = some p ∧ readNode m (some p) = some np ∧
          (np.left = some a ∨ np.right = some a)) := by
  induction t with
  | nil => intro par _ a ha; simp at ha
  | node l x col d r ihl ihr =>
    intro par h a ha
    obtain ⟨h1, h2, h3⟩ := h
    simp only [addrs_node, List.mem_append, List.mem_cons] at ha
    rcases ha with ha | rfl | ha
    · obtain ⟨n, e1, e2, e3⟩ := ihl (some x) h2 a ha
      refine ⟨n, e1, e2, Or.inr ?_⟩
      rcases e3 with ⟨e3, e4⟩ | e3
      · exact ⟨x, _, e3, h1, Or.inl e4⟩
      · exact e3
    · refine ⟨_, h1, ?_, Or.inl ⟨rfl, rfl⟩⟩
      rintro c (hc | hc)
      · exact rep_child h2 hc
      · exact rep_child h3 hc
    · obtain ⟨n, e1, e2, e3⟩ := ihr (some x) h3 a ha
      refine ⟨n, e1, e2, Or.inr ?_⟩
      rcases e3 with ⟨e3, e4⟩ | e3
      · exact ⟨x, _, e3, h1, Or.inr e4⟩
      · exact e3

theorem models_covers {tree : RBTree α φ} {T : Tree α} (hM : Models tree T)
    (hlen : tree.nodes.length = T.card) : ∀ a, a < tree.nodes.length → a ∈ T.addrs := by
  have hsub : T.addrs ⊆ List.range tree.nodes.length := fun x hx =>
    List.mem_range.2 (rep_addr_lt hM.rep x hx)
  have hp : T.addrs.Perm (List.range tree.nodes.length) :=
    (hM.nodup.subperm hsub).perm_of_length_le (by
      rw [List.length_range, hlen, card_eq_length]; simp [Tree.addrs])
  intro a ha
  exact hp.mem_iff.2 (List.mem_range.2 ha)

theorem linksConsistent_of_models {tree : RBTree α φ} {T : Tree α} (hM : Models tree T)
    (hlen : tree.nodes.length = T.card) : LinksConsistent tree := by
  refine ⟨?_, ?_, ?_⟩
  · intro n hn
    rw [hM.root] at hn
    cases T with
    | nil => simp [readNode] at hn
    | node l a c d r =>
      have := hM.rep.1
      simp only [ptr_node] at hn
      rw [this] at hn
      simp only [Option.some.injEq] at hn
      rw [← hn]
  · intro a n c hn hc
    obtain ⟨n', e1, e2, -⟩ := rep_links T none hM.rep a (models_covers hM hlen a (lt_of_read hn))
    rw [hn] at e1
    simp only [Option.some.injEq] at e1
    subst e1
    exact e2 c hc
  · intro a n p hn hp
    obtain ⟨n', e1, -, e3⟩ := rep_links T none hM.rep a (models_covers hM hlen a (lt_of_read hn))
    rw [hn] at e1
    simp only [Option.some.injEq] at e1
    subst e1
    rcases e3 with ⟨e3, -⟩ | ⟨p', np, e3, e4, e5⟩
    · rw [hp] at e3; cases e3
    · rw [hp] at e3
      simp only [Option.some.injEq] at e3
      subst e3
      exact ⟨np, e4, e5⟩

theorem runAdds_store (ps : List (Option α)) : ∀ (tree : RBTree α φ) (T : Tree α),
    Valid tree T → StrictTotalOrder tree.compFunc → tree.nodes.length = T.card →
    ∃ rs t' T', runAdds tree ps = some (rs, t') ∧ Valid t' T' ∧
      t'.compFunc = tree.compFunc ∧ t'.nodes.length = T'.card := by
  induction ps with
  | nil =>
    intro tree T hV _ hl
    exact ⟨[], tree, T, rfl, hV, rfl, hl⟩
  | cons p ps ih =>
    intro tree T hV hlaw hl
    rcases p with _ | d
    · obtain ⟨rs, t', T', h1, h2, h3, h4⟩ := ih tree T hV hlaw hl
      exact ⟨0 :: rs, t', T', by simp [runAdds, addToRBTree_null, h1], h2, h3, h4⟩
    · by_cases hd : d ∈ T.datas
      · have hdup := addToRBTree_dup tree T hV.models d ⟨d, hd, (hlaw.eq_zero d d).2 rfl⟩
        obtain ⟨rs, t', T', h1, h2, h3, h4⟩ := ih tree T hV hlaw hl
        exact ⟨0 :: rs, t', T', by simp [runAdds, hdup, h1], h2, h3, h4⟩
      · obtain ⟨t1, g1, g2, g3, -⟩ := valid_add tree T hV hlaw d hd
        have hnew : ¬ ∃ x ∈ T.datas, tree.compFunc x d = 0 := by
          rintro ⟨x, hx, h0⟩
          rw [(hlaw.eq_zero x d).1 h0] at hx
          exact hd hx
        obtain ⟨t2, k1, -, -, -, -, k6⟩ :=
          addToRBTree_spec tree T hV.models hlaw hV.bst hV.rootBlack d hnew
        have e : t2 = t1 := by
          rw [g1] at k1
          simp only [Option.some.injEq, Prod.mk.injEq, true_and] at k1
          exact k1.symm
        subst e
        obtain ⟨rs, t', T', h1, h2, h3, h4⟩ :=
          ih t2 _ g2 (by rw [g3]; exact hlaw) (by rw [k6, card_insertP, hl])
        exact ⟨1 :: rs, t', T', by simp [runAdds, g1, h1], h2, h3.trans g3, h4⟩

/-- C38: for a strict-total-order comparator and every sequence `xs` of payloads passed one
by one to `addToRBTree` on a tree created by `newRBTree`, after each call (after the first
`k` of them, for every `k`) the parent links of the store agree with the child links: the
root has no parent, the parent link of the left and of the right child of every node points
back to that node, and every node that has a parent is the left or the right child of it.
The store holds a tree shape that contains every allocated node. -/
theorem C38_parent_links_agree_with_child_links (cmp : α → α → Int) (free : φ)
    (xs : List α) (hlaw : StrictTotalOrder cmp) (k : Nat) :
    ∃ t0 rs tree T, newRBTree (some cmp) (some free) = some t0 ∧
      runAdds t0 ((xs.take k).map some) = some (rs, tree) ∧ LinksConsistent tree ∧
      Models tree T ∧ (∀ a, a < tree.nodes.length ↔ a ∈ T.addrs) := by
  obtain ⟨hV0, hc0⟩ := valid_new cmp free _ rfl
  obtain ⟨rs, tree, T, h1, h2, -, h4⟩ :=
    runAdds_store ((xs.take k).map some) _ .nil hV0 (by rw [hc0]; exact hlaw) rfl
  exact ⟨_, rs, tree, T, rfl, h1, linksConsistent_of_models h2.models h4, h2.models,
    fun a => ⟨models_covers h2.models h4 a, rep_addr_lt h2.models.rep a⟩⟩

/-- Witness of C38: the integers 50, 10, 40, 20, 30, 10, after the first five calls. -/
theorem C38_parent_links_agree_with_child_links_witness :
    StrictTotalOrder numCompare ∧
    ∃ t0 rs tree T, newRBTree (some numCompare) (some ()) = some t0 ∧
      runAdds t0 ((([50, 10, 40, 20, 30, 10] : List Int).take 5).map some) =
        some (rs, tree) ∧
      LinksConsistent tree ∧ Models tree T ∧
      (∀ a, a < tree.nodes.length ↔ a ∈ T.addrs) :=
  ⟨strictTotalOrder_numCompare,
    C38_parent_links_agree_with_child_links numCompare () [50, 10, 40, 20, 30, 10]
      strictTotalOrder_numCompare 5⟩

/-! ## The insertion with its record is the insertion -/

theorem fixTreeStepLog_fst (tree : RBTree α φ) (newNode : Ptr) :
    (fixTreeStepLog tree newNode).map Prod.fst = fixTreeStep tree newNode := by
  unfold fixTreeStepLog fixTreeStep
  simp only [map_bind_opt, apply_ite (Option.map Prod.fst), Option.map_some']

theorem fixTreeLoopLog_fst (fuel : Nat) : ∀ (tree : RBTree α φ) (newNode : Ptr),
    (fixTreeLoopLog fuel tree newNode).map Prod.fst = fixTreeLoop fuel tree newNode := by
  induction fuel with
  | zero => intro tree newNode; rfl
  | succ k ih =>
    intro tree newNode
    simp only [fixTreeLoopLog, fixTreeLoop, ← fixTreeStepLog_fst]
    cases fixTreeStepLog tree newNode with
    | none => rfl
    | some s =>
      obtain ⟨s, it⟩ := s
      cases s with
      | done t1 => rfl
      | next t1 z1 =>
        simp only [Option.map_some', map_bind_opt, ← ih t1 z1]
        cases fixTreeLoopLog k t1 z1 <;> rfl

theorem fixTreeLog_fst (tree : RBTree α φ) (newNode : Ptr) :
    (fixTreeLog tree newNode).map Prod.fst = fixTree tree newNode := by
  unfold fixTreeLog fixTree
  simp only [← fixTreeLoopLog_fst, bind_map_opt, map_bind_opt, Option.map_some']

theorem addToRBTreeLog_fst (tree : Option (RBTree α φ)) (data : Option α) :
    (addToRBTreeLog tree data).map Prod.fst = addToRBTree tree data := by
  unfold addToRBTreeLog addToRBTree
  cases tree with
  | none => rfl
  | some t =>
    cases data with
    | none => rfl
    | some d =>
      simp only [← fixTreeLog_fst, bind_map_opt, map_bind_opt, Option.map_some',
        apply_ite (Option.map Prod.fst)]

/-! ## What a round of the loop does, on every store -/

theorem writeNode_color_links {m m' : List (Node α)} {p : Ptr} {c : Color}
    (h : writeNode m p (fun n => { n with color := c }) = some m') :
    m'.map Node.links = m.map Node.links := by
  obtain ⟨a, n, rfl, hr, rfl⟩ := writeNode_eq_some h
  have hlt := lt_of_read hr
  simp only [readNode] at hr
  apply List.ext_getElem?
  intro i
  simp only [List.getElem?_map, List.getElem?_set]
  by_cases hi : a = i
  · subst hi
    simp only [if_true, hlt, hr, Option.map_some', Node.links]
  · simp only [hi, if_false]

theorem fixTreeStepLog_exit {tree : RBTree α φ} {z : Ptr} {r : LoopStep α φ}
    (h : fixTreeStepLog tree z = some (r, none)) : r = .done tree := by
  unfold fixTreeStepLog at h
  by_cases h0 : z = tree.root
  · rw [if_pos h0] at h
    simp only [Option.some.injEq, Prod.mk.injEq, and_true] at h
    exact h.symm
  · rw [if_neg h0] at h
    obtain ⟨nz, -, h⟩ := Option.bind_eq_some.1 h
    obtain ⟨np, -, h⟩ := Option.bind_eq_some.1 h
    by_cases hc : np.color ≠ Color.RED
    · rw [if_pos hc] at h
      simp only [Option.some.injEq, Prod.mk.injEq, and_true] at h
      exact h.symm
    · rw [if_neg hc] at h
      obtain ⟨ngp, -, h⟩ := Option.bind_eq_some.1 h
      obtain ⟨red, -, h⟩ := Option.bind_eq_some.1 h
      exfalso
      dsimp only at h
      by_cases hr : red = true
      · rw [if_pos hr] at h
        simp only [Option.bind_eq_some, Option.some.injEq, Prod.mk.injEq, reduceCtorEq,
          and_false, exists_false, exists_const] at h
      · rw [if_neg hr] at h
        split_ifs at h
        all_goals
          simp only [Option.bind_eq_some, Option.some.injEq, Prod.mk.injEq, reduceCtorEq,
            and_false, exists_false, exists_const] at h

theorem fixTreeStepLog_round {tree : RBTree α φ} {z : Ptr} {r : LoopStep α φ}
    {it : Iteration α φ} (h : fixTreeStepLog tree z = some (r, some it)) :
    it.tree = tree ∧ it.newNode = z ∧ it.result = r ∧ z ≠ tree.root ∧
    (∃ nz np ngp, readNode tree.nodes z = some nz ∧ it.parent = nz.parent ∧
      readNode tree.nodes it.parent = some np ∧ np.color = Color.RED ∧
      it.gradParent = np.parent ∧ readNode tree.nodes it.gradParent = some ngp) ∧
    it.calls.length ≤ 2 ∧
    (it.uncleRed = true → it.calls = [] ∧ ∃ t', r = .next t' it.gradParent ∧
      t'.root = tree.root ∧ t'.nodes.map Node.links = tree.nodes.map Node.links) ∧
    (it.uncleRed = false → ∃ t', r = .done t') := by
  unfold fixTreeStepLog at h
  by_cases h0 : z = tree.root
  · rw [if_pos h0] at h
    simp at h
  rw [if_neg h0] at h
  obtain ⟨nz, hnz, h⟩ := Option.bind_eq_some.1 h
  obtain ⟨np, hnp, h⟩ := Option.bind_eq_some.1 h
  by_cases hc : np.color ≠ Color.RED
  · rw [if_pos hc] at h
    simp at h
  rw [if_neg hc] at h
  have hred : np.color = Color.RED := by simpa using hc
  obtain ⟨ngp, hngp, h⟩ := Option.bind_eq_some.1 h
  obtain ⟨red, -, h⟩ := Option.bind_eq_some.1 h
  dsimp only at h
  by_cases hr : red = true
  · rw [if_pos hr] at h
    obtain ⟨m1, w1, h⟩ := Option.bind_eq_some.1 h
    obtain ⟨m2, w2, h⟩ := Option.bind_eq_some.1 h
    obtain ⟨m3, w3, h⟩ := Option.bind_eq_some.1 h
    simp only [Option.some.injEq, Prod.mk.injEq] at h
    obtain ⟨rfl, rfl⟩ := h
    refine ⟨rfl, rfl, rfl, h0, ⟨nz, np, ngp, hnz, rfl, hnp, hred, rfl, hngp⟩, by simp, ?_,
      by simp⟩
    intro _
    refine ⟨rfl, _, rfl, rfl, ?_⟩
    simp only [writeNode_color_links w3, writeNode_color_links w2, writeNode_color_links w1]
  rw [if_neg hr] at h
  split_ifs at h
  all_goals
    first
    | (obtain ⟨t1, -, h⟩ := Option.bind_eq_some.1 h
       obtain ⟨t2, -, h⟩ := Option.bind_eq_some.1 h
       obtain ⟨m, -, h⟩ := Option.bind_eq_some.1 h
       simp only [Option.some.injEq, Prod.mk.injEq] at h
       obtain ⟨rfl, rfl⟩ := h
       exact ⟨rfl, rfl, rfl, h0, ⟨nz, np, ngp, hnz, rfl, hnp, hred, rfl, hngp⟩, by simp,
         by simp, fun _ => ⟨_, rfl⟩⟩)
    | (obtain ⟨t1, -, h⟩ := Option.bind_eq_some.1 h
       obtain ⟨m, -, h⟩ := Option.bind_eq_some.1 h
       simp only [Option.some.injEq, Prod.mk.injEq] at h
       obtain ⟨rfl, rfl⟩ := h
       exact ⟨rfl, rfl, rfl, h0, ⟨nz, np, ngp, hnz, rfl, hnp, hred, rfl, hngp⟩, by simp,
         by simp, fun _ => ⟨_, rfl⟩⟩)
    | (simp only [Option.some.injEq, Prod.mk.injEq] at h
       obtain ⟨rfl, rfl⟩ := h
       exact ⟨rfl, rfl, rfl, h0, ⟨nz, np, ngp, hnz, rfl, hnp, hred, rfl, hngp⟩, by simp,
         by simp, fun _ => ⟨_, rfl⟩⟩)

theorem fixTreeLoopLog_rounds (fuel : Nat) : ∀ (tree : RBTree α φ) (z : Ptr)
    (t' : RBTree α φ) (log : List (Iteration α φ)),
    fixTreeLoopLog fuel tree z = some (t', log) →
    (∀ it ∈ log, fixTreeStepLog it.tree it.newNode = some (it.result, some it)) ∧
    (∀ it ∈ log.head?, it.tree = tree ∧ it.newNode = z) ∧
    log.Chain' (fun it it' => it.result = .next it'.tree it'.newNode) := by
  induction fuel with
  | zero => intro tree z t' log h; simp [fixTreeLoopLog] at h
  | succ k ih =>
    intro tree z t' log h
    simp only [fixTreeLoopLog] at h
    cases hs : fixTreeStepLog tree z with
    | none => rw [hs] at h; simp at h
    | some s =>
      obtain ⟨s, it⟩ := s
      rw [hs] at h
      cases s with
      | done t1 =>
        simp only [Option.some.injEq, Prod.mk.injEq] at h
        obtain ⟨-, rfl⟩ := h
        cases it with
        | none => simp
        | some it =>
          obtain ⟨e1, e2, e3, -⟩ := fixTreeStepLog_round hs
          simp only [Option.toList, List.mem_singleton, forall_eq, List.head?_cons,
            Option.mem_def, Option.some.injEq, List.chain'_singleton, and_true]
          rw [e1, e2, e3]
          exact ⟨hs, fun x hx => hx ▸ ⟨e1, e2⟩⟩
      | next t1 z1 =>
        simp only [Option.bind_eq_some, Option.some.injEq, Prod.mk.injEq] at h
        obtain ⟨⟨t2, log2⟩, hl, -, rfl⟩ := h
        obtain ⟨g1, g2, g3⟩ := ih t1 z1 t2 log2 hl
        cases it with
        | none => exact absurd (fixTreeStepLog_exit hs) (by simp)
        | some it =>
          obtain ⟨e1, e2, e3, -⟩ := fixTreeStepLog_round hs
          simp only [Option.toList, List.singleton_append, List.mem_cons, forall_eq_or_imp,
            List.head?_cons, Option.mem_def, Option.some.injEq, forall_eq]
          refine ⟨⟨by rw [e1, e2, e3]; exact hs, g1⟩, fun x hx => hx ▸ ⟨e1, e2⟩, ?_⟩
          cases log2 with
          | nil => exact List.chain'_singleton _
          | cons it' rest =>
            rw [List.chain'_cons]
            refine ⟨?_, g3⟩
            obtain ⟨a1, a2⟩ := g2 it' (by simp)
            rw [e3, a1, a2]

theorem rounds_followed {log : List (Iteration α φ)}
    (h1 : ∀ it ∈ log, fixTreeStepLog it.tree it.newNode = some (it.result, some it))
    (h2 : log.Chain' (fun it it' => it.result = .next it'.tree it'.newNode)) :
    ∀ (pre : List (Iteration α φ)) (it : Iteration α φ) (post : List (Iteration α φ)),
      log = pre ++ it :: post → post ≠ [] → it.uncleRed = true ∧ it.calls = [] := by
  intro pre it post e hp
  obtain ⟨it', post', rfl⟩ : ∃ it' post', post = it' :: post' := by
    cases post with
    | nil => exact absurd rfl hp
    | cons a b => exact ⟨a, b, rfl⟩
  subst e
  have hc : it.result = .next it'.tree it'.newNode := by
    have := (List.chain'_append.1 h2).2.1
    exact (List.chain'_cons.1 this).1
  obtain ⟨-, -, -, -, -, -, k1, k2⟩ := fixTreeStepLog_round (h1 it (by simp))
  have hu : it.uncleRed = true := by
    by_contra hne
    obtain ⟨t1, ht1⟩ := k2 (by simpa using hne)
    rw [hc] at ht1
    cases ht1
  exact ⟨hu, (k1 hu).1⟩

theorem rounds_rotateCalls : ∀ (log : List (Iteration α φ)),
    (∀ it ∈ log, fixTreeStepLog it.tree it.newNode = some (it.result, some it)) →
    log.Chain' (fun it it' => it.result = .next it'.tree it'.newNode) →
    (rotateCalls log).length ≤ 2
  | [], _, _ => by simp [rotateCalls]
  | [it], h1, _ => by
    obtain ⟨-, -, -, -, -, k, -⟩ := fixTreeStepLog_round (h1 it (by simp))
    simpa [rotateCalls] using k
  | it :: it' :: rest, h1, h2 => by
    have h := (rounds_followed h1 h2 [] it (it' :: rest) rfl (by simp)).2
    have ih := rounds_rotateCalls (it' :: rest) (fun x hx => h1 x (List.mem_cons_of_mem _ hx))
      (List.chain'_cons.1 h2).2
    simp only [rotateCalls, List.flatMap_cons, h, List.nil_append] at ih ⊢
    exact ih

/-! ## The rounds of the loop on a store that holds a tree shape -/

theorem models_read {tree : RBTree α φ} {l : Tree α} {a : Nat} {c : Color} {d : α}
    {r : Tree α} {ctx : List (Frame α)} (hM : Models tree (plug (.node l a c d r) ctx)) :
    readNode tree.nodes (some a) = some ⟨ctxPtr ctx, l.ptr, r.ptr, c, some d⟩ :=
  ((models_plug_iff _ _ _).1 hM).2.1.1.1

theorem hasChild_left {t : RBTree α φ} {a : Nat} {n : Node α} {b : Nat}
    (h : readNode t.nodes (some a) = some n) (hb : n.right = some b) :
    RotateCall.hasChild ⟨true, t, some a⟩ = true := by
  simp [RotateCall.hasChild, h, hb]

theorem hasChild_right {t : RBTree α φ} {a : Nat} {n : Node α} {b : Nat}
    (h : readNode t.nodes (some a) = some n) (hb : n.left = some b) :
    RotateCall.hasChild ⟨false, t, some a⟩ = true := by
  simp [RotateCall.hasChild, h, hb]

theorem fixTreeStepLog_rotate (tree : RBTree α φ) (Z : Tree α) (z : Nat) (hz : Z.ptr = some z)
    (f1 f2 : Frame α) (rest : List (Frame α))
    (hM : Models tree (plug Z (f1 :: f2 :: rest)))
    (h1 : f1.color = Color.RED) (hu : ¬ f2.sib.color = Color.RED)
    (hor : Oriented tree.compFunc (f1 :: f2 :: rest)) :
    ∃ t' it, fixTreeStepLog tree (some z) = some (.done t', some it) ∧
      Models t' (plug (rotateP Z f1 f2) rest) ∧ Kept tree t' ∧
      it.calls ≠ [] ∧ ∀ c ∈ it.calls, c.hasChild = true := by
  have hag1 := oriented_head hor
  have hag2 := oriented_head (oriented_tail hor)
  have hM' := hM
  rw [models_plug_iff] at hM
  obtain ⟨hroot, ⟨hrep, hctx⟩, hnd⟩ := hM
  rcases Z with _ | ⟨zl, z', zc, zd, zr⟩
  · cases hz
  simp only [ptr_node, Option.some.injEq] at hz
  subst hz
  have hne : ¬ some z' = tree.root := by
    rw [hroot]
    refine ptr_plug_ne ?_
    simp only [addrs_node, List.nodup_append, List.nodup_cons, List.mem_append, List.mem_cons,
      List.disjoint_cons_left, List.disjoint_cons_right, List.disjoint_append_left,
      List.disjoint_append_right, not_or, List.append_assoc, List.cons_append] at hnd
    tauto
  rcases f1 with ⟨p, pc, pd, s⟩ | ⟨s, p, pc, pd⟩ <;>
  rcases f2 with ⟨g, gc, gd, u⟩ | ⟨u, g, gc, gd⟩ <;>
  ( simp only [Frame.color, sib_L, sib_R] at h1 hu
    subst h1
    simp only [Rep, RepCtx, ptr_node, ptr_nil, ctxPtr_nil, ctxPtr_cons, addr_L, addr_R]
      at hrep hctx
    simp only [addrs_node, addrs_nil, ctxAddrs_nil, ctxAddrs_cons, addr_L, addr_R, sib_L, sib_R,
      List.nodup_append, List.nodup_cons, List.mem_append, List.mem_cons,
      List.disjoint_cons_left, List.disjoint_cons_right, List.disjoint_append_left,
      List.disjoint_append_right, not_or, List.append_assoc, List.cons_append,
      List.nil_append, List.append_nil, List.not_mem_nil, not_false_eq_true, true_and,
      and_true, List.nodup_nil, List.disjoint_nil_left, List.disjoint_nil_right] at hnd
    have e1 := hrep.1
    have e2 := hctx.1
    have e3 := hctx.2.2.1
    have e4 := isRedNode_ptr hctx.2.2.2.1
    have hzs : ¬ some z' = s.ptr := fun h => (some_ne_ptr (by tauto)).1 h
    have hps : ¬ some p = u.ptr := fun h => (some_ne_ptr (by tauto)).1 h
    simp only [fixTreeStepLog, hne, if_false]
    simp only [e1, e2, Option.bind_some, Option.some_bind, ne_eq, not_true_eq_false, if_false]
    simp only [e3, Option.bind_some, Option.some_bind, if_true, if_false, hps, hzs]
    simp only [e4, hu, decide_False, Option.bind_some, Option.some_bind, Bool.false_eq_true,
      if_false, and_self, and_true, true_and, and_false, false_and, if_true] )
  · -- left-left
    obtain ⟨t1, h1, hM1, hK1⟩ := rightRotate_spec tree _ p .RED pd s g gc gd u rest
      (by simpa only [plug, Frame.fill] using hM') hag2
    obtain ⟨m2, h2, hM2, hK2⟩ := swapColors_right t1 _ p .RED pd s g gc gd u rest hM1
    simp only [h1, h2, Option.bind_some, Option.some_bind]
    refine ⟨_, _, rfl, hM2, ⟨hK2.trans hK1.1, hK1.2⟩, by simp, ?_⟩
    simp only [List.mem_singleton, forall_eq]
    exact hasChild_right e3 rfl
  · -- right-left: the parent is the right child, the new node its left child
    obtain ⟨t1, h1, hM1, hK1⟩ := rightRotate_spec tree zl z' zc zd zr p .RED pd s
      (.R u g gc gd :: rest) hM' hag1
    obtain ⟨t2, h2, hM2, hK2⟩ := leftRotate_spec t1 u g gc gd zl z' zc zd
      (.node zr p .RED pd s) rest (by simpa only [plug, Frame.fill] using hM1)
      (by rw [hK1.2.1]; exact hag2)
    obtain ⟨m3, h3, hM3, hK3⟩ := swapColors_left t2 _ z' zc zd u g gc gd zl rest hM2
    simp only [h1, h2, h3, Option.bind_some, Option.some_bind]
    refine ⟨_, _, rfl, hM3, ⟨hK3.trans (hK2.1.trans hK1.1), hK2.2.1.trans hK1.2.1,
      hK2.2.2.1.trans hK1.2.2.1, hK2.2.2.2.trans hK1.2.2.2⟩, by simp, ?_⟩
    simp only [List.mem_cons, List.mem_singleton, forall_eq_or_imp, forall_eq,
      List.not_mem_nil, false_implies, implies_true, and_true]
    have r1 : readNode t1.nodes (some g) = _ :=
      models_read (by simpa only [plug, Frame.fill] using hM1)
    exact ⟨hasChild_right e2 rfl, hasChild_left r1 rfl⟩
  · -- left-right
    obtain ⟨t1, h1, hM1, hK1⟩ := leftRotate_spec tree s p .RED pd zl z' zc zd zr
      (.L g gc gd u :: rest) hM' hag1
    obtain ⟨t2, h2, hM2, hK2⟩ := rightRotate_spec t1 (.node s p .RED pd zl) z' zc zd zr
      g gc gd u rest (by simpa only [plug, Frame.fill] using hM1)
      (by rw [hK1.2.1]; exact hag2)
    obtain ⟨m3, h3, hM3, hK3⟩ := swapColors_right t2 _ z' zc zd zr g gc gd u rest hM2
    simp only [h1, h2, h3, Option.bind_some, Option.some_bind]
    refine ⟨_, _, rfl, hM3, ⟨hK3.trans (hK2.1.trans hK1.1), hK2.2.1.trans hK1.2.1,
      hK2.2.2.1.trans hK1.2.2.1, hK2.2.2.2.trans hK1.2.2.2⟩, by simp, ?_⟩
    simp only [List.mem_cons, List.mem_singleton, forall_eq_or_imp, forall_eq,
      List.not_mem_nil, false_implies, implies_true, and_true]
    have r1 : readNode t1.nodes (some g) = _ :=
      models_read (by simpa only [plug, Frame.fill] using hM1)
    exact ⟨hasChild_left e2 rfl, hasChild_right r1 rfl⟩
  · -- right-right
    obtain ⟨t1, h1, hM1, hK1⟩ := leftRotate_spec tree u g gc gd s p .RED pd _ rest
      (by simpa only [plug, Frame.fill] using hM') hag2
    obtain ⟨m2, h2, hM2, hK2⟩ := swapColors_left t1 _ p .RED pd u g gc gd s rest hM1
    simp only [h1, h2, Option.bind_some, Option.some_bind]
    refine ⟨_, _, rfl, hM2, ⟨hK2.trans hK1.1, hK1.2⟩, by simp, ?_⟩
    simp only [List.mem_singleton, forall_eq]
    exact hasChild_left e3 rfl

theorem nodeDepth_ctx {m : List (Node α)} : ∀ (ctx : List (Frame α)) (p : Ptr),
    RepCtx m ctx p → ∀ (f : Frame α) (rest : List (Frame α)), ctx = f :: rest →
    ∀ fuel, rest.length < fuel → nodeDepth m fuel (some f.addr) = some rest.length := by
  intro ctx
  induction ctx with
  | nil => intro p _ f rest h; cases h
  | cons g ctx ih =>
    intro p h f rest e fuel hf
    simp only [List.cons.injEq] at e
    obtain ⟨rfl, rfl⟩ := e
    obtain ⟨fuel, rfl⟩ : ∃ k, fuel = k + 1 := ⟨fuel - 1, by omega⟩
    have hr : ∃ n, readNode m (some g.addr) = some n ∧ n.parent = ctxPtr ctx ∧
        RepCtx m ctx (some g.addr) := by
      cases g with
      | L a c d r => exact ⟨_, h.1, rfl, h.2.2⟩
      | R l a c d => exact ⟨_, h.1, rfl, h.2.2⟩
    obtain ⟨n, e1, e2, e3⟩ := hr
    simp only [nodeDepth, e1, Option.some_bind, e2]
    cases ctx with
    | nil => rfl
    | cons g' ctx' =>
      simp only [ctxPtr_cons]
      rw [ih (some g.addr) e3 g' ctx' rfl fuel (by simp at hf; omega)]
      simp

theorem nodeDepth_plug {tree : RBTree α φ} {Z : Tree α} {z : Nat} {ctx : List (Frame α)}
    (hM : Models tree (plug Z ctx)) (hz : Z.ptr = some z) (fuel : Nat)
    (hf : ctx.length < fuel) : nodeDepth tree.nodes fuel (some z) = some ctx.length := by
  obtain ⟨-, ⟨hrep, hctx⟩, -⟩ := (models_plug_iff _ _ _).1 hM
  obtain ⟨fuel, rfl⟩ : ∃ k, fuel = k + 1 := ⟨fuel - 1, by omega⟩
  obtain ⟨n, e1, e2⟩ := rep_child hrep hz
  simp only [nodeDepth, e1, Option.some_bind, e2]
  cases ctx with
  | nil => rfl
  | cons f rest =>
    simp only [ctxPtr_cons]
    rw [nodeDepth_ctx (f :: rest) _ hctx f rest rfl fuel (by simp at hf; omega)]
    simp

theorem fixTreeStepLog_root (tree : RBTree α φ) (Z : Tree α) (z : Nat) (hz : Z.ptr = some z)
    (hM : Models tree (plug Z [])) :
    fixTreeStepLog tree (some z) = some (.done tree, none) := by
  have h := hM.root
  simp only [plug, hz] at h
  simp [fixTreeStepLog, h]

theorem fixTreeStepLog_black (tree : RBTree α φ) (Z : Tree α) (z : Nat) (hz : Z.ptr = some z)
    (f : Frame α) (ctx : List (Frame α)) (hM : Models tree (plug Z (f :: ctx)))
    (hc : f.color = Color.BLACK) :
    fixTreeStepLog tree (some z) = some (.done tree, none) := by
  obtain ⟨root, cmp, fr, sz, m⟩ := tree
  rw [models_plug_iff] at hM
  obtain ⟨hroot, ⟨hrep, hctx⟩, hnd⟩ := hM
  dsimp only at hroot hrep hctx
  rcases Z with _ | ⟨zl, z', zc, zd, zr⟩
  · cases hz
  simp only [ptr_node, Option.some.injEq] at hz
  subst hz
  have hne : ¬ some z' = root := by
    rw [hroot]
    refine ptr_plug_ne ?_
    simp only [addrs_node, List.nodup_append, List.nodup_cons, List.mem_append, List.mem_cons,
      List.disjoint_cons_left, List.disjoint_cons_right, List.disjoint_append_left,
      List.disjoint_append_right, not_or, List.append_assoc, List.cons_append] at hnd
    tauto
  rcases f with ⟨p, pc, pd, s⟩ | ⟨s, p, pc, pd⟩ <;>
  ( simp only [Rep, RepCtx, ptr_node, ctxPtr_cons, addr_L, addr_R] at hrep hctx
    simp only [Frame.color] at hc
    subst hc
    simp [fixTreeStepLog, hne, hrep.1, hctx.1] )

theorem fixTreeStepLog_of_step {tree : RBTree α φ} {z : Ptr} {r : LoopStep α φ}
    (h : fixTreeStep tree z = some r) : ∃ lg, fixTreeStepLog tree z = some (r, lg) := by
  rw [← fixTreeStepLog_fst] at h
  obtain ⟨⟨r', lg⟩, e1, e2⟩ := Option.map_eq_some'.1 h
  exact ⟨lg, by rw [e1]; simp only [] at e2; rw [e2]⟩

theorem fixTreeLoopLog_spec (n : Nat) : ∀ (ctx : List (Frame α)), ctx.length ≤ n →
    ∀ (tree : RBTree α φ) (Z : Tree α) (z : Nat), Z.ptr = some z →
      Models tree (plug Z ctx) → Oriented tree.compFunc ctx → RootBlack ctx →
      ∀ fuel, ctx.length < fuel →
      ∃ t' log, fixTreeLoopLog fuel tree (some z) = some (t', log) ∧
        Models t' (fixP Z ctx) ∧ Kept tree t' ∧ 2 * log.length ≤ ctx.length ∧
        ∀ it ∈ log, RoundOn ctx.length it := by
  induction n using Nat.strong_induction_on with
  | _ n ih =>
    intro ctx hn tree Z z hz hM hor hrb fuel hfuel
    obtain ⟨fuel, rfl⟩ : ∃ k, fuel = k + 1 := ⟨fuel - 1, by omega⟩
    match ctx, hn, hM, hor, hrb, hfuel with
    | [], _, hM, _, _, _ =>
      refine ⟨tree, [], ?_, by simpa [fixP, plug] using hM, Kept.refl _, by simp, by simp⟩
      simp [fixTreeLoopLog, fixTreeStepLog_root tree Z z hz hM]
    | [f], _, hM, _, hrb, _ =>
      have hc : f.color = Color.BLACK := hrb f (by simp)
      refine ⟨tree, [], ?_, by simpa [fixP] using hM, Kept.refl _, by simp, by simp⟩
      simp [fixTreeLoopLog, fixTreeStepLog_black tree Z z hz f [] hM hc]
    | f1 :: f2 :: rest, hn, hM, hor, hrb, hfuel =>
      have hdep := nodeDepth_plug hM hz (depthBound tree.nodes) (ctx_length_lt hM)
      rcases color_cases f1.color with h1 | h1
      · by_cases hu : f2.sib.color = Color.RED
        · obtain ⟨t', hs, hM', hK⟩ := fixTreeStep_recolor tree Z z hz f1 f2 rest hM h1 hu
          obtain ⟨lg, hs'⟩ := fixTreeStepLog_of_step hs
          obtain ⟨it, rfl⟩ : ∃ it, lg = some it := by
            cases lg with
            | none => exact absurd (fixTreeStepLog_exit hs') (by simp)
            | some it => exact ⟨it, rfl⟩
          obtain ⟨e1, e2, e3, -, -, -, -, k2⟩ := fixTreeStepLog_round hs'
          have hlen : rest.length < n := by simp at hn; omega
          obtain ⟨t'', log, hl, hM'', hK', hb, hr⟩ := ih rest.length hlen rest le_rfl t' _
            f2.addr (ptr_recolorP Z f1 f2) hM'
            (by rw [hK.2.1]; exact oriented_tail (oriented_tail hor))
            (rootBlack_tail2 hrb) fuel (by simp at hfuel; omega)
          refine ⟨t'', it :: log, ?_, ?_, ?_, ?_, ?_⟩
          · simp [fixTreeLoopLog, hs', hl]
          · simpa [fixP, h1, hu] using hM''
          · exact ⟨hK'.1.trans hK.1, hK'.2.1.trans hK.2.1, hK'.2.2.1.trans hK.2.2.1,
              hK'.2.2.2.trans hK.2.2.2⟩
          · simp only [List.length_cons]; omega
          · intro x hx
            rcases List.mem_cons.1 hx with rfl | hx
            · have hur : x.uncleRed = true := by
                by_contra hne
                obtain ⟨t1, ht1⟩ := k2 (by simpa using hne)
                cases ht1
              unfold RoundOn
              refine ⟨?_, fun h => absurd (hur.symm.trans h) (by simp), rest.length, ?_, ?_, ?_⟩
              · obtain ⟨-, -, -, -, -, -, k1, -⟩ := fixTreeStepLog_round hs'
                rw [(k1 hur).1]
                simp
              · rw [e1, e2, hdep]; rfl
              · simp
              · intro t1 z1 hres
                rw [e3] at hres
                simp only [LoopStep.next.injEq] at hres
                obtain ⟨rfl, rfl⟩ := hres
                exact nodeDepth_plug hM' (ptr_recolorP Z f1 f2) _ (ctx_length_lt hM')
            · have hrx := hr x hx
              unfold RoundOn at hrx ⊢
              obtain ⟨a1, a2, k, a3, a4, a5⟩ := hrx
              exact ⟨a1, a2, k, a3, by simp only [List.length_cons]; omega, a5⟩
        · obtain ⟨t', it, hs, hM', hK, hcalls, hch⟩ :=
            fixTreeStepLog_rotate tree Z z hz f1 f2 rest hM h1 hu hor
          obtain ⟨e1, e2, e3, -⟩ := fixTreeStepLog_round hs
          refine ⟨t', [it], ?_, ?_, hK, by simp, ?_⟩
          · simp [fixTreeLoopLog, hs]
          · simpa [fixP, h1, hu] using hM'
          · intro x hx
            rw [List.mem_singleton.1 hx]
            unfold RoundOn
            refine ⟨hch, fun _ => hcalls, rest.length, ?_, by simp, ?_⟩
            · rw [e1, e2, hdep]; rfl
            · intro t1 z1 hres
              rw [e3] at hres
              cases hres
      · refine ⟨tree, [], ?_, ?_, Kept.refl _, by simp, by simp⟩
        · simp [fixTreeLoopLog, fixTreeStepLog_black tree Z z hz f1 (f2 :: rest) hM h1]
        · simpa [fixP, h1] using hM

theorem fixTreeLog_spec (tree : RBTree α φ) (Z : Tree α) (z : Nat) (hz : Z.ptr = some z)
    (ctx : List (Frame α)) (hM : Models tree (plug Z ctx))
    (hor : Oriented tree.compFunc ctx) (hrb : RootBlack ctx) :
    ∃ t' t1 log, fixTreeLog tree (some z) = some (t', log) ∧
      fixTreeLoopLog (depthBound tree.nodes) tree (some z) = some (t1, log) ∧
      Models t' (fixP Z ctx).blacken ∧ Kept tree t' ∧ 2 * log.length ≤ ctx.length ∧
      ∀ it ∈ log, RoundOn ctx.length it := by
  obtain ⟨t1, log, h1, hM1, hK1, hb, hr⟩ := fixTreeLoopLog_spec ctx.length ctx le_rfl tree Z z
    hz hM hor hrb (depthBound tree.nodes) (ctx_length_lt hM)
  have hne : (fixP Z ctx).ptr ≠ none := by
    have h := toList_fixP' Z ctx
    intro hp
    cases hfx : fixP Z ctx with
    | nil =>
      rw [hfx] at h
      cases Z with
      | nil => cases hz
      | node l a c d r => simp at h
    | node l a c d r => rw [hfx] at hp; cases hp
  obtain ⟨m, h2, hM2, hl2⟩ := blacken_spec t1 _ hne hM1
  refine ⟨_, t1, log, ?_, h1, hM2, ⟨hl2.trans hK1.1, hK1.2.1, hK1.2.2.1, hK1.2.2.2⟩, hb, hr⟩
  simp only [fixTreeLog, h1, h2, Option.bind_some, Option.some_bind]

theorem addToRBTreeLog_spec (tree : RBTree α φ) (T : Tree α) (hM : Models tree T)
    (hlaw : StrictTotalOrder tree.compFunc) (hbst : BST tree.compFunc T)
    (hblk : T.color = Color.BLACK) (d : α)
    (hnew : ¬ ∃ x ∈ T.datas, tree.compFunc x d = 0) (hne : T.ptr ≠ none) :
    ∃ t' log pa t1 depth,
      addToRBTreeLog (some tree) (some d) = some ((1, some t'), some log) ∧
      log.parent = some pa ∧ readNode tree.nodes (some pa) = some log.parentNode ∧
      (if log.toRight then log.parentNode.right else log.parentNode.left) = none ∧
      nodeDepth log.linked.nodes (depthBound log.linked.nodes) (some tree.nodes.length) =
        some depth ∧
      fixTreeLoopLog (depthBound log.linked.nodes) log.linked (some tree.nodes.length) =
        some (t1, log.rounds) ∧
      2 * log.rounds.length ≤ depth ∧ ∀ it ∈ log.rounds, RoundOn depth it := by
  obtain ⟨r, hc, hr01, hr⟩ := containsRBTree_spec tree T hM d
  have hr0 : r = 0 := by
    by_contra h
    exact hnew (hr.1 h)
  subst hr0
  have hlen : (tree.nodes ++ [(⟨none, none, none, .RED, some d⟩ : Node α)]).length =
      tree.nodes.length + 1 := by simp
  have hfresh := readNode_append_length tree.nodes (⟨none, none, none, .RED, some d⟩ : Node α)
  rcases T with _ | ⟨l, a, c, x, r⟩
  · exact absurd rfl hne
  have hroot : tree.root = some a := hM.root
  obtain ⟨f, rest, hctx⟩ : ∃ f rest, zoomP tree.compFunc d (.node l a c x r) [] = f :: rest := by
    cases h : zoomP tree.compFunc d (.node l a c x r) [] with
    | nil => exact absurd h (zoomP_ne_nil _ _ _ _ _ _ _)
    | cons f rest => exact ⟨f, rest, rfl⟩
  have hplug : plug .nil (f :: rest) = .node l a c x r := by
    rw [← hctx]; exact plug_zoomP _ _ _ []
  have hroute : f.Routes tree.compFunc d := by
    rcases zoomP_routes tree.compFunc d (.node l a c x r) [] f (by rw [hctx]; simp) with h | h
    · simp at h
    · exact h
  have hM0 : Rep (tree.nodes ++ [(⟨none, none, none, .RED, some d⟩ : Node α)])
      (.node l a c x r) none := rep_append _ hM.rep
  have hfp := findPlace_spec (tree.nodes ++ [(⟨none, none, none, .RED, some d⟩ : Node α)])
    tree.compFunc d (.node l a c x r) [] hM0
    (depthBound (tree.nodes ++ [(⟨none, none, none, .RED, some d⟩ : Node α)]))
    (by have := height_lt_depthBound hM; simp only [depthBound, hlen] at this ⊢; omega)
  rw [hctx] at hfp
  simp only [ptr_node, ctxPtr_nil, ctxPtr_cons] at hfp
  have hor : Oriented tree.compFunc (f :: rest) :=
    (oriented_of_bst tree.compFunc (f :: rest) .nil (by rw [hplug]; exact hbst)).2
  have hrb : RootBlack (f :: rest) :=
    rootBlack_of_color (t := .nil) (fun _ => by rw [hplug]; exact hblk)
  have hMz : Models tree (plug .nil (f :: rest)) := by rw [hplug]; exact hM
  have hctx0 : RepCtx (tree.nodes ++ [(⟨none, none, none, .RED, some d⟩ : Node α)])
      (f :: rest) none := by
    have := hM0
    rw [← hplug, rep_plug] at this
    exact this.2
  have hsame : ∀ y, y < tree.nodes.length →
      readNode (tree.nodes ++ [(⟨none, none, none, .RED, some d⟩ : Node α)]) (some y) =
        readNode tree.nodes (some y) := fun y hy => readNode_append_lt _ _ hy
  have hfl : f.addr < tree.nodes.length :=
    rep_addr_lt hMz.rep _ ((perm_addrs_plug .nil (f :: rest)).mem_iff.2 (by simp))
  have hfne : ¬ f.addr = tree.nodes.length := by omega
  rcases f with ⟨fa, fc, fx, fr⟩ | ⟨fl, fa, fc, fx⟩
  · have hM2 := attach_L tree fa fc fx fr rest d hMz _ hlen hsame
    simp only [Frame.Routes] at hroute
    have hcmp : ¬ tree.compFunc d fx > 0 := fun h => hroute ((hlaw.antisymm fx d).2 h)
    obtain ⟨t1, t0, log, h1, h0, hM1, hK, hb, hrd⟩ := fixTreeLog_spec _
      (.node .nil tree.nodes.length .RED d .nil) tree.nodes.length rfl
      (.L fa fc fx fr :: rest) hM2 hor hrb
    have hdep := nodeDepth_plug hM2 (Z := .node .nil tree.nodes.length .RED d .nil) rfl
      (depthBound _) (ctx_length_lt hM2)
    simp only [RepCtx, ctxPtr_cons, addr_L] at hctx0 hfl hfne
    simp only [hroot] at h1
    have key : addToRBTreeLog (some tree) (some d) =
        some ((1, some { t1 with size := t1.size + 1 }),
          some ⟨some fa, ⟨ctxPtr rest, none, fr.ptr, fc, some fx⟩, false,
            { tree with nodes := (List.set (List.set
                (tree.nodes ++ [(⟨none, none, none, .RED, some d⟩ : Node α)])
                tree.nodes.length (⟨some fa, none, none, .RED, some d⟩ : Node α)) fa
                (⟨ctxPtr rest, some tree.nodes.length, fr.ptr, fc, some fx⟩ : Node α)) },
            log⟩) := by
      simp (disch := omega) only [addToRBTreeLog, hc, Option.some_bind, ne_eq,
        not_true_eq_false, if_false, hroot, reduceCtorEq, hfp, writeNode_some, hfresh,
        Option.map_some', readNode_set, hlen, if_pos, if_neg, and_self, eq_self_iff_true,
        hctx0.1, compareData, hcmp, addr_L, h1, List.length_set, decide_False]
    refine ⟨_, _, fa, t0, _, key, rfl, ?_, rfl, hdep, h0, hb, hrd⟩
    rw [← hsame fa hfl]
    exact hctx0.1
  · have hM2 := attach_R tree fl fa fc fx rest d hMz _ hlen hsame
    simp only [Frame.Routes] at hroute
    have hcmp : tree.compFunc d fx > 0 := (hlaw.antisymm fx d).1 hroute
    obtain ⟨t1, t0, log, h1, h0, hM1, hK, hb, hrd⟩ := fixTreeLog_spec _
      (.node .nil tree.nodes.length .RED d .nil) tree.nodes.length rfl
      (.R fl fa fc fx :: rest) hM2 hor hrb
    have hdep := nodeDepth_plug hM2 (Z := .node .nil tree.nodes.length .RED d .nil) rfl
      (depthBound _) (ctx_length_lt hM2)
    simp only [RepCtx, ctxPtr_cons, addr_R] at hctx0 hfl hfne
    simp only [hroot] at h1
    have key : addToRBTreeLog (some tree) (some d) =
        some ((1, some { t1 with size := t1.size + 1 }),
          some ⟨some fa, ⟨ctxPtr rest, fl.ptr, none, fc, some fx⟩, true,
            { tree with nodes := (List.set (List.set
                (tree.nodes ++ [(⟨none, none, none, .RED, some d⟩ : Node α)])
                tree.nodes.length (⟨some fa, none, none, .RED, some d⟩ : Node α)) fa
                (⟨ctxPtr rest, fl.ptr, some tree.nodes.length, fc, some fx⟩ : Node α)) },
            log⟩) := by
      simp (disch := omega) only [addToRBTreeLog, hc, Option.some_bind, ne_eq,
        not_true_eq_false, if_false, hroot, reduceCtorEq, hfp, writeNode_some, hfresh,
        Option.map_some', readNode_set, hlen, if_pos, if_neg, and_self, eq_self_iff_true,
        hctx0.1, compareData, hcmp, addr_R, h1, List.length_set, if_true, decide_True]
    refine ⟨_, _, fa, t0, _, key, rfl, ?_, rfl, hdep, h0, hb, hrd⟩
    rw [← hsame fa hfl]
    exact hctx0.1

theorem addToRBTreeLog_rounds {tree : Option (RBTree α φ)} {data : Option α}
    {r : Int × Option (RBTree α φ)} {log : AddLog α φ}
    (h : addToRBTreeLog tree data = some (r, some log)) :
    ∃ z t1, fixTreeLoopLog (depthBound log.linked.nodes) log.linked z =
      some (t1, log.rounds) := by
  unfold addToRBTreeLog at h
  cases tree with
  | none => simp at h
  | some t =>
    cases data with
    | none => simp at h
    | some d =>
      dsimp only at h
      obtain ⟨c, -, h⟩ := Option.bind_eq_some.1 h
      by_cases hc : c ≠ 0
      · rw [if_pos hc] at h; simp at h
      rw [if_neg hc] at h
      by_cases hroot : t.root = none
      · rw [if_pos hroot] at h
        simp only [Option.bind_eq_some, Option.some.injEq, Prod.mk.injEq, reduceCtorEq,
          and_false, exists_false, exists_const] at h
      rw [if_neg hroot] at h
      obtain ⟨parent, -, h⟩ := Option.bind_eq_some.1 h
      obtain ⟨m1, -, h⟩ := Option.bind_eq_some.1 h
      obtain ⟨np, -, h⟩ := Option.bind_eq_some.1 h
      obtain ⟨ord, -, h⟩ := Option.bind_eq_some.1 h
      obtain ⟨m2, -, h⟩ := Option.bind_eq_some.1 h
      obtain ⟨res, hfix, h⟩ := Option.bind_eq_some.1 h
      simp only [Option.some.injEq, Prod.mk.injEq] at h
      obtain ⟨-, rfl⟩ := h
      unfold fixTreeLog at hfix
      obtain ⟨r1, hloop, hfix⟩ := Option.bind_eq_some.1 hfix
      obtain ⟨m, -, hfix⟩ := Option.bind_eq_some.1 hfix
      simp only [Option.some.injEq] at hfix
      rw [← hfix]
      exact ⟨_, r1.1, hloop⟩

theorem addToRBTreeLog_valid (tree : RBTree α φ) (T : Tree α) (hV : Valid tree T)
    (hlaw : StrictTotalOrder tree.compFunc) (p : Option α) :
    ∃ r lg, addToRBTreeLog (some tree) p = some (r, lg) ∧ addToRBTree (some tree) p = some r ∧
      ∀ log ∈ lg, ∃ pa t1 depth,
        log.parent = some pa ∧ readNode tree.nodes (some pa) = some log.parentNode ∧
        (if log.toRight then log.parentNode.right else log.parentNode.left) = none ∧
        nodeDepth log.linked.nodes (depthBound log.linked.nodes) (some tree.nodes.length) =
          some depth ∧
        fixTreeLoopLog (depthBound log.linked.nodes) log.linked (some tree.nodes.length) =
          some (t1, log.rounds) ∧
        2 * log.rounds.length ≤ depth ∧ ∀ it ∈ log.rounds, RoundOn depth it := by
  have hfst := addToRBTreeLog_fst (some tree) p
  rcases p with _ | d
  · exact ⟨_, none, rfl, rfl, by simp⟩
  by_cases hd : ∃ x ∈ T.datas, tree.compFunc x d = 0
  · obtain ⟨r, hc, hr01, hr⟩ := containsRBTree_spec tree T hV.models d
    have h1 : r ≠ 0 := hr.2 hd
    refine ⟨(0, some tree), none, by simp [addToRBTreeLog, hc, h1],
      by simp [addToRBTree, hc, h1], by simp⟩
  by_cases hne : T.ptr = none
  · obtain ⟨r, hc, hr01, hr⟩ := containsRBTree_spec tree T hV.models d
    have hr0 : r = 0 := by
      by_contra h
      exact hd (hr.1 h)
    subst hr0
    have hroot : tree.root = none := hV.models.root.trans hne
    obtain ⟨x, hx⟩ : ∃ x, addToRBTreeLog (some tree) (some d) = some (x, none) := by
      have hlen : (tree.nodes ++ [(⟨none, none, none, .RED, some d⟩ : Node α)]).length =
          tree.nodes.length + 1 := by simp
      have hfresh := readNode_append_length tree.nodes
        (⟨none, none, none, .RED, some d⟩ : Node α)
      simp (disch := omega) only [addToRBTreeLog, hc, Option.some_bind, ne_eq,
        not_true_eq_false, if_false, hroot, if_true, writeNode_some, hfresh,
        Option.map_some', readNode_set, hlen, if_pos, Option.some.injEq, Prod.mk.injEq,
        and_true, exists_eq', and_self, eq_self_iff_true, true_and, List.length_set]
    rw [hx] at hfst
    exact ⟨x, none, hx, hfst.symm, by simp⟩
  · obtain ⟨t', log, pa, t1, depth, h1, h2⟩ := addToRBTreeLog_spec tree T hV.models hlaw
      hV.bst hV.rootBlack d hd hne
    rw [h1] at hfst
    refine ⟨_, some log, h1, hfst.symm, ?_⟩
    intro log' hl
    simp only [Option.mem_def, Option.some.injEq] at hl
    subst hl
    exact ⟨pa, t1, depth, h2⟩

/-! ## The claims on the fix-up loop -/

/-- C33: for a strict-total-order comparator, every sequence `xs` of payloads inserted with
`addToRBTree` into a tree created by `newRBTree`, and every payload `p` (`NULL`, already
stored or new), the call `addToRBTree(tree, p)` returns, and the rotations it calls are those
of the rounds of the `fixTree` loop recorded for it (none at all when `fixTree` is not
called): at most two rotation calls in all; a round with a RED uncle calls no rotation,
leaves the root link and every parent, left and right link and payload of the store as they
were (it writes colours only) and goes on with the grandparent; a round with a BLACK uncle
leaves the loop, so no round follows a round that calls a rotation. -/
theorem C33_at_most_two_rotations_and_none_when_uncle_is_red (cmp : α → α → Int) (free : φ)
    (xs : List α) (hlaw : StrictTotalOrder cmp) (p : Option α) :
    ∃ t0 rs tree r lg, newRBTree (some cmp) (some free) = some t0 ∧
      runAdds t0 (xs.map some) = some (rs, tree) ∧
      addToRBTreeLog (some tree) p = some (r, lg) ∧ addToRBTree (some tree) p = some r ∧
      ∀ log ∈ lg, (rotateCalls log.rounds).length ≤ 2 ∧
        (∀ it ∈ log.rounds, it.calls.length ≤ 2 ∧
          (it.uncleRed = true → it.calls = [] ∧ ∃ t1, it.result = .next t1 it.gradParent ∧
            t1.root = it.tree.root ∧
            t1.nodes.map Node.links = it.tree.nodes.map Node.links) ∧
          (it.uncleRed = false → ∃ t1, it.result = .done t1)) ∧
        (∀ pre it post, log.rounds = pre ++ it :: post → it.uncleRed = false → post = []) ∧
        (∀ pre it post, log.rounds = pre ++ it :: post → it.calls ≠ [] → post = []) := by
  obtain ⟨hV0, hc0⟩ := valid_new cmp free _ rfl
  obtain ⟨rs, tree, T, h1, h2, h3, -⟩ :=
    runAdds_spec (xs.map some) _ .nil hV0 (by rw [hc0]; exact hlaw)
  obtain ⟨r, lg, g1, g2, -⟩ := addToRBTreeLog_valid tree T h2 (by rw [h3, hc0]; exact hlaw) p
  refine ⟨_, rs, tree, r, lg, rfl, h1, g1, g2, ?_⟩
  intro log hl
  simp only [Option.mem_def] at hl
  subst hl
  obtain ⟨z, t1, hloop⟩ := addToRBTreeLog_rounds g1
  obtain ⟨k1, -, k3⟩ := fixTreeLoopLog_rounds _ _ _ _ _ hloop
  refine ⟨rounds_rotateCalls _ k1 k3, ?_, ?_, ?_⟩
  · intro it hit
    obtain ⟨e1, -, e3, -, -, e6, e7, e8⟩ := fixTreeStepLog_round (k1 it hit)
    refine ⟨e6, ?_, e8⟩
    intro hu
    obtain ⟨a1, t2, a2, a3, a4⟩ := e7 hu
    exact ⟨a1, t2, a2, a3, a4⟩
  · intro pre it post e hu
    by_contra hp
    have := (rounds_followed k1 k3 pre it post e hp).1
    rw [hu] at this
    cases this
  · intro pre it post e hc
    by_contra hp
    exact hc (rounds_followed k1 k3 pre it post e hp).2

/-- Witness of C33: the integers 10, 20, 30, 40 inserted, then the call for 35, which makes
two rotations. -/
theorem C33_at_most_two_rotations_and_none_when_uncle_is_red_witness :
    StrictTotalOrder numCompare ∧
    ∃ t0 rs tree r lg, newRBTree (some numCompare) (some ()) = some t0 ∧
      runAdds t0 (([10, 20, 30, 40] : List Int).map some) = some (rs, tree) ∧
      addToRBTreeLog (some tree) (some 35) = some (r, lg) ∧
      addToRBTree (some tree) (some 35) = some r ∧
      ∀ log ∈ lg, (rotateCalls log.rounds).length ≤ 2 ∧
        (∀ it ∈ log.rounds, it.calls.length ≤ 2 ∧
          (it.uncleRed = true → it.calls = [] ∧ ∃ t1, it.result = .next t1 it.gradParent ∧
            t1.root = it.tree.root ∧
            t1.nodes.map Node.links = it.tree.nodes.map Node.links) ∧
          (it.uncleRed = false → ∃ t1, it.result = .done t1)) ∧
        (∀ pre it post, log.rounds = pre ++ it :: post → it.uncleRed = false → post = []) ∧
        (∀ pre it post, log.rounds = pre ++ it :: post → it.calls ≠ [] → post = []) :=
  ⟨strictTotalOrder_numCompare,
    C33_at_most_two_rotations_and_none_when_uncle_is_red numCompare () [10, 20, 30, 40]
      strictTotalOrder_numCompare (some 35)⟩

/-- C37: for a strict-total-order comparator, payloads `xs` (not all of them absent: the
tree is not empty) inserted with `addToRBTree` into a tree created by `newRBTree`, and a
payload `d` that is not among them, the call `addToRBTree(tree, d)` returns 1 without
reading through an absent node (such a read is a run that does not return): `findPlace`
returns a node of the tree, and the child slot of it that receives the new node (the right
one when the comparator puts `d` above it, else the left one) is empty; in every round of
the `fixTree` loop whose body runs, the current node, its parent and its grandparent are
nodes of the store, the parent being RED; and the pivot of every rotation that `fixTree`
calls has the child the rotation needs, so no call is the no-op.  The call returns for every
other payload as well. -/
theorem C37_insertion_reads_no_absent_node (cmp : α → α → Int) (free : φ) (xs : List α)
    (hlaw : StrictTotalOrder cmp) (d : α) (hd : d ∉ xs) (hne : xs ≠ []) :
    ∃ t0 rs tree t' log pa, newRBTree (some cmp) (some free) = some t0 ∧
      runAdds t0 (xs.map some) = some (rs, tree) ∧
      addToRBTreeLog (some tree) (some d) = some ((1, some t'), some log) ∧
      addToRBTree (some tree) (some d) = some (1, some t') ∧
      log.parent = some pa ∧ readNode tree.nodes (some pa) = some log.parentNode ∧
      (if log.toRight then log.parentNode.right else log.parentNode.left) = none ∧
      (∀ it ∈ log.rounds,
        (∃ nz np ngp, readNode it.tree.nodes it.newNode = some nz ∧ it.parent = nz.parent ∧
          readNode it.tree.nodes it.parent = some np ∧ np.color = Color.RED ∧
          it.gradParent = np.parent ∧ readNode it.tree.nodes it.gradParent = some ngp) ∧
        (it.uncleRed = false → it.calls ≠ []) ∧ ∀ c ∈ it.calls, c.hasChild = true) ∧
      ∀ p : Option α, ∃ r, addToRBTree (some tree) p = some r := by
  obtain ⟨hV0, hc0⟩ := valid_new cmp free _ rfl
  obtain ⟨rs, tree, T, h1, h2, h3, -, h5, -⟩ :=
    runAdds_spec (xs.map some) _ .nil hV0 (by rw [hc0]; exact hlaw)
  have hlaw' : StrictTotalOrder tree.compFunc := by rw [h3, hc0]; exact hlaw
  have hmem : ∀ x, x ∈ T.datas ↔ x ∈ xs := by
    intro x
    rw [h5]
    simp
  have hnew : ¬ ∃ x ∈ T.datas, tree.compFunc x d = 0 := by
    rintro ⟨x, hx, h0⟩
    rw [(hlaw'.eq_zero x d).1 h0] at hx
    exact hd ((hmem d).1 hx)
  have hT : T.ptr ≠ none := by
    obtain ⟨x, hx⟩ := List.exists_mem_of_ne_nil xs hne
    have := (hmem x).2 hx
    intro hp
    cases T with
    | nil => simp at this
    | node l a c y r => cases hp
  obtain ⟨t', log, pa, t1, depth, g1, g2, g3, g4, -, g6, -, g8⟩ :=
    addToRBTreeLog_spec tree T h2.models hlaw' h2.bst h2.rootBlack d hnew hT
  have hfst := addToRBTreeLog_fst (some tree) (some d)
  rw [g1] at hfst
  obtain ⟨k1, -, -⟩ := fixTreeLoopLog_rounds _ _ _ _ _ g6
  refine ⟨_, rs, tree, t', log, pa, rfl, h1, g1, hfst.symm, g2, g3, g4, ?_, ?_⟩
  · intro it hit
    obtain ⟨e1, e2, -, -, ⟨nz, np, ngp, a1, a2, a3, a4, a5, a6⟩, -⟩ :=
      fixTreeStepLog_round (k1 it hit)
    have hr := g8 it hit
    unfold RoundOn at hr
    refine ⟨⟨nz, np, ngp, ?_, a2, ?_, a4, a5, ?_⟩, hr.2.1, hr.1⟩
    · rw [e1, e2]; exact a1
    · rw [e1]; exact a3
    · rw [e1]; exact a6
  · intro p
    obtain ⟨r, t'', hr, -⟩ := addToRBTree_returns tree T h2 hlaw' p
    exact ⟨_, hr⟩

/-- Witness of C37: the integers 10, 20, 30, 40 inserted, then the call for 35. -/
theorem C37_insertion_reads_no_absent_node_witness :
    StrictTotalOrder numCompare ∧ (35 : Int) ∉ ([10, 20, 30, 40] : List Int) ∧
    ([10, 20, 30, 40] : List Int) ≠ [] ∧
    ∃ t0 rs tree t' log pa, newRBTree (some numCompare) (some ()) = some t0 ∧
      runAdds t0 (([10, 20, 30, 40] : List Int).map some) = some (rs, tree) ∧
      addToRBTreeLog (some tree) (some 35) = some ((1, some t'), some log) ∧
      addToRBTree (some tree) (some 35) = some (1, some t') ∧
      log.parent = some pa ∧ readNode tree.nodes (some pa) = some log.parentNode ∧
      (if log.toRight then log.parentNode.right else log.parentNode.left) = none ∧
      (∀ it ∈ log.rounds,
        (∃ nz np ngp, readNode it.tree.nodes it.newNode = some nz ∧ it.parent = nz.parent ∧
          readNode it.tree.nodes it.parent = some np ∧ np.color = Color.RED ∧
          it.gradParent = np.parent ∧ readNode it.tree.nodes it.gradParent = some ngp) ∧
        (it.uncleRed = false → it.calls ≠ []) ∧ ∀ c ∈ it.calls, c.hasChild = true) ∧
      ∀ p : Option Int, ∃ r, addToRBTree (some tree) p = some r :=
  ⟨strictTotalOrder_numCompare, by decide, by decide,
    C37_insertion_reads_no_absent_node numCompare () [10, 20, 30, 40]
      strictTotalOrder_numCompare 35 (by decide) (by decide)⟩

/-- C32: for every tree structure holding a red-black tree `T` (not empty) under a
strict-total-order comparator and every payload `d` not in it, the loop of `fixTree`, entered
by `addToRBTree(tree, d)` with the new RED leaf, is left after finitely many rounds: with
`depth` the number of parent links from the new leaf to the root, the rounds whose body runs
number at most `depth / 2`, hence at most `depth / 2 + 1`; every round with a RED uncle goes
on with the grandparent, whose depth is that of the current node less two, and every round
with a BLACK uncle leaves the loop. -/
theorem C32_fixTree_loop_ends_within_half_the_depth (tree : RBTree α φ) (T : Tree α)
    (hV : Valid tree T) (hlaw : StrictTotalOrder tree.compFunc) (d : α) (hd : d ∉ T.datas)
    (hne : tree.root ≠ none) :
    ∃ r log t1 depth, addToRBTreeLog (some tree) (some d) = some (r, some log) ∧
      addToRBTree (some tree) (some d) = some r ∧
      fixTreeLoopLog (depthBound log.linked.nodes) log.linked (some tree.nodes.length) =
        some (t1, log.rounds) ∧
      fixTreeLoop (depthBound log.linked.nodes) log.linked (some tree.nodes.length) =
        some t1 ∧
      nodeDepth log.linked.nodes (depthBound log.linked.nodes) (some tree.nodes.length) =
        some depth ∧
      2 * log.rounds.length ≤ depth ∧ log.rounds.length ≤ depth / 2 + 1 ∧
      ∀ it ∈ log.rounds,
        (it.uncleRed = true → ∃ t2 k, it.result = .next t2 it.gradParent ∧
          nodeDepth it.tree.nodes (depthBound it.tree.nodes) it.newNode = some (k + 2) ∧
          nodeDepth t2.nodes (depthBound t2.nodes) it.gradParent = some k) ∧
        (it.uncleRed = false → ∃ t2, it.result = .done t2) := by
  have hnew : ¬ ∃ x ∈ T.datas, tree.compFunc x d = 0 := by
    rintro ⟨x, hx, h0⟩
    rw [(hlaw.eq_zero x d).1 h0] at hx
    exact hd hx
  have hT : T.ptr ≠ none := by rw [← hV.models.root]; exact hne
  obtain ⟨t', log, pa, t1, depth, g1, -, -, -, g5, g6, g7, g8⟩ :=
    addToRBTreeLog_spec tree T hV.models hlaw hV.bst hV.rootBlack d hnew hT
  have hfst := addToRBTreeLog_fst (some tree) (some d)
  rw [g1] at hfst
  have hloop := fixTreeLoopLog_fst (depthBound log.linked.nodes) log.linked
    (some tree.nodes.length)
  rw [g6] at hloop
  obtain ⟨k1, -, -⟩ := fixTreeLoopLog_rounds _ _ _ _ _ g6
  refine ⟨_, log, t1, depth, g1, hfst.symm, g6, hloop.symm, g5, g7, by omega, ?_⟩
  intro it hit
  obtain ⟨-, -, -, -, -, -, e7, e8⟩ := fixTreeStepLog_round (k1 it hit)
  refine ⟨?_, e8⟩
  intro hu
  obtain ⟨-, t2, a2, -⟩ := e7 hu
  have hr := g8 it hit
  unfold RoundOn at hr
  obtain ⟨-, -, k, b1, -, b3⟩ := hr
  exact ⟨t2, k, a2, b1, b3 t2 _ a2⟩

/-- Witness of C32: the tree of 10, 20, 30 (root 20 BLACK, children 10 and 30 RED) and the
payload 40: one round with a RED uncle, from depth 2. -/
theorem C32_fixTree_loop_ends_within_half_the_depth_witness :
    Valid (⟨some 1, numCompare, (), 3,
        [⟨some 1, none, none, .RED, some 10⟩, ⟨none, some 0, some 2, .BLACK, some 20⟩,
          ⟨some 1, none, none, .RED, some 30⟩]⟩ : RBTree Int Unit)
      (.node (.node .nil 0 .RED 10 .nil) 1 .BLACK 20 (.node .nil 2 .RED 30 .nil)) ∧
    StrictTotalOrder numCompare ∧
    (40 : Int) ∉ (Tree.node (.node .nil 0 .RED 10 .nil) 1 .BLACK 20
      (.node .nil 2 .RED 30 .nil)).datas ∧
    ∃ r log t1 depth, addToRBTreeLog (some (⟨some 1, numCompare, (), 3,
        [⟨some 1, none, none, .RED, some 10⟩, ⟨none, some 0, some 2, .BLACK, some 20⟩,
          ⟨some 1, none, none, .RED, some 30⟩]⟩ : RBTree Int Unit)) (some 40) =
        some (r, some log) ∧
      addToRBTree (some (⟨some 1, numCompare, (), 3,
        [⟨some 1, none, none, .RED, some 10⟩, ⟨none, some 0, some 2, .BLACK, some 20⟩,
          ⟨some 1, none, none, .RED, some 30⟩]⟩ : RBTree Int Unit)) (some 40) = some r ∧
      fixTreeLoopLog (depthBound log.linked.nodes) log.linked (some 3) =
        some (t1, log.rounds) ∧
      fixTreeLoop (depthBound log.linked.nodes) log.linked (some 3) = some t1 ∧
      nodeDepth log.linked.nodes (depthBound log.linked.nodes) (some 3) = some depth ∧
      2 * log.rounds.length ≤ depth ∧ log.rounds.length ≤ depth / 2 + 1 ∧
      ∀ it ∈ log.rounds,
        (it.uncleRed = true → ∃ t2 k, it.result = .next t2 it.gradParent ∧
          nodeDepth it.tree.nodes (depthBound it.tree.nodes) it.newNode = some (k + 2) ∧
          nodeDepth t2.nodes (depthBound t2.nodes) it.gradParent = some k) ∧
        (it.uncleRed = false → ∃ t2, it.result = .done t2) :=
  have hV : Valid (⟨some 1, numCompare, (), 3,
        [⟨some 1, none, none, .RED, some 10⟩, ⟨none, some 0, some 2, .BLACK, some 20⟩,
          ⟨some 1, none, none, .RED, some 30⟩]⟩ : RBTree Int Unit)
      (.node (.node .nil 0 .RED 10 .nil) 1 .BLACK 20 (.node .nil 2 .RED 30 .nil)) :=
    ⟨⟨rfl, ⟨rfl, ⟨rfl, trivial, trivial⟩, ⟨rfl, trivial, trivial⟩⟩, by decide⟩,
      by simp [BST, Tree.datas, Tree.toList, numCompare],
      by simp [NoRedRed, Tree.color], by simp [BlackBalanced, bh], rfl, rfl⟩
  ⟨hV, strictTotalOrder_numCompare, by decide,
    C32_fixTree_loop_ends_within_half_the_depth _ _ hV strictTotalOrder_numCompare 40
      (by decide) (by decide)⟩

end CEx3

namespace CModel

/-! ## Reads, writes and loops -/

theorem readAt_natCast {τ : Type} (arr : List τ) (n : Nat) : readAt arr (n : Int) = arr[n]? := by
  simp [readAt]

theorem writeAt_natCast {τ : Type} (arr : List τ) (n : Nat) (x : τ) :
    writeAt arr (n : Int) x = if n < arr.length then some (arr.set n x) else none := by
  simp [writeAt]

theorem foldlM_range_read {τ σ : Type} (f : τ → σ → Option σ) (arr : List τ) :
    ∀ (pre : List τ) (s : σ),
      (List.range arr.length).foldlM
          (fun s k => ((pre ++ arr)[pre.length + k]?).bind fun x => f x s) s =
        arr.foldlM (fun s x => f x s) s := by
  induction arr with
  | nil => intro pre s; rfl
  | cons x xs ih =>
    intro pre s
    rw [List.length_cons, List.range_succ_eq_map, List.foldlM_cons, List.foldlM_cons]
    have h0 : (pre ++ x :: xs)[pre.length + 0]? = some x := by
      rw [Nat.add_zero, List.getElem?_append_right (Nat.le_refl _)]; simp
    rw [h0, Option.some_bind]
    cases hx : f x s with
    | none => rfl
    | some s1 =>
      simp only [Option.bind_eq_bind, Option.some_bind, List.foldlM_map]
      have := ih (pre ++ [x]) s1
      simp only [List.append_assoc, List.singleton_append, List.length_append,
        List.length_singleton] at this
      rw [← this]
      congr 1
      funext s k
      simp only [Nat.succ_eq_add_one]
      rw [show pre.length + (k + 1) = pre.length + 1 + k by omega]

/-- The loop over all indices of an array that reads the element first is the fold over the
elements. -/
theorem forLoop_read {τ σ : Type} (f : τ → σ → Option σ) (arr : List τ) (n : Int)
    (hn : n = (arr.length : Int)) (s : σ) :
    forLoop 0 n (fun i s => (readAt arr i).bind fun x => f x s) s =
      arr.foldlM (fun s x => f x s) s := by
  subst hn
  have := foldlM_range_read f arr [] s
  simp only [List.nil_append, List.length_nil, Nat.zero_add] at this
  rw [← this]
  simp only [forLoop, Int.sub_zero, Int.toNat_ofNat, Int.zero_add, readAt_natCast]

theorem forLoop_done {σ : Type} (lo hi : Int) (h : hi ≤ lo) (body : Int → σ → Option σ)
    (s : σ) : forLoop lo hi body s = some s := by
  have : (hi - lo).toNat = 0 := by omega
  simp only [forLoop, this, List.range_zero, List.foldlM_nil]
  rfl

theorem forLoop_step {σ : Type} (lo hi : Int) (h : lo < hi) (body : Int → σ → Option σ)
    (s : σ) : forLoop lo hi body s = (body lo s).bind (forLoop (lo + 1) hi body) := by
  have : (hi - lo).toNat = (hi - (lo + 1)).toNat + 1 := by omega
  simp only [forLoop, this, List.range_succ_eq_map, List.foldlM_cons, List.foldlM_map,
    Nat.cast_zero, Int.add_zero, Option.bind_eq_bind]
  congr 1
  funext s1
  congr 1
  funext s2 k
  congr 1
  simp only [Nat.succ_eq_add_one, Nat.cast_add, Nat.cast_one]
  omega

theorem readAt_append_cons {τ : Type} (X : List τ) (x : τ) (Y : List τ) (i : Int)
    (h : (X.length : Int) = i) : readAt (X ++ x :: Y) i = some x := by
  subst h
  rw [readAt_natCast, List.getElem?_append_right (Nat.le_refl _)]
  simp

theorem writeAt_append_cons {τ : Type} (X : List τ) (x : τ) (Y : List τ) (i : Int)
    (h : (X.length : Int) = i) (y : τ) :
    writeAt (X ++ x :: Y) i y = some (X ++ y :: Y) := by
  subst h
  rw [writeAt_natCast, if_pos (by simp)]
  simp

end CModel

namespace CEx1

open CModel

/-! ## The merge of two sorted runs -/

theorem copyRest_spec (arr : List Student) : ∀ (R X Y : List Student)
    (P Q : List (Option Student)) (first last i : Int),
    arr = X ++ R ++ Y → (X.length : Int) = first → first + (R.length : Int) = last + 1 →
    (P.length : Int) = i → R.length ≤ Q.length →
    copyRest arr first last (i, P ++ Q) =
      some (i + (R.length : Int), P ++ R.map some ++ Q.drop R.length) := by
  unfold copyRest
  intro R
  induction R with
  | nil =>
    intro X Y P Q first last i _ _ h3 _ _
    rw [forLoop_done _ _ (by simp at h3; omega)]
    simp
  | cons x R ih =>
    intro X Y P Q first last i h1 h2 h3 h4 h5
    rcases Q with _ | ⟨q, Q⟩
    · simp at h5
    simp only [List.length_cons, Nat.cast_add, Nat.cast_one] at h3 h5
    rw [forLoop_step _ _ (by omega)]
    have hr : readAt arr first = some x := by
      rw [h1, List.append_assoc, List.cons_append]
      exact readAt_append_cons X x _ first h2
    simp only [hr, Option.some_bind, writeAt_append_cons P q Q i h4]
    have := ih (X ++ [x]) Y (P ++ [some x]) Q (first + 1) last (i + 1)
      (by rw [h1]; simp) (by simp; omega) (by omega) (by simp; omega) (by omega)
    simp only [List.append_assoc, List.singleton_append] at this
    rw [this]
    simp only [List.length_cons, Nat.cast_add, Nat.cast_one, List.map_cons, List.cons_append,
      List.drop_succ_cons, Option.some.injEq, Prod.mk.injEq, List.append_assoc, and_true]
    omega

theorem mergeWhile_spec (arr : List Student) (mid high : Int) : ∀ (fuel : Nat)
    (A B X1 Y1 X2 Y2 : List Student) (P Q : List (Option Student)) (l m i : Int),
    arr = X1 ++ A ++ Y1 → (X1.length : Int) = l → l + (A.length : Int) = mid + 1 →
    arr = X2 ++ B ++ Y2 → (X2.length : Int) = m → m + (B.length : Int) = high + 1 →
    (P.length : Int) = i → A.length + B.length ≤ Q.length → A.length + B.length < fuel →
    ((mergeWhile arr mid high fuel l m i (P ++ Q)).bind fun st =>
      if st.1 > mid then copyRest arr st.2.1 high (st.2.2.1, st.2.2.2)
      else copyRest arr st.1 mid (st.2.2.1, st.2.2.2)) =
      some (i + (A.length : Int) + (B.length : Int),
        P ++ (List.merge A B fun a b => decide (a.grade ≥ b.grade)).map some ++
          Q.drop (A.length + B.length)) := by
  intro fuel
  induction fuel with
  | zero => intro A B X1 Y1 X2 Y2 P Q l m i _ _ _ _ _ _ _ _ h; omega
  | succ fuel ih =>
    intro A B X1 Y1 X2 Y2 P Q l m i a1 a2 a3 b1 b2 b3 hP hQ hf
    rcases A with _ | ⟨x, A⟩
    · have hl : ¬ (l ≤ mid ∧ m ≤ high) := by simp at a3; omega
      simp only [mergeWhile, hl, if_false, Option.some_bind]
      rw [if_pos (by simp at a3; omega), copyRest_spec arr B X2 Y2 P Q m high i b1 b2 b3 hP
        (by simpa using hQ)]
      simp
    rcases B with _ | ⟨y, B⟩
    · have hl : ¬ (l ≤ mid ∧ m ≤ high) := by simp at b3; omega
      simp only [mergeWhile, hl, if_false, Option.some_bind]
      rw [if_neg (by simp at a3; omega), copyRest_spec arr (x :: A) X1 Y1 P Q l mid i a1 a2 a3
        hP (by simpa using hQ)]
      simp
    have hl : l ≤ mid ∧ m ≤ high := by simp at a3 b3; omega
    have hrx : readAt arr l = some x := by
      rw [a1, List.append_assoc, List.cons_append]
      exact readAt_append_cons X1 x _ l a2
    have hry : readAt arr m = some y := by
      rw [b1, List.append_assoc, List.cons_append]
      exact readAt_append_cons X2 y _ m b2
    rcases Q with _ | ⟨q, Q⟩
    · simp at hQ
    simp only [mergeWhile, hl, and_self, if_true, hrx, hry, Option.some_bind,
      writeAt_append_cons P q Q i hP]
    by_cases hg : x.grade ≥ y.grade
    · simp only [hg, if_true, Option.some_bind]
      have := ih A (y :: B) (X1 ++ [x]) Y1 X2 Y2 (P ++ [some x]) Q (l + 1) m (i + 1)
        (by rw [a1]; simp) (by simp; omega) (by simp at a3 ⊢; omega) b1 b2 b3
        (by simp; omega) (by simp at hQ ⊢; omega) (by simp at hf ⊢; omega)
      simp only [List.append_assoc, List.singleton_append] at this
      rw [this, List.cons_merge_cons_pos _ _ _ (by simpa using hg)]
      simp only [List.length_cons, Nat.cast_add, Nat.cast_one, List.map_cons, List.cons_append,
        Option.some.injEq, Prod.mk.injEq]
      refine ⟨by omega, ?_⟩
      rw [show A.length + 1 + (B.length + 1) = (A.length + (B.length + 1)) + 1 by omega,
        List.drop_succ_cons]
      simp only [List.cons_append, List.append_assoc]
    · simp only [hg, if_false, Option.some_bind]
      have := ih (x :: A) B X1 Y1 (X2 ++ [y]) Y2 (P ++ [some y]) Q l (m + 1) (i + 1)
        a1 a2 a3 (by rw [b1]; simp) (by simp; omega) (by simp at b3 ⊢; omega)
        (by simp; omega) (by simp at hQ ⊢; omega) (by simp at hf ⊢; omega)
      simp only [List.append_assoc, List.singleton_append] at this
      rw [this, List.cons_merge_cons_neg _ _ _ (by simpa using hg)]
      simp only [List.length_cons, Nat.cast_add, Nat.cast_one, List.map_cons, List.cons_append,
        Option.some.injEq, Prod.mk.injEq]
      refine ⟨by omega, ?_⟩
      rw [show A.length + 1 + (B.length + 1) = (A.length + 1 + B.length) + 1 by omega,
        List.drop_succ_cons]
      simp only [List.cons_append, List.append_assoc]

theorem copyBack_spec : ∀ (M X S Y : List Student) (P Q : List (Option Student))
    (k last : Int),
    (X.length : Int) = k → (P.length : Int) = k → S.length = M.length →
    k + (M.length : Int) = last + 1 →
    copyBack (P ++ M.map some ++ Q) k last (X ++ S ++ Y) = some (X ++ M ++ Y) := by
  unfold copyBack
  intro M
  induction M with
  | nil =>
    intro X S Y P Q k last _ _ h3 h4
    rw [forLoop_done _ _ (by simp at h4; omega)]
    simp [List.length_eq_zero.1 h3]
  | cons x M ih =>
    intro X S Y P Q k last h1 h2 h3 h4
    rcases S with _ | ⟨s, S⟩
    · simp at h3
    rw [forLoop_step _ _ (by simp at h4; omega)]
    have hr : readAt (P ++ (x :: M).map some ++ Q) k = some (some x) := by
      rw [List.map_cons, List.append_assoc, List.cons_append]
      exact readAt_append_cons P (some x) _ k h2
    have hw : writeAt (X ++ s :: S ++ Y) k x = some (X ++ x :: S ++ Y) := by
      rw [List.append_assoc, List.cons_append, writeAt_append_cons X s _ k h1]
      simp
    simp only [hr, Option.some_bind, hw]
    have := ih (X ++ [x]) S Y (P ++ [some x]) Q (k + 1) last (by simp; omega)
      (by simp; omega) (by simpa using h3) (by simp at h4 ⊢; omega)
    simp only [List.append_assoc, List.singleton_append, List.cons_append] at this ⊢
    simp only [List.map_cons, List.cons_append]
    exact this

theorem mergeSort_spec (pre A B post : List Student) (low mid high : Int)
    (h1 : (pre.length : Int) = low) (h2 : low + (A.length : Int) = mid + 1)
    (h3 : mid + (B.length : Int) = high) (h4 : high + 1 ≤ MAX_ARR_LEN) :
    mergeSort (pre ++ A ++ B ++ post) low mid high =
      some (pre ++ (List.merge A B fun a b => decide (a.grade ≥ b.grade)) ++ post) := by
  unfold mergeSort
  simp only []
  have hlen : pre.length + (A.length + B.length) ≤ MAX_ARR_LEN.toNat := by
    simp only [MAX_ARR_LEN] at h4 ⊢; omega
  have htemp : List.replicate MAX_ARR_LEN.toNat (none : Option Student) =
      List.replicate pre.length none ++
        List.replicate (MAX_ARR_LEN.toNat - pre.length) none := by
    rw [← List.replicate_add]; congr 1; omega
  rw [htemp, ← Option.bind_assoc, mergeWhile_spec (pre ++ A ++ B ++ post) mid high (high - low + 2).toNat A B pre
    (B ++ post) (pre ++ A) post (List.replicate pre.length none)
    (List.replicate (MAX_ARR_LEN.toNat - pre.length) none) low (mid + 1) low
    (by simp) h1 h2 rfl (by simp; omega) (by omega) (by simp; omega)
    (by simp; omega) (by omega)]
  simp only [Option.some_bind]
  have := copyBack_spec (List.merge A B fun a b => decide (a.grade ≥ b.grade)) pre (A ++ B)
    post (List.replicate pre.length none)
    (List.drop (A.length + B.length) (List.replicate (MAX_ARR_LEN.toNat - pre.length) none))
    low high h1 (by simp; omega) (by simp) (by simp; omega)
  simp only [List.append_assoc] at this ⊢
  exact this

theorem mergePartition_spec : ∀ (fuel : Nat) (seg pre post : List Student) (low high : Int),
    (pre.length : Int) = low → low + (seg.length : Int) = high + 1 → seg.length < fuel →
    high + 1 ≤ MAX_ARR_LEN →
    ∃ S : List Student, mergePartition fuel (pre ++ seg ++ post) low high =
        some (pre ++ S ++ post) ∧ S.Perm seg ∧
      S.Pairwise (fun a b => decide (a.grade ≥ b.grade) = true) := by
  intro fuel
  induction fuel with
  | zero => intro seg pre post low high _ _ h; omega
  | succ fuel ih =>
    intro seg pre post low high h1 h2 h3 h4
    unfold mergePartition
    by_cases hlt : low < high
    · rw [if_pos hlt]
      simp only []
      have hlow : 0 ≤ low := by omega
      have hmid : Int.tdiv (low + high) 2 = (low + high) / 2 :=
        Int.tdiv_eq_ediv (by omega) (by omega)
      rw [hmid]
      obtain ⟨mid, hm⟩ : ∃ mid : Int, (low + high) / 2 = mid := ⟨_, rfl⟩
      rw [hm]
      have hm1 : low ≤ mid := by omega
      have hm2 : mid < high := by omega
      obtain ⟨a, ha⟩ : ∃ a : Nat, (a : Int) = mid + 1 - low := ⟨(mid + 1 - low).toNat, by omega⟩
      have hsplit : seg = seg.take a ++ seg.drop a := (List.take_append_drop a seg).symm
      have hA : (seg.take a).length = a := by rw [List.length_take]; omega
      have hB : ((seg.drop a).length : Int) = high - mid := by
        rw [List.length_drop]; omega
      obtain ⟨S1, e1, p1, s1⟩ := ih (seg.take a) pre (seg.drop a ++ post) low mid h1
        (by omega) (by omega) (by omega)
      have hS1 : S1.length = a := by rw [p1.length_eq, hA]
      obtain ⟨S2, e2, p2, s2⟩ := ih (seg.drop a) (pre ++ S1) post (mid + 1) high
        (by simp; omega) (by omega) (by rw [List.length_drop]; omega) h4
      have e0 : pre ++ seg ++ post = pre ++ seg.take a ++ (seg.drop a ++ post) := by
        simp only [List.append_assoc]
        rw [← List.append_assoc (seg.take a), List.take_append_drop]
      rw [e0, e1]
      simp only [Option.some_bind]
      have e3 : pre ++ S1 ++ (seg.drop a ++ post) = pre ++ S1 ++ seg.drop a ++ post := by
        simp only [List.append_assoc]
      rw [e3, e2]
      simp only [Option.some_bind]
      have hS2 : (S2.length : Int) = high - mid := by rw [p2.length_eq]; exact hB
      refine ⟨List.merge S1 S2 fun a b => decide (a.grade ≥ b.grade),
        mergeSort_spec pre S1 S2 post low mid high h1 (by omega) (by omega) h4, ?_, ?_⟩
      · refine (List.merge_perm_append _).trans ?_
        rw [hsplit]
        exact (p1.append p2).trans (by rw [← hsplit])
      · refine List.sorted_merge ?_ ?_ S1 S2 s1 s2
        · intro x y z hxy hyz
          simp only [decide_eq_true_eq] at hxy hyz ⊢
          omega
        · intro x y
          simp only [Bool.or_eq_true, decide_eq_true_eq]
          omega
    · rw [if_neg hlt]
      refine ⟨seg, rfl, List.Perm.refl _, ?_⟩
      match seg, h2 with
      | [], _ => exact List.Pairwise.nil
      | [x], _ => exact List.pairwise_singleton _ _
      | x :: y :: l, h2 => simp at h2; omega

/-! ## The claim on the merge sort -/

/-- C25: for every array whose first n elements are the students, 0 ≤ n ≤ 5000, the call
`mergePartition(studentArr, 0, n - 1)` returns (with any bound on the recursion depth above
n); afterwards the first n elements are a permutation of the students in which every student
has a grade at least that of every later one, so the grades are non-increasing along the
array, and the elements after them are unchanged. -/
theorem C25_mergePartition_orders_by_grade_from_best_to_worst (students rest : List Student)
    (fuel : Nat) (hn : students.length ≤ 5000) (hfuel : students.length < fuel) :
    ∃ sorted : List Student,
      mergePartition fuel (students ++ rest) 0 ((students.length : Int) - 1) =
        some (sorted ++ rest) ∧
      sorted.Perm students ∧ sorted.Pairwise (fun a b => a.grade ≥ b.grade) := by
  obtain ⟨S, e, p, s⟩ := mergePartition_spec fuel students [] rest 0
    ((students.length : Int) - 1) rfl (by omega) hfuel (by simp only [MAX_ARR_LEN]; omega)
  refine ⟨S, by simpa using e, p, s.imp ?_⟩
  intro a b h
  simpa using h

/-- Witness of C25: three students with the grades 70, 90 and 80. -/
theorem C25_mergePartition_orders_by_grade_from_best_to_worst_witness :
    [student [97] 70, student [98] 90, student [99] 80].length ≤ 5000 ∧
    [student [97] 70, student [98] 90, student [99] 80].length < 4 ∧
    ∃ sorted : List Student,
      mergePartition 4 ([student [97] 70, student [98] 90, student [99] 80] ++ []) 0
          (([student [97] 70, student [98] 90, student [99] 80].length : Int) - 1) =
        some (sorted ++ []) ∧
      sorted.Perm [student [97] 70, student [98] 90, student [99] 80] ∧
      sorted.Pairwise (fun a b => a.grade ≥ b.grade) :=
  ⟨by decide, by decide,
    C25_mergePartition_orders_by_grade_from_best_to_worst
      [student [97] 70, student [98] 90, student [99] 80] [] 4 (by decide) (by decide)⟩

/-! ## The quick sort -/

theorem strcmp_le_total (a b : List Nat) : CEx3.strcmp a b ≤ 0 ∨ CEx3.strcmp b a ≤ 0 := by
  by_cases h : CEx3.strcmp a b ≤ 0
  · exact Or.inl h
  · right
    have h1 : 0 < CEx3.lexCompare a b := by simpa [CEx3.strcmp] using h
    have := (CEx3.lexCompare_antisymm b a).2 h1
    simp only [CEx3.strcmp]; omega

theorem strcmp_le_trans (a b c : List Nat) (h1 : CEx3.strcmp a b ≤ 0)
    (h2 : CEx3.strcmp b c ≤ 0) : CEx3.strcmp a c ≤ 0 := by
  simp only [CEx3.strcmp] at *
  rcases lt_or_eq_of_le h1 with h1 | h1
  · rcases lt_or_eq_of_le h2 with h2 | h2
    · exact Int.le_of_lt (CEx3.lexCompare_trans a b c h1 h2)
    · rw [(CEx3.lexCompare_eq_zero b c).1 h2] at h1; exact Int.le_of_lt h1
  · rw [(CEx3.lexCompare_eq_zero a b).1 h1]; exact h2

theorem swap_self (arr : List Student) (a : Int) (x : Student) (X Y : List Student)
    (h : arr = X ++ x :: Y) (ha : (X.length : Int) = a) : swap arr a a = some arr := by
  subst h
  simp only [swap, readAt_append_cons X x Y a ha, Option.some_bind,
    writeAt_append_cons X x Y a ha]

theorem swap_apart (X M Y : List Student) (x y : Student) (a b : Int)
    (ha : (X.length : Int) = a) (hb : a + 1 + (M.length : Int) = b) :
    swap (X ++ x :: M ++ y :: Y) a b = some (X ++ y :: M ++ x :: Y) := by
  have e1 : X ++ x :: M ++ y :: Y = X ++ x :: (M ++ y :: Y) := by simp
  have e2 : X ++ x :: M ++ y :: Y = (X ++ x :: M) ++ y :: Y := by simp
  have e3 : X ++ y :: (M ++ y :: Y) = (X ++ y :: M) ++ y :: Y := by simp
  have r1 : readAt (X ++ x :: M ++ y :: Y) a = some x := by
    rw [e1]; exact readAt_append_cons X x _ a ha
  have r2 : readAt (X ++ x :: M ++ y :: Y) b = some y := by
    rw [e2]; exact readAt_append_cons _ y Y b (by simp; omega)
  have w1 : writeAt (X ++ x :: M ++ y :: Y) a y = some (X ++ y :: (M ++ y :: Y)) := by
    rw [e1]; exact writeAt_append_cons X x _ a ha y
  have w2 : writeAt (X ++ y :: (M ++ y :: Y)) b x = some ((X ++ y :: M) ++ x :: Y) := by
    rw [e3]; exact writeAt_append_cons _ y Y b (by simp; omega) x
  simp only [swap, r1, r2, w1, w2, Option.some_bind]

theorem partitionLoop_spec (pivot : Student) (high : Int) (T : List Student) :
    ∀ (U S G pre : List Student) (j i : Int),
    (pre.length : Int) + (S.length : Int) = i + 1 → i + 1 + (G.length : Int) = j →
    j + (U.length : Int) = high →
    (∀ s ∈ S, CEx3.strcmp s.name pivot.name ≤ 0) →
    (∀ g ∈ G, ¬ CEx3.strcmp g.name pivot.name ≤ 0) →
    ∃ S1 G1 : List Student,
      forLoop j high (fun j st =>
        (readAt st.1 j).bind fun sj =>
        if CEx3.strcmp sj.name pivot.name ≤ 0 then
          (swap st.1 (st.2 + 1) j).bind fun arr => some (arr, st.2 + 1)
        else some st) (pre ++ (S ++ (G ++ (U ++ T))), i) =
        some (pre ++ (S1 ++ (G1 ++ T)), (pre.length : Int) + (S1.length : Int) - 1) ∧
      (S1 ++ G1).Perm (S ++ (G ++ U)) ∧
      (∀ s ∈ S1, CEx3.strcmp s.name pivot.name ≤ 0) ∧
      (∀ g ∈ G1, ¬ CEx3.strcmp g.name pivot.name ≤ 0) := by
  intro U
  induction U with
  | nil =>
    intro S G pre j i h1 h2 h3 hS hG
    refine ⟨S, G, ?_, by simp, hS, hG⟩
    rw [forLoop_done _ _ (by simp at h3; omega)]
    simp only [List.nil_append, Option.some.injEq, Prod.mk.injEq, true_and]
    omega
  | cons x U ih =>
    intro S G pre j i h1 h2 h3 hS hG
    simp only [List.length_cons, Nat.cast_add, Nat.cast_one] at h3
    rw [forLoop_step _ _ (by omega)]
    have hr : readAt (pre ++ (S ++ (G ++ (x :: U ++ T)))) j = some x := by
      have := readAt_append_cons (pre ++ (S ++ G)) x (U ++ T) j (by simp; omega)
      simpa only [List.append_assoc, List.cons_append] using this
    simp only [hr, Option.some_bind]
    by_cases hx : CEx3.strcmp x.name pivot.name ≤ 0
    · rw [if_pos hx]
      rcases G with _ | ⟨g, G⟩
      · have hsw : swap (pre ++ (S ++ ([] ++ (x :: U ++ T)))) (i + 1) j =
            some (pre ++ (S ++ ([] ++ (x :: U ++ T)))) := by
          have hij : i + 1 = j := by simpa using h2
          rw [hij]
          exact swap_self _ j x (pre ++ S) (U ++ T) (by simp) (by simp; omega)
        simp only [hsw, Option.some_bind]
        obtain ⟨S1, G1, e, p, a, b⟩ := ih (S ++ [x]) [] pre (j + 1) (i + 1)
          (by simp; omega) (by simp at h2 ⊢; omega) (by omega)
          (by
            intro s hs
            rcases List.mem_append.1 hs with h | h
            · exact hS s h
            · rw [List.mem_singleton.1 h]; exact hx)
          (by simp)
        refine ⟨S1, G1, ?_, ?_, a, b⟩
        · simpa only [List.append_assoc, List.cons_append, List.nil_append,
            List.singleton_append] using e
        · refine p.trans ?_
          simp
      · have hsw : swap (pre ++ (S ++ (g :: G ++ (x :: U ++ T)))) (i + 1) j =
            some (pre ++ (S ++ (x :: G ++ (g :: U ++ T)))) := by
          have := swap_apart (pre ++ S) G (U ++ T) g x (i + 1) j (by simp; omega)
            (by simp at h2; omega)
          simpa only [List.append_assoc, List.cons_append] using this
        simp only [hsw, Option.some_bind]
        obtain ⟨S1, G1, e, p, a, b⟩ := ih (S ++ [x]) (G ++ [g]) pre (j + 1) (i + 1)
          (by simp; omega) (by simp at h2 ⊢; omega) (by omega)
          (by
            intro s hs
            rcases List.mem_append.1 hs with h | h
            · exact hS s h
            · rw [List.mem_singleton.1 h]; exact hx)
          (by
            intro s hs
            rcases List.mem_append.1 hs with h | h
            · exact hG s (List.mem_cons_of_mem _ h)
            · rw [List.mem_singleton.1 h]; exact hG g (List.mem_cons_self _ _))
        refine ⟨S1, G1, ?_, ?_, a, b⟩
        · simpa only [List.append_assoc, List.cons_append, List.nil_append,
            List.singleton_append] using e
        · refine p.trans ?_
          simp only [List.append_assoc, List.singleton_append]
          refine List.Perm.append_left S ?_
          exact (List.Perm.cons x List.perm_middle).trans
            (List.perm_middle : ((g :: G) ++ x :: U).Perm (x :: ((g :: G) ++ U))).symm
    · rw [if_neg hx]
      obtain ⟨S1, G1, e, p, a, b⟩ := ih S (G ++ [x]) pre (j + 1) i h1
        (by simp; omega) (by omega) hS
        (by
          intro s hs
          rcases List.mem_append.1 hs with h | h
          · exact hG s h
          · rw [List.mem_singleton.1 h]; exact hx)
      refine ⟨S1, G1, ?_, ?_, a, b⟩
      · simpa only [List.append_assoc, List.cons_append, List.nil_append,
          List.singleton_append] using e
      · refine p.trans ?_
        simp

theorem quickPartition_spec (U pre post : List Student) (pivot : Student) (low high : Int)
    (h1 : (pre.length : Int) = low) (h2 : low + (U.length : Int) = high) :
    ∃ S1 G1 : List Student,
      quickPartition (pre ++ (U ++ pivot :: post)) low high =
        some (pre ++ (S1 ++ pivot :: (G1 ++ post)), low + (S1.length : Int)) ∧
      (S1 ++ G1).Perm U ∧
      (∀ s ∈ S1, CEx3.strcmp s.name pivot.name ≤ 0) ∧
      (∀ g ∈ G1, ¬ CEx3.strcmp g.name pivot.name ≤ 0) := by
  have hr : readAt (pre ++ (U ++ pivot :: post)) high = some pivot := by
    have := readAt_append_cons (pre ++ U) pivot post high (by simp; omega)
    simpa only [List.append_assoc] using this
  obtain ⟨S1, G1, e, p, a, b⟩ := partitionLoop_spec pivot high (pivot :: post) U [] [] pre
    low (low - 1) (by simp; omega) (by simp) h2 (by simp) (by simp)
  simp only [List.nil_append] at e p
  have hhi : high - 1 + 1 = high := by omega
  have hlen : S1.length + G1.length = U.length := by
    rw [← List.length_append, p.length_eq]
  unfold quickPartition
  simp only [hr, Option.some_bind, hhi, e]
  rcases G1 with _ | ⟨g, G1⟩
  · refine ⟨S1, [], ?_, p, a, b⟩
    have hsw : swap (pre ++ (S1 ++ ([] ++ pivot :: post)))
        ((pre.length : Int) + (S1.length : Int) - 1 + 1) high =
        some (pre ++ (S1 ++ ([] ++ pivot :: post))) := by
      have hij : (pre.length : Int) + (S1.length : Int) - 1 + 1 = high := by
        simp at hlen; omega
      rw [hij]
      exact swap_self _ high pivot (pre ++ S1) post (by simp) (by simp at hlen ⊢; omega)
    simp only [List.nil_append] at hsw ⊢
    simp only [hsw, Option.some_bind, Option.some.injEq, Prod.mk.injEq, true_and]
    omega
  · refine ⟨S1, G1 ++ [g], ?_, ?_, a, ?_⟩
    · have hsw : swap (pre ++ (S1 ++ (g :: G1 ++ pivot :: post)))
          ((pre.length : Int) + (S1.length : Int) - 1 + 1) high =
          some (pre ++ (S1 ++ (pivot :: G1 ++ g :: post))) := by
        have := swap_apart (pre ++ S1) G1 post g pivot
          ((pre.length : Int) + (S1.length : Int) - 1 + 1) high (by simp)
          (by simp at hlen ⊢; omega)
        simpa only [List.append_assoc, List.cons_append] using this
      simp only [List.cons_append] at hsw ⊢
      simp only [hsw, Option.some_bind, Option.some.injEq, Prod.mk.injEq, List.append_assoc,
        List.cons_append, List.singleton_append, List.nil_append, true_and]
      omega
    · refine List.Perm.trans ?_ p
      refine List.Perm.append_left S1 ?_
      exact (List.perm_append_comm : (G1 ++ [g]).Perm ([g] ++ G1))
    · intro s hs
      rcases List.mem_append.1 hs with h | h
      · exact b s (List.mem_cons_of_mem _ h)
      · rw [List.mem_singleton.1 h]; exact b g (List.mem_cons_self _ _)

theorem quickSort_spec : ∀ (fuel : Nat) (seg pre post : List Student) (low high : Int),
    (pre.length : Int) = low → low + (seg.length : Int) = high + 1 → seg.length < fuel →
    ∃ S : List Student, quickSort fuel (pre ++ (seg ++ post)) low high =
        some (pre ++ (S ++ post)) ∧ S.Perm seg ∧
      S.Pairwise (fun a b => CEx3.strcmp a.name b.name ≤ 0) := by
  intro fuel
  induction fuel with
  | zero => intro seg pre post low high _ _ h; omega
  | succ fuel ih =>
    intro seg pre post low high h1 h2 h3
    unfold quickSort
    by_cases hlt : low < high
    · rw [if_pos hlt]
      obtain ⟨U, pivot, rfl⟩ : ∃ U pivot, seg = U ++ [pivot] := by
        rcases List.eq_nil_or_concat seg with h | ⟨U, pivot, h⟩
        · rw [h] at h2; simp at h2; omega
        · exact ⟨U, pivot, by rw [h]; simp⟩
      simp only [List.length_append, List.length_singleton, Nat.cast_add, Nat.cast_one] at h2
      simp only [List.length_append, List.length_singleton] at h3
      obtain ⟨S1, G1, e, p, a, b⟩ := quickPartition_spec U pre post pivot low high h1
        (by omega)
      have hlen : S1.length + G1.length = U.length := by
        rw [← List.length_append, p.length_eq]
      have e0 : pre ++ (U ++ [pivot] ++ post) = pre ++ (U ++ pivot :: post) := by simp
      rw [e0, e]
      simp only [Option.some_bind]
      obtain ⟨T1, e1, p1, s1⟩ := ih S1 pre (pivot :: (G1 ++ post)) low
        (low + (S1.length : Int) - 1) h1 (by omega) (by omega)
      rw [e1]
      simp only [Option.some_bind]
      have hT1 : T1.length = S1.length := p1.length_eq
      obtain ⟨T2, e2, p2, s2⟩ := ih G1 (pre ++ (T1 ++ [pivot])) post
        (low + (S1.length : Int) + 1) high (by simp; omega) (by omega) (by omega)
      have e3 : pre ++ (T1 ++ pivot :: (G1 ++ post)) =
          pre ++ (T1 ++ [pivot]) ++ (G1 ++ post) := by simp
      rw [e3, e2]
      refine ⟨T1 ++ pivot :: T2, by simp, ?_, ?_⟩
      · refine (p1.append (p2.cons pivot)).trans ?_
        refine (List.perm_middle.trans (List.Perm.cons pivot p)).trans ?_
        exact (List.perm_append_comm : ([pivot] ++ U).Perm (U ++ [pivot]))
      · have hG : ∀ g ∈ T2, CEx3.strcmp pivot.name g.name ≤ 0 := by
          intro g hg
          rcases strcmp_le_total pivot.name g.name with h | h
          · exact h
          · exact absurd h (b g (p2.subset hg))
        have hS : ∀ s ∈ T1, CEx3.strcmp s.name pivot.name ≤ 0 :=
          fun s hs => a s (p1.subset hs)
        refine List.pairwise_append.2 ⟨s1, List.pairwise_cons.2 ⟨hG, s2⟩, ?_⟩
        intro x hx y hy
        rcases List.mem_cons.1 hy with h | h
        · rw [h]; exact hS x hx
        · exact strcmp_le_trans _ _ _ (hS x hx) (hG y h)
    · rw [if_neg hlt]
      refine ⟨seg, rfl, List.Perm.refl _, ?_⟩
      match seg, h2 with
      | [], _ => exact List.Pairwise.nil
      | [x], _ => exact List.pairwise_singleton _ _
      | x :: y :: l, h2 => simp at h2; omega

/-! ## The claim on the quick sort -/

/-- C26: for every array whose first n elements are the students, n ≥ 0, the call
`quickSort(studentArr, 0, n - 1)` returns (with any bound on the recursion depth above n);
afterwards the first n elements are a permutation of the students in which `strcmp` of the
name of every student with the name of every later one is at most 0, in particular of each
name with the next one, and the elements after them are unchanged. -/
theorem C26_quickSort_orders_by_name_alphabetically (students rest : List Student)
    (fuel : Nat) (hfuel : students.length < fuel) :
    ∃ sorted : List Student,
      quickSort fuel (students ++ rest) 0 ((students.length : Int) - 1) =
        some (sorted ++ rest) ∧
      sorted.Perm students ∧
      sorted.Pairwise (fun a b => CEx3.strcmp a.name b.name ≤ 0) ∧
      sorted.Chain' (fun a b => CEx3.strcmp a.name b.name ≤ 0) := by
  obtain ⟨S, e, p, s⟩ := quickSort_spec fuel students [] rest 0
    ((students.length : Int) - 1) rfl (by omega) hfuel
  exact ⟨S, by simpa using e, p, s, List.Pairwise.chain' s⟩

/-- Witness of C26: three students with the names "c", "a" and "b". -/
theorem C26_quickSort_orders_by_name_alphabetically_witness :
    [student [99] 70, student [97] 90, student [98] 80].length < 4 ∧
    ∃ sorted : List Student,
      quickSort 4 ([student [99] 70, student [97] 90, student [98] 80] ++ []) 0
          (([student [99] 70, student [97] 90, student [98] 80].length : Int) - 1) =
        some (sorted ++ []) ∧
      sorted.Perm [student [99] 70, student [97] 90, student [98] 80] ∧
      sorted.Pairwise (fun a b => CEx3.strcmp a.name b.name ≤ 0) ∧
      sorted.Chain' (fun a b => CEx3.strcmp a.name b.name ≤ 0) :=
  ⟨by decide,
    C26_quickSort_orders_by_name_alphabetically
      [student [99] 70, student [97] 90, student [98] 80] [] 4 (by decide)⟩

end CEx1

namespace CEx2

/-! ## The diameter -/

/-- C27, failing inputs.  On the tree with the single vertex 0 (depth field 0, its height)
`findDiameter` returns 2, while the diameter is 0.  On the path 0 - 1 - 2 rooted at 0 it
returns 3, while the diameter is 2.  On the tree `twoBranches` (root with a branch of 3 edges
and a branch of 2 edges) it returns 4, while the diameter is 5.  In each tree the depth
fields hold the heights of the vertices.  The inner loop updates `max2` only when a child is
deeper than `max1`, and `max1 + max2 + 2` counts two branches below a vertex also when it has
fewer than two children. -/
theorem C27_findDiameter_differs_from_the_diameter :
    (findDiameter singleVertex 1 = some 2 ∧ treeDiameter singleVertex 1 = 0 ∧
      singleVertex.map (fun n => n.depth) =
        (List.range 1).map fun v => (downHeight singleVertex 1 v : Int)) ∧
    (findDiameter pathOfThree 3 = some 3 ∧ treeDiameter pathOfThree 3 = 2 ∧
      pathOfThree.map (fun n => n.depth) =
        (List.range 3).map fun v => (downHeight pathOfThree 3 v : Int)) ∧
    (findDiameter twoBranches 6 = some 4 ∧ treeDiameter twoBranches 6 = 5 ∧
      twoBranches.map (fun n => n.depth) =
        (List.range 6).map fun v => (downHeight twoBranches 6 v : Int)) := by
  decide

end CEx2

namespace CppEx3

open CModel

variable {K V : Type}

/-! ## The verdict of the spam detector -/

/-- C28, failing input: `finalScore = threshold = 5`.  The score is not higher than the
threshold, yet `printResult` writes `SPAM`: the test in the code is `finalScore >= threshold`,
so `SPAM` is written exactly when the score is at least the threshold, and `NOT_SPAM` exactly
when it is lower. -/
theorem C28_printResult_writes_SPAM_at_equal_score :
    printResult 5 5 = [SPAM] ∧ ¬ ((5 : Int) > 5) ∧
    ∀ finalScore threshold : Int,
      (printResult finalScore threshold = [SPAM] ↔ finalScore ≥ threshold) ∧
      (printResult finalScore threshold = [NOT_SPAM] ↔ finalScore < threshold) := by
  refine ⟨by decide, by decide, fun f t => ?_⟩
  unfold printResult
  split_ifs with h
  · refine ⟨⟨fun _ => h, fun _ => rfl⟩, ⟨fun e => ?_, fun e => absurd h (not_le.2 e)⟩⟩
    simp [SPAM, NOT_SPAM] at e
  · refine ⟨⟨fun e => ?_, fun e => absurd e h⟩, ⟨fun _ => not_le.1 h, fun _ => rfl⟩⟩
    simp [SPAM, NOT_SPAM] at e

/-! ## The bucket array -/

theorem hashingFunc_eq (m : HashMap K V) (key : K) (capacity : Int) :
    m._hashingFunc key capacity =
      ((m._hashFunction key &&& ((capacity - 1) % 2 ^ 64).toNat : Nat) : Int) := rfl

theorem hashingFunc_lt (m : HashMap K V) (key : K) (capacity : Int) (h : 1 ≤ capacity) :
    m._hashFunction key &&& ((capacity - 1) % 2 ^ 64).toNat < capacity.toNat := by
  have h1 : m._hashFunction key &&& ((capacity - 1) % 2 ^ 64).toNat ≤
      ((capacity - 1) % 2 ^ 64).toNat := Nat.and_le_right
  have h2 : (capacity - 1) % 2 ^ 64 ≤ capacity - 1 := by
    by_cases hc : capacity - 1 < 2 ^ 64
    · rw [Int.emod_eq_of_lt (by omega) hc]
    · have := Int.emod_lt_of_pos (capacity - 1) (show (0 : Int) < 2 ^ 64 by norm_num)
      omega
  have h3 : 0 ≤ (capacity - 1) % 2 ^ 64 := Int.emod_nonneg _ (by norm_num)
  omega

theorem pushBack_natCast (table : List (List (K × V))) (n : Nat) (p : K × V)
    (h : n < table.length) :
    pushBack table (n : Int) p = some (table.set n (table[n] ++ [p])) := by
  simp [pushBack, readAt_natCast, writeAt_natCast, h, List.getElem?_eq_getElem h]

theorem flatten_set {τ : Type} (l : List (List τ)) (n : Nat) (h : n < l.length)
    (b : List τ) :
    (l.set n b).flatten = (l.take n).flatten ++ b ++ (l.drop (n + 1)).flatten ∧
    l.flatten = (l.take n).flatten ++ l[n] ++ (l.drop (n + 1)).flatten := by
  constructor
  · rw [List.set_eq_take_append_cons_drop, if_pos h]
    simp
  · have := List.take_append_drop n l
    rw [List.drop_eq_getElem_cons h] at this
    have e : l.flatten = (l.take n ++ l[n] :: l.drop (n + 1)).flatten := by rw [this]
    rw [e, List.flatten_append, List.flatten_cons, List.append_assoc]

theorem perm_flatten_set_append {τ : Type} (l : List (List τ)) (n : Nat) (h : n < l.length)
    (p : τ) : (l.set n (l[n] ++ [p])).flatten.Perm (l.flatten ++ [p]) := by
  obtain ⟨h1, h2⟩ := flatten_set l n h (l[n] ++ [p])
  rw [h1, h2, ← Multiset.coe_eq_coe]
  simp only [← Multiset.coe_add]
  abel

theorem mem_flatten_getElem {τ : Type} {l : List (List τ)} {x : τ} (h : x ∈ l.flatten) :
    ∃ (i : Nat) (b : List τ), l[i]? = some b ∧ x ∈ b := by
  obtain ⟨b, hb, hx⟩ := List.mem_flatten.1 h
  obtain ⟨i, hi, rfl⟩ := List.getElem_of_mem hb
  exact ⟨i, _, List.getElem?_eq_getElem hi, hx⟩

theorem getElem_mem_flatten {τ : Type} {l : List (List τ)} {i : Nat} {b : List τ} {x : τ}
    (hb : l[i]? = some b) (hx : x ∈ b) : x ∈ l.flatten := by
  obtain ⟨hi, rfl⟩ := List.getElem?_eq_some.1 hb
  exact List.mem_flatten.2 ⟨_, List.getElem_mem hi, hx⟩

/-- Every pair of the table lies in the bucket its key hashes to, for the capacity `cap`. -/
theorem placed_set (m : HashMap K V) (cap : Int) (table : List (List (K × V)))
    (hp : ∀ (i : Nat) (b : List (K × V)), table[i]? = some b →
      ∀ p ∈ b, m._hashingFunc p.1 cap = (i : Int))
    (n : Nat) (hn : n < table.length) (b' : List (K × V))
    (hb' : ∀ p ∈ b', m._hashingFunc p.1 cap = (n : Int)) :
    ∀ (i : Nat) (b : List (K × V)), (table.set n b')[i]? = some b →
      ∀ p ∈ b, m._hashingFunc p.1 cap = (i : Int) := by
  intro i b hb p hpb
  by_cases hin : n = i
  · subst hin
    rw [List.getElem?_set_self hn, Option.some.injEq] at hb
    subst hb
    exact hb' p hpb
  · rw [List.getElem?_set_ne hin] at hb
    exact hp i b hb p hpb

theorem pushAll (m : HashMap K V) (newCap : Int) (h1 : 1 ≤ newCap) (bucket : List (K × V)) :
    ∀ temp : List (List (K × V)), temp.length = newCap.toNat →
      (∀ (i : Nat) (b : List (K × V)), temp[i]? = some b →
        ∀ p ∈ b, m._hashingFunc p.1 newCap = (i : Int)) →
      ∃ temp', bucket.foldlM (fun temp currentPair =>
          pushBack temp (m._hashingFunc currentPair.1 newCap) currentPair) temp = some temp' ∧
        temp'.length = newCap.toNat ∧
        (∀ (i : Nat) (b : List (K × V)), temp'[i]? = some b →
          ∀ p ∈ b, m._hashingFunc p.1 newCap = (i : Int)) ∧
        temp'.flatten.Perm (temp.flatten ++ bucket) := by
  induction bucket with
  | nil => intro temp hl hp; exact ⟨temp, rfl, hl, hp, by simp⟩
  | cons q qs ih =>
    intro temp hl hp
    have hlt := hashingFunc_lt m q.1 newCap h1
    rw [← hl] at hlt
    have hq := hashingFunc_eq m q.1 newCap
    generalize m._hashFunction q.1 &&& ((newCap - 1) % 2 ^ 64).toNat = n at hlt hq
    obtain ⟨temp', e1, e2, e3, e4⟩ := ih (temp.set n (temp[n] ++ [q]))
      (by rw [List.length_set]; exact hl)
      (placed_set m newCap temp hp n hlt _ (by
        intro p hpm
        rcases List.mem_append.1 hpm with hpm | hpm
        · exact hp _ _ (List.getElem?_eq_getElem hlt) p hpm
        · rw [List.mem_singleton.1 hpm]; exact hq))
    refine ⟨temp', ?_, e2, e3, ?_⟩
    · rw [List.foldlM_cons, hq, pushBack_natCast _ _ _ hlt]
      exact e1
    · refine e4.trans ?_
      have := perm_flatten_set_append temp n hlt q
      refine (List.Perm.append_right qs this).trans ?_
      simp

theorem pushBuckets (m : HashMap K V) (newCap : Int) (h1 : 1 ≤ newCap)
    (buckets : List (List (K × V))) :
    ∀ temp : List (List (K × V)), temp.length = newCap.toNat →
      (∀ (i : Nat) (b : List (K × V)), temp[i]? = some b →
        ∀ p ∈ b, m._hashingFunc p.1 newCap = (i : Int)) →
      ∃ temp', buckets.foldlM (fun temp bucket => bucket.foldlM (fun temp currentPair =>
          pushBack temp (m._hashingFunc currentPair.1 newCap) currentPair) temp) temp =
            some temp' ∧
        temp'.length = newCap.toNat ∧
        (∀ (i : Nat) (b : List (K × V)), temp'[i]? = some b →
          ∀ p ∈ b, m._hashingFunc p.1 newCap = (i : Int)) ∧
        temp'.flatten.Perm (temp.flatten ++ buckets.flatten) := by
  induction buckets with
  | nil => intro temp hl hp; exact ⟨temp, rfl, hl, hp, by simp⟩
  | cons b bs ih =>
    intro temp hl hp
    obtain ⟨t1, e1, e2, e3, e4⟩ := pushAll m newCap h1 b temp hl hp
    obtain ⟨t2, f1, f2, f3, f4⟩ := ih t1 e2 e3
    refine ⟨t2, ?_, f2, f3, ?_⟩
    · rw [List.foldlM_cons, e1]; exact f1
    · refine f4.trans ((List.Perm.append_right _ e4).trans ?_)
      simp

theorem rehashMap_spec (m : HashMap K V) (newCap : Int) (h1 : 1 ≤ newCap)
    (hc : 0 ≤ m._capacity) (hl : m._mapPointer.length = m._capacity.toNat) :
    ∃ temp, m._rehashMap newCap =
        some { m with _capacity := newCap, _mapPointer := temp, arrayId := m.arrayId + 1 } ∧
      temp.length = newCap.toNat ∧
      (∀ (i : Nat) (b : List (K × V)), temp[i]? = some b →
        ∀ p ∈ b, m._hashingFunc p.1 newCap = (i : Int)) ∧
      temp.flatten.Perm m._mapPointer.flatten := by
  obtain ⟨temp, e1, e2, e3, e4⟩ := pushBuckets m newCap h1 m._mapPointer
    (List.replicate newCap.toNat []) (by simp) (by
      intro i b hb p hp
      obtain ⟨_, rfl⟩ := List.getElem?_eq_some.1 hb
      simp at hp)
  refine ⟨temp, ?_, e2, e3, ?_⟩
  · unfold HashMap._rehashMap
    simp only []
    rw [forLoop_read (fun bucket temp => bucket.foldlM (fun temp currentPair =>
      pushBack temp (m._hashingFunc currentPair.1 newCap) currentPair) temp)
      m._mapPointer m._capacity (by omega), e1]
    rfl
  · refine e4.trans ?_
    have : (List.replicate newCap.toNat ([] : List (K × V))).flatten = [] := by
      induction newCap.toNat with
      | zero => rfl
      | succ n ih => simp [List.replicate_succ, ih]
    rw [this, List.nil_append]

/-! ## The operations of the hash map under the representation invariant -/

theorem flatten_replicate_nil {τ : Type} (n : Nat) :
    (List.replicate n ([] : List τ)).flatten = [] := by
  induction n with
  | zero => rfl
  | succ n ih => simp [List.replicate_succ, ih]

theorem bucket_of_mem (m : HashMap K V) (hI : Inv m) {p : K × V} (hp : p ∈ m.pairs) :
    ∃ (n : Nat) (bucket : List (K × V)), m._hashingFunc p.1 m._capacity = (n : Int) ∧
      m._mapPointer[n]? = some bucket ∧ p ∈ bucket := by
  obtain ⟨i, b, hb, hpb⟩ := mem_flatten_getElem hp
  exact ⟨i, b, hI.place i b hb p hpb, hb, hpb⟩

theorem bucket_exists (m : HashMap K V) (hI : Inv m) (key : K) :
    ∃ (n : Nat) (bucket : List (K × V)), m._hashingFunc key m._capacity = (n : Int) ∧
      n < m._mapPointer.length ∧ m._mapPointer[n]? = some bucket ∧
      ∀ p ∈ m.pairs, p.1 = key → p ∈ bucket := by
  have hlt := hashingFunc_lt m key m._capacity hI.cap
  rw [← hI.len] at hlt
  refine ⟨_, _, hashingFunc_eq m key _, hlt, List.getElem?_eq_getElem hlt, ?_⟩
  intro p hp hk
  obtain ⟨n, b, h1, h2, h3⟩ := bucket_of_mem m hI hp
  rw [hk, hashingFunc_eq] at h1
  have h1' := Int.ofNat.inj h1
  rw [← h1', List.getElem?_eq_getElem hlt, Option.some.injEq] at h2
  rw [h2]; exact h3

theorem containsKey_spec [DecidableEq K] (m : HashMap K V) (hI : Inv m) (key : K) :
    m.containsKey key = some (decide (key ∈ m.pairs.map Prod.fst)) := by
  obtain ⟨n, bucket, h1, h2, h3, h4⟩ := bucket_exists m hI key
  simp only [HashMap.containsKey, h1, readAt_natCast, h3, Option.some_bind, Option.some.injEq]
  rw [Bool.eq_iff_iff]
  simp only [List.any_eq_true, decide_eq_true_eq, List.mem_map]
  constructor
  · rintro ⟨p, hp, hk⟩
    exact ⟨p, getElem_mem_flatten h3 hp, hk⟩
  · rintro ⟨p, hp, hk⟩
    exact ⟨p, h4 p hp hk, hk⟩

theorem push_spec [DecidableEq K] (m2 : HashMap K V) (P : List (K × V)) (key : K)
    (value : V) (hcap : 1 ≤ m2._capacity) (hlen : m2._mapPointer.length = m2._capacity.toNat)
    (hplace : ∀ (i : Nat) (b : List (K × V)), m2._mapPointer[i]? = some b →
      ∀ p ∈ b, m2._hashingFunc p.1 m2._capacity = (i : Int))
    (hperm : m2._mapPointer.flatten.Perm P) (hnd : (P.map Prod.fst).Nodup)
    (hkey : key ∉ P.map Prod.fst) (hsize : m2._size = (P.length : Int) + 1) :
    ∃ table, pushBack m2._mapPointer (m2._hashingFunc key m2._capacity) (key, value) =
        some table ∧ Inv { m2 with _mapPointer := table } ∧
      table.flatten.Perm (P ++ [(key, value)]) := by
  have hlt := hashingFunc_lt m2 key m2._capacity hcap
  rw [← hlen] at hlt
  have hq := hashingFunc_eq m2 key m2._capacity
  generalize m2._hashFunction key &&& ((m2._capacity - 1) % 2 ^ 64).toNat = n at hlt hq
  have hpm := (perm_flatten_set_append m2._mapPointer n hlt (key, value)).trans
    (List.Perm.append_right _ hperm)
  refine ⟨m2._mapPointer.set n (m2._mapPointer[n] ++ [(key, value)]),
    by rw [hq, pushBack_natCast _ _ _ hlt], ⟨hcap, ?_, ?_, ?_, ?_⟩, hpm⟩
  · simpa only [List.length_set] using hlen
  · exact placed_set m2 m2._capacity m2._mapPointer hplace n hlt _ (by
      intro p hp
      rcases List.mem_append.1 hp with hp | hp
      · exact hplace _ _ (List.getElem?_eq_getElem hlt) p hp
      · rw [List.mem_singleton.1 hp]; exact hq)
  · refine (hpm.map Prod.fst).nodup_iff.2 ?_
    rw [List.map_append, List.map_singleton]
    refine List.Nodup.append hnd (List.nodup_singleton _) ?_
    intro a ha hb
    rw [List.mem_singleton.1 hb] at ha
    exact hkey ha
  · simp only [HashMap.pairs, hsize, hpm.length_eq]
    simp

theorem insert_spec [DecidableEq K] (m : HashMap K V) (hI : Inv m) (key : K) (value : V) :
    (key ∈ m.pairs.map Prod.fst → m.insert key value = some (false, m)) ∧
    (key ∉ m.pairs.map Prod.fst → ∃ m', m.insert key value = some (true, m') ∧ Inv m' ∧
      m'.pairs.Perm (m.pairs ++ [(key, value)]) ∧ m'._size = m._size + 1 ∧
      m'._hashFunction = m._hashFunction ∧
      m'._capacity =
        if ((m._size + 1 : Int) : ℚ) / (m._capacity : ℚ) > m._maxLoadFactor then
          m._capacity * 2 else m._capacity) := by
  constructor
  · intro hk
    simp [HashMap.insert, containsKey_spec m hI, hk]
  · intro hk
    simp only [HashMap.insert, containsKey_spec m hI, hk, decide_False, Option.some_bind,
      Bool.false_eq_true, if_false, HashMap.getLoadFactor]
    split
    · next hload =>
      obtain ⟨temp, e1, e2, e3, e4⟩ := rehashMap_spec { m with _size := m._size + 1 }
        (m._capacity * TABLE_SIZE_FACTOR) (by have := hI.cap; simp only [TABLE_SIZE_FACTOR]; omega)
        (by have := hI.cap; show 0 ≤ m._capacity; omega) hI.len
      rw [e1, Option.some_bind]
      obtain ⟨table, f1, f2, f3⟩ := push_spec
        { m with _size := m._size + 1, _capacity := m._capacity * TABLE_SIZE_FACTOR,
                 _mapPointer := temp, arrayId := m.arrayId + 1 } m.pairs key value
        (by have := hI.cap; simp only [TABLE_SIZE_FACTOR]; omega) e2 e3 e4 hI.nodup hk
        (by simp only [hI.size])
      refine ⟨_, by rw [f1]; rfl, f2, f3, rfl, rfl, ?_⟩
      simp only [TABLE_SIZE_FACTOR]
    · next hload =>
      rw [Option.some_bind]
      obtain ⟨table, f1, f2, f3⟩ := push_spec { m with _size := m._size + 1 } m.pairs key value
        hI.cap hI.len hI.place (List.Perm.refl _) hI.nodup hk (by simp only [hI.size])
      exact ⟨_, by rw [f1]; rfl, f2, f3, rfl, rfl, rfl⟩

theorem rehashMap_arrayId (m m2 : HashMap K V) (n : Int) (h : m._rehashMap n = some m2) :
    m2.arrayId = m.arrayId + 1 := by
  unfold HashMap._rehashMap at h
  simp only [Option.bind_eq_some, Option.some.injEq] at h
  obtain ⟨temp, -, rfl⟩ := h
  rfl

theorem vectorErase_stale (m2 : HashMap K V) (i : Int) (it : BucketIter)
    (h : it.array ≠ m2.arrayId) : m2.vectorErase i it = none := by
  unfold HashMap.vectorErase
  cases readAt m2._mapPointer i with
  | none => rfl
  | some bucket => simp [h]

/-- Whenever `erase` finds the key and goes on to rehash, it ends in the use of an iterator
into the bucket array that `_rehashMap` has released. -/
theorem erase_rehash [DecidableEq K] (m : HashMap K V) (key : K)
    (hc : m.containsKey key = some true)
    (hload : ((m._size - 1 : Int) : ℚ) / (m._capacity : ℚ) < m._minLoadFactor ∧
      m._capacity > MIN_VALID_CAPACITY) :
    m.erase key = none := by
  simp only [HashMap.erase, hc, Option.some_bind, Bool.not_true, Bool.false_eq_true, if_false,
    HashMap.getLoadFactor, hload, and_self, if_true]
  cases readAt m._mapPointer (m._hashingFunc key m._capacity) with
  | none => rfl
  | some bucket =>
    simp only [Option.some_bind]
    split
    · cases hr : HashMap._rehashMap { m with _size := m._size - 1 }
        (Int.tdiv m._capacity TABLE_SIZE_FACTOR) with
      | none => rfl
      | some m2 =>
        have := rehashMap_arrayId _ _ _ hr
        simp only [Option.some_bind]
        rw [vectorErase_stale]
        · rfl
        · simp only [this]; omega
    · rfl

theorem perm_cons_eraseIdx {τ : Type} (l : List τ) (i : Nat) (h : i < l.length) :
    l.Perm (l[i] :: l.eraseIdx i) := by
  have := List.take_append_drop i l
  rw [List.drop_eq_getElem_cons h] at this
  rw [List.eraseIdx_eq_take_drop_succ]
  conv_lhs => rw [← this]
  exact List.perm_middle

theorem erase_spec [DecidableEq K] (m : HashMap K V) (hI : Inv m) (key : K) :
    (key ∉ m.pairs.map Prod.fst → m.erase key = some (false, m)) ∧
    (key ∈ m.pairs.map Prod.fst →
      ¬ (((m._size - 1 : Int) : ℚ) / (m._capacity : ℚ) < m._minLoadFactor ∧
        m._capacity > MIN_VALID_CAPACITY) →
      ∃ m' v, m.erase key = some (true, m') ∧ Inv m' ∧ m.pairs.Perm ((key, v) :: m'.pairs) ∧
        m'._size = m._size - 1 ∧ m'._capacity = m._capacity ∧
        m'._hashFunction = m._hashFunction) := by
  constructor
  · intro hk
    simp [HashMap.erase, containsKey_spec m hI, hk]
  · intro hk hload
    obtain ⟨n, bucket, h1, h2, h3, h4⟩ := bucket_exists m hI key
    obtain ⟨p, hp, hpk⟩ := List.mem_map.1 hk
    have hpb := h4 p hp hpk
    have hpos : bucket.findIdx (fun p => decide (p.1 = key)) < bucket.length :=
      List.findIdx_lt_length_of_exists ⟨p, hpb, by simpa using hpk⟩
    have hkey : (bucket[bucket.findIdx (fun p => decide (p.1 = key))]).1 = key := by
      have := List.findIdx_getElem (w := hpos)
      simpa using this
    have hbk : m._mapPointer[n] = bucket := by
      rw [List.getElem?_eq_getElem h2, Option.some.injEq] at h3; exact h3
    obtain ⟨pos, hfi⟩ : ∃ pos, bucket.findIdx (fun p => decide (p.1 = key)) = pos := ⟨_, rfl⟩
    simp only [hfi] at hpos hkey
    have h1' : ({ m with _size := m._size - 1 } : HashMap K V)._hashingFunc key m._capacity =
        (n : Int) := h1
    have e : m.erase key = some (true,
        { m with _size := m._size - 1,
                 _mapPointer := m._mapPointer.set n (bucket.eraseIdx pos) }) := by
      simp only [HashMap.erase, containsKey_spec m hI, hk, decide_True, Option.some_bind,
        Bool.not_true, Bool.false_eq_true, if_false, HashMap.getLoadFactor, hload, h1, h1',
        readAt_natCast, h3, HashMap.vectorErase, writeAt_natCast, h2, if_true, hfi, hpos,
        and_self]
    have hperm := perm_cons_eraseIdx bucket pos hpos
    obtain ⟨f1, f2⟩ := flatten_set m._mapPointer n h2 (bucket.eraseIdx pos)
    rw [hbk] at f2
    have hpairs : m.pairs.Perm (bucket[pos] ::
        (m._mapPointer.set n (bucket.eraseIdx pos)).flatten) := by
      simp only [HashMap.pairs]
      rw [f1, f2]
      refine (List.Perm.append_right _ (List.Perm.append_left _ hperm)).trans ?_
      simp only [List.append_assoc, List.cons_append]
      exact List.perm_middle
    refine ⟨_, bucket[pos].2, e, ⟨hI.cap, ?_, ?_, ?_, ?_⟩, ?_, rfl, rfl, rfl⟩
    · simpa only [List.length_set] using hI.len
    · exact placed_set m m._capacity m._mapPointer hI.place n h2 _ (by
        intro q hq
        exact hI.place n bucket h3 q (List.mem_of_mem_eraseIdx hq))
    · have := (hpairs.map Prod.fst).nodup_iff.1 hI.nodup
      rw [List.map_cons] at this
      exact (List.nodup_cons.1 this).2
    · have := hpairs.length_eq
      simp only [HashMap.pairs, List.length_cons] at this ⊢
      rw [hI.size]
      simp only [HashMap.pairs, this]
      omega
    · rw [← hkey]
      exact hpairs

theorem new_inv (hash : K → Nat) : Inv (HashMap.new hash : HashMap K V) := by
  refine ⟨by simp [HashMap.new, INIT_CAPACITY], by simp [HashMap.new], ?_, ?_, ?_⟩
  · intro i b hb p hp
    have : b ∈ List.replicate INIT_CAPACITY.toNat ([] : List (K × V)) :=
      List.mem_iff_getElem?.2 ⟨i, hb⟩
    rw [(List.mem_replicate.1 this).2] at hp
    simp at hp
  · simp [HashMap.pairs, HashMap.new, flatten_replicate_nil]
  · simp [HashMap.pairs, HashMap.new, flatten_replicate_nil, INIT_SIZE]

theorem clear_inv (m : HashMap K V) (hI : Inv m) : Inv m.clear := by
  refine ⟨hI.cap, by simp [HashMap.clear], ?_, ?_, ?_⟩
  · intro i b hb p hp
    have : b ∈ List.replicate m._capacity.toNat ([] : List (K × V)) :=
      List.mem_iff_getElem?.2 ⟨i, hb⟩
    rw [(List.mem_replicate.1 this).2] at hp
    simp at hp
  · simp [HashMap.pairs, HashMap.clear, flatten_replicate_nil]
  · simp [HashMap.pairs, HashMap.clear, flatten_replicate_nil]

theorem reached_inv [DecidableEq K] (m : HashMap K V) (h : Reached m) : Inv m := by
  induction h with
  | new hash => exact new_inv hash
  | insert m m' key value b _ hi ih =>
    by_cases hk : key ∈ m.pairs.map Prod.fst
    · rw [(insert_spec m ih key value).1 hk] at hi
      simp only [Option.some.injEq, Prod.mk.injEq] at hi
      rw [← hi.2]; exact ih
    · obtain ⟨m1, e1, e2, -⟩ := (insert_spec m ih key value).2 hk
      rw [e1] at hi
      simp only [Option.some.injEq, Prod.mk.injEq] at hi
      rw [← hi.2]; exact e2
  | erase m m' key b _ hi ih =>
    by_cases hk : key ∈ m.pairs.map Prod.fst
    · by_cases hload : ((m._size - 1 : Int) : ℚ) / (m._capacity : ℚ) < m._minLoadFactor ∧
          m._capacity > MIN_VALID_CAPACITY
      · rw [erase_rehash m key (by simp [containsKey_spec m ih, hk]) hload] at hi
        exact absurd hi (by simp)
      · obtain ⟨m1, v, e1, e2, -⟩ := (erase_spec m ih key).2 hk hload
        rw [e1] at hi
        simp only [Option.some.injEq, Prod.mk.injEq] at hi
        rw [← hi.2]; exact e2
    · rw [(erase_spec m ih key).1 hk] at hi
      simp only [Option.some.injEq, Prod.mk.injEq] at hi
      rw [← hi.2]; exact ih
  | clear m _ ih => exact clear_inv m ih

/-! ## The claims on the hash map -/

/-- C23, failing input: the map of the default constructor (keys hashed by the identity)
after `insert(3, 7)`, then `erase(3)`.  The key is present, the load factor after the
decrement is 0/16 < 0.25 and the capacity 16 > 1, so `erase` rehashes; `_rehashMap` moves the
pairs to a new bucket array and releases the old one, and `erase` then passes the iterator it
took from the old array to `std::vector::erase` on a bucket of the new one: the call does not
return a map.  This is so for every map and key for which `erase` rehashes. -/
theorem C23_erase_that_rehashes_uses_a_released_iterator [DecidableEq K] (m : HashMap K V)
    (key : K) :
    ((HashMap.new id : HashMap Nat Int).insert 3 7).map
        (fun r => (r.1, r.2._size, r.2._capacity, r.2.containsKey 3)) =
      some (true, 1, 16, some true) ∧
    (((HashMap.new id : HashMap Nat Int).insert 3 7).bind fun r => r.2.erase 3).isNone = true ∧
    (m.containsKey key = some true →
      ((m._size - 1 : Int) : ℚ) / (m._capacity : ℚ) < m._minLoadFactor ∧
        m._capacity > MIN_VALID_CAPACITY →
      m.erase key = none) :=
  ⟨by decide!, by decide!, erase_rehash m key⟩

/-- C24, failing input: the map of the default constructor, which is empty.  `begin()` is the
iterator at bucket 0, object 0, and `end()` the iterator at bucket 16 (the capacity), object
0: the constructor of `const_iterator` skips its search for a non-empty bucket when the map
is empty.  So `begin()` does not compare equal to `end()`, and dereferencing `begin()` reads
the first element of the empty bucket 0.  On a map that is not empty, `end()` itself reads
the bucket at index `_capacity`, one after the last bucket, before it tests the index. -/
theorem C24_begin_differs_from_end_on_the_empty_map (hash : K → Nat) (m : HashMap K V) :
    (HashMap.new hash : HashMap K V).empty = true ∧
    (HashMap.new hash : HashMap K V).begin = some ⟨0, 0⟩ ∧
    (HashMap.new hash : HashMap K V).end = some ⟨16, 0⟩ ∧
    (⟨0, 0⟩ : const_iterator) ≠ ⟨16, 0⟩ ∧
    const_iterator.deref (HashMap.new hash : HashMap K V) ⟨0, 0⟩ = none ∧
    (m._size ≠ 0 → 0 ≤ m._capacity → m._mapPointer.length = m._capacity.toNat →
      m.end = none) := by
  refine ⟨rfl, rfl, rfl, by decide, rfl, ?_⟩
  intro hs hc hl
  have hr : readAt m._mapPointer m._capacity = none := by
    have : m._capacity = ((m._mapPointer.length : Nat) : Int) := by omega
    rw [this, readAt_natCast]
    simp
  simp [HashMap.end, const_iterator.new, HashMap.empty, hs, skipEmptyBelow, hr]

/-! ## Capacity and load of the reached maps -/

theorem rehashMap_fields {m m' : HashMap K V} {c : Int} (h : m._rehashMap c = some m') :
    m'._maxLoadFactor = m._maxLoadFactor ∧ m'._minLoadFactor = m._minLoadFactor ∧
      m'._size = m._size ∧ m'._capacity = c := by
  unfold HashMap._rehashMap at h
  obtain ⟨temp, -, h⟩ := Option.bind_eq_some.1 h
  simp only [Option.some.injEq] at h
  rw [← h]
  exact ⟨rfl, rfl, rfl, rfl⟩

theorem insert_factors [DecidableEq K] {m m' : HashMap K V} {key : K} {value : V} {b : Bool}
    (h : m.insert key value = some (b, m')) :
    m'._maxLoadFactor = m._maxLoadFactor ∧ m'._minLoadFactor = m._minLoadFactor := by
  unfold HashMap.insert at h
  obtain ⟨found, -, h⟩ := Option.bind_eq_some.1 h
  by_cases hf : found = true
  · rw [if_pos hf] at h
    simp only [Option.some.injEq, Prod.mk.injEq] at h
    rw [← h.2]
    exact ⟨rfl, rfl⟩
  · rw [if_neg hf] at h
    obtain ⟨m2, h2, h⟩ := Option.bind_eq_some.1 h
    obtain ⟨table, -, h⟩ := Option.bind_eq_some.1 h
    simp only [Option.some.injEq, Prod.mk.injEq] at h
    rw [← h.2]
    dsimp only
    split_ifs at h2 with hl
    · obtain ⟨e1, e2, -⟩ := rehashMap_fields h2
      exact ⟨e1, e2⟩
    · simp only [Option.some.injEq] at h2
      rw [← h2]
      exact ⟨rfl, rfl⟩

theorem erase_factors [DecidableEq K] {m m' : HashMap K V} {key : K} {b : Bool}
    (h : m.erase key = some (b, m')) :
    m'._maxLoadFactor = m._maxLoadFactor ∧ m'._minLoadFactor = m._minLoadFactor := by
  unfold HashMap.erase at h
  obtain ⟨found, -, h⟩ := Option.bind_eq_some.1 h
  by_cases hf : (!found) = true
  · rw [if_pos hf] at h
    simp only [Option.some.injEq, Prod.mk.injEq] at h
    rw [← h.2]
    exact ⟨rfl, rfl⟩
  · rw [if_neg hf] at h
    obtain ⟨bucket, -, h⟩ := Option.bind_eq_some.1 h
    dsimp only at h
    split_ifs at h with hp hl
    · obtain ⟨m2, h2, h⟩ := Option.bind_eq_some.1 h
      obtain ⟨m3, h3, h⟩ := Option.bind_eq_some.1 h
      simp only [Option.some.injEq, Prod.mk.injEq] at h
      rw [← h.2]
      obtain ⟨e1, e2, -⟩ := rehashMap_fields h2
      unfold HashMap.vectorErase at h3
      obtain ⟨bk, -, h3⟩ := Option.bind_eq_some.1 h3
      split_ifs at h3
      obtain ⟨table, -, h3⟩ := Option.bind_eq_some.1 h3
      simp only [Option.some.injEq] at h3
      rw [← h3]
      exact ⟨e1, e2⟩
    · obtain ⟨m2, h2, h⟩ := Option.bind_eq_some.1 h
      obtain ⟨m3, h3, h⟩ := Option.bind_eq_some.1 h
      simp only [Option.some.injEq, Prod.mk.injEq] at h
      rw [← h.2]
      simp only [Option.some.injEq] at h2
      unfold HashMap.vectorErase at h3
      obtain ⟨bk, -, h3⟩ := Option.bind_eq_some.1 h3
      split_ifs at h3
      obtain ⟨table, -, h3⟩ := Option.bind_eq_some.1 h3
      simp only [Option.some.injEq] at h3
      rw [← h3, ← h2]
      exact ⟨rfl, rfl⟩

theorem load_gt_iff (s c : Int) (hc : 0 < c) :
    ((s : Int) : ℚ) / (c : ℚ) > MAX_LOAD_FACTOR ↔ 3 * c < 4 * s := by
  have hc' : (0 : ℚ) < (c : ℚ) := by exact_mod_cast hc
  unfold MAX_LOAD_FACTOR
  rw [gt_iff_lt, div_lt_div_iff₀ (by norm_num) hc']
  constructor
  · intro h
    have : ((3 * c : Int) : ℚ) < ((4 * s : Int) : ℚ) := by push_cast; linarith
    exact_mod_cast this
  · intro h
    have : ((3 * c : Int) : ℚ) < ((4 * s : Int) : ℚ) := by exact_mod_cast h
    push_cast at this
    linarith

theorem load_le_iff (s c : Int) (hc : 0 < c) :
    ((s : Int) : ℚ) / (c : ℚ) ≤ MAX_LOAD_FACTOR ↔ 4 * s ≤ 3 * c := by
  have := load_gt_iff s c hc
  rw [gt_iff_lt] at this
  rw [← not_lt, this]
  omega

theorem reached_loadInv [DecidableEq K] (m : HashMap K V) (h : Reached m) : LoadInv m := by
  induction h with
  | new hash =>
    exact ⟨rfl, rfl, ⟨4, by simp [HashMap.new, INIT_CAPACITY]⟩,
      by simp [HashMap.new, INIT_CAPACITY, INIT_SIZE]⟩
  | insert m m' key value b hR hi ih =>
    have hI := reached_inv m hR
    obtain ⟨f1, f2⟩ := insert_factors hi
    by_cases hk : key ∈ m.pairs.map Prod.fst
    · rw [(insert_spec m hI key value).1 hk] at hi
      simp only [Option.some.injEq, Prod.mk.injEq] at hi
      rw [← hi.2]; exact ih
    · obtain ⟨m1, e1, -, -, e4, -, e6⟩ := (insert_spec m hI key value).2 hk
      rw [e1] at hi
      simp only [Option.some.injEq, Prod.mk.injEq] at hi
      obtain ⟨-, rfl⟩ := hi
      obtain ⟨k, hk2⟩ := ih.pow
      have hs : 0 ≤ m._size := by rw [hI.size]; exact Int.natCast_nonneg _
      have hpos : 0 < m._capacity := by have := hI.cap; omega
      have hload := ih.load
      rw [ih.maxLoad] at e6
      simp only [load_gt_iff _ _ hpos] at e6
      refine ⟨f2.trans ih.minLoad, f1.trans ih.maxLoad, ?_, ?_⟩
      · split_ifs at e6 with hl
        · exact ⟨k + 1, by rw [e6, hk2, pow_succ]⟩
        · exact ⟨k, by rw [e6, hk2]⟩
      · rw [e4]
        split_ifs at e6 with hl
        · rw [e6]
          have h1 : 1 ≤ m._capacity := hI.cap
          omega
        · rw [e6]; omega
  | erase m m' key b hR hi ih =>
    have hI := reached_inv m hR
    obtain ⟨f1, f2⟩ := erase_factors hi
    by_cases hk : key ∈ m.pairs.map Prod.fst
    · by_cases hload : ((m._size - 1 : Int) : ℚ) / (m._capacity : ℚ) < m._minLoadFactor ∧
          m._capacity > MIN_VALID_CAPACITY
      · rw [erase_rehash m key (by simp [containsKey_spec m hI, hk]) hload] at hi
        exact absurd hi (by simp)
      · obtain ⟨m1, v, e1, -, -, e4, e5, -⟩ := (erase_spec m hI key).2 hk hload
        rw [e1] at hi
        simp only [Option.some.injEq, Prod.mk.injEq] at hi
        obtain ⟨-, rfl⟩ := hi
        refine ⟨f2.trans ih.minLoad, f1.trans ih.maxLoad, ?_, ?_⟩
        · rw [e5]; exact ih.pow
        · rw [e4, e5]
          have := ih.load
          omega
    · rw [(erase_spec m hI key).1 hk] at hi
      simp only [Option.some.injEq, Prod.mk.injEq] at hi
      rw [← hi.2]; exact ih
  | clear m hR ih =>
    have hI := reached_inv m hR
    refine ⟨ih.minLoad, ih.maxLoad, ih.pow, ?_⟩
    have := hI.cap
    simp only [HashMap.clear]
    omega

theorem load_lt_iff (s c : Int) (hc : 0 < c) :
    ((s : Int) : ℚ) / (c : ℚ) < MIN_LOAD_FACTOR ↔ 4 * s < c := by
  have hc' : (0 : ℚ) < (c : ℚ) := by exact_mod_cast hc
  unfold MIN_LOAD_FACTOR
  rw [div_lt_div_iff₀ hc' (by norm_num)]
  constructor
  · intro h
    have : ((4 * s : Int) : ℚ) < ((c : Int) : ℚ) := by push_cast; linarith
    exact_mod_cast this
  · intro h
    have : ((4 * s : Int) : ℚ) < ((c : Int) : ℚ) := by exact_mod_cast h
    push_cast at this
    linarith

theorem reached_capacity [DecidableEq K] (m : HashMap K V) (h : Reached m) :
    16 ≤ m._capacity := by
  induction h with
  | new hash => simp [HashMap.new, INIT_CAPACITY]
  | insert m m' key value b hR hi ih =>
    have hI := reached_inv m hR
    by_cases hk : key ∈ m.pairs.map Prod.fst
    · rw [(insert_spec m hI key value).1 hk] at hi
      simp only [Option.some.injEq, Prod.mk.injEq] at hi
      rw [← hi.2]; exact ih
    · obtain ⟨m1, e1, -, -, -, -, e6⟩ := (insert_spec m hI key value).2 hk
      rw [e1] at hi
      simp only [Option.some.injEq, Prod.mk.injEq] at hi
      obtain ⟨-, rfl⟩ := hi
      rw [e6]
      split_ifs <;> omega
  | erase m m' key b hR hi ih =>
    have hI := reached_inv m hR
    by_cases hk : key ∈ m.pairs.map Prod.fst
    · by_cases hload : ((m._size - 1 : Int) : ℚ) / (m._capacity : ℚ) < m._minLoadFactor ∧
          m._capacity > MIN_VALID_CAPACITY
      · rw [erase_rehash m key (by simp [containsKey_spec m hI, hk]) hload] at hi
        exact absurd hi (by simp)
      · obtain ⟨m1, v, e1, -, -, -, e5, -⟩ := (erase_spec m hI key).2 hk hload
        rw [e1] at hi
        simp only [Option.some.injEq, Prod.mk.injEq] at hi
        obtain ⟨-, rfl⟩ := hi
        rw [e5]; exact ih
    · rw [(erase_spec m hI key).1 hk] at hi
      simp only [Option.some.injEq, Prod.mk.injEq] at hi
      rw [← hi.2]; exact ih
  | clear m hR ih => exact ih

theorem erase_none_iff [DecidableEq K] (m : HashMap K V) (hR : Reached m) (key : K) :
    m.erase key = none ↔ m.containsKey key = some true ∧ 4 * (m.size - 1) < m.capacity := by
  have hI := reached_inv m hR
  have hL := reached_loadInv m hR
  have hC := reached_capacity m hR
  have hpos : 0 < m._capacity := by omega
  have hcond : (((m._size - 1 : Int) : ℚ) / (m._capacity : ℚ) < m._minLoadFactor ∧
      m._capacity > MIN_VALID_CAPACITY) ↔ 4 * (m._size - 1) < m._capacity := by
    rw [hL.minLoad, load_lt_iff _ _ hpos]
    simp only [MIN_VALID_CAPACITY]
    constructor
    · exact fun h => h.1
    · exact fun h => ⟨h, by omega⟩
  simp only [HashMap.size, HashMap.capacity]
  constructor
  · intro h
    by_cases hk : key ∈ m.pairs.map Prod.fst
    · refine ⟨by simp [containsKey_spec m hI, hk], ?_⟩
      by_contra hc
      obtain ⟨m1, v, e1, -⟩ := (erase_spec m hI key).2 hk (fun hl => hc (hcond.1 hl))
      rw [e1] at h
      cases h
    · rw [(erase_spec m hI key).1 hk] at h
      cases h
  · rintro ⟨h1, h2⟩
    exact erase_rehash m key h1 (hcond.2 h2)

theorem insert_returns [DecidableEq K] (m : HashMap K V) (hR : Reached m) (key : K)
    (value : V) : ∃ b m', m.insert key value = some (b, m') := by
  have hI := reached_inv m hR
  by_cases hk : key ∈ m.pairs.map Prod.fst
  · exact ⟨false, m, (insert_spec m hI key value).1 hk⟩
  · obtain ⟨m1, e1, -⟩ := (insert_spec m hI key value).2 hk
    exact ⟨true, m1, e1⟩

theorem erase_shrink_state [DecidableEq K] (m : HashMap K V) (hR : Reached m) :
    ∃ m2, ({ m with _size := m._size - 1 } : HashMap K V)._rehashMap
        (Int.tdiv m._capacity TABLE_SIZE_FACTOR) = some m2 ∧
      m2._capacity * 2 = m._capacity ∧ (∃ j : Nat, m2._capacity = 2 ^ j) ∧
      8 ≤ m2._capacity ∧ m2._size = m._size - 1 ∧ m2.pairs.Perm m.pairs ∧
      (m2._mapPointer.length : Int) = m2._capacity ∧
      (∀ (i : Nat) (bucket : List (K × V)), m2._mapPointer[i]? = some bucket →
        ∀ p ∈ bucket, m2._hashingFunc p.1 m2._capacity = (i : Int)) ∧
      m2.arrayId = m.arrayId + 1 := by
  have hI := reached_inv m hR
  have hL := reached_loadInv m hR
  have hC := reached_capacity m hR
  obtain ⟨k, hk⟩ := hL.pow
  have hk4 : 4 ≤ k := by
    by_contra hlt
    have h3 : k ≤ 3 := by omega
    have : (2 : Int) ^ k ≤ 2 ^ 3 := pow_le_pow_right₀ (by norm_num) h3
    rw [← hk] at this
    omega
  obtain ⟨j, rfl⟩ : ∃ j, k = j + 1 := ⟨k - 1, by omega⟩
  have hhalf : Int.tdiv m._capacity TABLE_SIZE_FACTOR = 2 ^ j := by
    rw [Int.tdiv_eq_ediv (by omega) (by simp [TABLE_SIZE_FACTOR]), hk, pow_succ]
    simp [TABLE_SIZE_FACTOR]
  have hj8 : (8 : Int) ≤ 2 ^ j := by
    have : (2 : Int) ^ 3 ≤ 2 ^ j := pow_le_pow_right₀ (by norm_num) (by omega)
    simpa using this
  obtain ⟨temp, e1, e2, e3, e4⟩ := rehashMap_spec
    ({ m with _size := m._size - 1 } : HashMap K V)
    (Int.tdiv m._capacity TABLE_SIZE_FACTOR) (by rw [hhalf]; omega)
    (by show 0 ≤ m._capacity; omega) hI.len
  refine ⟨_, e1, ?_, ⟨j, hhalf⟩, by show (8 : Int) ≤ Int.tdiv _ _; rw [hhalf]; exact hj8,
    rfl, e4, ?_, e3, rfl⟩
  · show Int.tdiv m._capacity TABLE_SIZE_FACTOR * 2 = m._capacity
    rw [hhalf, hk, pow_succ]
  · show (temp.length : Int) = Int.tdiv m._capacity TABLE_SIZE_FACTOR
    rw [e2, hhalf]
    have : (0 : Int) ≤ 2 ^ j := by omega
    omega

theorem reached_invariant [DecidableEq K] (m : HashMap K V) (hR : Reached m) :
    (∃ k : Nat, m.capacity = 2 ^ k) ∧ 1 ≤ m.capacity ∧
    (m._mapPointer.length : Int) = m.capacity ∧
    (∀ (i : Nat) (bucket : List (K × V)), m._mapPointer[i]? = some bucket →
      ∀ p ∈ bucket, m._hashingFunc p.1 m.capacity = (i : Int) ∧
        (i : Int) = ((m._hashFunction p.1 &&& ((m.capacity - 1) % 2 ^ 64).toNat : Nat) : Int)) ∧
    (m.pairs.map Prod.fst).Nodup ∧
    m.size = (m.pairs.length : Int) ∧
    m._maxLoadFactor = MAX_LOAD_FACTOR ∧ MAX_LOAD_FACTOR = 3 / 4 ∧
    m.getLoadFactor ≤ MAX_LOAD_FACTOR := by
  have hI := reached_inv m hR
  have hL := reached_loadInv m hR
  have hpos : 0 < m._capacity := by have := hI.cap; omega
  refine ⟨hL.pow, hI.cap, ?_, ?_, hI.nodup, hI.size, hL.maxLoad, rfl, ?_⟩
  · rw [hI.len]
    simp only [HashMap.capacity]
    omega
  · intro i bucket hb p hp
    have := hI.place i bucket hb p hp
    exact ⟨this, this.symm⟩
  · exact (load_le_iff _ _ hpos).2 hL.load

/-- C39, failing input: the map of the default constructor (keys hashed by the identity)
after `insert(1, 10)`, `insert(2, 20)`, `insert(3, 30)`, `insert(4, 40)`, `insert(5, 50)`,
`erase(1)`, `erase(2)`.  The first `erase` returns true and leaves size 4 and capacity 16.
In the second one the load after the decrement is 3/16 < 0.25 and the capacity 16 > 1, so
`erase` calls `_rehashMap(8)`, which releases the bucket array, and then hands the iterator
it took from that array to `std::vector::erase`: the call returns no map, so this sequence
of calls reaches no map of which the invariant could hold.

On every map reached by calls that return, for every key and value: the invariant of the
claim holds (capacity a power of two and at least 1, one bucket per unit of capacity, every
pair in the bucket of `hash(key) & (capacity - 1)`, no key twice, `size()` the number of
pairs, load at most 0.75), and the capacity is at least 16, so the test
`_capacity > MIN_VALID_CAPACITY` of `erase` never fails; `insert` returns; `erase` returns no
map exactly when the key is present and `4 * (size() - 1) < capacity()`, that is exactly
when it rehashes; and in that case `_rehashMap` does return, with half the capacity (a power
of two, at least 8), the decremented size and all the pairs, the erased key's among them,
each in the bucket of its hash, in a new bucket array: what fails is the call of
`std::vector::erase` after it. -/
theorem C39_sequence_with_a_shrinking_erase_reaches_no_map [DecidableEq K]
    (m : HashMap K V) (key : K) (value : V) :
    ((((((((HashMap.new id : HashMap Nat Int).insert 1 10).bind fun r =>
        r.2.insert 2 20).bind fun r => r.2.insert 3 30).bind fun r =>
        r.2.insert 4 40).bind fun r => r.2.insert 5 50).bind fun r =>
        r.2.erase 1).map fun r => (r.1, r.2._size, r.2._capacity)) =
      some (true, 4, 16) ∧
    ((((((((HashMap.new id : HashMap Nat Int).insert 1 10).bind fun r =>
        r.2.insert 2 20).bind fun r => r.2.insert 3 30).bind fun r =>
        r.2.insert 4 40).bind fun r => r.2.insert 5 50).bind fun r =>
        r.2.erase 1).bind fun r => r.2.erase 2).isNone = true ∧
    (Reached m →
      ((∃ k : Nat, m.capacity = 2 ^ k) ∧ 1 ≤ m.capacity ∧
        (m._mapPointer.length : Int) = m.capacity ∧
        (∀ (i : Nat) (bucket : List (K × V)), m._mapPointer[i]? = some bucket →
          ∀ p ∈ bucket, m._hashingFunc p.1 m.capacity = (i : Int) ∧
            (i : Int) =
              ((m._hashFunction p.1 &&& ((m.capacity - 1) % 2 ^ 64).toNat : Nat) : Int)) ∧
        (m.pairs.map Prod.fst).Nodup ∧ m.size = (m.pairs.length : Int) ∧
        m._maxLoadFactor = MAX_LOAD_FACTOR ∧ MAX_LOAD_FACTOR = 3 / 4 ∧
        m.getLoadFactor ≤ MAX_LOAD_FACTOR) ∧
      16 ≤ m.capacity ∧
      (∃ b m', m.insert key value = some (b, m')) ∧
      (m.erase key = none ↔
        m.containsKey key = some true ∧ 4 * (m.size - 1) < m.capacity) ∧
      ∃ m2, ({ m with _size := m._size - 1 } : HashMap K V)._rehashMap
          (Int.tdiv m._capacity TABLE_SIZE_FACTOR) = some m2 ∧
        m2._capacity * 2 = m._capacity ∧ (∃ j : Nat, m2._capacity = 2 ^ j) ∧
        8 ≤ m2._capacity ∧ m2._size = m._size - 1 ∧ m2.pairs.Perm m.pairs ∧
        (m2._mapPointer.length : Int) = m2._capacity ∧
        (∀ (i : Nat) (bucket : List (K × V)), m2._mapPointer[i]? = some bucket →
          ∀ p ∈ bucket, m2._hashingFunc p.1 m2._capacity = (i : Int)) ∧
        m2.arrayId = m.arrayId + 1) :=
  ⟨by decide!, by decide!, fun hR =>
    ⟨reached_invariant m hR, reached_capacity m hR, insert_returns m hR key value,
      erase_none_iff m hR key, erase_shrink_state m hR⟩⟩

end CppEx3
